import Mathlib

/-!
# DNA-Sequence-Alignments: a verification development

Shallow embedding of the two pipelines of the repository:

* `dup_identification` (suffix automaton `sam.go`, tandem detector
  `dupIdentification.go`, `reverseComplement` of `main.go`);
* `dna_aligner` (seed-and-extend aligner).

Conventions.  A Go `string` is the list of its bytes, `List Nat`; the bases are
the ASCII codes `A = 65`, `C = 67`, `G = 71`, `T = 84`, `N = 78`.  Go `int`s that
are array indices, lengths or counts are `Nat`; those that may be `-1` are
`Int`.  Go maps `map[byte]int` are partial functions `Nat → Option Nat`.
Loops whose termination rests on an invariant carry a fuel argument and return
`none` when the fuel runs out; the totality theorems show that this never
happens.
-/

/-- A Go string, as the list of its bytes. -/
abbrev Str := List Nat

/-- ASCII code of the base `A`. -/
abbrev bA : Nat := 65
/-- ASCII code of the base `C`. -/
abbrev bC : Nat := 67
/-- ASCII code of the base `G`. -/
abbrev bG : Nat := 71
/-- ASCII code of the base `T`. -/
abbrev bT : Nat := 84
/-- ASCII code of the base `N`. -/
abbrev bN : Nat := 78

/-- The string is written over the alphabet {A, C, G, T, N}. -/
def IsDNA (s : Str) : Prop := ∀ c ∈ s, c = bA ∨ c = bC ∨ c = bG ∨ c = bT ∨ c = bN

/-- The bytes of an ASCII string literal. -/
def bytes (s : String) : Str := s.toList.map Char.toNat

namespace Dup

/-! ## `sam.go` -/

/-- Type `State` of `sam.go`. -/
structure State where
  len : Nat
  link : Int
  next : Nat → Option Nat

/-- `NewState(len, link)`: a state with an empty transition map. -/
def NewState (len : Nat) (link : Int) : State := ⟨len, link, fun _ => none⟩

/-- Type `SAM` of `sam.go`. -/
structure SAM where
  last : Nat
  size : Nat
  states : List State

/-- `NewSAM()`. -/
def NewSAM : SAM := ⟨0, 1, [NewState 0 (-1)]⟩

/-- `states[p]`. -/
def stateAt (st : List State) (p : Nat) : State := st.getD p (NewState 0 (-1))

/-- `states[p].next[c]`, with Go's zero value for a missing key. -/
def nextOr0 (st : List State) (p c : Nat) : Nat := ((stateAt st p).next c).getD 0

/-- `states[p].next[c] = v`. -/
def setNext (st : List State) (p c v : Nat) : List State :=
  st.set p { stateAt st p with next := fun k => if k = c then some v else (stateAt st p).next k }

/-- `states[p].link = l`. -/
def setLink (st : List State) (p : Nat) (l : Int) : List State :=
  st.set p { stateAt st p with link := l }

/-- `states[p].len = n`. -/
def setLen (st : List State) (p : Nat) (n : Nat) : List State :=
  st.set p { stateAt st p with len := n }

/-- First loop of `Extend` (line 43):
`for ; p != -1 && states[p].next[c] == 0; p = states[p].link { states[p].next[c] = cur }`. -/
def walkSet (c cur : Nat) : Nat → Int → List State → Option (Int × List State)
  | 0, _, _ => none
  | fuel + 1, p, st =>
    if p ≠ -1 ∧ nextOr0 st p.toNat c = 0 then
      walkSet c cur fuel (stateAt st p.toNat).link (setNext st p.toNat c cur)
    else some (p, st)

/-- Second loop of `Extend` (line 60):
`for ; p != -1 && states[p].next[c] == q; p = states[p].link { states[p].next[c] = clone }`. -/
def walkRedirect (c q clone : Nat) : Nat → Int → List State → Option (Int × List State)
  | 0, _, _ => none
  | fuel + 1, p, st =>
    if p ≠ -1 ∧ nextOr0 st p.toNat c = q then
      walkRedirect c q clone fuel (stateAt st p.toNat).link (setNext st p.toNat c clone)
    else some (p, st)

/-- Method `(*SAM).Extend(c)`.  The fuel of each loop is `len + 2` of the state
it starts from: suffix links strictly decrease `len`. -/
def SAM.Extend (s : SAM) (c : Nat) : Option SAM :=
  let p0 := s.last
  let cur := s.size
  let size1 := s.size + 1
  let st0 := s.states ++ [NewState ((stateAt s.states p0).len + 1) (-1)]
  let st1 := setLen st0 cur ((stateAt st0 p0).len + 1)
  match walkSet c cur ((stateAt st1 p0).len + 2) (p0 : Int) st1 with
  | none => none
  | some (p, st2) =>
    if p = -1 then
      some ⟨cur, size1, setLink st2 cur 0⟩
    else
      let q := nextOr0 st2 p.toNat c
      if (stateAt st2 p.toNat).len + 1 = (stateAt st2 q).len then
        some ⟨cur, size1, setLink st2 cur q⟩
      else
        let clone := size1
        let st3 := st2 ++ [⟨(stateAt st2 p.toNat).len + 1, (stateAt st2 q).link, (stateAt st2 q).next⟩]
        match walkRedirect c q clone ((stateAt st3 p.toNat).len + 2) p st3 with
        | none => none
        | some (_, st4) =>
          some ⟨cur, size1 + 1, setLink (setLink st4 q clone) cur clone⟩

/-- `BuildSAMByString(s)`. -/
def BuildSAMByString (s : Str) : Option SAM := s.foldlM SAM.Extend NewSAM

/-- Loop of `FindMaxMatch`, from state `cur` over the rest of the query. -/
def matchFrom (st : List State) : Nat → Str → Nat
  | _, [] => 0
  | cur, c :: cs =>
    match (stateAt st cur).next c with
    | none => 0
    | some u => matchFrom st u cs + 1

/-- Method `(*SAM).FindMaxMatch(query, start)`. -/
def SAM.FindMaxMatch (s : SAM) (query : Str) (start : Nat) : Nat :=
  matchFrom s.states 0 (query.drop start)

/-! ## `main.go` and `dupIdentification.go` -/

/-- The map `baseMapping` filled by `init`, with Go's zero value for a missing key. -/
def baseMapping (b : Nat) : Nat :=
  if b = bA then bT else if b = bT then bA else if b = bC then bG else if b = bG then bC else 0

/-- `reverseComplement(s)` of `dup_identification/main.go`. -/
def reverseComplement (s : Str) : Str := s.reverse.map baseMapping

/-- Type `Duplicate`. -/
structure Duplicate where
  QueryStart : Nat
  RefStart : Int
  Length : Nat
  Count : Nat
  IsInverted : Bool
  deriving DecidableEq, Repr

/-- Local type `matchInfo` of `analyzeDuplicates`. -/
structure matchInfo where
  maxLength : Nat
  isInv : Bool
  deriving DecidableEq, Repr

/-- Body of the precomputation loop of `analyzeDuplicates` at `pos`. -/
def matchAt (refSAM invRefSAM : SAM) (query : Str) (pos : Nat) : matchInfo :=
  let forwardLen := refSAM.FindMaxMatch query pos
  let reverseLen := invRefSAM.FindMaxMatch query pos
  let isInverted : Bool :=
    decide (reverseLen > forwardLen) || (decide (reverseLen = forwardLen) && decide (reverseLen > 0))
  let bestLen := if isInverted then reverseLen else forwardLen
  ⟨bestLen, isInverted⟩

/-- The slice `matchData` of `analyzeDuplicates`. -/
def matchData (refSAM invRefSAM : SAM) (query : Str) : List matchInfo :=
  (List.range query.length).map (matchAt refSAM invRefSAM query)

/-- The Go slice expression `s[a:b]`. -/
def slice (s : Str) (a b : Nat) : Str := (s.drop a).take (b - a)

/-- Go's `strings.Index(s, substr)` searching from offset `i`: the index of the
first instance of `substr`, or `-1`. -/
def indexFrom (sub : Str) : Str → Nat → Int
  | [], i => if sub = [] then (i : Int) else -1
  | x :: xs, i => if sub.isPrefixOf (x :: xs) then (i : Int) else indexFrom sub xs (i + 1)

/-- Go's `strings.Index(s, substr)`. -/
def stringsIndex (s sub : Str) : Int := indexFrom sub s 0

/-- Inner loop of `analyzeDuplicates` (counting consecutive repeats); returns
`(repeatCount, nextStart)`. -/
def countRepeats (query : Str) (md : List matchInfo) (repeatUnit : Str)
    (unitLength : Nat) (unitInverted : Bool) : Nat → Nat → Nat → Option (Nat × Nat)
  | 0, _, _ => none
  | fuel + 1, repeatCount, nextStart =>
    if nextStart + unitLength ≤ query.length then
      if slice query nextStart (nextStart + unitLength) ≠ repeatUnit ∨
          (md.getD nextStart ⟨0, false⟩).maxLength < unitLength ∨
          (md.getD nextStart ⟨0, false⟩).isInv ≠ unitInverted then
        some (repeatCount, nextStart)
      else
        countRepeats query md repeatUnit unitLength unitInverted fuel
          (repeatCount + 1) (nextStart + unitLength)
    else some (repeatCount, nextStart)

/-- Main loop of `analyzeDuplicates`; `acc` is the slice `duplicates`. -/
def scanLoop (query ref : Str) (md : List matchInfo) :
    Nat → Nat → List Duplicate → Option (List Duplicate)
  | 0, _, _ => none
  | fuel + 1, position, acc =>
    if position < query.length then
      let currentMatch := md.getD position ⟨0, false⟩
      if currentMatch.maxLength = 0 then
        scanLoop query ref md fuel (position + 1) acc
      else
        let unitLength := currentMatch.maxLength
        let unitInverted := currentMatch.isInv
        let repeatUnit := slice query position (position + unitLength)
        match countRepeats query md repeatUnit unitLength unitInverted
            (query.length + 1) 1 (position + unitLength) with
        | none => none
        | some (repeatCount, nextStart) =>
          let refUnit := if unitInverted then reverseComplement repeatUnit else repeatUnit
          let refPosition := stringsIndex ref refUnit
          scanLoop query ref md fuel nextStart
            (acc ++ [⟨position, refPosition, unitLength, repeatCount, unitInverted⟩])
    else some acc

/-- Function `analyzeDuplicates(query, ref)`.  The main loop advances `position`
by at least one in every round, so `len(query) + 1` rounds of fuel are enough. -/
def analyzeDuplicates (query ref : Str) : Option (List Duplicate) :=
  let invRef := reverseComplement ref
  match BuildSAMByString ref, BuildSAMByString invRef with
  | some refSAM, some invRefSAM =>
    scanLoop query ref (matchData refSAM invRefSAM query) (query.length + 1) 0 []
  | _, _ => none

end Dup


namespace Aligner

/-! ## `dna_aligner`: arithmetic, types and configuration

Go `int`s of the aligner are `Int`.  The `float64` values (scores, identities,
ratios) live in a type `F` with the operations of `FloatOps`; the theorems that
hold for every input hold for every such arithmetic, and the literal scenarios
are evaluated in the exact arithmetic `exactOps`.  Where the source routes an
integer through `float64` only to take a minimum or maximum
(`int(math.Min(float64(a), float64(b)))`), the model takes it on the integers.
Every integer division and remainder of the source has a non-negative dividend
and a positive divisor. -/

/-- The part of Go's `float64` arithmetic that the aligner uses. -/
structure FloatOps (F : Type) where
  ofInt : Int → F
  lit : ℚ → F
  add : F → F → F
  sub : F → F → F
  mul : F → F → F
  div : F → F → F
  lt : F → F → Bool
  le : F → F → Bool
  eq : F → F → Bool
  max : F → F → F
  min : F → F → F
  abs : F → F
  negInf : F
  trunc : F → Int

/-- Exact values: a rational number or `math.Inf(-1)`. -/
inductive Exact where
  | negInf : Exact
  | fin : ℚ → Exact
  deriving DecidableEq

/-- Lift of a binary operation on the rationals; `-Inf` absorbs. -/
def Exact.lift (f : ℚ → ℚ → ℚ) : Exact → Exact → Exact
  | .fin a, .fin b => .fin (f a b)
  | _, _ => .negInf

/-- Order `<` on exact values. -/
def Exact.ltB : Exact → Exact → Bool
  | .negInf, .negInf => false
  | .negInf, .fin _ => true
  | .fin _, .negInf => false
  | .fin a, .fin b => decide (a < b)

/-- Exact arithmetic: every operation is carried out on the rationals. -/
def exactOps : FloatOps Exact where
  ofInt n := .fin n
  lit q := .fin q
  add := Exact.lift (· + ·)
  sub := Exact.lift (· - ·)
  mul := Exact.lift (· * ·)
  div := Exact.lift (· / ·)
  lt := Exact.ltB
  le a b := !(Exact.ltB b a)
  eq a b := decide (a = b)
  max a b := if Exact.ltB a b then b else a
  min a b := if Exact.ltB b a then b else a
  abs a := match a with
    | .negInf => .negInf
    | .fin q => .fin (if q < 0 then -q else q)
  negInf := .negInf
  trunc a := match a with
    | .negInf => 0
    | .fin q => if 0 ≤ q then (q.num / q.den) else -((-q.num) / q.den)

/-- Type `common.Segment`: inclusive coordinates. -/
structure Segment where
  QueryStart : Int
  QueryEnd : Int
  RefStart : Int
  RefEnd : Int
  deriving DecidableEq, Repr

/-- Type `common.AnchorMatch`. -/
structure AnchorMatch (F : Type) where
  QueryStart : Int
  QueryEnd : Int
  RefStart : Int
  RefEnd : Int
  Score : F
  Identity : F
  Orientation : Nat
  deriving DecidableEq

/-- Type `common.KmerMatch`. -/
structure KmerMatch where
  QueryPos : Int
  RefPos : Int
  Length : Int
  deriving DecidableEq, Repr

/-- Type `common.Edge`. -/
structure Edge (F : Type) where
  To : Int
  Weight : F

/-! ### `config/config.go` -/

def DefaultK : Int := 10
def MinMatchLength : Int := 28
def DefaultMaxErrors : Int := 5
def DefaultStride : Int := 2
def ExtendMaxErrors : Int := 6
def MinIdentityThreshold : ℚ := 74 / 100
def DefaultOverlapThreshold : ℚ := 72 / 100
def HighQualityOverlapThreshold : ℚ := 48 / 100
def MaxSegmentSize : Int := 475
def LargeRegionChunkSize : Int := 575
def LargeRegionOverlap : Int := 210
def StandardChunkOverlapRatio : ℚ := 28 / 10
def VerySmallRegionThreshold : Int := 4
def SmallKForShortSegments : Int := 5
def MediumKForShortSegments : Int := 6
def LargeKForShortSegments : Int := 7
def SmallSegmentLength : Int := 275
def SamplePositionsCount : Int := 25
def AdjacentMergeMaxGap : Int := 32
def FinalMergeMaxGap : Int := 22
def MaxGapRatioDifference : ℚ := 55 / 100
def LowGCThreshold : ℚ := 40 / 100
def HighGCThreshold : ℚ := 50 / 100
def ShortSeqThreshold : Int := 3250
def LowGCKValues : List Int := [8, 9, 10]
def MedGCKValues : List Int := [7, 8, 9]
def HighGCKValues : List Int := [6, 7, 8]
def LowGCMaxErrors : Int := 4
def HighGCMaxErrors : Int := 6
def VeryShortSegmentKValues : List Int := [4, 5]
def ShortSegmentKValues : List Int := [5, 6, 7]
def LongerSegmentKValues : List Int := [7, 8, 9]
def BoundaryExtraErrors : Int := 2
def VeryShortSeqThreshold : Int := 2500
def VeryShortSeqMinMatchLength : Int := 20
def VeryShortSeqStride : Int := 1
def VeryShortSeqKValues : List Int := [5, 6, 7]

/-! ### Go idioms -/

/-- `len(s)` as a Go `int`. -/
def strLen (s : Str) : Int := (s.length : Int)

/-- The byte `s[i]`, for an index in range. -/
def byteAt (s : Str) (i : Int) : Nat := s.getD i.toNat 0

/-- The slice expression `s[a:b]` with `int` bounds. -/
def sliceI (s : Str) (a b : Int) : Str := (s.drop a.toNat).take (b - a).toNat

/-- The values of `j` in `for j := 0; j < n; j += step`, for `step ≥ 1`. -/
def stepRange (n step : Int) : List Int :=
  (List.range ((n.toNat + step.toNat - 1) / step.toNat)).map (fun i => (i : Int) * step)

/-- `sort.SliceStable(xs, less)`: a stable insertion sort. -/
def sortStable {α : Type} (less : α → α → Bool) (xs : List α) : List α :=
  xs.insertionSort (fun a b => less b a = false)

/-- `sort.Slice(xs, less)`.  Go does not fix the order of elements that compare
equal; the model takes the stable order (which is what Go's insertion sort
produces for slices of at most 12 elements). -/
def sortSlice {α : Type} (less : α → α → Bool) (xs : List α) : List α :=
  sortStable less xs

/-! ### `sequence/utils.go` -/

/-- The map `complement` of `ReverseComplement`, with its default `N`. -/
def complement (b : Nat) : Nat :=
  if b = bA then bT else if b = bT then bA else if b = bC then bG else if b = bG then bC
  else if b = bN then bN else bN

/-- `sequence.ReverseComplement(seq)`, for an ASCII string (one rune per byte). -/
def ReverseComplement (seq : Str) : Str := seq.reverse.map complement

/-- The counter `gcCount` of `CalculateGCContent`; the letters are `G`, `C`, `g`, `c`. -/
def gcCount (seq : Str) : Int :=
  ((seq.filter (fun b => b = bG ∨ b = bC ∨ b = 103 ∨ b = 99)).length : Int)

/-- `sequence.CalculateGCContent(seq)`. -/
def CalculateGCContent {F : Type} (fl : FloatOps F) (seq : Str) : F :=
  if seq.length = 0 then fl.lit 0
  else fl.div (fl.ofInt (gcCount seq)) (fl.ofInt (strLen seq))

end Aligner

namespace Aligner

variable {F : Type}

/-! ### `matching/kmer.go` -/

/-- The map `refKmers` of `FindExactMatches`: every `k`-mer of `ref` with the
list of its start positions, in increasing order; a missing key gives `[]`. -/
def buildRefKmers (ref : Str) (k : Int) : Str → List Int :=
  (List.range (strLen ref - k + 1).toNat).foldl
    (fun m i => fun key =>
      if key = sliceI ref i (i + k) then m key ++ [(i : Int)] else m key)
    (fun _ => [])

/-- `matching.FindExactMatches(query, ref, k)`. -/
def FindExactMatches (query ref : Str) (k : Int) : List KmerMatch :=
  let k := if k = 0 then DefaultK else k
  if k ≤ 0 ∨ k > strLen ref ∨ k > strLen query then []
  else
    let refKmers := buildRefKmers ref k
    (List.range (strLen query - k + 1).toNat).flatMap fun i =>
      (refKmers (sliceI query i (i + k))).map fun rPos => ⟨(i : Int), rPos, k⟩

/-! ### `matching/extend.go` -/

/-- The loop variables of one direction of `ExtendMatch`. -/
structure ExtState where
  q : Int
  r : Int
  errors : Int
  totalMatches : Int
  deriving DecidableEq, Repr

/-- Body of the forward loop of `ExtendMatch`. -/
def fwdBody (query ref : Str) (s : ExtState) : ExtState :=
  if byteAt query s.q = byteAt ref s.r then
    ⟨s.q + 1, s.r + 1, s.errors, s.totalMatches + 1⟩
  else if s.q + 1 < strLen query ∧ s.r < strLen ref ∧
      byteAt query (s.q + 1) = byteAt ref s.r then
    ⟨s.q + 2, s.r + 1, s.errors + 1, s.totalMatches + 1⟩
  else if s.q + 2 < strLen query ∧ s.r < strLen ref ∧
      byteAt query (s.q + 2) = byteAt ref s.r then
    ⟨s.q + 3, s.r + 1, s.errors + 1, s.totalMatches + 1⟩
  else if s.r + 1 < strLen ref ∧ s.q < strLen query ∧
      byteAt query s.q = byteAt ref (s.r + 1) then
    ⟨s.q + 1, s.r + 2, s.errors + 1, s.totalMatches + 1⟩
  else if s.r + 2 < strLen ref ∧ s.q < strLen query ∧
      byteAt query s.q = byteAt ref (s.r + 2) then
    ⟨s.q + 1, s.r + 3, s.errors + 1, s.totalMatches + 1⟩
  else
    ⟨s.q + 1, s.r + 1, s.errors + 1, s.totalMatches⟩

/-- Forward loop of `ExtendMatch`:
`for qCurrentFwd < len(query) && rCurrentFwd < len(ref) && errorsFwd <= maxErrors`.
Every round advances `q`, so `len(query) + 1` rounds of fuel reach the exit. -/
def fwdLoop (query ref : Str) (maxErrors : Int) : Nat → ExtState → ExtState
  | 0, s => s
  | fuel + 1, s =>
    if s.q < strLen query ∧ s.r < strLen ref ∧ s.errors ≤ maxErrors then
      fwdLoop query ref maxErrors fuel (fwdBody query ref s)
    else s

/-- Body of the backward loop of `ExtendMatch`. -/
def bwdBody (query ref : Str) (s : ExtState) : ExtState :=
  if byteAt query s.q = byteAt ref s.r then
    ⟨s.q - 1, s.r - 1, s.errors, s.totalMatches + 1⟩
  else if s.q - 1 ≥ 0 ∧ s.r ≥ 0 ∧ byteAt query (s.q - 1) = byteAt ref s.r then
    ⟨s.q - 2, s.r - 1, s.errors + 1, s.totalMatches + 1⟩
  else if s.q - 2 ≥ 0 ∧ s.r ≥ 0 ∧ byteAt query (s.q - 2) = byteAt ref s.r then
    ⟨s.q - 3, s.r - 1, s.errors + 1, s.totalMatches + 1⟩
  else if s.r - 1 ≥ 0 ∧ s.q ≥ 0 ∧ byteAt query s.q = byteAt ref (s.r - 1) then
    ⟨s.q - 1, s.r - 2, s.errors + 1, s.totalMatches + 1⟩
  else if s.r - 2 ≥ 0 ∧ s.q ≥ 0 ∧ byteAt query s.q = byteAt ref (s.r - 2) then
    ⟨s.q - 1, s.r - 3, s.errors + 1, s.totalMatches + 1⟩
  else
    ⟨s.q - 1, s.r - 1, s.errors + 1, s.totalMatches⟩

/-- Backward loop of `ExtendMatch`:
`for qCurrentBwd >= 0 && rCurrentBwd >= 0 && errorsBwd <= maxErrors`. -/
def bwdLoop (query ref : Str) (maxErrors : Int) : Nat → ExtState → ExtState
  | 0, s => s
  | fuel + 1, s =>
    if s.q ≥ 0 ∧ s.r ≥ 0 ∧ s.errors ≤ maxErrors then
      bwdLoop query ref maxErrors fuel (bwdBody query ref s)
    else s

/-- The counter `leftMatchesCount` of the context adjustment. -/
def leftMatches (leftQ leftR : Str) (contextSize : Int) : Int :=
  (((List.range contextSize.toNat).filter
    (fun i => byteAt leftQ i = byteAt leftR i)).length : Int)

/-- `matching.ExtendMatch(query, ref, qStartKmer, rStartKmer, k, minMatchLengthUser,
maxErrorsUser)`; `none` is the nil pointer. -/
def ExtendMatch (fl : FloatOps F) (query ref : Str) (qStartKmer rStartKmer k : Int)
    (minMatchLengthUser maxErrorsUser : Int) : Option (AnchorMatch F) :=
  let minMatchLen := if minMatchLengthUser = 0 then MinMatchLength else minMatchLengthUser
  let maxErrors := if maxErrorsUser = 0 then ExtendMaxErrors else maxErrorsUser
  let fwd := fwdLoop query ref maxErrors (query.length + 1)
    ⟨qStartKmer + k, rStartKmer + k, 0, k⟩
  let bwd := bwdLoop query ref maxErrors (query.length + 1)
    ⟨qStartKmer - 1, rStartKmer - 1, 0, fwd.totalMatches⟩
  let totalMatches := bwd.totalMatches
  let finalQStart := bwd.q + 1
  let finalRStart := bwd.r + 1
  let finalQEndExclusive := fwd.q
  let finalREndExclusive := fwd.r
  let matchLength := finalQEndExclusive - finalQStart
  if matchLength ≤ 0 then none
  else
    let identity0 := fl.div (fl.ofInt totalMatches) (fl.ofInt matchLength)
    let contextSize := min 20 (matchLength / 4)
    let identity :=
      if matchLength > 50 ∧ finalQStart ≥ contextSize ∧ finalRStart ≥ contextSize then
        let leftQ := sliceI query (finalQStart - contextSize) finalQStart
        let leftR := sliceI ref (finalRStart - contextSize) finalRStart
        let leftMatchesCount := leftMatches leftQ leftR contextSize
        fl.div
          (fl.add (fl.mul identity0 (fl.ofInt matchLength))
            (fl.mul (fl.ofInt leftMatchesCount) (fl.lit (1 / 2))))
          (fl.add (fl.ofInt matchLength) (fl.mul (fl.ofInt contextSize) (fl.lit (1 / 2))))
      else identity0
    let scoreRelevantErrors := bwd.errors
    if matchLength ≥ minMatchLen ∧ fl.le (fl.lit MinIdentityThreshold) identity = true then
      let score := fl.mul (fl.mul (fl.ofInt matchLength) identity)
        (fl.sub (fl.lit 1) (fl.mul (fl.lit (5 / 100)) (fl.ofInt scoreRelevantErrors)))
      some ⟨finalQStart, finalQEndExclusive - 1, finalRStart, finalREndExclusive - 1,
        score, identity, 0⟩
    else none

/-! ### `matching/anchor.go` -/

/-- The test of `FilterAnchors` that excludes anchor `j` because of a kept anchor
`i`: query or reference overlap ratio above the threshold. -/
def overlapsTooMuch (fl : FloatOps F) (overlapThreshold : F) (ai aj : AnchorMatch F) : Bool :=
  let qOverlapStart := max ai.QueryStart aj.QueryStart
  let qOverlapEnd := min ai.QueryEnd aj.QueryEnd
  let qOverlapLen := if qOverlapEnd ≥ qOverlapStart then qOverlapEnd - qOverlapStart + 1 else 0
  let qLenJ := (aj.QueryEnd - aj.QueryStart) + 1
  let qOverlapRatio :=
    if qLenJ > 0 then fl.div (fl.ofInt qOverlapLen) (fl.ofInt qLenJ) else fl.lit 0
  let rOverlapStart := max ai.RefStart aj.RefStart
  let rOverlapEnd := min ai.RefEnd aj.RefEnd
  let rOverlapLen := if rOverlapEnd ≥ rOverlapStart then rOverlapEnd - rOverlapStart + 1 else 0
  let rLenJ := (aj.RefEnd - aj.RefStart) + 1
  let rOverlapRatio :=
    if rLenJ > 0 then fl.div (fl.ofInt rOverlapLen) (fl.ofInt rLenJ) else fl.lit 0
  fl.lt overlapThreshold qOverlapRatio || fl.lt overlapThreshold rOverlapRatio

/-- The double loop of `FilterAnchors` over the anchors sorted by score; `flags`
holds the entries of `excludedIndices` for the anchors still to visit. -/
def filterLoop (fl : FloatOps F) (overlapThreshold : F) :
    List (AnchorMatch F) → List Bool → List (AnchorMatch F)
  | [], _ => []
  | a :: rest, flags =>
    if flags.headD false then filterLoop fl overlapThreshold rest flags.tail
    else
      a :: filterLoop fl overlapThreshold rest
        (List.zipWith (fun b e => e || overlapsTooMuch fl overlapThreshold a b) rest flags.tail)

/-- `matching.FilterAnchors(anchors, overlapThreshold)`. -/
def FilterAnchors (fl : FloatOps F) (anchors : List (AnchorMatch F)) (overlapThreshold : F) :
    List (AnchorMatch F) :=
  if anchors.length = 0 then []
  else
    let sorted := sortStable (fun a b => fl.lt b.Score a.Score) anchors
    let filtered := filterLoop fl overlapThreshold sorted (sorted.map fun _ => false)
    sortStable (fun a b => decide (a.QueryStart < b.QueryStart)) filtered

/-- The marking loop of `FindAnchors`: the diagonal points of a new anchor are
added to the set `processed`. -/
def markProcessed (query ref : Str) (qS rS matchLen strideFactor : Int)
    (processed : Int → Int → Bool) : Int → Int → Bool :=
  (stepRange matchLen strideFactor).foldl
    (fun p j =>
      if qS + j < strLen query ∧ rS + j < strLen ref then
        fun a b => if a = qS + j ∧ b = rS + j then true else p a b
      else p)
    processed

/-- The loop of `FindAnchors` over the exact matches, `i` being the index of the
next one. -/
def anchorsLoop (fl : FloatOps F) (query ref : Str) (minMatchLen stride maxErrors : Int) :
    List KmerMatch → Nat → List (AnchorMatch F) → (Int → Int → Bool) → List (AnchorMatch F)
  | [], _, anchors, _ => anchors
  | em :: rest, i, anchors, processed =>
    if (i : Int) % stride ≠ 0 ∧ processed em.QueryPos em.RefPos = true then
      anchorsLoop fl query ref minMatchLen stride maxErrors rest (i + 1) anchors processed
    else
      match ExtendMatch fl query ref em.QueryPos em.RefPos em.Length minMatchLen maxErrors with
      | none =>
        anchorsLoop fl query ref minMatchLen stride maxErrors rest (i + 1) anchors processed
      | some anchor =>
        let matchLen := (anchor.QueryEnd - anchor.QueryStart) + 1
        let strideFactor0 := max 1 (matchLen / 10)
        let strideFactor := if strideFactor0 = 0 then 1 else strideFactor0
        anchorsLoop fl query ref minMatchLen stride maxErrors rest (i + 1)
          (anchors ++ [anchor])
          (markProcessed query ref anchor.QueryStart anchor.RefStart matchLen strideFactor
            processed)

/-- `matching.FindAnchors(query, ref, k, minMatchLen, stride, maxErrors)`. -/
def FindAnchors (fl : FloatOps F) (query ref : Str) (k minMatchLen stride maxErrors : Int) :
    List (AnchorMatch F) :=
  let k := if k = 0 then DefaultK else k
  let minMatchLen := if minMatchLen = 0 then MinMatchLength else minMatchLen
  let stride := if stride = 0 then DefaultStride else stride
  let maxErrors := if maxErrors = 0 then DefaultMaxErrors else maxErrors
  if k ≤ 0 then []
  else
    let exactMatches := FindExactMatches query ref k
    let anchors := anchorsLoop fl query ref minMatchLen stride maxErrors exactMatches 0 []
      (fun _ _ => false)
    FilterAnchors fl anchors (fl.lit DefaultOverlapThreshold)

/-- `matching.FindReverseAnchors(query, ref, k, minMatchLen, stride, maxErrors)`. -/
def FindReverseAnchors (fl : FloatOps F) (query ref : Str)
    (k minMatchLen stride maxErrors : Int) : List (AnchorMatch F) :=
  let revRef := ReverseComplement ref
  let anchorsOnRevRef := FindAnchors fl query revRef k minMatchLen stride maxErrors
  let refOriginalLen := strLen ref
  anchorsOnRevRef.map fun anchor =>
    ⟨anchor.QueryStart, anchor.QueryEnd,
      refOriginalLen - 1 - anchor.RefEnd, refOriginalLen - 1 - anchor.RefStart,
      anchor.Score, anchor.Identity, 0⟩

end Aligner

namespace Aligner

variable {F : Type}

/-! ### `graph/builder.go` and `graph/pathfinder.go` -/

/-- The anchor `anchors[i]`, for an index in range. -/
def anchorAt (fl : FloatOps F) (anchors : List (AnchorMatch F)) (i : Nat) : AnchorMatch F :=
  anchors.getD i ⟨0, 0, 0, 0, fl.lit 0, fl.lit 0, 0⟩

/-- `graph.BuildSegmentGraph(anchors)`: the edge lists of the map it returns,
with `[]` for a node that is no key of the map.  Nodes: `-1` is the source,
`0 .. n-1` the anchors, `n` the sink. -/
def BuildSegmentGraph (fl : FloatOps F) (anchors : List (AnchorMatch F)) : Int → List (Edge F) :=
  let numAnchors := anchors.length
  fun u =>
    if u = -1 then
      if numAnchors = 0 then [⟨0, fl.lit 0⟩]
      else (List.range numAnchors).map fun (i : Nat) => ⟨(i : Int), (anchorAt fl anchors i).Score⟩
    else if 0 ≤ u ∧ u < (numAnchors : Int) then
      (((List.range numAnchors).filter fun (j : Nat) =>
          decide (u.toNat + 1 ≤ j) &&
            decide ((anchorAt fl anchors j).QueryStart > (anchorAt fl anchors u.toNat).QueryEnd)).map
        fun (j : Nat) => (⟨(j : Int), (anchorAt fl anchors j).Score⟩ : Edge F))
        ++ [⟨(numAnchors : Int), fl.lit 0⟩]
    else []

/-- One relaxation of the longest-path loop, for the edge `u → edge.To`. -/
def relax (fl : FloatOps F) (u : Int) (dp : (Int → F) × (Int → Option Int)) (edge : Edge F) :
    (Int → F) × (Int → Option Int) :=
  let v := edge.To
  if fl.eq (dp.1 u) fl.negInf = false ∧ fl.lt (dp.1 v) (fl.add (dp.1 u) edge.Weight) = true then
    (fun x => if x = v then fl.add (dp.1 u) edge.Weight else dp.1 x,
     fun x => if x = v then some u else dp.2 x)
  else dp

/-- The backtracking loop of `FindMaximumWeightPath` from the sink; every step
moves to a smaller node, so `numAnchors + 2` rounds of fuel reach the exit. -/
def backtrack (pred : Int → Option Int) : Nat → Int → List Int → List Int
  | 0, _, path => path
  | fuel + 1, curr, path =>
    match pred curr with
    | none => path
    | some predecessor =>
      if curr = -1 then path
      else
        backtrack pred fuel predecessor
          (if predecessor ≠ -1 then path ++ [predecessor] else path)

/-- `graph.FindMaximumWeightPath(graph, numAnchors)`, for a graph in which the
source is a key. -/
def FindMaximumWeightPath (fl : FloatOps F) (graph : Int → List (Edge F)) (numAnchors : Nat) :
    List Int :=
  let dist0 : Int → F := fun x => if x = -1 then fl.lit 0 else fl.negInf
  let topoOrder : List Int :=
    [-1] ++ (List.range numAnchors).map (fun i => (i : Int)) ++ [(numAnchors : Int)]
  let dp := topoOrder.foldl (fun dp u => (graph u).foldl (relax fl u) dp)
    (dist0, fun _ => none)
  let pathIndices := (backtrack dp.2 (numAnchors + 2) (numAnchors : Int) []).reverse
  pathIndices.filter fun idx => decide (idx ≥ 0 ∧ idx < (numAnchors : Int))

/-! ### `regions/coverage.go`: `ResolveOverlaps` -/

/-- The comparison of `ResolveOverlaps`: query start ascending, then longer first,
then reference start ascending. -/
def resolveLess (a b : Segment) : Bool :=
  if a.QueryStart ≠ b.QueryStart then decide (a.QueryStart < b.QueryStart)
  else if a.QueryEnd - a.QueryStart ≠ b.QueryEnd - b.QueryStart then
    decide (a.QueryEnd - a.QueryStart > b.QueryEnd - b.QueryStart)
  else decide (a.RefStart < b.RefStart)

/-- The walk of `ResolveOverlaps`; `prev` is the last element of `result` and
`out` the elements before it. -/
def resolveWalk : Segment → List Segment → List Segment → List Segment
  | prev, out, [] => out ++ [prev]
  | prev, out, curr :: rest =>
    if curr.QueryStart ≤ prev.QueryEnd then
      if (curr.QueryEnd - curr.QueryStart) + 1 > (prev.QueryEnd - prev.QueryStart) + 1 then
        resolveWalk curr out rest
      else resolveWalk prev out rest
    else resolveWalk curr (out ++ [prev]) rest

/-- `regions.ResolveOverlaps(segments)`. -/
def ResolveOverlaps (segments : List Segment) : List Segment :=
  match sortSlice resolveLess segments with
  | [] => []
  | first :: rest => resolveWalk first [] rest

/-! ### `merging/segments.go` -/

/-- The test `canMerge` of `MergeAdjacentSegments`. -/
def canMerge (fl : FloatOps F) (maxGapUser : Int) (currentMerged next : Segment) : Bool :=
  let qGap := next.QueryStart - currentMerged.QueryEnd - 1
  let rGap := next.RefStart - currentMerged.RefEnd - 1
  decide (qGap ≤ maxGapUser ∧ rGap ≤ maxGapUser) &&
    fl.le (fl.abs (fl.ofInt (qGap - rGap)))
      (fl.max (fl.lit 5)
        (fl.mul (fl.min (fl.ofInt qGap) (fl.ofInt rGap)) (fl.lit MaxGapRatioDifference)))

/-- The loop of `MergeAdjacentSegments`; `currentMerged` is the last element of
`merged` and `out` the elements before it. -/
def mergeWalk (fl : FloatOps F) (maxGapUser : Int) :
    Segment → List Segment → List Segment → List Segment
  | currentMerged, out, [] => out ++ [currentMerged]
  | currentMerged, out, next :: rest =>
    if canMerge fl maxGapUser currentMerged next then
      mergeWalk fl maxGapUser
        { currentMerged with QueryEnd := next.QueryEnd, RefEnd := next.RefEnd } out rest
    else mergeWalk fl maxGapUser next (out ++ [currentMerged]) rest

/-- `merging.MergeAdjacentSegments(segments, maxGapUser)`. -/
def MergeAdjacentSegments (fl : FloatOps F) (segments : List Segment) (maxGapUser : Int) :
    List Segment :=
  match segments with
  | [] => []
  | [s] => [s]
  | first :: rest => mergeWalk fl maxGapUser first [] rest

/-! ### `regions/process.go` -/

/-- The walk of `FindUncoveredRegions` over the sorted segments; `currentPos` is
the end of the covered part so far. -/
def uncoveredWalk (queryLen : Int) : Int → List Segment → List (Int × Int)
  | currentPos, [] => if currentPos < queryLen then [(currentPos, queryLen - 1)] else []
  | currentPos, seg :: rest =>
    (if seg.QueryStart > currentPos then [(currentPos, seg.QueryStart - 1)] else []) ++
      uncoveredWalk queryLen (max currentPos (seg.QueryEnd + 1)) rest

/-- `regions.FindUncoveredRegions(queryLen, segments)`: inclusive `[start, end]` pairs. -/
def FindUncoveredRegions (queryLen : Int) (segments : List Segment) : List (Int × Int) :=
  if segments.length = 0 then
    if queryLen > 0 then [(0, queryLen - 1)] else []
  else
    uncoveredWalk queryLen 0
      (sortSlice (fun a b => decide (a.QueryStart < b.QueryStart)) segments)

/-- `regions.findMatchesInRegionCore(queryRegion, ref, minMatchL, maxErr, kValuesToTry,
stride)`; `'f'` is 102 and `'r'` is 114. -/
def findMatchesInRegionCore (fl : FloatOps F) (queryRegion ref : Str) (minMatchL maxErr : Int)
    (kValuesToTry : List Int) (stride : Int) : List (AnchorMatch F) :=
  kValuesToTry.flatMap fun k =>
    if k ≤ 0 ∨ k > strLen queryRegion ∨ k > strLen ref then []
    else
      (FindAnchors fl queryRegion ref k minMatchL stride maxErr).map
          (fun anc => { anc with Orientation := 102 }) ++
        (FindReverseAnchors fl queryRegion ref k minMatchL stride maxErr).map
          (fun anc => { anc with Orientation := 114 })

/-- `regions.FindMatchesInRegion(queryRegion, ref, minMatchLenUser, maxErrorsUser)`. -/
def FindMatchesInRegion (fl : FloatOps F) (queryRegion ref : Str)
    (minMatchLenUser maxErrorsUser : Int) : List (AnchorMatch F) :=
  let segmentLen := strLen queryRegion
  if segmentLen = 0 then []
  else
    let kSize :=
      if segmentLen < 50 then SmallKForShortSegments
      else if segmentLen < 100 then MediumKForShortSegments
      else LargeKForShortSegments
    let minMatchL := if minMatchLenUser = 0 then MinMatchLength else minMatchLenUser
    let maxErr :=
      if maxErrorsUser = 0 then
        (if max 3 (minMatchL / 10) = 0 then 1 else max 3 (minMatchL / 10))
      else maxErrorsUser
    findMatchesInRegionCore fl queryRegion ref minMatchL maxErr [kSize] 1

/-- The filtering loop at the end of `FindMatchesInLargeRegion`: `idx` runs over
the matches sorted by score, `excluded` is the map `excludedIndices`. -/
def largeFilterLoop (fl : FloatOps F) (ms : List (AnchorMatch F)) :
    List Nat → List Bool → List (AnchorMatch F)
  | [], _ => []
  | i :: rest, excluded =>
    if excluded.getD i false then largeFilterLoop fl ms rest excluded
    else
      let matchI := anchorAt fl ms i
      let lenI := (matchI.QueryEnd - matchI.QueryStart) + 1
      let overlapThresh :=
        if fl.lt (fl.lit (9 / 10)) matchI.Identity = true ∧ lenI > 100 then
          fl.lit HighQualityOverlapThreshold
        else fl.lit DefaultOverlapThreshold
      let excluded' := (List.range ms.length).map fun j =>
        if i = j ∨ excluded.getD j false = true then excluded.getD j false
        else
          let matchJ := anchorAt fl ms j
          let overlapQStart := max matchI.QueryStart matchJ.QueryStart
          let overlapQEnd := min matchI.QueryEnd matchJ.QueryEnd
          let overlapLen :=
            if overlapQEnd ≥ overlapQStart then overlapQEnd - overlapQStart + 1 else 0
          let minLen := min lenI ((matchJ.QueryEnd - matchJ.QueryStart) + 1)
          let overlapRatio :=
            if minLen > 0 then fl.div (fl.ofInt overlapLen) (fl.ofInt minLen) else fl.lit 0
          fl.lt overlapThresh overlapRatio
      matchI :: largeFilterLoop fl ms rest excluded'

/-- `regions.FindMatchesInLargeRegion(queryRegion, ref, maxSegSizeUser,
minMatchLenUser, maxErrorsUser)`. -/
def FindMatchesInLargeRegion (fl : FloatOps F) (queryRegion ref : Str)
    (maxSegSizeUser minMatchLenUser maxErrorsUser : Int) : List (AnchorMatch F) :=
  let regionLen := strLen queryRegion
  if regionLen = 0 then []
  else
    let maxSegSize := if maxSegSizeUser = 0 then MaxSegmentSize else maxSegSizeUser
    let minMatchL := if minMatchLenUser = 0 then MinMatchLength else minMatchLenUser
    let maxErrDefault := if maxErrorsUser = 0 then DefaultMaxErrors else maxErrorsUser
    if regionLen ≤ maxSegSize then FindMatchesInRegion fl queryRegion ref minMatchL maxErrDefault
    else
      let chunkSize0 := if regionLen > 5000 then LargeRegionChunkSize else maxSegSize
      let overlap0 :=
        if regionLen > 5000 then LargeRegionOverlap
        else fl.trunc (fl.div (fl.ofInt chunkSize0) (fl.lit StandardChunkOverlapRatio))
      let chunkSize := if chunkSize0 ≤ 0 then MaxSegmentSize else chunkSize0
      let overlap1 := if overlap0 < 0 then 0 else overlap0
      let overlap2 :=
        if overlap1 ≥ chunkSize then (if chunkSize / 3 ≤ 0 then 1 else chunkSize / 3)
        else overlap1
      let overlap :=
        if chunkSize - overlap2 ≤ 0 then (if chunkSize > 1 then chunkSize - 1 else 0)
        else overlap2
      let found := (stepRange regionLen (chunkSize - overlap)).flatMap fun i =>
        let chunkStart := i
        let chunkEnd := min (i + chunkSize) regionLen
        if chunkEnd - chunkStart < minMatchL then []
        else
          let chunk := sliceI queryRegion chunkStart chunkEnd
          let chunkLen := strLen chunk
          let kValues :=
            if chunkLen < 100 then VeryShortSegmentKValues
            else if chunkLen < 300 then ShortSegmentKValues
            else LongerSegmentKValues
          let currentMaxErrors :=
            if i = 0 ∨ chunkEnd = regionLen then maxErrDefault + BoundaryExtraErrors
            else maxErrDefault
          (findMatchesInRegionCore fl chunk ref minMatchL currentMaxErrors kValues 1).map
            fun m => { m with QueryStart := m.QueryStart + chunkStart,
                              QueryEnd := m.QueryEnd + chunkStart }
      if found.length = 0 then []
      else
        let sorted := sortStable (fun a b => fl.lt b.Score a.Score) found
        largeFilterLoop fl sorted (List.range sorted.length) (sorted.map fun _ => false)

end Aligner

namespace Aligner

variable {F : Type}

/-! ### `regions/coverage.go`: `EnsureCompleteCoverage` -/

/-- `regions.isSegmentOriginal(segment, originalSegments)`. -/
def isSegmentOriginal (segment : Segment) (originalSegments : List Segment) : Bool :=
  originalSegments.any fun origSeg =>
    decide (segment.QueryStart = origSeg.QueryStart ∧ segment.QueryEnd = origSeg.QueryEnd ∧
      segment.RefStart = origSeg.RefStart ∧ segment.RefEnd = origSeg.RefEnd)

/-- The loop of `EnsureCompleteCoverage` over the matches of one region, sorted by
score: a match is added unless it overlaps one added before it for this region. -/
def addRegionMatches (qStart : Int) : List (AnchorMatch F) → List Segment → List Segment
  | [], tempAdded => tempAdded
  | m :: rest, tempAdded =>
    let absQStart := m.QueryStart + qStart
    let absQEnd := m.QueryEnd + qStart
    if tempAdded.any (fun tempSeg =>
        decide (max tempSeg.QueryStart absQStart ≤ min tempSeg.QueryEnd absQEnd)) then
      addRegionMatches qStart rest tempAdded
    else
      addRegionMatches qStart rest (tempAdded ++ [⟨absQStart, absQEnd, m.RefStart, m.RefEnd⟩])

/-- The sampling loop of a fallback tile: `(bestRStart, bestScore)` after probing
the reference at the positions `rPos`. -/
def bestSample (fl : FloatOps F) (ref chunkStr : Str) (chunkActualLen : Int) :
    List Int → Int × F → Int × F
  | [], best => best
  | rPos :: rest, best =>
    let refChunkStr := sliceI ref rPos (rPos + chunkActualLen)
    let matchesCount : Int := (((List.range chunkActualLen.toNat).filter
      (fun k => byteAt chunkStr k = byteAt refChunkStr k)).length : Int)
    let score := fl.div (fl.ofInt matchesCount) (fl.ofInt chunkActualLen)
    if fl.lt best.2 score then bestSample fl ref chunkStr chunkActualLen rest (rPos, score)
    else bestSample fl ref chunkStr chunkActualLen rest best

/-- One fallback tile of a long region without matches. -/
def fallbackTile (fl : FloatOps F) (query ref : Str) (qStart regionActualLen chunkOffset : Int) :
    List Segment :=
  let refLen := strLen ref
  let chunkStep := SmallSegmentLength
  let curChunkStartInRegion := chunkOffset
  let curChunkEndInRegion := min (chunkOffset + chunkStep) regionActualLen
  if curChunkEndInRegion ≤ curChunkStartInRegion then []
  else
    let absQChunkStart := qStart + curChunkStartInRegion
    let absQChunkEnd := qStart + curChunkEndInRegion - 1
    let chunkStr := sliceI query absQChunkStart (absQChunkEnd + 1)
    let chunkActualLen := strLen chunkStr
    let sampleStep0 := max 1 (refLen / SamplePositionsCount)
    let sampleStep := if sampleStep0 = 0 then 1 else sampleStep0
    let best := bestSample fl ref chunkStr chunkActualLen
      (stepRange (refLen - chunkActualLen + 1) sampleStep) (0, fl.lit (-1))
    [⟨absQChunkStart, absQChunkEnd, best.1, best.1 + chunkActualLen - 1⟩]

/-- The single fallback segment of a short region without matches. -/
def fallbackSegment (refLen qStart qEnd : Int) : Segment :=
  let regionActualLen := (qEnd - qStart) + 1
  let rMapStart := qStart % refLen
  let rMapEnd := rMapStart + regionActualLen - 1
  if rMapEnd ≥ refLen then
    let rMapEnd' := refLen - 1
    let rMapStart' := if rMapStart > rMapEnd' ∧ regionActualLen ≤ refLen then 0 else rMapStart
    let rMapStart'' := if regionActualLen > refLen then 0 else rMapStart'
    ⟨qStart, qEnd, rMapStart'', rMapEnd'⟩
  else ⟨qStart, qEnd, rMapStart, rMapEnd⟩

/-- The segments that `EnsureCompleteCoverage` finds for one uncovered region. -/
def regionSegments (fl : FloatOps F) (query ref : Str) (region : Int × Int) : List Segment :=
  let qStart := region.1
  let qEnd := region.2
  let regionActualLen := (qEnd - qStart) + 1
  if regionActualLen < VerySmallRegionThreshold then []
  else
    let queryRegionStr := sliceI query qStart (qEnd + 1)
    let regionMatches :=
      if regionActualLen > 1000 then FindMatchesInLargeRegion fl queryRegionStr ref 500 0 0
      else FindMatchesInRegion fl queryRegionStr ref 0 0
    if regionMatches.length > 0 then
      addRegionMatches qStart
        (sortSlice (fun a b => fl.lt b.Score a.Score) regionMatches) []
    else if regionActualLen > MaxSegmentSize then
      (stepRange regionActualLen SmallSegmentLength).flatMap
        (fallbackTile fl query ref qStart regionActualLen)
    else [fallbackSegment (strLen ref) qStart qEnd]

/-- The preference walk of `EnsureCompleteCoverage`: in an overlap an original
segment wins over a new one, otherwise the longer one wins. -/
def preferWalk (initialSegments : List Segment) :
    Segment → List Segment → List Segment → List Segment
  | current, out, [] => out ++ [current]
  | current, out, next :: rest =>
    if next.QueryStart ≤ current.QueryEnd then
      let isCurrentOrig := isSegmentOriginal current initialSegments
      let isNextOrig := isSegmentOriginal next initialSegments
      if isNextOrig ∧ ¬ isCurrentOrig then preferWalk initialSegments next out rest
      else if ¬ isNextOrig ∧ isCurrentOrig then preferWalk initialSegments current out rest
      else if (next.QueryEnd - next.QueryStart) > (current.QueryEnd - current.QueryStart) then
        preferWalk initialSegments next out rest
      else preferWalk initialSegments current out rest
    else preferWalk initialSegments next (out ++ [current]) rest

/-- The fallback segment for a region, in the final pass of `EnsureCompleteCoverage`. -/
def finalFallback (refLen : Int) (reg : Int × Int) : Segment :=
  let s := reg.1
  let e := reg.2
  let rLen := (e - s) + 1
  let rS := s % refLen
  let rE := rS + rLen - 1
  if rE ≥ refLen then
    let rE' := refLen - 1
    let rS' := if rS > rE' ∧ rLen ≤ refLen then 0 else if rLen > refLen then 0 else rS
    ⟨s, e, rS', rE'⟩
  else ⟨s, e, rS, rE⟩

/-- `regions.EnsureCompleteCoverage(query, ref, initialSegments)`. -/
def EnsureCompleteCoverage (fl : FloatOps F) (query ref : Str) (initialSegments : List Segment) :
    List Segment :=
  let queryLen := strLen query
  let refLen := strLen ref
  if queryLen = 0 then []
  else
    let currentCoverageSegments :=
      sortSlice (fun a b => decide (a.QueryStart < b.QueryStart)) initialSegments
    let uncovered := FindUncoveredRegions queryLen currentCoverageSegments
    if uncovered.length = 0 then currentCoverageSegments
    else
      let newlyFoundSegments := uncovered.flatMap (regionSegments fl query ref)
      let allSegments := sortSlice (fun a b => decide (a.QueryStart < b.QueryStart))
        (currentCoverageSegments ++ newlyFoundSegments)
      let resolvedWithPreference :=
        match allSegments with
        | [] => []
        | first :: rest => preferWalk initialSegments first [] rest
      let finalUncovered := FindUncoveredRegions queryLen resolvedWithPreference
      if finalUncovered.length > 0 then
        ResolveOverlaps (resolvedWithPreference ++ finalUncovered.map (finalFallback refLen))
      else resolvedWithPreference

/-! ### `aligner/align.go` -/

/-- The comparison of the final sort of `FindAlignment`: query start, reference
start, query end, reference end, all ascending. -/
def finalLess (a b : Segment) : Bool :=
  if a.QueryStart ≠ b.QueryStart then decide (a.QueryStart < b.QueryStart)
  else if a.RefStart ≠ b.RefStart then decide (a.RefStart < b.RefStart)
  else if a.QueryEnd ≠ b.QueryEnd then decide (a.QueryEnd < b.QueryEnd)
  else decide (a.RefEnd < b.RefEnd)

/-- The clamping loop at the end of `FindAlignment`. -/
def clampSegments (queryLen refLen : Int) (segs : List Segment) : List Segment :=
  segs.flatMap fun seg =>
    let qEndClamped := min seg.QueryEnd (queryLen - 1)
    let rEndClamped := min seg.RefEnd (refLen - 1)
    if seg.QueryStart ≤ qEndClamped ∧ seg.RefStart ≤ rEndClamped then
      [⟨seg.QueryStart, qEndClamped, seg.RefStart, rEndClamped⟩]
    else []

/-- The segments of the chain that `FindMaximumWeightPath` selects among the
anchors (the two `if len(...) > 0` blocks of `FindAlignment`). -/
def chainSegments (fl : FloatOps F) (anchors : List (AnchorMatch F)) : List Segment :=
  if anchors.length > 0 then
    (FindMaximumWeightPath fl (BuildSegmentGraph fl anchors) anchors.length).map fun idx =>
      let anc := anchorAt fl anchors idx.toNat
      ⟨anc.QueryStart, anc.QueryEnd, anc.RefStart, anc.RefEnd⟩
  else []

/-- The parameters `(kValuesToTry, currentMinMatchLength, currentStride,
currentMaxErrors)` that `FindAlignment` selects. -/
def selectParams (fl : FloatOps F) (gcContent : F) (seqLengthConsidered minMatchLenUser : Int) :
    List Int × Int × Int × Int :=
  let currentMinMatchLength := if minMatchLenUser = 0 then MinMatchLength else minMatchLenUser
  if seqLengthConsidered < VeryShortSeqThreshold then
    (VeryShortSeqKValues, VeryShortSeqMinMatchLength, VeryShortSeqStride, HighGCMaxErrors)
  else if fl.lt gcContent (fl.lit LowGCThreshold) then
    (LowGCKValues, currentMinMatchLength, DefaultStride, LowGCMaxErrors)
  else if fl.lt gcContent (fl.lit HighGCThreshold) then
    (MedGCKValues, currentMinMatchLength, DefaultStride, LowGCMaxErrors + 1)
  else
    (HighGCKValues, currentMinMatchLength, DefaultStride, HighGCMaxErrors)

/-- `aligner.FindAlignment(query, ref, minMatchLenUser)`. -/
def FindAlignment (fl : FloatOps F) (query ref : Str) (minMatchLenUser : Int) : List Segment :=
  let queryLen := strLen query
  let refLen := strLen ref
  if queryLen = 0 ∨ refLen = 0 then []
  else
    let gcContent := CalculateGCContent fl query
    let seqLengthConsidered := min queryLen refLen
    let params := selectParams fl gcContent seqLengthConsidered minMatchLenUser
    let kValuesToTry := params.1
    let currentMinMatchLength := params.2.1
    let currentStride := params.2.2.1
    let currentMaxErrors := params.2.2.2
    let iterStride := fun (k : Int) =>
      if seqLengthConsidered ≥ VeryShortSeqThreshold then max 1 (k - 5) else currentStride
    let forwardAnchors0 := kValuesToTry.flatMap fun k =>
      FindAnchors fl query ref k currentMinMatchLength (iterStride k) currentMaxErrors
    let reverseAnchors0 := kValuesToTry.flatMap fun k =>
      FindReverseAnchors fl query ref k currentMinMatchLength (iterStride k) currentMaxErrors
    let overlapThreshForFilter :=
      if fl.lt gcContent (fl.lit LowGCThreshold) then
        fl.add (fl.lit HighQualityOverlapThreshold) (fl.lit (2 / 100))
      else fl.lit HighQualityOverlapThreshold
    let forwardAnchors := FilterAnchors fl forwardAnchors0 overlapThreshForFilter
    let reverseAnchors := FilterAnchors fl reverseAnchors0 overlapThreshForFilter
    let chainedFwdSegments := chainSegments fl forwardAnchors
    let chainedRevSegments := chainSegments fl reverseAnchors
    let combinedFromChaining := chainedFwdSegments ++ chainedRevSegments
    let initialResolvedSegments := ResolveOverlaps combinedFromChaining
    let mergedAfterInitial :=
      MergeAdjacentSegments fl initialResolvedSegments AdjacentMergeMaxGap
    let segmentsAfterCoveragePass := EnsureCompleteCoverage fl query ref mergedAfterInitial
    let sortedAfterCoverage := sortSlice
      (fun a b =>
        if a.QueryStart ≠ b.QueryStart then decide (a.QueryStart < b.QueryStart)
        else decide (a.RefStart < b.RefStart))
      segmentsAfterCoveragePass
    let finalMergedSegments := MergeAdjacentSegments fl sortedAfterCoverage FinalMergeMaxGap
    let finalOutputSegments := ResolveOverlaps finalMergedSegments
    let clampedSegments := clampSegments queryLen refLen finalOutputSegments
    sortSlice finalLess clampedSegments

/-! ### `main.go` -/

/-- The quadruples that `formatSegmentsOutput` prints for the segments: the start
coordinates, and the end coordinates plus one. -/
def formatSegmentsOutput (segments : List Segment) : List (Int × Int × Int × Int) :=
  segments.map fun seg => (seg.QueryStart, seg.QueryEnd + 1, seg.RefStart, seg.RefEnd + 1)

end Aligner

instance (s : Str) : Decidable (IsDNA s) := by
  unfold IsDNA; infer_instance

namespace Dup

/-! ## Suffix automaton: path semantics and the invariant of the construction -/

/-- Follow the transitions labelled by `w` from state `v`. -/
def run (st : List State) : Nat → Str → Option Nat
  | v, [] => some v
  | v, c :: cs =>
    match (stateAt st v).next c with
    | none => none
    | some u => run st u cs

/-- Length of the shortest string that leads to state `v`: `0` for the initial
state (link `-1`), `len(link(v)) + 1` otherwise. -/
def minLen (st : List State) (v : Nat) : Nat :=
  if (stateAt st v).link = -1 then 0 else (stateAt st (stateAt st v).link.toNat).len + 1

/-- Invariant of the automaton `A` built from the string `s`.  The ghost map
`rep` gives the longest string of every state; the strings leading to a state
`v` are the suffixes of `rep v` of length at least `minLen v`. -/
structure Inv (s : Str) (A : SAM) (rep : Nat → Str) : Prop where
  size_eq : A.states.length = A.size
  last_lt : A.last < A.size
  rep_last : rep A.last = s
  rep_zero : rep 0 = []
  len_rep : ∀ v, v < A.size → (stateAt A.states v).len = (rep v).length
  link_zero : (stateAt A.states 0).link = -1
  link_pos : ∀ v, v < A.size → v ≠ 0 →
    ∃ u : Nat, (stateAt A.states v).link = (u : Int) ∧ u < A.size ∧
      rep u <:+ rep v ∧ (rep u).length < (rep v).length
  run_lt : ∀ w v, run A.states 0 w = some v → v < A.size
  run_occurs : ∀ w, (∃ v, run A.states 0 w = some v) ↔ w <:+: s
  run_iff : ∀ v, v < A.size → ∀ w,
    run A.states 0 w = some v ↔ (w <:+ rep v ∧ minLen A.states v ≤ w.length)

/-- The state `v` is strictly longer than the loop variable `p` (every state
is, once `p = -1`). -/
def above (rep : Nat → Str) (p : Int) (v : Nat) : Prop :=
  p = -1 ∨ (rep p.toNat).length < (rep v).length

/-- Loop invariant of a walk along the suffix links that starts at state `b`
and rewrites `c`-transitions of value `T` to `newv`: exactly the states whose
longest string is a suffix of `rep b` longer than that of `p` have received the
transition `c ↦ newv`, and all of them had the `c`-transition `T` before. -/
structure WalkInv (A : SAM) (rep : Nat → Str) (c b : Nat) (T : Option Nat) (newv : Nat)
    (base : List State) (p : Int) (st : List State) : Prop where
  length_eq : st.length = base.length
  len_eq : ∀ v, (stateAt st v).len = (stateAt base v).len
  link_eq : ∀ v, (stateAt st v).link = (stateAt base v).link
  next_mod : ∀ v, v < A.size → rep v <:+ rep b → above rep p v →
    (stateAt st v).next c = some newv
  next_same : ∀ v d, ¬ (d = c ∧ v < A.size ∧ rep v <:+ rep b ∧ above rep p v) →
    (stateAt st v).next d = (stateAt base v).next d
  all_T : ∀ v, v < A.size → rep v <:+ rep b → above rep p v →
    (stateAt A.states v).next c = T
  p_ok : p = -1 ∨ ∃ n : Nat, p = (n : Int) ∧ n < A.size ∧ rep n <:+ rep b

/-- The state array after the first loop of `Extend`. -/
structure After1 (s : Str) (A : SAM) (rep : Nat → Str) (c : Nat) (p : Int)
    (st2 : List State) : Prop where
  length_eq : st2.length = A.size + 1
  len_old : ∀ v, v < A.size → (stateAt st2 v).len = (stateAt A.states v).len
  link_old : ∀ v, v < A.size → (stateAt st2 v).link = (stateAt A.states v).link
  cur_len : (stateAt st2 A.size).len = s.length + 1
  cur_next : ∀ d, (stateAt st2 A.size).next d = none
  hmod : ∀ v, v < A.size → rep v <:+ s → (stateAt A.states v).next c = none →
    (stateAt st2 v).next c = some A.size
  hsame : ∀ v d, v < A.size →
    ¬ (d = c ∧ rep v <:+ s ∧ (stateAt A.states v).next c = none) →
    (stateAt st2 v).next d = (stateAt A.states v).next d
  p_desc : (p = -1 ∧ (stateAt A.states 0).next c = none) ∨
    ∃ n q : Nat, p = (n : Int) ∧ n < A.size ∧ rep n <:+ s ∧
      (stateAt A.states n).next c = some q ∧
      ∀ v, v < A.size → rep v <:+ s → (rep n).length < (rep v).length →
        (stateAt A.states v).next c = none

/-- The state array after the second loop of `Extend`. -/
structure After2 (s : Str) (A : SAM) (rep : Nat → Str) (c n q : Nat)
    (st4 : List State) : Prop where
  length_eq : st4.length = A.size + 2
  len_old : ∀ v, v < A.size → (stateAt st4 v).len = (stateAt A.states v).len
  link_old : ∀ v, v < A.size → (stateAt st4 v).link = (stateAt A.states v).link
  cur_len : (stateAt st4 A.size).len = s.length + 1
  cur_next : ∀ d, (stateAt st4 A.size).next d = none
  clone_len : (stateAt st4 (A.size + 1)).len = (stateAt A.states n).len + 1
  clone_link : (stateAt st4 (A.size + 1)).link = (stateAt A.states q).link
  clone_mod : rep q <:+ s → (stateAt A.states q).next c = none →
    (stateAt st4 (A.size + 1)).next c = some A.size
  clone_same : ∀ d, ¬ (d = c ∧ rep q <:+ s ∧ (stateAt A.states q).next c = none) →
    (stateAt st4 (A.size + 1)).next d = (stateAt A.states q).next d
  hmod : ∀ v, v < A.size → rep v <:+ s → (stateAt A.states v).next c = none →
    (stateAt st4 v).next c = some A.size
  hred : ∀ v, v < A.size → rep v <:+ rep n → (stateAt A.states v).next c = some q →
    (stateAt st4 v).next c = some (A.size + 1)
  hsame : ∀ v d, v < A.size →
    ¬ (d = c ∧ rep v <:+ s ∧ (stateAt A.states v).next c = none) →
    ¬ (d = c ∧ rep v <:+ rep n ∧ (stateAt A.states v).next c = some q) →
    (stateAt st4 v).next d = (stateAt A.states v).next d

end Dup

namespace Dup

/-! ## Specification vocabulary for the duplicate pipeline -/

/-- Complement of a base as the glossary defines it: `A ↔ T`, `C ↔ G`, and `N`
(like any unknown base) is mapped to `N`. -/
def compSpec (b : Nat) : Nat :=
  if b = bA then bT else if b = bT then bA else if b = bC then bG else if b = bG then bC else bN

/-- Reverse complement as the glossary defines it: the string reversed, with
every base complemented. -/
def revCompSpec (s : Str) : Str := s.reverse.map compSpec

/-- The string `u` occurs in `r` at index `i`: `r[i .. i + |u|) = u`. -/
def OccursAt (u r : Str) (i : Nat) : Prop :=
  i + u.length ≤ r.length ∧ slice r i (i + u.length) = u

/-- The integer `x` is the smallest index at which `u` occurs in `r`, or `-1`
when `u` does not occur in `r`. -/
def IsFirstIndex (r u : Str) (x : Int) : Prop :=
  (x = -1 ∧ ∀ i, ¬ OccursAt u r i) ∨
  (∃ i : Nat, x = (i : Int) ∧ OccursAt u r i ∧ ∀ j, j < i → ¬ OccursAt u r j)

/-- The unit of a record: `Q[QueryStart .. QueryStart + Length)`. -/
def unitOf (Q : Str) (d : Duplicate) : Str := slice Q d.QueryStart (d.QueryStart + d.Length)

/-- What the main loop records at a position: the precomputed match there, a
count of at least one, and the position of the unit found by `strings.Index`. -/
def RecordOk (query ref : Str) (md : List matchInfo) (d : Duplicate) : Prop :=
  d.QueryStart < query.length ∧
  d.Length = (md.getD d.QueryStart ⟨0, false⟩).maxLength ∧
  d.IsInverted = (md.getD d.QueryStart ⟨0, false⟩).isInv ∧
  1 ≤ d.Length ∧ 1 ≤ d.Count ∧
  d.RefStart = stringsIndex ref
    (if d.IsInverted then reverseComplement (unitOf query d) else unitOf query d)

/-- The link structure of the automaton: state `0` has `len 0` and `link -1`, and
the link of every other state is the index of a state with a smaller `len`. -/
def LinksOk (A : SAM) : Prop :=
  (stateAt A.states 0).len = 0 ∧ (stateAt A.states 0).link = -1 ∧
  ∀ s, 0 < s → s < A.states.length →
    ∃ u : Nat, (stateAt A.states s).link = (u : Int) ∧ u < A.states.length ∧
      (stateAt A.states u).len < (stateAt A.states s).len

/-- The block of a record: `Count` consecutive pieces of length `Length` from
`QueryStart` on, all inside `Q` and each equal to the unit of the record. -/
def BlockOk (Q : Str) (d : Duplicate) : Prop :=
  d.QueryStart + d.Count * d.Length ≤ Q.length ∧
  ∀ j, j < d.Count →
    slice Q (d.QueryStart + j * d.Length) (d.QueryStart + (j + 1) * d.Length) = unitOf Q d

/-- The block of `a` ends at or before the start of `b`. -/
def BlockBefore (a b : Duplicate) : Prop := a.QueryStart + a.Count * a.Length ≤ b.QueryStart

end Dup

namespace Aligner

/-! ## Specification vocabulary for the aligner -/

/-- The segment `a` ends, in query coordinates, strictly before `b` starts. -/
def QBefore (a b : Segment) : Prop := a.QueryEnd < b.QueryStart

/-- The query intervals of `a` and `b` have no position in common. -/
def QDisjoint (a b : Segment) : Prop := a.QueryEnd < b.QueryStart ∨ b.QueryEnd < a.QueryStart

/-- The order of the output: `(q_start, r_start, q_end, r_end)`, lexicographic,
ascending. -/
def KeyLE (a b : Segment) : Prop :=
  a.QueryStart < b.QueryStart ∨ (a.QueryStart = b.QueryStart ∧
    (a.RefStart < b.RefStart ∨ (a.RefStart = b.RefStart ∧
      (a.QueryEnd < b.QueryEnd ∨ (a.QueryEnd = b.QueryEnd ∧ a.RefEnd ≤ b.RefEnd)))))

/-- The query position `p` lies in the query interval of a segment of `segs`. -/
def Covered (segs : List Segment) (p : Int) : Prop :=
  ∃ s ∈ segs, s.QueryStart ≤ p ∧ p ≤ s.QueryEnd

/-- The segment invariant of the data model, for sequences of lengths `queryLen`
and `refLen`. -/
def SegmentOk (queryLen refLen : Int) (s : Segment) : Prop :=
  0 ≤ s.QueryStart ∧ s.QueryStart ≤ s.QueryEnd ∧ s.QueryEnd < queryLen ∧
  0 ≤ s.RefStart ∧ s.RefStart ≤ s.RefEnd ∧ s.RefEnd < refLen

/-- The query position `p` lies in the query interval of the segment. -/
def InQuery (s : Segment) (p : Int) : Prop := s.QueryStart ≤ p ∧ p ≤ s.QueryEnd

/-- The query length of a segment. -/
def qLength (s : Segment) : Int := s.QueryEnd - s.QueryStart + 1

/-- At the position `p`, the list `output` keeps a longest one of the segments of
`input` that contain `p`. -/
def LongestAtPreserved (input output : List Segment) (p : Int) : Prop :=
  ∃ s ∈ output, s ∈ input ∧ InQuery s p ∧ ∀ t ∈ input, InQuery t p → qLength t ≤ qLength s

/-- The query position `p` lies strictly between two segments of `input` that are
at most `maxGap` positions apart in the query. -/
def InGap (input : List Segment) (maxGap p : Int) : Prop :=
  ∃ a ∈ input, ∃ b ∈ input, a.QueryEnd < p ∧ p < b.QueryStart ∧
    b.QueryStart - a.QueryEnd - 1 ≤ maxGap

/-- The score of the anchor with index `i`, as a rational number (`0` for a score
that is not finite). -/
def scoreQ (anchors : List (AnchorMatch Exact)) (i : Int) : ℚ :=
  match (anchorAt exactOps anchors i.toNat).Score with
  | .fin q => q
  | .negInf => 0

/-- The sum of the scores of the anchors with the indices `c`. -/
def chainScore (anchors : List (AnchorMatch Exact)) (c : List Int) : ℚ :=
  (c.map (scoreQ anchors)).sum

/-- A chain: a non-empty increasing sequence of anchor indices in which each
anchor ends in the query before the next one starts. -/
def IsChain (anchors : List (AnchorMatch Exact)) (c : List Int) : Prop :=
  c ≠ [] ∧ (∀ i ∈ c, 0 ≤ i ∧ i < (anchors.length : Int)) ∧
  c.Chain' (fun a b => a < b ∧
    (anchorAt exactOps anchors a.toNat).QueryEnd <
      (anchorAt exactOps anchors b.toNat).QueryStart)

/-- The weight of an edge into the node `v`: the score of the anchor `v`, and `0`
for the sink. -/
def nodeWeight (anchors : List (AnchorMatch Exact)) (v : Int) : ℚ :=
  if v < (anchors.length : Int) then scoreQ anchors v else 0

/-- The state of the longest-path loop: `N` holds for the nodes visited so far and
`Rel u e` for the edges `e` out of `u` relaxed so far. -/
structure DpInv (anchors : List (AnchorMatch Exact)) (N : Int → Prop)
    (Rel : Int → Edge Exact → Prop) (dp : (Int → Exact) × (Int → Option Int)) : Prop where
  source : dp.1 (-1) = .fin 0
  relaxed : ∀ u e, Rel u e → ∀ du, dp.1 u = .fin du →
    ∃ dv, dp.1 e.To = .fin dv ∧ du + nodeWeight anchors e.To ≤ dv
  pred_ok : ∀ v u, dp.2 v = some u → N u ∧
    (∃ e ∈ BuildSegmentGraph exactOps anchors u, e.To = v) ∧
    ∃ du dv, dp.1 u = .fin du ∧ dp.1 v = .fin dv ∧ dv = du + nodeWeight anchors v
  pred_some : ∀ v d, v ≠ -1 → dp.1 v = .fin d → ∃ u, dp.2 v = some u

/-- The segment spans at least nine reference positions. -/
def Long (s : Segment) : Prop := s.RefStart + 8 ≤ s.RefEnd

/-- The segment lies inside the query, is not empty in either coordinate, and
starts inside the reference: the clamping loop of `FindAlignment` keeps it. -/
def Sound (queryLen refLen : Int) (s : Segment) : Prop :=
  0 ≤ s.QueryStart ∧ s.QueryStart ≤ s.QueryEnd ∧ s.QueryEnd < queryLen ∧
  s.RefStart ≤ s.RefEnd ∧ s.RefStart < refLen

/-- The anchor lies inside both strings and spans at least nine reference
positions. -/
def AnchorGood {F : Type} (queryLen refLen : Int) (a : AnchorMatch F) : Prop :=
  0 ≤ a.QueryStart ∧ a.QueryStart ≤ a.QueryEnd ∧ a.QueryEnd < queryLen ∧
  0 ≤ a.RefStart ∧ a.RefStart + 8 ≤ a.RefEnd ∧ a.RefEnd < refLen

/-- What the proofs need of the `float64` test of `canMerge`: when the reference
gap is negative (and the query gap is not), the test only passes if the two gaps
differ by at most `5`; the bound `max(5, min(qGap, rGap) * 0.55)` is then `5`. -/
def MergeTestSound {F : Type} (fl : FloatOps F) : Prop :=
  ∀ qGap rGap : Int, 0 ≤ qGap → rGap < 0 →
    fl.le (fl.abs (fl.ofInt (qGap - rGap)))
      (fl.max (fl.lit 5)
        (fl.mul (fl.min (fl.ofInt qGap) (fl.ofInt rGap)) (fl.lit MaxGapRatioDifference))) = true →
    qGap - rGap ≤ 5

/-- What the coverage pass finds for the uncovered region `R`: segments inside the
region that the clamping loop keeps, pairwise apart in the query, of which a short
one ends the region and either starts it or follows another one at once. -/
def RegionOk (queryLen refLen : Int) (R : Int × Int) (L : List Segment) : Prop :=
  (∀ x ∈ L, Sound queryLen refLen x ∧ R.1 ≤ x.QueryStart ∧ x.QueryEnd ≤ R.2) ∧
  L.Pairwise QDisjoint ∧
  ∀ x ∈ L, ¬ Long x →
    x.QueryEnd = R.2 ∧ (x.QueryStart = R.1 ∨ ∃ t ∈ L, t.QueryEnd + 1 = x.QueryStart)

/-- The triple `m` is an exact match of length `k`: the `k`-mer of `Q` at
`m.QueryPos` and the `k`-mer of `R` at `m.RefPos` exist and are equal. -/
def IsExactMatch (Q R : Str) (k : Int) (m : KmerMatch) : Prop :=
  m.Length = k ∧ 0 ≤ m.QueryPos ∧ m.QueryPos + k ≤ strLen Q ∧
  0 ≤ m.RefPos ∧ m.RefPos + k ≤ strLen R ∧
  sliceI Q m.QueryPos (m.QueryPos + k) = sliceI R m.RefPos (m.RefPos + k)

/-- The strict lexicographic order on matches: by query position, then by
reference position. -/
def KmerLexLt (a b : KmerMatch) : Prop :=
  a.QueryPos < b.QueryPos ∨ (a.QueryPos = b.QueryPos ∧ a.RefPos < b.RefPos)

/-- The interval `[g.1, g.2]` is a maximal interval of positions of
`[0, queryLen - 1]` that lie in no query interval of `segs`: all its positions are
uncovered, and it cannot be extended to the left or to the right. -/
def IsMaximalGap (queryLen : Int) (segs : List Segment) (g : Int × Int) : Prop :=
  0 ≤ g.1 ∧ g.1 ≤ g.2 ∧ g.2 < queryLen ∧
  (∀ p, g.1 ≤ p → p ≤ g.2 → ¬ Covered segs p) ∧
  (g.1 = 0 ∨ Covered segs (g.1 - 1)) ∧
  (g.2 = queryLen - 1 ∨ Covered segs (g.2 + 1))

/-- The number of positions that the inclusive intervals `[s1, e1]` and `[s2, e2]`
have in common. -/
def overlapLen (s1 e1 s2 e2 : Int) : Int := max 0 (min e1 e2 - max s1 s2 + 1)

/-- The ratio `ov / len` is not above the threshold `tau` (the ratio counts as `0`
when `len` is not positive). -/
def NotAbove {F : Type} (fl : FloatOps F) (tau : F) (ov len : Int) : Prop :=
  fl.lt tau (if len > 0 then fl.div (fl.ofInt ov) (fl.ofInt len) else fl.lit 0) = false

/-- The overlap of `A` and `B` is within the threshold: the inclusive query
overlap divided by the query length of `B`, and the inclusive reference overlap
divided by the reference length of `B`, are both not above `tau`. -/
def OverlapWithin {F : Type} (fl : FloatOps F) (tau : F) (A B : AnchorMatch F) : Prop :=
  NotAbove fl tau (overlapLen A.QueryStart A.QueryEnd B.QueryStart B.QueryEnd)
      (B.QueryEnd - B.QueryStart + 1) ∧
    NotAbove fl tau (overlapLen A.RefStart A.RefEnd B.RefStart B.RefEnd)
      (B.RefEnd - B.RefStart + 1)

/-- The loop variables of `ExtendMatch` after its forward loop. -/
def extendFwd (query ref : Str) (qS rS k me : Int) : ExtState :=
  fwdLoop query ref (if me = 0 then ExtendMaxErrors else me) (query.length + 1)
    ⟨qS + k, rS + k, 0, k⟩

/-- The loop variables of `ExtendMatch` after its backward loop: `totalMatches` is
the final match count and `errors` is `errorsBwd`. -/
def extendBwd (query ref : Str) (qS rS k me : Int) : ExtState :=
  bwdLoop query ref (if me = 0 then ExtendMaxErrors else me) (query.length + 1)
    ⟨qS - 1, rS - 1, 0, (extendFwd query ref qS rS k me).totalMatches⟩

/-- The identity after the left-context adjustment:
`(identity * L + 0.5 * m_ctx) / (L + 0.5 * c)`. -/
def blendedIdentity {F : Type} (fl : FloatOps F) (identity : F) (L mCtx c : Int) : F :=
  fl.div (fl.add (fl.mul identity (fl.ofInt L)) (fl.mul (fl.ofInt mCtx) (fl.lit (1 / 2))))
    (fl.add (fl.ofInt L) (fl.mul (fl.ofInt c) (fl.lit (1 / 2))))

/-- A query of 77 bases: 17 times `A`, then 30 times `GT`. -/
def contextQuery : Str := List.replicate 17 65 ++ (List.replicate 30 [71, 84]).flatten

/-- A reference of 77 bases: 17 times `C`, then 30 times `GT`. -/
def contextRef : Str := List.replicate 17 67 ++ (List.replicate 30 [71, 84]).flatten

/-- Both start coordinates of the segment are non-negative. -/
def StartsNonneg (s : Segment) : Prop := 0 ≤ s.QueryStart ∧ 0 ≤ s.RefStart

/-- The bytes of the 28-base sequence `ACGTACGTACGTACGTACGTACGTACGT`. -/
def identityInput : Str :=
  [65, 67, 71, 84, 65, 67, 71, 84, 65, 67, 71, 84, 65, 67, 71, 84, 65, 67, 71, 84, 65, 67, 71, 84,
    65, 67, 71, 84]

end Aligner

namespace Aligner

/-- What the coverage pass guarantees of the reference end of a segment: it lies
inside the reference, or the segment is a fallback tile that is longer than the
reference; such a tile starts at reference position `0` and is as long in the
reference as in the query, at most `SmallSegmentLength` positions. -/
def RefEndOk (refLen : Int) (s : Segment) : Prop :=
  s.RefEnd < refLen ∨
    (s.RefStart = 0 ∧ s.RefEnd = s.QueryEnd - s.QueryStart ∧ s.RefEnd < SmallSegmentLength)

/-- The segment invariant as the coverage pass keeps it: the query interval lies
inside the query, the reference interval is not empty and starts inside the
reference, and the reference end is as `RefEndOk` has it. -/
def CoverageOk (queryLen refLen : Int) (s : Segment) : Prop :=
  0 ≤ s.QueryStart ∧ s.QueryStart ≤ s.QueryEnd ∧ s.QueryEnd < queryLen ∧
  0 ≤ s.RefStart ∧ s.RefStart ≤ s.RefEnd ∧ s.RefStart < refLen ∧ RefEndOk refLen s

end Aligner

namespace Aligner

namespace Checked

variable {F : Type}

/-! ## The aligner with its run-time checks

The functions of this section compute what the functions of the same name above
compute, and carry the run-time checks of Go with them: the value `none` stands
for a run-time failure, which is a panic (index out of range, slice bounds out of
range, integer division by zero) or a loop that does not terminate (a loop
running out of fuel, or a `for` loop whose step is not positive).  Loops that
visit a slice by index up to its length, or by `range`, cannot fail and are taken
over from the functions above, as are reads of Go maps. -/

/-- The index expression `s[i]`. -/
def index (s : Str) (i : Int) : Option Nat :=
  if 0 ≤ i ∧ i < strLen s then some (byteAt s i) else none

/-- The slice expression `s[a:b]`. -/
def slice (s : Str) (a b : Int) : Option Str :=
  if 0 ≤ a ∧ a ≤ b ∧ b ≤ strLen s then some (sliceI s a b) else none

/-- The remainder `a % b`, for a dividend that is not negative. -/
def mod (a b : Int) : Option Int := if b = 0 then none else some (a % b)

/-- The values of `j` in `for j := 0; j < n; j += step`; the loop does not
terminate when it is entered with a step that is not positive. -/
def stepRange (n step : Int) : Option (List Int) :=
  if 0 < n ∧ step ≤ 0 then none else some (Aligner.stepRange n step)

/-- A loop that appends to a slice what each round yields. -/
def forEach {α β : Type} (f : α → Option (List β)) : List α → Option (List β)
  | [] => some []
  | x :: xs => do
    let a ← f x
    let b ← forEach f xs
    pure (a ++ b)

/-- The comparison `query[i] == ref[j]`. -/
def eqAt (query ref : Str) (i j : Int) : Option Bool := do
  let a ← index query i
  let b ← index ref j
  pure (decide (a = b))

/-- The condition `c && x`, which evaluates `x` only if `c` holds. -/
def guarded (c : Prop) [Decidable c] (x : Option Bool) : Option Bool :=
  if c then x else some false

/-! ### `matching/extend.go` -/

/-- Body of the forward loop of `ExtendMatch`. -/
def fwdBody (query ref : Str) (s : ExtState) : Option ExtState := do
  let m0 ← eqAt query ref s.q s.r
  if m0 then pure ⟨s.q + 1, s.r + 1, s.errors, s.totalMatches + 1⟩
  else do
    let m1 ← guarded (s.q + 1 < strLen query ∧ s.r < strLen ref)
      (eqAt query ref (s.q + 1) s.r)
    if m1 then pure ⟨s.q + 2, s.r + 1, s.errors + 1, s.totalMatches + 1⟩
    else do
      let m2 ← guarded (s.q + 2 < strLen query ∧ s.r < strLen ref)
        (eqAt query ref (s.q + 2) s.r)
      if m2 then pure ⟨s.q + 3, s.r + 1, s.errors + 1, s.totalMatches + 1⟩
      else do
        let m3 ← guarded (s.r + 1 < strLen ref ∧ s.q < strLen query)
          (eqAt query ref s.q (s.r + 1))
        if m3 then pure ⟨s.q + 1, s.r + 2, s.errors + 1, s.totalMatches + 1⟩
        else do
          let m4 ← guarded (s.r + 2 < strLen ref ∧ s.q < strLen query)
            (eqAt query ref s.q (s.r + 2))
          if m4 then pure ⟨s.q + 1, s.r + 3, s.errors + 1, s.totalMatches + 1⟩
          else pure ⟨s.q + 1, s.r + 1, s.errors + 1, s.totalMatches⟩

/-- Forward loop of `ExtendMatch`; `none` also when the fuel runs out. -/
def fwdLoop (query ref : Str) (maxErrors : Int) : Nat → ExtState → Option ExtState
  | 0, _ => none
  | fuel + 1, s =>
    if s.q < strLen query ∧ s.r < strLen ref ∧ s.errors ≤ maxErrors then do
      let s1 ← fwdBody query ref s
      fwdLoop query ref maxErrors fuel s1
    else some s

/-- Body of the backward loop of `ExtendMatch`. -/
def bwdBody (query ref : Str) (s : ExtState) : Option ExtState := do
  let m0 ← eqAt query ref s.q s.r
  if m0 then pure ⟨s.q - 1, s.r - 1, s.errors, s.totalMatches + 1⟩
  else do
    let m1 ← guarded (s.q - 1 ≥ 0 ∧ s.r ≥ 0) (eqAt query ref (s.q - 1) s.r)
    if m1 then pure ⟨s.q - 2, s.r - 1, s.errors + 1, s.totalMatches + 1⟩
    else do
      let m2 ← guarded (s.q - 2 ≥ 0 ∧ s.r ≥ 0) (eqAt query ref (s.q - 2) s.r)
      if m2 then pure ⟨s.q - 3, s.r - 1, s.errors + 1, s.totalMatches + 1⟩
      else do
        let m3 ← guarded (s.r - 1 ≥ 0 ∧ s.q ≥ 0) (eqAt query ref s.q (s.r - 1))
        if m3 then pure ⟨s.q - 1, s.r - 2, s.errors + 1, s.totalMatches + 1⟩
        else do
          let m4 ← guarded (s.r - 2 ≥ 0 ∧ s.q ≥ 0) (eqAt query ref s.q (s.r - 2))
          if m4 then pure ⟨s.q - 1, s.r - 3, s.errors + 1, s.totalMatches + 1⟩
          else pure ⟨s.q - 1, s.r - 1, s.errors + 1, s.totalMatches⟩

/-- Backward loop of `ExtendMatch`; `none` also when the fuel runs out. -/
def bwdLoop (query ref : Str) (maxErrors : Int) : Nat → ExtState → Option ExtState
  | 0, _ => none
  | fuel + 1, s =>
    if s.q ≥ 0 ∧ s.r ≥ 0 ∧ s.errors ≤ maxErrors then do
      let s1 ← bwdBody query ref s
      bwdLoop query ref maxErrors fuel s1
    else some s

/-- The counting loop `for i := 0; i < n; i++ { if a[i] == b[i] { count++ } }`, over
the values of `i`. -/
def countEq (a b : Str) : List Int → Option Int
  | [] => some 0
  | i :: rest => do
    let m ← eqAt a b i i
    let n ← countEq a b rest
    pure (if m then n + 1 else n)

/-- `matching.ExtendMatch`; the inner `Option` is the pointer it returns. -/
def ExtendMatch (fl : FloatOps F) (query ref : Str) (qStartKmer rStartKmer k : Int)
    (minMatchLengthUser maxErrorsUser : Int) : Option (Option (AnchorMatch F)) := do
  let minMatchLen := if minMatchLengthUser = 0 then MinMatchLength else minMatchLengthUser
  let maxErrors := if maxErrorsUser = 0 then ExtendMaxErrors else maxErrorsUser
  let fwd ← fwdLoop query ref maxErrors (query.length + 1)
    ⟨qStartKmer + k, rStartKmer + k, 0, k⟩
  let bwd ← bwdLoop query ref maxErrors (query.length + 1)
    ⟨qStartKmer - 1, rStartKmer - 1, 0, fwd.totalMatches⟩
  let totalMatches := bwd.totalMatches
  let finalQStart := bwd.q + 1
  let finalRStart := bwd.r + 1
  let finalQEndExclusive := fwd.q
  let finalREndExclusive := fwd.r
  let matchLength := finalQEndExclusive - finalQStart
  if matchLength ≤ 0 then pure none
  else do
    let identity0 := fl.div (fl.ofInt totalMatches) (fl.ofInt matchLength)
    let contextSize := min 20 (matchLength / 4)
    let identity ←
      if matchLength > 50 ∧ finalQStart ≥ contextSize ∧ finalRStart ≥ contextSize then do
        let leftQ ← slice query (finalQStart - contextSize) finalQStart
        let leftR ← slice ref (finalRStart - contextSize) finalRStart
        let leftMatchesCount ← countEq leftQ leftR
          ((List.range contextSize.toNat).map fun (i : Nat) => (i : Int))
        pure (fl.div
          (fl.add (fl.mul identity0 (fl.ofInt matchLength))
            (fl.mul (fl.ofInt leftMatchesCount) (fl.lit (1 / 2))))
          (fl.add (fl.ofInt matchLength) (fl.mul (fl.ofInt contextSize) (fl.lit (1 / 2)))))
      else pure identity0
    let scoreRelevantErrors := bwd.errors
    if matchLength ≥ minMatchLen ∧ fl.le (fl.lit MinIdentityThreshold) identity = true then
      let score := fl.mul (fl.mul (fl.ofInt matchLength) identity)
        (fl.sub (fl.lit 1) (fl.mul (fl.lit (5 / 100)) (fl.ofInt scoreRelevantErrors)))
      pure (some ⟨finalQStart, finalQEndExclusive - 1, finalRStart, finalREndExclusive - 1,
        score, identity, 0⟩)
    else pure none

/-! ### `matching/kmer.go` and `matching/anchor.go` -/

/-- The loop that fills the map `refKmers` of `FindExactMatches`. -/
def buildRefKmers (ref : Str) (k : Int) : Option (Str → List Int) :=
  (List.range (strLen ref - k + 1).toNat).foldlM
    (fun m (i : Nat) => do
      let kmer ← slice ref i (i + k)
      pure (fun key => if key = kmer then m key ++ [(i : Int)] else m key))
    (fun _ => [])

/-- `matching.FindExactMatches(query, ref, k)`. -/
def FindExactMatches (query ref : Str) (k : Int) : Option (List KmerMatch) :=
  let k := if k = 0 then DefaultK else k
  if k ≤ 0 ∨ k > strLen ref ∨ k > strLen query then some []
  else do
    let refKmers ← buildRefKmers ref k
    forEach
      (fun (i : Nat) => do
        let kmer ← slice query i (i + k)
        pure ((refKmers kmer).map fun rPos => ⟨(i : Int), rPos, k⟩))
      (List.range (strLen query - k + 1).toNat)

/-- The loop of `FindAnchors` over the exact matches. -/
def anchorsLoop (fl : FloatOps F) (query ref : Str) (minMatchLen stride maxErrors : Int) :
    List KmerMatch → Nat → List (AnchorMatch F) → (Int → Int → Bool) →
      Option (List (AnchorMatch F))
  | [], _, anchors, _ => some anchors
  | em :: rest, i, anchors, processed => do
    let r ← mod (i : Int) stride
    if r ≠ 0 ∧ processed em.QueryPos em.RefPos = true then
      anchorsLoop fl query ref minMatchLen stride maxErrors rest (i + 1) anchors processed
    else do
      let res ← ExtendMatch fl query ref em.QueryPos em.RefPos em.Length minMatchLen maxErrors
      match res with
      | none =>
        anchorsLoop fl query ref minMatchLen stride maxErrors rest (i + 1) anchors processed
      | some anchor =>
        let matchLen := (anchor.QueryEnd - anchor.QueryStart) + 1
        let strideFactor0 := max 1 (matchLen / 10)
        let strideFactor := if strideFactor0 = 0 then 1 else strideFactor0
        let _ ← stepRange matchLen strideFactor
        anchorsLoop fl query ref minMatchLen stride maxErrors rest (i + 1)
          (anchors ++ [anchor])
          (markProcessed query ref anchor.QueryStart anchor.RefStart matchLen strideFactor
            processed)

/-- `matching.FindAnchors(query, ref, k, minMatchLen, stride, maxErrors)`. -/
def FindAnchors (fl : FloatOps F) (query ref : Str) (k minMatchLen stride maxErrors : Int) :
    Option (List (AnchorMatch F)) :=
  let k := if k = 0 then DefaultK else k
  let minMatchLen := if minMatchLen = 0 then MinMatchLength else minMatchLen
  let stride := if stride = 0 then DefaultStride else stride
  let maxErrors := if maxErrors = 0 then DefaultMaxErrors else maxErrors
  if k ≤ 0 then some []
  else do
    let exactMatches ← FindExactMatches query ref k
    let anchors ← anchorsLoop fl query ref minMatchLen stride maxErrors exactMatches 0 []
      (fun _ _ => false)
    pure (FilterAnchors fl anchors (fl.lit DefaultOverlapThreshold))

/-- `matching.FindReverseAnchors(query, ref, k, minMatchLen, stride, maxErrors)`. -/
def FindReverseAnchors (fl : FloatOps F) (query ref : Str)
    (k minMatchLen stride maxErrors : Int) : Option (List (AnchorMatch F)) := do
  let revRef := ReverseComplement ref
  let anchorsOnRevRef ← FindAnchors fl query revRef k minMatchLen stride maxErrors
  let refOriginalLen := strLen ref
  pure (anchorsOnRevRef.map fun anchor =>
    ⟨anchor.QueryStart, anchor.QueryEnd,
      refOriginalLen - 1 - anchor.RefEnd, refOriginalLen - 1 - anchor.RefStart,
      anchor.Score, anchor.Identity, 0⟩)

/-! ### `regions/process.go` -/

/-- `regions.findMatchesInRegionCore`. -/
def findMatchesInRegionCore (fl : FloatOps F) (queryRegion ref : Str) (minMatchL maxErr : Int)
    (kValuesToTry : List Int) (stride : Int) : Option (List (AnchorMatch F)) :=
  forEach
    (fun k =>
      if k ≤ 0 ∨ k > strLen queryRegion ∨ k > strLen ref then some []
      else do
        let fAnchors ← FindAnchors fl queryRegion ref k minMatchL stride maxErr
        let rAnchors ← FindReverseAnchors fl queryRegion ref k minMatchL stride maxErr
        pure (fAnchors.map (fun anc => { anc with Orientation := 102 }) ++
          rAnchors.map (fun anc => { anc with Orientation := 114 })))
    kValuesToTry

/-- `regions.FindMatchesInRegion`. -/
def FindMatchesInRegion (fl : FloatOps F) (queryRegion ref : Str)
    (minMatchLenUser maxErrorsUser : Int) : Option (List (AnchorMatch F)) :=
  let segmentLen := strLen queryRegion
  if segmentLen = 0 then some []
  else
    let kSize :=
      if segmentLen < 50 then SmallKForShortSegments
      else if segmentLen < 100 then MediumKForShortSegments
      else LargeKForShortSegments
    let minMatchL := if minMatchLenUser = 0 then MinMatchLength else minMatchLenUser
    let maxErr :=
      if maxErrorsUser = 0 then
        (if max 3 (minMatchL / 10) = 0 then 1 else max 3 (minMatchL / 10))
      else maxErrorsUser
    findMatchesInRegionCore fl queryRegion ref minMatchL maxErr [kSize] 1

/-- `regions.FindMatchesInLargeRegion`. -/
def FindMatchesInLargeRegion (fl : FloatOps F) (queryRegion ref : Str)
    (maxSegSizeUser minMatchLenUser maxErrorsUser : Int) : Option (List (AnchorMatch F)) :=
  let regionLen := strLen queryRegion
  if regionLen = 0 then some []
  else
    let maxSegSize := if maxSegSizeUser = 0 then MaxSegmentSize else maxSegSizeUser
    let minMatchL := if minMatchLenUser = 0 then MinMatchLength else minMatchLenUser
    let maxErrDefault := if maxErrorsUser = 0 then DefaultMaxErrors else maxErrorsUser
    if regionLen ≤ maxSegSize then FindMatchesInRegion fl queryRegion ref minMatchL maxErrDefault
    else
      let chunkSize0 := if regionLen > 5000 then LargeRegionChunkSize else maxSegSize
      let overlap0 :=
        if regionLen > 5000 then LargeRegionOverlap
        else fl.trunc (fl.div (fl.ofInt chunkSize0) (fl.lit StandardChunkOverlapRatio))
      let chunkSize := if chunkSize0 ≤ 0 then MaxSegmentSize else chunkSize0
      let overlap1 := if overlap0 < 0 then 0 else overlap0
      let overlap2 :=
        if overlap1 ≥ chunkSize then (if chunkSize / 3 ≤ 0 then 1 else chunkSize / 3)
        else overlap1
      let overlap :=
        if chunkSize - overlap2 ≤ 0 then (if chunkSize > 1 then chunkSize - 1 else 0)
        else overlap2
      do
        let starts ← stepRange regionLen (chunkSize - overlap)
        let found ← forEach
          (fun i =>
            let chunkStart := i
            let chunkEnd := min (i + chunkSize) regionLen
            if chunkEnd - chunkStart < minMatchL then some []
            else do
              let chunk ← slice queryRegion chunkStart chunkEnd
              let chunkLen := strLen chunk
              let kValues :=
                if chunkLen < 100 then VeryShortSegmentKValues
                else if chunkLen < 300 then ShortSegmentKValues
                else LongerSegmentKValues
              let currentMaxErrors :=
                if i = 0 ∨ chunkEnd = regionLen then maxErrDefault + BoundaryExtraErrors
                else maxErrDefault
              let chunkMatches ←
                findMatchesInRegionCore fl chunk ref minMatchL currentMaxErrors kValues 1
              pure (chunkMatches.map
                fun m => { m with QueryStart := m.QueryStart + chunkStart,
                                  QueryEnd := m.QueryEnd + chunkStart }))
          starts
        if found.length = 0 then pure []
        else
          let sorted := sortStable (fun a b => fl.lt b.Score a.Score) found
          pure (largeFilterLoop fl sorted (List.range sorted.length) (sorted.map fun _ => false))

/-! ### `regions/coverage.go` -/

/-- The sampling loop of a fallback tile. -/
def bestSample (fl : FloatOps F) (ref chunkStr : Str) (chunkActualLen : Int) :
    List Int → Int × F → Option (Int × F)
  | [], best => some best
  | rPos :: rest, best => do
    let refChunkStr ← slice ref rPos (rPos + chunkActualLen)
    let matchesCount ← countEq chunkStr refChunkStr
      ((List.range chunkActualLen.toNat).map fun (i : Nat) => (i : Int))
    let score := fl.div (fl.ofInt matchesCount) (fl.ofInt chunkActualLen)
    if fl.lt best.2 score then bestSample fl ref chunkStr chunkActualLen rest (rPos, score)
    else bestSample fl ref chunkStr chunkActualLen rest best

/-- One fallback tile of a long region without matches. -/
def fallbackTile (fl : FloatOps F) (query ref : Str) (qStart regionActualLen chunkOffset : Int) :
    Option (List Segment) :=
  let refLen := strLen ref
  let chunkStep := SmallSegmentLength
  let curChunkStartInRegion := chunkOffset
  let curChunkEndInRegion := min (chunkOffset + chunkStep) regionActualLen
  if curChunkEndInRegion ≤ curChunkStartInRegion then some []
  else do
    let absQChunkStart := qStart + curChunkStartInRegion
    let absQChunkEnd := qStart + curChunkEndInRegion - 1
    let chunkStr ← slice query absQChunkStart (absQChunkEnd + 1)
    let chunkActualLen := strLen chunkStr
    let sampleStep0 := max 1 (refLen / SamplePositionsCount)
    let sampleStep := if sampleStep0 = 0 then 1 else sampleStep0
    let positions ← stepRange (refLen - chunkActualLen + 1) sampleStep
    let best ← bestSample fl ref chunkStr chunkActualLen positions (0, fl.lit (-1))
    pure [⟨absQChunkStart, absQChunkEnd, best.1, best.1 + chunkActualLen - 1⟩]

/-- The single fallback segment of a short region without matches. -/
def fallbackSegment (refLen qStart qEnd : Int) : Option Segment := do
  let regionActualLen := (qEnd - qStart) + 1
  let rMapStart ← mod qStart refLen
  let rMapEnd := rMapStart + regionActualLen - 1
  if rMapEnd ≥ refLen then
    let rMapEnd1 := refLen - 1
    let rMapStart1 := if rMapStart > rMapEnd1 ∧ regionActualLen ≤ refLen then 0 else rMapStart
    let rMapStart2 := if regionActualLen > refLen then 0 else rMapStart1
    pure ⟨qStart, qEnd, rMapStart2, rMapEnd1⟩
  else pure ⟨qStart, qEnd, rMapStart, rMapEnd⟩

/-- The segments that `EnsureCompleteCoverage` finds for one uncovered region. -/
def regionSegments (fl : FloatOps F) (query ref : Str) (region : Int × Int) :
    Option (List Segment) :=
  let qStart := region.1
  let qEnd := region.2
  let regionActualLen := (qEnd - qStart) + 1
  if regionActualLen < VerySmallRegionThreshold then some []
  else do
    let queryRegionStr ← slice query qStart (qEnd + 1)
    let regionMatches ←
      if regionActualLen > 1000 then FindMatchesInLargeRegion fl queryRegionStr ref 500 0 0
      else FindMatchesInRegion fl queryRegionStr ref 0 0
    if regionMatches.length > 0 then
      pure (addRegionMatches qStart
        (sortSlice (fun a b => fl.lt b.Score a.Score) regionMatches) [])
    else if regionActualLen > MaxSegmentSize then do
      let offsets ← stepRange regionActualLen SmallSegmentLength
      forEach (fallbackTile fl query ref qStart regionActualLen) offsets
    else do
      let seg ← fallbackSegment (strLen ref) qStart qEnd
      pure [seg]

/-- The fallback segment for a region, in the final pass of
`EnsureCompleteCoverage`. -/
def finalFallback (refLen : Int) (reg : Int × Int) : Option Segment := do
  let s := reg.1
  let e := reg.2
  let rLen := (e - s) + 1
  let rS ← mod s refLen
  let rE := rS + rLen - 1
  if rE ≥ refLen then
    let rE1 := refLen - 1
    let rS1 := if rS > rE1 ∧ rLen ≤ refLen then 0 else if rLen > refLen then 0 else rS
    pure ⟨s, e, rS1, rE1⟩
  else pure ⟨s, e, rS, rE⟩

/-- `regions.EnsureCompleteCoverage(query, ref, initialSegments)`. -/
def EnsureCompleteCoverage (fl : FloatOps F) (query ref : Str) (initialSegments : List Segment) :
    Option (List Segment) :=
  let queryLen := strLen query
  let refLen := strLen ref
  if queryLen = 0 then some []
  else
    let currentCoverageSegments :=
      sortSlice (fun a b => decide (a.QueryStart < b.QueryStart)) initialSegments
    let uncovered := FindUncoveredRegions queryLen currentCoverageSegments
    if uncovered.length = 0 then some currentCoverageSegments
    else do
      let newlyFoundSegments ← forEach (regionSegments fl query ref) uncovered
      let allSegments := sortSlice (fun a b => decide (a.QueryStart < b.QueryStart))
        (currentCoverageSegments ++ newlyFoundSegments)
      let resolvedWithPreference :=
        match allSegments with
        | [] => []
        | first :: rest => preferWalk initialSegments first [] rest
      let finalUncovered := FindUncoveredRegions queryLen resolvedWithPreference
      if finalUncovered.length > 0 then do
        let fallbacks ← forEach
          (fun reg => do
            let seg ← finalFallback refLen reg
            pure [seg])
          finalUncovered
        pure (ResolveOverlaps (resolvedWithPreference ++ fallbacks))
      else pure resolvedWithPreference

end Checked

end Aligner

/-! ## The `float64` sums of the chaining step

`exactOps` carries every operation out on the rationals.  The chaining step adds
scores in `float64` (`dist[u] + weight`, `graph/pathfinder.go`), and a `float64`
sum is the exact sum rounded to the nearest value with a 53-bit significand, ties
to even.  `f64Ops` is the arithmetic with this rounding, on the same carrier: a
finite `float64` is the rational number it denotes.  The carrier has no `+Inf` and
no `NaN`, so the model is that of `float64` for results of magnitude below
`2^1024`; `F64Rep` states that a rational is such a value. -/

namespace Aligner

/-- The number of binary digits of `n`, by repeated halving. -/
def bitLen : Nat → Nat → Nat
  | 0, _ => 0
  | fuel + 1, n => if n = 0 then 0 else bitLen fuel (n / 2) + 1

/-- The exponent of the leading binary digit of `|q|`: the largest `e` with
`2^e ≤ |q|`, for `q ≠ 0`. -/
def ilog2 (q : ℚ) : Int :=
  let a : Int := (bitLen q.num.natAbs q.num.natAbs : Int) - (bitLen q.den q.den : Int)
  if (2 : ℚ) ^ a ≤ |q| then a else a - 1

/-- Rounding of a rational to the nearest integer, ties to the even one. -/
def roundHalfEven (x : ℚ) : Int :=
  let f := ⌊x⌋
  let r := x - (f : ℚ)
  if r < 1 / 2 then f
  else if 1 / 2 < r then f + 1
  else if f % 2 = 0 then f else f + 1

/-- Rounding of a rational to `float64`: to the nearest multiple of the unit in the
last place, `2^(e - 52)` for the exponent `e` of the leading digit (and `2^(-1074)`
for the subnormal values), ties to even. -/
def roundF64 (q : ℚ) : ℚ :=
  if q = 0 then 0
  else
    let e : Int := max (ilog2 q) (-1022)
    let ulp : ℚ := (2 : ℚ) ^ (e - 52)
    (roundHalfEven (q / ulp) : ℚ) * ulp

/-- The rational `q` is a finite `float64` value. -/
def F64Rep (q : ℚ) : Prop := |q| < (2 : ℚ) ^ (1024 : Nat) ∧ roundF64 q = q

instance (q : ℚ) : Decidable (F64Rep q) := by
  unfold F64Rep
  exact inferInstance

/-- Rounding of a value of the carrier; `-Inf` is kept. -/
def roundE : Exact → Exact
  | .negInf => .negInf
  | .fin q => .fin (roundF64 q)

/-- The arithmetic of `float64`: every result is rounded; the comparisons, the
minimum, the maximum, the absolute value and the truncation are exact. -/
def f64Ops : FloatOps Exact where
  ofInt n := .fin (roundF64 n)
  lit q := .fin (roundF64 q)
  add a b := roundE (exactOps.add a b)
  sub a b := roundE (exactOps.sub a b)
  mul a b := roundE (exactOps.mul a b)
  div a b := roundE (exactOps.div a b)
  lt := exactOps.lt
  le := exactOps.le
  eq := exactOps.eq
  max := exactOps.max
  min := exactOps.min
  abs := exactOps.abs
  negInf := exactOps.negInf
  trunc := exactOps.trunc

/-- The sum of the scores of every chain of the anchors is a finite `float64`
value: no sum of scores along a chain is rounded. -/
def ChainSumsExact (anchors : List (AnchorMatch Exact)) : Prop :=
  ∀ c, IsChain anchors c → F64Rep (chainScore anchors c)

/-- Every finite distance of the longest-path loop is the sum of the scores of a
chain that ends at the node (of any chain, for the sink), and the distance of the
source is `0`. -/
def ChainDist (anchors : List (AnchorMatch Exact))
    (dp : (Int → Exact) × (Int → Option Int)) : Prop :=
  dp.1 (-1) = .fin 0 ∧
  ∀ v d, v ≠ -1 → dp.1 v = .fin d →
    ∃ c, IsChain anchors c ∧ chainScore anchors c = d ∧
      (v < (anchors.length : Int) → c.getLast? = some v)

end Aligner

namespace Dup

/-! ## Suffix automaton: path semantics -/

theorem run_append (st : List State) (v : Nat) (w₁ w₂ : Str) :
    run st v (w₁ ++ w₂) = (run st v w₁).bind (fun u => run st u w₂) := by
  induction w₁ generalizing v with
  | nil => simp [run]
  | cons c cs ih =>
    simp only [List.cons_append, run]
    cases h : (stateAt st v).next c with
    | none => simp
    | some u => simpa using ih u

theorem run_snoc (st : List State) (v : Nat) (w : Str) (d : Nat) :
    run st v (w ++ [d]) = (run st v w).bind (fun u => (stateAt st u).next d) := by
  rw [run_append]
  congr 1
  funext u
  simp only [run]
  cases (stateAt st u).next d <;> rfl

theorem run_init_some {st : List State} {v : Nat} {w₁ w₂ : Str} {u : Nat}
    (h : run st v (w₁ ++ w₂) = some u) : ∃ x, run st v w₁ = some x := by
  rw [run_append] at h
  cases h1 : run st v w₁ with
  | none => simp [h1] at h
  | some x => exact ⟨x, rfl⟩

/-- The loop of `FindMaxMatch` consumes exactly the longest runnable prefix. -/
theorem matchFrom_le (st : List State) (v : Nat) (w : Str) : matchFrom st v w ≤ w.length := by
  induction w generalizing v with
  | nil => simp [matchFrom]
  | cons c cs ih =>
    simp only [matchFrom]
    cases (stateAt st v).next c with
    | none => simp
    | some u => simpa using ih u

theorem matchFrom_run (st : List State) (v : Nat) (w : Str) :
    ∃ u, run st v (w.take (matchFrom st v w)) = some u := by
  induction w generalizing v with
  | nil => exact ⟨v, by simp [matchFrom, run]⟩
  | cons c cs ih =>
    simp only [matchFrom]
    cases h : (stateAt st v).next c with
    | none => exact ⟨v, by simp [run]⟩
    | some u =>
      obtain ⟨x, hx⟩ := ih u
      exact ⟨x, by simp [run, h, hx]⟩

theorem matchFrom_max (st : List State) (v : Nat) (w : Str) (l : Nat) (u : Nat)
    (hl : l ≤ w.length) (h : run st v (w.take l) = some u) : l ≤ matchFrom st v w := by
  induction w generalizing v l with
  | nil => simp at hl; simp [hl]
  | cons c cs ih =>
    cases l with
    | zero => simp
    | succ l =>
      simp only [List.take_succ_cons, run] at h
      simp only [matchFrom]
      cases h1 : (stateAt st v).next c with
      | none => simp [h1] at h
      | some x =>
        simp only [h1] at h
        have := ih x l (by simpa using hl) h
        simpa using this

/-! ## State-array updates, pointwise -/

theorem stateAt_of_lt {st : List State} {v : Nat} (h : v < st.length) :
    stateAt st v = st[v] := by
  simp [stateAt, List.getD_eq_getElem?_getD, List.getElem?_eq_getElem h]

theorem stateAt_set (st : List State) (p : Nat) (x : State) (v : Nat) (hp : p < st.length) :
    stateAt (st.set p x) v = if v = p then x else stateAt st v := by
  unfold stateAt
  simp only [List.getD_eq_getElem?_getD, List.getElem?_set]
  by_cases h : v = p
  · subst h; simp [hp]
  · have : ¬ p = v := fun e => h e.symm
    simp [h, this]

theorem stateAt_append_left (st : List State) (x : State) (v : Nat) (h : v < st.length) :
    stateAt (st ++ [x]) v = stateAt st v := by
  unfold stateAt
  simp [List.getD_eq_getElem?_getD, List.getElem?_append_left h]

theorem stateAt_append_self (st : List State) (x : State) :
    stateAt (st ++ [x]) st.length = x := by
  unfold stateAt
  simp [List.getD_eq_getElem?_getD]

theorem length_setNext (st : List State) (p c v : Nat) : (setNext st p c v).length = st.length := by
  simp [setNext]

theorem length_setLink (st : List State) (p : Nat) (l : Int) : (setLink st p l).length = st.length := by
  simp [setLink]

theorem length_setLen (st : List State) (p n : Nat) : (setLen st p n).length = st.length := by
  simp [setLen]

theorem stateAt_setNext (st : List State) (p c x v : Nat) (hp : p < st.length) :
    stateAt (setNext st p c x) v =
      if v = p then { stateAt st p with next := fun k => if k = c then some x else (stateAt st p).next k }
      else stateAt st v := by
  simp [setNext, stateAt_set _ _ _ _ hp]

theorem stateAt_setLink (st : List State) (p : Nat) (l : Int) (v : Nat) (hp : p < st.length) :
    stateAt (setLink st p l) v = if v = p then { stateAt st p with link := l } else stateAt st v := by
  simp [setLink, stateAt_set _ _ _ _ hp]

theorem setLen_self (st : List State) (p n : Nat) (h : (stateAt st p).len = n) :
    setLen st p n = st := by
  unfold setLen
  by_cases hp : p < st.length
  · have e : stateAt st p = st[p] := stateAt_of_lt hp
    have : ({ stateAt st p with len := n } : State) = st[p] := by
      rw [← h, e]
    rw [this]
    apply List.ext_getElem (by simp)
    intro i h1 h2
    by_cases hi : p = i
    · subst hi; simp
    · simp [List.getElem_set, hi]
  · exact List.set_eq_of_length_le (by omega)

end Dup

namespace Dup

/-! ## The invariant of the online construction -/

namespace Inv

variable {s : Str} {A : SAM} {rep : Nat → Str}

theorem size_pos (h : Inv s A rep) : 0 < A.size := by
  have := h.last_lt; omega

theorem minLen_zero (h : Inv s A rep) : minLen A.states 0 = 0 := by
  simp [minLen, h.link_zero]

theorem minLen_pos (h : Inv s A rep) {v u : Nat} (_hv : v < A.size)
    (hl : (stateAt A.states v).link = (u : Int)) (hu : u < A.size) :
    minLen A.states v = (rep u).length + 1 := by
  have : ¬ ((u : Int) = -1) := by omega
  simp [minLen, hl, this, h.len_rep u hu]

theorem minLen_le (h : Inv s A rep) {v : Nat} (hv : v < A.size) :
    minLen A.states v ≤ (rep v).length := by
  by_cases h0 : v = 0
  · subst h0; simp [h.minLen_zero]
  · obtain ⟨u, hl, hu, _, hlt⟩ := h.link_pos v hv h0
    rw [h.minLen_pos hv hl hu]; omega

theorem rep_run (h : Inv s A rep) {v : Nat} (hv : v < A.size) :
    run A.states 0 (rep v) = some v :=
  (h.run_iff v hv (rep v)).2 ⟨List.suffix_refl _, h.minLen_le hv⟩

theorem run_suffix (h : Inv s A rep) {w : Str} {v : Nat}
    (hr : run A.states 0 w = some v) : w <:+ rep v :=
  ((h.run_iff v (h.run_lt w v hr) w).1 hr).1

theorem rep_occurs (h : Inv s A rep) {v : Nat} (hv : v < A.size) : rep v <:+: s :=
  (h.run_occurs (rep v)).1 ⟨v, h.rep_run hv⟩

theorem rep_length_le (h : Inv s A rep) {v : Nat} (hv : v < A.size) :
    (rep v).length ≤ s.length := (h.rep_occurs hv).length_le

/-- A transition out of a state leads where its longest string leads. -/
theorem next_run (_h : Inv s A rep) {w : Str} {v : Nat} (hr : run A.states 0 w = some v)
    (d : Nat) : run A.states 0 (w ++ [d]) = (stateAt A.states v).next d := by
  rw [run_snoc, hr]; rfl

theorem next_lt (h : Inv s A rep) {v d u : Nat} (hv : v < A.size)
    (hn : (stateAt A.states v).next d = some u) : u < A.size :=
  h.run_lt (rep v ++ [d]) u (by rw [h.next_run (h.rep_run hv), hn])

theorem run_zero (h : Inv s A rep) {w : Str} (hr : run A.states 0 w = some 0) : w = [] := by
  have := h.run_suffix hr
  rw [h.rep_zero] at this
  exact List.suffix_nil.1 this

theorem next_ne_zero (h : Inv s A rep) {v d u : Nat} (hv : v < A.size)
    (hn : (stateAt A.states v).next d = some u) : u ≠ 0 := by
  intro h0
  subst h0
  have hr : run A.states 0 (rep v ++ [d]) = some 0 := by
    rw [h.next_run (h.rep_run hv), hn]
  have := h.run_zero hr
  simp at this

theorem nextOr0_eq_zero (h : Inv s A rep) {v d : Nat} (hv : v < A.size) :
    nextOr0 A.states v d = 0 ↔ (stateAt A.states v).next d = none := by
  unfold nextOr0
  cases hn : (stateAt A.states v).next d with
  | none => simp
  | some u => simpa using h.next_ne_zero hv hn

/-- The suffixes of the longest string of a state are spread over the states
of its suffix-link chain. -/
theorem suffix_class (h : Inv s A rep) : ∀ (n x : Nat), x < A.size → (rep x).length ≤ n →
    ∀ w, w <:+ rep x → ∃ y, y < A.size ∧ run A.states 0 w = some y ∧ rep y <:+ rep x := by
  intro n
  induction n with
  | zero =>
    intro x hx hn w hw
    have hx0 : rep x = [] := List.length_eq_zero.1 (Nat.le_zero.1 hn)
    rw [hx0] at hw
    have hw0 : w = [] := List.suffix_nil.1 hw
    subst hw0
    refine ⟨0, h.size_pos, rfl, ?_⟩
    rw [h.rep_zero]; exact List.nil_suffix
  | succ n ih =>
    intro x hx hn w hw
    by_cases hm : minLen A.states x ≤ w.length
    · exact ⟨x, hx, (h.run_iff x hx w).2 ⟨hw, hm⟩, List.suffix_refl _⟩
    · have h0 : x ≠ 0 := by
        intro e; subst e; rw [h.minLen_zero] at hm; omega
      obtain ⟨u, hl, hu, hsuf, hlt⟩ := h.link_pos x hx h0
      rw [h.minLen_pos hx hl hu] at hm
      have hwu : w <:+ rep u := List.suffix_of_suffix_length_le hw hsuf (by omega)
      obtain ⟨y, hy, hry, hys⟩ := ih u hu (by omega) w hwu
      exact ⟨y, hy, hry, hys.trans hsuf⟩

/-- A string that is a suffix of `s` leads to a state whose longest string is a
suffix of `s` too. -/
theorem run_of_suffix (h : Inv s A rep) {w : Str} (hw : w <:+ s) :
    ∃ y, y < A.size ∧ run A.states 0 w = some y ∧ rep y <:+ s := by
  have := h.suffix_class (rep A.last).length A.last h.last_lt (le_refl _) w (by rw [h.rep_last]; exact hw)
  rw [h.rep_last] at this
  exact this

theorem rep_suffix_of_run (h : Inv s A rep) {w : Str} {v : Nat} (hw : w <:+ s)
    (hr : run A.states 0 w = some v) : rep v <:+ s := by
  obtain ⟨y, _, hry, hys⟩ := h.run_of_suffix hw
  rw [hr] at hry
  cases hry
  exact hys

/-- Two states with the same longest string coincide. -/
theorem rep_inj (h : Inv s A rep) {u v : Nat} (hu : u < A.size) (hv : v < A.size)
    (e : rep u = rep v) : u = v := by
  have h1 := h.rep_run hu
  have h2 := h.rep_run hv
  rw [e, h2] at h1
  exact (Option.some.inj h1).symm

end Inv

end Dup

namespace Dup

/-! ## The two loops of `Extend` -/

/-- The first loop is the second one with the test value `0` (a missing key). -/
theorem walkSet_eq (c cur : Nat) : ∀ (fuel : Nat) (p : Int) (st : List State),
    walkSet c cur fuel p st = walkRedirect c 0 cur fuel p st := by
  intro fuel
  induction fuel with
  | zero => intro p st; rfl
  | succ fuel ih =>
    intro p st
    unfold walkSet walkRedirect
    by_cases h : p ≠ -1 ∧ nextOr0 st p.toNat c = 0
    · rw [if_pos h, if_pos h, ih]
    · rw [if_neg h, if_neg h]

theorem above_step {s : Str} {A : SAM} {rep : Nat → Str} (hInv : Inv s A rep)
    {n : Nat} (hn : n < A.size) (hns : rep n <:+ s) {v : Nat} (hv : v < A.size)
    (hvs : rep v <:+ s) :
    above rep (stateAt A.states n).link v ↔ (above rep (n : Int) v ∨ v = n) := by
  have hcast : ¬ ((n : Int) = -1) := by omega
  by_cases h0 : n = 0
  · subst h0
    simp only [above, hInv.link_zero, true_or, true_iff, Int.toNat_ofNat, hcast, false_or]
    by_cases hv0 : (rep v).length = 0
    · right
      apply hInv.rep_inj hv hn
      rw [hInv.rep_zero]
      exact List.length_eq_zero.1 hv0
    · left
      rw [hInv.rep_zero]; simp; omega
  · obtain ⟨u, hl, hu, hsuf, hlt⟩ := hInv.link_pos n hn h0
    have hcu : ¬ ((u : Int) = -1) := by omega
    simp only [above, hl, hcu, false_or, Int.toNat_ofNat, hcast]
    constructor
    · intro hlv
      by_cases hle : (rep n).length < (rep v).length
      · exact Or.inl hle
      · right
        have hsuf2 : rep v <:+ rep n := List.suffix_of_suffix_length_le hvs hns (by omega)
        have hr : run A.states 0 (rep v) = some n :=
          (hInv.run_iff n hn (rep v)).2 ⟨hsuf2, by rw [hInv.minLen_pos hn hl hu]; omega⟩
        rw [hInv.rep_run hv] at hr
        exact Option.some.inj hr
    · rintro (h1 | h1)
      · omega
      · subst h1; exact hlt

theorem walk_spec {s : Str} {A : SAM} {rep : Nat → Str} (hInv : Inv s A rep)
    (c b t newv : Nat) (T : Option Nat) (base : List State)
    (hbs : rep b <:+ s) (hlenb : A.size ≤ base.length)
    (hlink : ∀ v, v < A.size → (stateAt base v).link = (stateAt A.states v).link)
    (htest : ∀ m, m < A.size → rep m <:+ rep b →
      (nextOr0 base m c = t ↔ (stateAt A.states m).next c = T)) :
    ∀ (fuel : Nat) (p : Int) (st : List State), WalkInv A rep c b T newv base p st →
      (p = -1 → 1 ≤ fuel) → (∀ n : Nat, p = (n : Int) → (rep n).length + 2 ≤ fuel) →
      ∃ p' st', walkRedirect c t newv fuel p st = some (p', st') ∧
        WalkInv A rep c b T newv base p' st' ∧
        (∀ n : Nat, p' = (n : Int) → (stateAt A.states n).next c ≠ T) := by
  intro fuel
  induction fuel with
  | zero =>
    intro p st hW h1 h2
    rcases hW.p_ok with hp | ⟨n, hp, _, _⟩
    · have := h1 hp; omega
    · have := h2 n hp; omega
  | succ fuel ih =>
    intro p st hW h1 h2
    unfold walkRedirect
    by_cases hcond : p ≠ -1 ∧ nextOr0 st p.toNat c = t
    · rw [if_pos hcond]
      obtain ⟨hp1, hnx⟩ := hcond
      rcases hW.p_ok with hp | ⟨n, hp, hn, hnb⟩
      · exact absurd hp hp1
      · subst hp
        have hns : rep n <:+ s := hnb.trans hbs
        simp only [Int.toNat_ofNat] at hnx ⊢
        have hnab : ¬ above rep (n : Int) n := by
          simp [above]
        have hsame : (stateAt st n).next c = (stateAt base n).next c :=
          hW.next_same n c (fun hh => hnab hh.2.2.2)
        have hT : (stateAt A.states n).next c = T := by
          rw [← htest n hn hnb]
          unfold nextOr0 at hnx ⊢
          rw [← hsame]; exact hnx
        have hlk : (stateAt st n).link = (stateAt A.states n).link := by
          rw [hW.link_eq, hlink n hn]
        have hnlt : n < st.length := by rw [hW.length_eq]; omega
        have hW2 : WalkInv A rep c b T newv base (stateAt st n).link (setNext st n c newv) := by
          rw [hlk]
          refine ⟨?_, ?_, ?_, ?_, ?_, ?_, ?_⟩
          · rw [length_setNext]; exact hW.length_eq
          · intro v
            rw [stateAt_setNext _ _ _ _ _ hnlt]
            by_cases hvn : v = n
            · subst hvn; simp; exact hW.len_eq v
            · simp [hvn]; exact hW.len_eq v
          · intro v
            rw [stateAt_setNext _ _ _ _ _ hnlt]
            by_cases hvn : v = n
            · subst hvn; simp; exact hW.link_eq v
            · simp [hvn]; exact hW.link_eq v
          · intro v hv hvb hab
            rw [stateAt_setNext _ _ _ _ _ hnlt]
            by_cases hvn : v = n
            · subst hvn; simp
            · simp only [hvn, if_false]
              rcases (above_step hInv hn hns hv (hvb.trans hbs)).1 hab with h3 | h3
              · exact hW.next_mod v hv hvb h3
              · exact absurd h3 hvn
          · intro v d hnot
            rw [stateAt_setNext _ _ _ _ _ hnlt]
            by_cases hvn : v = n
            · subst hvn
              have hdc : d ≠ c := by
                intro hdc
                exact hnot ⟨hdc, hn, hnb, (above_step hInv hn hns hn hns).2 (Or.inr rfl)⟩
              simp only [if_true, hdc, if_false]
              exact hW.next_same v d (fun hh => hdc hh.1)
            · simp only [hvn, if_false]
              apply hW.next_same v d
              rintro ⟨h4, h5, h6, h7⟩
              exact hnot ⟨h4, h5, h6, (above_step hInv hn hns h5 (h6.trans hbs)).2 (Or.inl h7)⟩
          · intro v hv hvb hab
            rcases (above_step hInv hn hns hv (hvb.trans hbs)).1 hab with h3 | h3
            · exact hW.all_T v hv hvb h3
            · subst h3; exact hT
          · by_cases h0 : n = 0
            · subst h0; left; exact hInv.link_zero
            · obtain ⟨u, hl, hu, hsuf, _⟩ := hInv.link_pos n hn h0
              right
              exact ⟨u, hl, hu, hsuf.trans hnb⟩
        have hf := h2 n rfl
        apply ih _ _ hW2
        · intro _; omega
        · intro m hm
          rw [hlk] at hm
          by_cases h0 : n = 0
          · subst h0; rw [hInv.link_zero] at hm; omega
          · obtain ⟨u, hl, hu, _, hlt⟩ := hInv.link_pos n hn h0
            rw [hl] at hm
            have : u = m := by omega
            subst this; omega
    · rw [if_neg hcond]
      refine ⟨p, st, rfl, hW, ?_⟩
      intro n hp
      subst hp
      rcases hW.p_ok with hp | ⟨m, hp, hm, hmb⟩
      · omega
      · have hmn : m = n := by omega
        subst hmn
        have hnab : ¬ above rep (m : Int) m := by
          simp [above]
        have hsame : (stateAt st m).next c = (stateAt base m).next c :=
          hW.next_same m c (fun hh => hnab hh.2.2.2)
        intro hT
        apply hcond
        refine ⟨by omega, ?_⟩
        simp only [Int.toNat_ofNat]
        have := (htest m hm hmb).2 hT
        unfold nextOr0 at this ⊢
        rw [hsame]; exact this

/-- When the walk has stopped, the rewritten states are exactly those that had
the `c`-transition `T`, provided having it is inherited by longer suffixes. -/
theorem walk_final {A : SAM} {rep : Nat → Str} {c b : Nat} {T : Option Nat} {newv : Nat}
    {base : List State} {p : Int} {st : List State}
    (hW : WalkInv A rep c b T newv base p st)
    (hexit : ∀ n : Nat, p = (n : Int) → (stateAt A.states n).next c ≠ T)
    (hmono : ∀ m v, m < A.size → v < A.size → rep m <:+ rep b → rep v <:+ rep m →
      (stateAt A.states v).next c = T → (stateAt A.states m).next c = T)
    {v : Nat} (hv : v < A.size) (hvb : rep v <:+ rep b) :
    above rep p v ↔ (stateAt A.states v).next c = T := by
  constructor
  · exact hW.all_T v hv hvb
  · intro hT
    rcases hW.p_ok with hp | ⟨n, hp, hn, hnb⟩
    · exact Or.inl hp
    · subst hp
      right
      simp only [Int.toNat_ofNat]
      by_contra hle
      have hsuf : rep v <:+ rep n := List.suffix_of_suffix_length_le hvb hnb (by omega)
      exact hexit n rfl (hmono n v hn hv hnb hsuf hT)

end Dup

namespace Dup

/-! ## Paths of the extended automaton -/

theorem snoc_suffix_snoc {u s : Str} {d c : Nat} :
    u ++ [d] <:+ s ++ [c] ↔ d = c ∧ u <:+ s := by
  rw [List.suffix_concat_iff]
  constructor
  · rintro (h | ⟨t, ht, hts⟩)
    · simp at h
    · obtain ⟨h1, h2⟩ := List.append_inj' ht rfl
      subst h1
      simp at h2
      exact ⟨h2, hts⟩
  · rintro ⟨rfl, h⟩
    exact Or.inr ⟨u, rfl, h⟩

theorem infix_of_snoc {u s : Str} {d : Nat} (h : u ++ [d] <:+: s) : u <:+: s :=
  (List.prefix_append u [d]).isInfix.trans h

theorem run_new {s : Str} {A : SAM} {rep : Nat → Str} (hInv : Inv s A rep) (c : Nat)
    (st' : List State) (q xl clone : Nat) (W : Nat → Prop) (hq0 : q ≠ 0)
    (hcur : ∀ d, (stateAt st' A.size).next d = none)
    (hmod : ∀ v, v < A.size → rep v <:+ s → (stateAt A.states v).next c = none →
      (stateAt st' v).next c = some A.size)
    (hred : ∀ v, W v → (stateAt st' v).next c = some clone)
    (hsame : ∀ v d, v < A.size →
      ¬ (d = c ∧ rep v <:+ s ∧ (stateAt A.states v).next c = none) → ¬ (d = c ∧ W v) →
      (stateAt st' v).next d = (stateAt A.states v).next d)
    (hclone_mod : xl ≠ 0 → rep q <:+ s → (stateAt A.states q).next c = none →
      (stateAt st' clone).next c = some A.size)
    (hclone_same : ∀ d, xl ≠ 0 →
      ¬ (d = c ∧ rep q <:+ s ∧ (stateAt A.states q).next c = none) →
      (stateAt st' clone).next d = (stateAt A.states q).next d)
    (hWs : ∀ v, W v → v < A.size ∧ rep v <:+ s ∧ (stateAt A.states v).next c = some q ∧
      (rep v).length + 1 ≤ xl)
    (hWc : ∀ u d v, run A.states 0 u = some v → run A.states 0 (u ++ [d]) = some q →
      u.length + 1 ≤ xl → d = c ∧ W v) :
    ∀ w : Str,
      (w <:+: s → (run A.states 0 w = some q → xl < w.length) →
        run st' 0 w = run A.states 0 w) ∧
      (w <:+: s → run A.states 0 w = some q → w.length ≤ xl → run st' 0 w = some clone) ∧
      (¬ w <:+: s → w <:+ s ++ [c] → run st' 0 w = some A.size) ∧
      (¬ w <:+: s → ¬ w <:+ s ++ [c] → run st' 0 w = none) := by
  intro w
  induction w using List.reverseRecOn with
  | nil =>
    refine ⟨fun _ _ => rfl, ?_, ?_, ?_⟩
    · intro _ h0 _
      simp only [run, Option.some.injEq] at h0
      exact absurd h0.symm hq0
    · intro h; exact absurd (List.nil_infix) h
    · intro h; exact absurd (List.nil_infix) h
  | append_singleton u d ih =>
    obtain ⟨ih1, ih2, ih3, ih4⟩ := ih
    by_cases hu : u <:+: s
    · obtain ⟨v, hv⟩ := (hInv.run_occurs u).2 hu
      have hvlt : v < A.size := hInv.run_lt u v hv
      have hrw : run A.states 0 (u ++ [d]) = (stateAt A.states v).next d := hInv.next_run hv d
      have husuf : u <:+ rep v := hInv.run_suffix hv
      -- the three facts below hold as soon as the new path mirrors the old one
      have mirror : ∀ (x : Nat), run st' 0 u = some x →
          ((d = c ∧ rep v <:+ s ∧ (stateAt A.states v).next c = none) →
            (stateAt st' x).next c = some A.size) →
          (¬ (d = c ∧ rep v <:+ s ∧ (stateAt A.states v).next c = none) →
            (stateAt st' x).next d = some clone ∧ d = c ∧ W v ∨
            (stateAt st' x).next d = (stateAt A.states v).next d ∧
              (run A.states 0 (u ++ [d]) = some q → u.length + 1 ≤ xl → False)) →
          (u ++ [d] <:+: s → (run A.states 0 (u ++ [d]) = some q → xl < (u ++ [d]).length) →
            run st' 0 (u ++ [d]) = run A.states 0 (u ++ [d])) ∧
          (u ++ [d] <:+: s → run A.states 0 (u ++ [d]) = some q → (u ++ [d]).length ≤ xl →
            run st' 0 (u ++ [d]) = some clone) ∧
          (¬ u ++ [d] <:+: s → u ++ [d] <:+ s ++ [c] → run st' 0 (u ++ [d]) = some A.size) ∧
          (¬ u ++ [d] <:+: s → ¬ u ++ [d] <:+ s ++ [c] → run st' 0 (u ++ [d]) = none) := by
        intro x hx hA hB
        have hrw' : run st' 0 (u ++ [d]) = (stateAt st' x).next d := by
          rw [run_snoc, hx]; rfl
        by_cases hV : d = c ∧ rep v <:+ s ∧ (stateAt A.states v).next c = none
        · obtain ⟨hdc, hvs, hnone⟩ := hV
          subst hdc
          have hnot : ¬ u ++ [d] <:+: s := by
            intro hi
            obtain ⟨y, hy⟩ := (hInv.run_occurs _).2 hi
            rw [hrw, hnone] at hy; cases hy
          have hsuf : u ++ [d] <:+ s ++ [d] := snoc_suffix_snoc.2 ⟨rfl, husuf.trans hvs⟩
          refine ⟨fun h => absurd h hnot, fun h => absurd h hnot, ?_, fun _ h => absurd hsuf h⟩
          intro _ _
          rw [hrw']; exact hA ⟨rfl, hvs, hnone⟩
        · rcases hB hV with ⟨hnx, hdc, hWv⟩ | ⟨hnx, hno⟩
          · subst hdc
            obtain ⟨_, hvs, hvq, hlen⟩ := hWs v hWv
            have hrq : run A.states 0 (u ++ [d]) = some q := by rw [hrw, hvq]
            have hinf : u ++ [d] <:+: s := (hInv.run_occurs _).1 ⟨q, hrq⟩
            have hlen2 : (u ++ [d]).length ≤ xl := by
              have := husuf.length_le
              simp; omega
            refine ⟨?_, ?_, fun h => absurd hinf h, fun h => absurd hinf h⟩
            · intro _ h; have := h hrq; omega
            · intro _ _ _; rw [hrw']; exact hnx
          · have hrr : run st' 0 (u ++ [d]) = run A.states 0 (u ++ [d]) := by
              rw [hrw', hrw, hnx]
            refine ⟨fun _ _ => hrr, ?_, ?_, ?_⟩
            · intro _ hrq hl
              exfalso; apply hno hrq
              simp at hl; omega
            · intro hni hsuf
              exfalso
              obtain ⟨hdc, hus⟩ := snoc_suffix_snoc.1 hsuf
              apply hV
              refine ⟨hdc, hInv.rep_suffix_of_run hus hv, ?_⟩
              subst hdc
              rw [← hrw]
              cases hr : run A.states 0 (u ++ [d]) with
              | none => rfl
              | some y => exact absurd ((hInv.run_occurs _).1 ⟨y, hr⟩) hni
            · intro hni _
              rw [hrr]
              cases hr : run A.states 0 (u ++ [d]) with
              | none => rfl
              | some y => exact absurd ((hInv.run_occurs _).1 ⟨y, hr⟩) hni
      by_cases hcl : v = q ∧ u.length ≤ xl
      · obtain ⟨hvq, hul⟩ := hcl
        subst hvq
        have hxl : xl ≠ 0 := by
          intro h0
          have : u = [] := List.length_eq_zero.1 (by omega)
          subst this
          simp only [run, Option.some.injEq] at hv
          exact hq0 hv.symm
        apply mirror clone (ih2 hu hv hul)
        · rintro ⟨hdc, hvs, hnone⟩
          exact hclone_mod hxl hvs hnone
        · intro hV
          right
          refine ⟨hclone_same d hxl hV, ?_⟩
          intro hrq _
          have hself : run A.states 0 (rep v ++ [d]) = some v := by
            rw [hInv.next_run (hInv.rep_run hvlt), ← hrw, hrq]
          have := (hInv.run_suffix hself).length_le
          simp at this
      · apply mirror v
        · rw [ih1 hu (fun hq' => by
            have : v = q := by rw [hv] at hq'; exact Option.some.inj hq'
            by_contra hle
            exact hcl ⟨this, by omega⟩)]
          exact hv
        · rintro ⟨hdc, hvs, hnone⟩
          exact hmod v hvlt hvs hnone
        · intro hV
          by_cases hWv : d = c ∧ W v
          · left
            obtain ⟨hdc, hWv⟩ := hWv
            subst hdc
            exact ⟨hred v hWv, rfl, hWv⟩
          · right
            refine ⟨hsame v d hvlt hV hWv, ?_⟩
            intro hrq hl
            exact hWv (hWc u d v hv hrq hl)
    · have hni : ¬ u ++ [d] <:+: s := fun h => hu (infix_of_snoc h)
      have hns : ¬ u ++ [d] <:+ s ++ [c] := by
        intro h
        exact hu (snoc_suffix_snoc.1 h).2.isInfix
      refine ⟨fun h => absurd h hni, fun h => absurd h hni, fun _ h => absurd h hns, ?_⟩
      intro _ _
      rw [run_snoc]
      by_cases hus : u <:+ s ++ [c]
      · rw [ih3 hu hus]
        exact hcur d
      · rw [ih4 hu hus]
        rfl

end Dup

namespace Dup

/-! ## Preservation of the invariant: no clone -/

/-- The old states keep their shortest-string length when `len` and `link` of
the old states are unchanged. -/
theorem minLen_old {s : Str} {A : SAM} {rep : Nat → Str} (hInv : Inv s A rep)
    {st' : List State}
    (hlen_old : ∀ v, v < A.size → (stateAt st' v).len = (stateAt A.states v).len)
    {v : Nat} (hv : v < A.size) (hlink : (stateAt st' v).link = (stateAt A.states v).link) :
    minLen st' v = minLen A.states v := by
  unfold minLen
  rw [hlink]
  by_cases h0 : v = 0
  · subst h0; simp [hInv.link_zero]
  · obtain ⟨u, hl, hu, _, _⟩ := hInv.link_pos v hv h0
    have hcu : ¬ ((u : Int) = -1) := by omega
    simp only [hl, hcu, if_false, Int.toNat_ofNat]
    rw [hlen_old u hu]

/-- The longest suffix of `s ++ [c]` that already occurs in `s`, when the walk
stops at a state `p` with a `c`-transition. -/
theorem longest_old_suffix {s : Str} {A : SAM} {rep : Nat → Str} (hInv : Inv s A rep)
    {c p q : Nat} (hp : p < A.size) (hps : rep p <:+ s)
    (hpq : (stateAt A.states p).next c = some q)
    (hmax : ∀ v, v < A.size → rep v <:+ s → (rep p).length < (rep v).length →
      (stateAt A.states v).next c = none) :
    rep p ++ [c] <:+ s ++ [c] ∧ rep p ++ [c] <:+: s ∧
    ∀ w, w <:+ s ++ [c] → (w <:+: s ↔ w.length ≤ (rep p ++ [c]).length) := by
  have hrun : run A.states 0 (rep p ++ [c]) = some q := by
    rw [hInv.next_run (hInv.rep_run hp), hpq]
  have hinf : rep p ++ [c] <:+: s := (hInv.run_occurs _).1 ⟨q, hrun⟩
  have hsuf : rep p ++ [c] <:+ s ++ [c] := snoc_suffix_snoc.2 ⟨rfl, hps⟩
  refine ⟨hsuf, hinf, ?_⟩
  intro w hw
  constructor
  · intro hwi
    by_contra hlt
    rcases List.suffix_concat_iff.1 hw with h0 | ⟨t, ht, hts⟩
    · subst h0; simp at hlt
    · subst ht
      obtain ⟨y, hy⟩ := (hInv.run_occurs _).2 hwi
      obtain ⟨v, hv⟩ := run_init_some hy
      have hvlt := hInv.run_lt _ _ hv
      have hvs := hInv.rep_suffix_of_run hts hv
      have hlen : (rep p).length < (rep v).length := by
        have := (hInv.run_suffix hv).length_le
        simp at hlt; omega
      rw [hInv.next_run hv, hmax v hvlt hvs hlen] at hy
      cases hy
  · intro hl
    exact (List.suffix_of_suffix_length_le hw hsuf hl).isInfix.trans hinf

/-- The same, when no state on the suffix chain has a `c`-transition. -/
theorem longest_old_suffix_nil {s : Str} {A : SAM} {rep : Nat → Str} (hInv : Inv s A rep)
    {c : Nat} (h0 : (stateAt A.states 0).next c = none) :
    ∀ w, w <:+ s ++ [c] → (w <:+: s ↔ w.length ≤ 0) := by
  intro w hw
  constructor
  · intro hwi
    rcases List.suffix_concat_iff.1 hw with hn | ⟨t, ht, _⟩
    · subst hn; simp
    · exfalso
      subst ht
      have hc : [c] <:+: s := (List.suffix_append t [c]).isInfix.trans hwi
      obtain ⟨y, hy⟩ := (hInv.run_occurs _).2 hc
      simp only [run, h0] at hy
      cases hy
  · intro hl
    have : w = [] := List.length_eq_zero.1 (by omega)
    subst this
    exact List.nil_infix

theorem inv_noclone {s : Str} {A : SAM} {rep : Nat → Str} (hInv : Inv s A rep) (c : Nat)
    (st' : List State) (L : Nat)
    (hlen : st'.length = A.size + 1)
    (hlen_old : ∀ v, v < A.size → (stateAt st' v).len = (stateAt A.states v).len)
    (hlink_old : ∀ v, v < A.size → (stateAt st' v).link = (stateAt A.states v).link)
    (hcur_len : (stateAt st' A.size).len = s.length + 1)
    (hcur_link : (stateAt st' A.size).link = (L : Int))
    (hcur : ∀ d, (stateAt st' A.size).next d = none)
    (hmod : ∀ v, v < A.size → rep v <:+ s → (stateAt A.states v).next c = none →
      (stateAt st' v).next c = some A.size)
    (hsame : ∀ v d, v < A.size →
      ¬ (d = c ∧ rep v <:+ s ∧ (stateAt A.states v).next c = none) →
      (stateAt st' v).next d = (stateAt A.states v).next d)
    (hL : L < A.size) (hLs : rep L <:+ s ++ [c])
    (hK : ∀ w, w <:+ s ++ [c] → (w <:+: s ↔ w.length ≤ (rep L).length)) :
    Inv (s ++ [c]) ⟨A.size, A.size + 1, st'⟩
      (fun v => if v = A.size then s ++ [c] else rep v) := by
  have hsz := hInv.size_pos
  have hnosize : ∀ w, run A.states 0 w ≠ some A.size := by
    intro w h
    have := hInv.run_lt w _ h
    omega
  have hrn := run_new hInv c st' A.size 0 0 (fun _ => False) (by omega) hcur hmod
    (fun _ h => h.elim) (fun v d hv h1 _ => hsame v d hv h1)
    (fun h => absurd rfl h) (fun _ h => absurd rfl h) (fun _ h => h.elim)
    (fun u d v _ h _ => absurd h (hnosize _))
  have n1 : ∀ w, w <:+: s → run st' 0 w = run A.states 0 w :=
    fun w hw => (hrn w).1 hw (fun h => absurd h (hnosize w))
  have n2 : ∀ w, ¬ w <:+: s → w <:+ s ++ [c] → run st' 0 w = some A.size :=
    fun w => (hrn w).2.2.1
  have n3 : ∀ w, ¬ w <:+: s → ¬ w <:+ s ++ [c] → run st' 0 w = none :=
    fun w => (hrn w).2.2.2
  have hLne : L ≠ A.size := by omega
  refine ⟨hlen, by simp, by simp, ?_, ?_, ?_, ?_, ?_, ?_, ?_⟩
  · have : (0 : Nat) ≠ A.size := by omega
    simp [this, hInv.rep_zero]
  · intro v hv
    by_cases hvs : v = A.size
    · subst hvs; simp [hcur_len]
    · simp only [hvs, if_false]
      rw [hlen_old v (by simp at hv; omega)]
      exact hInv.len_rep v (by simp at hv; omega)
  · show (stateAt st' 0).link = -1
    rw [hlink_old 0 hsz]; exact hInv.link_zero
  · intro v hv hv0
    by_cases hvs : v = A.size
    · subst hvs
      refine ⟨L, hcur_link, by simp; omega, ?_, ?_⟩
      · simp only [hLne, if_false, if_true]; exact hLs
      · simp only [hLne, if_false, if_true]
        have := hInv.rep_length_le hL
        simp; omega
    · have hvlt : v < A.size := by simp at hv; omega
      obtain ⟨u, hl, hu, hsuf, hlt⟩ := hInv.link_pos v hvlt hv0
      have hus : u ≠ A.size := by omega
      refine ⟨u, ?_, by simp; omega, ?_, ?_⟩
      · show (stateAt st' v).link = u
        rw [hlink_old v hvlt]; exact hl
      · simpa [hus, hvs] using hsuf
      · simpa [hus, hvs] using hlt
  · intro w v hr
    show v < A.size + 1
    by_cases hwi : w <:+: s
    · rw [n1 w hwi] at hr
      have := hInv.run_lt w v hr; omega
    · by_cases hws : w <:+ s ++ [c]
      · rw [n2 w hwi hws] at hr
        cases hr; omega
      · rw [n3 w hwi hws] at hr; cases hr
  · intro w
    show (∃ v, run st' 0 w = some v) ↔ w <:+: s ++ [c]
    rw [List.infix_concat_iff]
    by_cases hwi : w <:+: s
    · rw [n1 w hwi]
      simp [hwi, (hInv.run_occurs w).2 hwi]
    · by_cases hws : w <:+ s ++ [c]
      · rw [n2 w hwi hws]; simp [hws]
      · rw [n3 w hwi hws]; simp [hwi, hws]
  · intro v hv w
    show run st' 0 w = some v ↔ _
    by_cases hvs : v = A.size
    · subst hvs
      have hml : minLen st' A.size = (rep L).length + 1 := by
        have hcu : ¬ ((L : Int) = -1) := by omega
        simp only [minLen, hcur_link, hcu, if_false, Int.toNat_ofNat]
        rw [hlen_old L hL, hInv.len_rep L hL]
      rw [hml]
      simp only [if_true]
      constructor
      · intro hr
        by_cases hwi : w <:+: s
        · rw [n1 w hwi] at hr
          exact absurd hr (hnosize w)
        · by_cases hws : w <:+ s ++ [c]
          · refine ⟨hws, ?_⟩
            have := (hK w hws).not.1 hwi
            omega
          · rw [n3 w hwi hws] at hr; cases hr
      · rintro ⟨hws, hl⟩
        have hwi : ¬ w <:+: s := by
          intro hwi
          have := (hK w hws).1 hwi
          omega
        exact n2 w hwi hws
    · have hvlt : v < A.size := by simp at hv; omega
      simp only [hvs, if_false]
      rw [minLen_old hInv hlen_old hvlt (hlink_old v hvlt), ← hInv.run_iff v hvlt w]
      by_cases hwi : w <:+: s
      · rw [n1 w hwi]
      · constructor
        · intro hr
          by_cases hws : w <:+ s ++ [c]
          · rw [n2 w hwi hws] at hr
            cases hr; omega
          · rw [n3 w hwi hws] at hr; cases hr
        · intro hr
          exact absurd ((hInv.run_occurs w).1 ⟨v, hr⟩) hwi

end Dup

namespace Dup

/-! ## Preservation of the invariant: clone -/

theorem inv_clone {s : Str} {A : SAM} {rep : Nat → Str} (hInv : Inv s A rep) (c : Nat)
    (st' : List State) (p q : Nat)
    (hp : p < A.size) (hps : rep p <:+ s)
    (hpq : (stateAt A.states p).next c = some q)
    (hqlen : (stateAt A.states p).len + 1 ≠ (stateAt A.states q).len)
    (hmax : ∀ v, v < A.size → rep v <:+ s → (rep p).length < (rep v).length →
      (stateAt A.states v).next c = none)
    (hlen : st'.length = A.size + 2)
    (hlen_old : ∀ v, v < A.size → (stateAt st' v).len = (stateAt A.states v).len)
    (hlink_old : ∀ v, v < A.size → v ≠ q →
      (stateAt st' v).link = (stateAt A.states v).link)
    (hlink_q : (stateAt st' q).link = ((A.size + 1 : Nat) : Int))
    (hcur_len : (stateAt st' A.size).len = s.length + 1)
    (hcur_link : (stateAt st' A.size).link = ((A.size + 1 : Nat) : Int))
    (hcur : ∀ d, (stateAt st' A.size).next d = none)
    (hclone_len : (stateAt st' (A.size + 1)).len = (stateAt A.states p).len + 1)
    (hclone_link : (stateAt st' (A.size + 1)).link = (stateAt A.states q).link)
    (hclone_mod : rep q <:+ s → (stateAt A.states q).next c = none →
      (stateAt st' (A.size + 1)).next c = some A.size)
    (hclone_same : ∀ d, ¬ (d = c ∧ rep q <:+ s ∧ (stateAt A.states q).next c = none) →
      (stateAt st' (A.size + 1)).next d = (stateAt A.states q).next d)
    (hmod : ∀ v, v < A.size → rep v <:+ s → (stateAt A.states v).next c = none →
      (stateAt st' v).next c = some A.size)
    (hred : ∀ v, v < A.size → rep v <:+ rep p → (stateAt A.states v).next c = some q →
      (stateAt st' v).next c = some (A.size + 1))
    (hsame : ∀ v d, v < A.size →
      ¬ (d = c ∧ rep v <:+ s ∧ (stateAt A.states v).next c = none) →
      ¬ (d = c ∧ rep v <:+ rep p ∧ (stateAt A.states v).next c = some q) →
      (stateAt st' v).next d = (stateAt A.states v).next d) :
    Inv (s ++ [c]) ⟨A.size, A.size + 2, st'⟩
      (fun v => if v = A.size then s ++ [c] else if v = A.size + 1 then rep p ++ [c] else rep v) := by
  have hsz := hInv.size_pos
  have hq : q < A.size := hInv.next_lt hp hpq
  have hq0 : q ≠ 0 := hInv.next_ne_zero hp hpq
  have hrunx : run A.states 0 (rep p ++ [c]) = some q := by
    rw [hInv.next_run (hInv.rep_run hp), hpq]
  have hxq : rep p ++ [c] <:+ rep q := hInv.run_suffix hrunx
  have hxmin : minLen A.states q ≤ (rep p ++ [c]).length := ((hInv.run_iff q hq _).1 hrunx).2
  have hxlt : (rep p ++ [c]).length < (rep q).length := by
    have h1 := hxq.length_le
    have h2 := hInv.len_rep q hq
    have h3 := hInv.len_rep p hp
    simp at h1 ⊢
    omega
  obtain ⟨hxs, hxi, hK⟩ := longest_old_suffix hInv hp hps hpq hmax
  obtain ⟨u₀, hl₀, hu₀, hsuf₀, hlt₀⟩ := hInv.link_pos q hq hq0
  have hmq : minLen A.states q = (rep u₀).length + 1 := hInv.minLen_pos hq hl₀ hu₀
  have hrn := run_new hInv c st' q ((rep p).length + 1) (A.size + 1)
    (fun v => v < A.size ∧ rep v <:+ rep p ∧ (stateAt A.states v).next c = some q) hq0 hcur hmod
    (fun v h => hred v h.1 h.2.1 h.2.2)
    (fun v d hv h1 h2 => hsame v d hv h1 (fun h => h2 ⟨h.1, hv, h.2.1, h.2.2⟩))
    (fun _ => hclone_mod) (fun d _ => hclone_same d)
    (fun v h => ⟨h.1, h.2.1.trans hps, h.2.2, by have := h.2.1.length_le; omega⟩)
    (by
      intro u d v hv hr hl
      have h1 : u ++ [d] <:+ rep p ++ [c] :=
        List.suffix_of_suffix_length_le (hInv.run_suffix hr) hxq (by simp; omega)
      obtain ⟨hdc, hup⟩ := snoc_suffix_snoc.1 h1
      subst hdc
      obtain ⟨y, hy, hry, hys⟩ := hInv.suffix_class _ p hp (le_refl _) u hup
      rw [hv] at hry
      cases hry
      refine ⟨rfl, hy, hys, ?_⟩
      rw [← hInv.next_run hv, hr])
  have m1 : ∀ w, w <:+: s → ¬ (run A.states 0 w = some q ∧ w.length ≤ (rep p).length + 1) →
      run st' 0 w = run A.states 0 w := by
    intro w hw hn
    apply (hrn w).1 hw
    intro hr
    by_contra hle
    exact hn ⟨hr, by omega⟩
  have m2 : ∀ w, run A.states 0 w = some q → w.length ≤ (rep p).length + 1 →
      run st' 0 w = some (A.size + 1) :=
    fun w hr hl => (hrn w).2.1 ((hInv.run_occurs w).1 ⟨q, hr⟩) hr hl
  have m3 : ∀ w, ¬ w <:+: s → w <:+ s ++ [c] → run st' 0 w = some A.size :=
    fun w => (hrn w).2.2.1
  have m4 : ∀ w, ¬ w <:+: s → ¬ w <:+ s ++ [c] → run st' 0 w = none :=
    fun w => (hrn w).2.2.2
  -- classification of the new paths
  have cls : ∀ w v, run st' 0 w = some v →
      (v = A.size ∧ ¬ w <:+: s ∧ w <:+ s ++ [c]) ∨
      (v = A.size + 1 ∧ run A.states 0 w = some q ∧ w.length ≤ (rep p).length + 1) ∨
      (v < A.size ∧ run A.states 0 w = some v ∧
        ¬ (run A.states 0 w = some q ∧ w.length ≤ (rep p).length + 1)) := by
    intro w v hr
    by_cases hwi : w <:+: s
    · by_cases hcl : run A.states 0 w = some q ∧ w.length ≤ (rep p).length + 1
      · rw [m2 w hcl.1 hcl.2] at hr
        cases hr
        exact Or.inr (Or.inl ⟨rfl, hcl⟩)
      · rw [m1 w hwi hcl] at hr
        exact Or.inr (Or.inr ⟨hInv.run_lt w v hr, hr, hcl⟩)
    · by_cases hws : w <:+ s ++ [c]
      · rw [m3 w hwi hws] at hr
        cases hr
        exact Or.inl ⟨rfl, hwi, hws⟩
      · rw [m4 w hwi hws] at hr; cases hr
  have hne1 : A.size + 1 ≠ A.size := by omega
  have hxlen : (rep p ++ [c]).length = (rep p).length + 1 := by simp
  have hmin_cur : minLen st' A.size = (rep p).length + 2 := by
    have hcu : ¬ (((A.size + 1 : Nat) : Int) = -1) := by omega
    simp only [minLen, hcur_link, hcu, if_false, Int.toNat_ofNat]
    rw [hclone_len, hInv.len_rep p hp]
  have hmin_q : minLen st' q = (rep p).length + 2 := by
    have hcu : ¬ (((A.size + 1 : Nat) : Int) = -1) := by omega
    simp only [minLen, hlink_q, hcu, if_false, Int.toNat_ofNat]
    rw [hclone_len, hInv.len_rep p hp]
  have hmin_clone : minLen st' (A.size + 1) = minLen A.states q := by
    have hcu : ¬ ((u₀ : Int) = -1) := by omega
    simp only [minLen, hclone_link, hl₀, hcu, if_false, Int.toNat_ofNat]
    rw [hlen_old u₀ hu₀]
  refine ⟨hlen, by simp, by simp, ?_, ?_, ?_, ?_, ?_, ?_, ?_⟩
  · have h1 : (0 : Nat) ≠ A.size := by omega
    have h2 : (0 : Nat) ≠ A.size + 1 := by omega
    simp [h1, hInv.rep_zero]
  · intro v hv
    by_cases hvs : v = A.size
    · subst hvs; simp [hcur_len]
    · by_cases hvc : v = A.size + 1
      · subst hvc
        simp [hclone_len, hInv.len_rep p hp]
      · simp only [hvs, hvc, if_false]
        have hvlt : v < A.size := by simp at hv; omega
        rw [hlen_old v hvlt]
        exact hInv.len_rep v hvlt
  · show (stateAt st' 0).link = -1
    rw [hlink_old 0 hsz (fun h => hq0 h.symm)]; exact hInv.link_zero
  · intro v hv hv0
    by_cases hvs : v = A.size
    · subst hvs
      refine ⟨A.size + 1, hcur_link, by simp, ?_, ?_⟩
      · simp only [hne1, if_false, if_true]; exact hxs
      · simp only [hne1, if_false, if_true]
        have := hxi.length_le
        simp at this ⊢; omega
    · by_cases hvc : v = A.size + 1
      · subst hvc
        have h1 : u₀ ≠ A.size := by omega
        have h2 : u₀ ≠ A.size + 1 := by omega
        refine ⟨u₀, by rw [hclone_link, hl₀], by simp; omega, ?_, ?_⟩
        · simp only [h1, h2, hne1, if_false, if_true]
          exact List.suffix_of_suffix_length_le hsuf₀ hxq (by omega)
        · simp only [h1, h2, hne1, if_false, if_true]
          omega
      · have hvlt : v < A.size := by simp at hv; omega
        by_cases hvq : v = q
        · subst hvq
          refine ⟨A.size + 1, hlink_q, by simp, ?_, ?_⟩
          · simp only [hvs, hvc, hne1, if_false, if_true]; exact hxq
          · simp only [hvs, hvc, hne1, if_false, if_true]; exact hxlt
        · obtain ⟨u, hl, hu, hsuf, hlt⟩ := hInv.link_pos v hvlt hv0
          have h1 : u ≠ A.size := by omega
          have h2 : u ≠ A.size + 1 := by omega
          refine ⟨u, ?_, by simp; omega, ?_, ?_⟩
          · show (stateAt st' v).link = u
            rw [hlink_old v hvlt hvq]; exact hl
          · simpa [h1, h2, hvs, hvc] using hsuf
          · simpa [h1, h2, hvs, hvc] using hlt
  · intro w v hr
    show v < A.size + 2
    rcases cls w v hr with ⟨h, _⟩ | ⟨h, _⟩ | ⟨h, _⟩ <;> omega
  · intro w
    show (∃ v, run st' 0 w = some v) ↔ w <:+: s ++ [c]
    rw [List.infix_concat_iff]
    by_cases hwi : w <:+: s
    · simp only [hwi, or_true, iff_true]
      by_cases hcl : run A.states 0 w = some q ∧ w.length ≤ (rep p).length + 1
      · exact ⟨_, m2 w hcl.1 hcl.2⟩
      · rw [m1 w hwi hcl]; exact (hInv.run_occurs w).2 hwi
    · by_cases hws : w <:+ s ++ [c]
      · rw [m3 w hwi hws]; simp [hws]
      · rw [m4 w hwi hws]; simp [hwi, hws]
  · intro v hv w
    show run st' 0 w = some v ↔ _
    by_cases hvs : v = A.size
    · subst hvs
      rw [hmin_cur]
      simp only [if_true]
      constructor
      · intro hr
        rcases cls w _ hr with ⟨_, hwi, hws⟩ | ⟨h, _⟩ | ⟨h, _⟩
        · refine ⟨hws, ?_⟩
          have := (hK w hws).not.1 hwi
          simp at this; omega
        · omega
        · omega
      · rintro ⟨hws, hl⟩
        have hwi : ¬ w <:+: s := by
          intro hwi
          have := (hK w hws).1 hwi
          simp at this; omega
        exact m3 w hwi hws
    · by_cases hvc : v = A.size + 1
      · subst hvc
        rw [hmin_clone]
        simp only [hne1, if_false, if_true]
        constructor
        · intro hr
          rcases cls w _ hr with ⟨h, _⟩ | ⟨_, hrq, hl⟩ | ⟨h, _⟩
          · omega
          · obtain ⟨h1, h2⟩ := (hInv.run_iff q hq w).1 hrq
            exact ⟨List.suffix_of_suffix_length_le h1 hxq (by simp; omega), h2⟩
          · omega
        · rintro ⟨hwx, hl⟩
          have hrq : run A.states 0 w = some q := (hInv.run_iff q hq w).2 ⟨hwx.trans hxq, hl⟩
          have := hwx.length_le
          exact m2 w hrq (by simp at this; omega)
      · have hvlt : v < A.size := by simp at hv; omega
        simp only [hvs, hvc, if_false]
        by_cases hvq : v = q
        · subst hvq
          rw [hmin_q]
          constructor
          · intro hr
            rcases cls w _ hr with ⟨h, _⟩ | ⟨h, _⟩ | ⟨_, hrq, hn⟩
            · omega
            · omega
            · refine ⟨hInv.run_suffix hrq, ?_⟩
              by_contra hle
              exact hn ⟨hrq, by omega⟩
          · rintro ⟨hwq, hl⟩
            have hrq : run A.states 0 w = some v :=
              (hInv.run_iff v hq w).2 ⟨hwq, by rw [hmq]; omega⟩
            rw [m1 w ((hInv.run_occurs w).1 ⟨v, hrq⟩) (fun h => by omega)]
            exact hrq
        · rw [minLen_old hInv hlen_old hvlt (hlink_old v hvlt hvq), ← hInv.run_iff v hvlt w]
          constructor
          · intro hr
            rcases cls w _ hr with ⟨h, _⟩ | ⟨h, _⟩ | ⟨_, hrv, _⟩
            · omega
            · omega
            · exact hrv
          · intro hrv
            rw [m1 w ((hInv.run_occurs w).1 ⟨v, hrv⟩) (fun h => by
              rw [hrv] at h
              exact hvq (Option.some.inj h.1))]
            exact hrv

end Dup

namespace Dup

/-! ## `Extend` preserves the invariant -/

/-- Having no `c`-transition is inherited by longer suffixes. -/
theorem none_mono {s : Str} {A : SAM} {rep : Nat → Str} (hInv : Inv s A rep) {c m v : Nat}
    (hm : m < A.size) (hv : v < A.size) (hvm : rep v <:+ rep m)
    (hnone : (stateAt A.states v).next c = none) : (stateAt A.states m).next c = none := by
  cases hmc : (stateAt A.states m).next c with
  | none => rfl
  | some y =>
    exfalso
    have hrun : run A.states 0 (rep m ++ [c]) = some y := by
      rw [hInv.next_run (hInv.rep_run hm), hmc]
    have hinf : rep v ++ [c] <:+: s :=
      (snoc_suffix_snoc.2 ⟨rfl, hvm⟩).isInfix.trans ((hInv.run_occurs _).1 ⟨y, hrun⟩)
    obtain ⟨z, hz⟩ := (hInv.run_occurs _).2 hinf
    rw [hInv.next_run (hInv.rep_run hv), hnone] at hz
    cases hz

/-- Having the `c`-transition `q` is inherited by longer suffixes, below a
state `n` that has it. -/
theorem some_mono {s : Str} {A : SAM} {rep : Nat → Str} (hInv : Inv s A rep) {c n q m v : Nat}
    (hn : n < A.size) (hnq : (stateAt A.states n).next c = some q)
    (hm : m < A.size) (hv : v < A.size) (hmn : rep m <:+ rep n) (hvm : rep v <:+ rep m)
    (hvq : (stateAt A.states v).next c = some q) : (stateAt A.states m).next c = some q := by
  have hq : q < A.size := hInv.next_lt hn hnq
  have hrn : run A.states 0 (rep n ++ [c]) = some q := by
    rw [hInv.next_run (hInv.rep_run hn), hnq]
  have hrv : run A.states 0 (rep v ++ [c]) = some q := by
    rw [hInv.next_run (hInv.rep_run hv), hvq]
  have h1 : rep m ++ [c] <:+ rep q :=
    (snoc_suffix_snoc.2 ⟨rfl, hmn⟩).trans (hInv.run_suffix hrn)
  have h2 := ((hInv.run_iff q hq _).1 hrv).2
  have h3 := hvm.length_le
  have hrm : run A.states 0 (rep m ++ [c]) = some q :=
    (hInv.run_iff q hq _).2 ⟨h1, by simp at h2 ⊢; omega⟩
  rw [hInv.next_run (hInv.rep_run hm)] at hrm
  exact hrm

theorem walk1 {s : Str} {A : SAM} {rep : Nat → Str} (hInv : Inv s A rep) (c : Nat) :
    ∃ p st2,
      walkSet c A.size
        ((stateAt
            (setLen (A.states ++ [NewState ((stateAt A.states A.last).len + 1) (-1)]) A.size
              ((stateAt (A.states ++ [NewState ((stateAt A.states A.last).len + 1) (-1)])
                A.last).len + 1))
            A.last).len + 2)
        (A.last : Int)
        (setLen (A.states ++ [NewState ((stateAt A.states A.last).len + 1) (-1)]) A.size
          ((stateAt (A.states ++ [NewState ((stateAt A.states A.last).len + 1) (-1)])
            A.last).len + 1)) = some (p, st2) ∧
      After1 s A rep c p st2 := by
  have hsz := hInv.size_pos
  have hlast := hInv.last_lt
  have hslen := hInv.size_eq
  have hlenlast : (stateAt A.states A.last).len = s.length := by
    rw [hInv.len_rep _ hlast, hInv.rep_last]
  have hold0 : ∀ v, v < A.size →
      stateAt (A.states ++ [NewState ((stateAt A.states A.last).len + 1) (-1)]) v
        = stateAt A.states v :=
    fun v hv => stateAt_append_left _ _ _ (by omega)
  have hcur0 : stateAt (A.states ++ [NewState ((stateAt A.states A.last).len + 1) (-1)]) A.size
      = NewState ((stateAt A.states A.last).len + 1) (-1) := by
    rw [← hslen]; exact stateAt_append_self _ _
  have hst1 : setLen (A.states ++ [NewState ((stateAt A.states A.last).len + 1) (-1)]) A.size
      ((stateAt (A.states ++ [NewState ((stateAt A.states A.last).len + 1) (-1)])
        A.last).len + 1)
      = A.states ++ [NewState ((stateAt A.states A.last).len + 1) (-1)] := by
    apply setLen_self
    rw [hcur0, hold0 _ hlast]
    rfl
  rw [hst1, hold0 _ hlast, walkSet_eq]
  generalize hbase : A.states ++ [NewState ((stateAt A.states A.last).len + 1) (-1)] = st1
    at hold0 hcur0
  have hlen1 : st1.length = A.size + 1 := by rw [← hbase]; simp [hslen]
  have hreplast : rep A.last <:+ s := by rw [hInv.rep_last]
  have hW0 : WalkInv A rep c A.last none A.size st1 (A.last : Int) st1 := by
    have hvac : ∀ v, rep v <:+ rep A.last → ¬ above rep (A.last : Int) v := by
      intro v hv hab
      rcases hab with h | h
      · omega
      · simp only [Int.toNat_ofNat] at h
        have := hv.length_le
        omega
    refine ⟨rfl, fun _ => rfl, fun _ => rfl, ?_, fun _ _ _ => rfl, ?_, ?_⟩
    · intro v _ hv hab; exact absurd hab (hvac v hv)
    · intro v _ hv hab; exact absurd hab (hvac v hv)
    · exact Or.inr ⟨A.last, rfl, hlast, List.suffix_refl _⟩
  obtain ⟨p, st2, hw, hW, hexit⟩ := walk_spec hInv c A.last 0 A.size none st1 hreplast
    (by omega) (fun v hv => by rw [hold0 v hv])
    (fun m hm _ => by
      rw [← hInv.nextOr0_eq_zero hm]
      unfold nextOr0
      rw [hold0 m hm])
    ((stateAt A.states A.last).len + 2) (A.last : Int) st1 hW0 (fun _ => by omega)
    (fun n hn => by
      have : n = A.last := by omega
      subst this
      rw [hInv.len_rep _ hlast])
  refine ⟨p, st2, hw, ?_⟩
  have hfin : ∀ v, v < A.size → rep v <:+ s →
      (above rep p v ↔ (stateAt A.states v).next c = none) := by
    intro v hv hvs
    apply walk_final hW hexit _ hv (by rw [hInv.rep_last]; exact hvs)
    intro m v' hm hv' _ hvm hnone
    exact none_mono hInv hm hv' hvm hnone
  refine ⟨by rw [hW.length_eq, hlen1], ?_, ?_, ?_, ?_, ?_, ?_, ?_⟩
  · intro v hv; rw [hW.len_eq, hold0 v hv]
  · intro v hv; rw [hW.link_eq, hold0 v hv]
  · rw [hW.len_eq, hcur0, ← hlenlast]; rfl
  · intro d
    rw [hW.next_same A.size d (fun h => by omega), hcur0]; rfl
  · intro v hv hvs hnone
    exact hW.next_mod v hv (by rw [hInv.rep_last]; exact hvs) ((hfin v hv hvs).2 hnone)
  · intro v d hv hnot
    rw [hW.next_same v d, hold0 v hv]
    rintro ⟨h1, h2, h3, h4⟩
    rw [hInv.rep_last] at h3
    exact hnot ⟨h1, h3, (hfin v hv h3).1 h4⟩
  · rcases hW.p_ok with hp | ⟨n, hp, hn, hns⟩
    · left
      refine ⟨hp, ?_⟩
      apply (hfin 0 hsz (by rw [hInv.rep_zero]; exact List.nil_suffix)).1
      exact Or.inl hp
    · right
      rw [hInv.rep_last] at hns
      obtain ⟨q, hq⟩ := Option.ne_none_iff_exists'.1 (hexit n hp)
      refine ⟨n, q, hp, hn, hns, hq, ?_⟩
      intro v hv hvs hlt
      apply (hfin v hv hvs).1
      right
      subst hp
      simpa using hlt

end Dup

namespace Dup

theorem walk2 {s : Str} {A : SAM} {rep : Nat → Str} (hInv : Inv s A rep) (c : Nat)
    {st2 : List State} {n q : Nat} (h1 : After1 s A rep c (n : Int) st2)
    (hn : n < A.size) (hns : rep n <:+ s) (hnq : (stateAt A.states n).next c = some q) :
    ∃ p st4,
      walkRedirect c q (A.size + 1)
        ((stateAt (st2 ++ [⟨(stateAt st2 n).len + 1, (stateAt st2 q).link,
          (stateAt st2 q).next⟩]) n).len + 2)
        (n : Int)
        (st2 ++ [⟨(stateAt st2 n).len + 1, (stateAt st2 q).link, (stateAt st2 q).next⟩])
        = some (p, st4) ∧
      After2 s A rep c n q st4 := by
  have hq : q < A.size := hInv.next_lt hn hnq
  have hq0 : q ≠ 0 := hInv.next_ne_zero hn hnq
  have hold3 : ∀ v, v < A.size + 1 →
      stateAt (st2 ++ [⟨(stateAt st2 n).len + 1, (stateAt st2 q).link,
        (stateAt st2 q).next⟩]) v = stateAt st2 v :=
    fun v hv => stateAt_append_left _ _ _ (by rw [h1.length_eq]; exact hv)
  have hclone3 : stateAt (st2 ++ [⟨(stateAt st2 n).len + 1, (stateAt st2 q).link,
        (stateAt st2 q).next⟩]) (A.size + 1)
      = ⟨(stateAt st2 n).len + 1, (stateAt st2 q).link, (stateAt st2 q).next⟩ := by
    rw [← h1.length_eq]; exact stateAt_append_self _ _
  rw [hold3 n (by omega)]
  generalize hbase : st2 ++ [⟨(stateAt st2 n).len + 1, (stateAt st2 q).link,
        (stateAt st2 q).next⟩] = st3 at hold3 hclone3
  have hlen3 : st3.length = A.size + 2 := by rw [← hbase]; simp [h1.length_eq]
  have hnext2 : ∀ m, m < A.size → rep m <:+ rep n →
      (stateAt st2 m).next c = (stateAt A.states m).next c := by
    intro m hm hmn
    apply h1.hsame m c hm
    rintro ⟨_, _, hnone⟩
    have := none_mono hInv hn hm hmn hnone
    rw [hnq] at this
    cases this
  have hW0 : WalkInv A rep c n (some q) (A.size + 1) st3 (n : Int) st3 := by
    have hvac : ∀ v, rep v <:+ rep n → ¬ above rep (n : Int) v := by
      intro v hv hab
      rcases hab with h | h
      · omega
      · simp only [Int.toNat_ofNat] at h
        have := hv.length_le
        omega
    refine ⟨rfl, fun _ => rfl, fun _ => rfl, ?_, fun _ _ _ => rfl, ?_, ?_⟩
    · intro v _ hv hab; exact absurd hab (hvac v hv)
    · intro v _ hv hab; exact absurd hab (hvac v hv)
    · exact Or.inr ⟨n, rfl, hn, List.suffix_refl _⟩
  obtain ⟨p, st4, hw, hW, hexit⟩ := walk_spec hInv c n q (A.size + 1) (some q) st3 hns
    (by omega) (fun v hv => by rw [hold3 v (by omega), h1.link_old v hv])
    (fun m hm hmn => by
      unfold nextOr0
      rw [hold3 m (by omega), hnext2 m hm hmn]
      cases hmc : (stateAt A.states m).next c with
      | none =>
        simp only [Option.getD_none]
        constructor
        · intro h; exact absurd h.symm hq0
        · intro h; cases h
      | some y => simp)
    ((stateAt st2 n).len + 2) (n : Int) st3 hW0 (fun _ => by omega)
    (fun m hm => by
      have : m = n := by omega
      subst this
      rw [h1.len_old _ hn, hInv.len_rep _ hn])
  refine ⟨p, st4, hw, ?_⟩
  have hfin : ∀ v, v < A.size → rep v <:+ rep n →
      (above rep p v ↔ (stateAt A.states v).next c = some q) := by
    intro v hv hvn
    apply walk_final hW hexit _ hv hvn
    intro m v' hm hv' hmn hvm hvq
    exact some_mono hInv hn hnq hm hv' hmn hvm hvq
  have hnext4 : ∀ v d, v < A.size →
      ¬ (d = c ∧ rep v <:+ rep n ∧ (stateAt A.states v).next c = some q) →
      (stateAt st4 v).next d = (stateAt st2 v).next d := by
    intro v d hv hnot
    rw [hW.next_same v d, hold3 v (by omega)]
    rintro ⟨h2, h3, h4, h5⟩
    exact hnot ⟨h2, h4, (hfin v hv h4).1 h5⟩
  have hclone4 : ∀ d, (stateAt st4 (A.size + 1)).next d = (stateAt st2 q).next d := by
    intro d
    rw [hW.next_same (A.size + 1) d (fun h => by omega), hclone3]
  refine ⟨by rw [hW.length_eq, hlen3], ?_, ?_, ?_, ?_, ?_, ?_, ?_, ?_, ?_, ?_, ?_⟩
  · intro v hv; rw [hW.len_eq, hold3 v (by omega), h1.len_old v hv]
  · intro v hv; rw [hW.link_eq, hold3 v (by omega), h1.link_old v hv]
  · rw [hW.len_eq, hold3 _ (by omega), h1.cur_len]
  · intro d
    rw [hW.next_same A.size d (fun h => by omega), hold3 _ (by omega)]
    exact h1.cur_next d
  · rw [hW.len_eq, hclone3]
    show (stateAt st2 n).len + 1 = _
    rw [h1.len_old n hn]
  · rw [hW.link_eq, hclone3]
    show (stateAt st2 q).link = _
    rw [h1.link_old q hq]
  · intro hqs hnone
    rw [hclone4]; exact h1.hmod q hq hqs hnone
  · intro d hnot
    rw [hclone4]; exact h1.hsame q d hq hnot
  · intro v hv hvs hnone
    rw [hnext4 v c hv (fun h => by rw [hnone] at h; cases h.2.2)]
    exact h1.hmod v hv hvs hnone
  · intro v hv hvn hvq
    exact hW.next_mod v hv hvn ((hfin v hv hvn).2 hvq)
  · intro v d hv hV hWn
    rw [hnext4 v d hv hWn]
    exact h1.hsame v d hv hV

theorem extend_inv {s : Str} {A : SAM} {rep : Nat → Str} (hInv : Inv s A rep) (c : Nat) :
    ∃ A' rep', A.Extend c = some A' ∧ Inv (s ++ [c]) A' rep' := by
  have hsz := hInv.size_pos
  obtain ⟨p, st2, hw, h1⟩ := walk1 hInv c
  unfold SAM.Extend
  simp only [hw]
  rcases h1.p_desc with ⟨hp, h0⟩ | ⟨n, q, hp, hn, hns, hnq, hmax⟩
  · -- the walk reached the root's link: `c` is a new character
    subst hp
    simp only [if_true]
    refine ⟨_, (fun v => if v = A.size then s ++ [c] else rep v), rfl, ?_⟩
    have hcl : A.size < st2.length := by rw [h1.length_eq]; omega
    apply inv_noclone hInv c _ 0
    · rw [length_setLink]; exact h1.length_eq
    · intro v hv
      rw [stateAt_setLink _ _ _ _ hcl, if_neg (by omega)]; exact h1.len_old v hv
    · intro v hv
      rw [stateAt_setLink _ _ _ _ hcl, if_neg (by omega)]; exact h1.link_old v hv
    · rw [stateAt_setLink _ _ _ _ hcl, if_pos rfl]; exact h1.cur_len
    · rw [stateAt_setLink _ _ _ _ hcl, if_pos rfl]; rfl
    · intro d
      rw [stateAt_setLink _ _ _ _ hcl, if_pos rfl]; exact h1.cur_next d
    · intro v hv hvs hnone
      rw [stateAt_setLink _ _ _ _ hcl, if_neg (by omega)]; exact h1.hmod v hv hvs hnone
    · intro v d hv hnot
      rw [stateAt_setLink _ _ _ _ hcl, if_neg (by omega)]; exact h1.hsame v d hv hnot
    · exact hsz
    · rw [hInv.rep_zero]; exact List.nil_suffix
    · rw [hInv.rep_zero]; exact longest_old_suffix_nil hInv h0
  · subst hp
    have hq : q < A.size := hInv.next_lt hn hnq
    have hq0 : q ≠ 0 := hInv.next_ne_zero hn hnq
    have hpne : ¬ ((n : Int) = -1) := by omega
    have hnx2 : nextOr0 st2 n c = q := by
      unfold nextOr0
      rw [h1.hsame n c hn (fun h => by rw [hnq] at h; cases h.2.2), hnq]; rfl
    simp only [hpne, if_false, Int.toNat_ofNat, hnx2]
    have hcl : A.size < st2.length := by rw [h1.length_eq]; omega
    obtain ⟨hxs, hxi, hK⟩ := longest_old_suffix hInv hn hns hnq hmax
    by_cases hlen : (stateAt st2 n).len + 1 = (stateAt st2 q).len
    · simp only [hlen, if_true]
      refine ⟨_, (fun v => if v = A.size then s ++ [c] else rep v), rfl, ?_⟩
      have hrepq : rep q = rep n ++ [c] := by
        have hrun : run A.states 0 (rep n ++ [c]) = some q := by
          rw [hInv.next_run (hInv.rep_run hn), hnq]
        symm
        apply (hInv.run_suffix hrun).eq_of_length
        rw [h1.len_old n hn, h1.len_old q hq, hInv.len_rep n hn, hInv.len_rep q hq] at hlen
        simp; omega
      apply inv_noclone hInv c _ q
      · rw [length_setLink]; exact h1.length_eq
      · intro v hv
        rw [stateAt_setLink _ _ _ _ hcl, if_neg (by omega)]; exact h1.len_old v hv
      · intro v hv
        rw [stateAt_setLink _ _ _ _ hcl, if_neg (by omega)]; exact h1.link_old v hv
      · rw [stateAt_setLink _ _ _ _ hcl, if_pos rfl]; exact h1.cur_len
      · rw [stateAt_setLink _ _ _ _ hcl, if_pos rfl]
      · intro d
        rw [stateAt_setLink _ _ _ _ hcl, if_pos rfl]; exact h1.cur_next d
      · intro v hv hvs hnone
        rw [stateAt_setLink _ _ _ _ hcl, if_neg (by omega)]; exact h1.hmod v hv hvs hnone
      · intro v d hv hnot
        rw [stateAt_setLink _ _ _ _ hcl, if_neg (by omega)]; exact h1.hsame v d hv hnot
      · exact hq
      · rw [hrepq]; exact hxs
      · rw [hrepq]; exact hK
    · simp only [hlen, if_false]
      obtain ⟨p4, st4, hw4, h2⟩ := walk2 hInv c h1 hn hns hnq
      simp only [hw4]
      refine ⟨_, (fun v => if v = A.size then s ++ [c] else if v = A.size + 1 then rep n ++ [c] else rep v), rfl, ?_⟩
      have hq4 : q < st4.length := by rw [h2.length_eq]; omega
      have hc4 : A.size < (setLink st4 q ((A.size + 1 : Nat) : Int)).length := by
        rw [length_setLink, h2.length_eq]; omega
      have hst : ∀ v, stateAt (setLink (setLink st4 q ((A.size + 1 : Nat) : Int)) A.size
          ((A.size + 1 : Nat) : Int)) v =
          if v = A.size then { stateAt st4 A.size with link := ((A.size + 1 : Nat) : Int) }
          else if v = q then { stateAt st4 q with link := ((A.size + 1 : Nat) : Int) }
          else stateAt st4 v := by
        intro v
        rw [stateAt_setLink _ _ _ _ hc4]
        by_cases hvs : v = A.size
        · subst hvs
          simp only [if_true]
          rw [stateAt_setLink _ _ _ _ hq4, if_neg (by omega)]
        · simp only [hvs, if_false]
          rw [stateAt_setLink _ _ _ _ hq4]
      have hst_old : ∀ v, v ≠ A.size → v ≠ q →
          stateAt (setLink (setLink st4 q ((A.size + 1 : Nat) : Int)) A.size
            ((A.size + 1 : Nat) : Int)) v = stateAt st4 v := by
        intro v h3 h4
        rw [hst v, if_neg h3, if_neg h4]
      have hst_next : ∀ v d,
          (stateAt (setLink (setLink st4 q ((A.size + 1 : Nat) : Int)) A.size
            ((A.size + 1 : Nat) : Int)) v).next d = (stateAt st4 v).next d := by
        intro v d
        rw [hst v]
        by_cases hvs : v = A.size
        · subst hvs; simp
        · by_cases hvq : v = q
          · subst hvq; simp [hvs]
          · simp [hvs, hvq]
      have hst_len : ∀ v,
          (stateAt (setLink (setLink st4 q ((A.size + 1 : Nat) : Int)) A.size
            ((A.size + 1 : Nat) : Int)) v).len = (stateAt st4 v).len := by
        intro v
        rw [hst v]
        by_cases hvs : v = A.size
        · subst hvs; simp
        · by_cases hvq : v = q
          · subst hvq; simp [hvs]
          · simp [hvs, hvq]
      have hlen' : (stateAt A.states n).len + 1 ≠ (stateAt A.states q).len := by
        rw [h1.len_old n hn, h1.len_old q hq] at hlen; exact hlen
      apply inv_clone hInv c _ n q hn hns hnq hlen' hmax
      · rw [length_setLink, length_setLink]; exact h2.length_eq
      · intro v hv; rw [hst_len]; exact h2.len_old v hv
      · intro v hv hvq
        rw [hst_old v (by omega) hvq]; exact h2.link_old v hv
      · rw [hst q, if_neg (by omega), if_pos rfl]
      · rw [hst_len]; exact h2.cur_len
      · rw [hst A.size, if_pos rfl]
      · intro d; rw [hst_next]; exact h2.cur_next d
      · rw [hst_len]; exact h2.clone_len
      · rw [hst_old _ (by omega) (by omega)]; exact h2.clone_link
      · intro h3 h4; rw [hst_next]; exact h2.clone_mod h3 h4
      · intro d h3; rw [hst_next]; exact h2.clone_same d h3
      · intro v hv h3 h4; rw [hst_next]; exact h2.hmod v hv h3 h4
      · intro v hv h3 h4; rw [hst_next]; exact h2.hred v hv h3 h4
      · intro v d hv h3 h4; rw [hst_next]; exact h2.hsame v d hv h3 h4

end Dup

namespace Dup

/-! ## `BuildSAMByString` and `FindMaxMatch` -/

theorem run_NewSAM (w : Str) (v : Nat) :
    run NewSAM.states 0 w = some v ↔ w = [] ∧ v = 0 := by
  cases w with
  | nil => simp [run, eq_comm]
  | cons c cs => simp [run, NewSAM, stateAt, NewState]

theorem inv_NewSAM : Inv [] NewSAM (fun _ => []) := by
  refine ⟨rfl, by simp [NewSAM], rfl, rfl, ?_, rfl, ?_, ?_, ?_, ?_⟩
  · intro v hv
    have : v = 0 := by simp [NewSAM] at hv; omega
    subst this; rfl
  · intro v hv h0
    simp [NewSAM] at hv; omega
  · intro w v h
    rw [run_NewSAM] at h
    simp [NewSAM, h.2]
  · intro w
    simp [run_NewSAM]
  · intro v hv w
    have : v = 0 := by simp [NewSAM] at hv; omega
    subst this
    rw [run_NewSAM]
    simp [minLen, NewSAM, stateAt, NewState]

theorem foldlM_extend_inv : ∀ (t : Str) {s : Str} {A : SAM} {rep : Nat → Str},
    Inv s A rep → ∃ A' rep', t.foldlM SAM.Extend A = some A' ∧ Inv (s ++ t) A' rep' := by
  intro t
  induction t with
  | nil =>
    intro s A rep h
    exact ⟨A, rep, rfl, by simpa using h⟩
  | cons c cs ih =>
    intro s A rep h
    obtain ⟨A₁, rep₁, he, h₁⟩ := extend_inv h c
    obtain ⟨A₂, rep₂, hf, h₂⟩ := ih h₁
    refine ⟨A₂, rep₂, ?_, by simpa using h₂⟩
    simp [List.foldlM_cons, he, hf]

/-- The construction never runs out of fuel, and its result satisfies the
invariant. -/
theorem build_inv (s : Str) : ∃ A rep, BuildSAMByString s = some A ∧ Inv s A rep := by
  obtain ⟨A, rep, h1, h2⟩ := foldlM_extend_inv s inv_NewSAM
  exact ⟨A, rep, h1, by simpa using h2⟩

/-- Under the invariant, `FindMaxMatch` returns the length of the longest
prefix of `query[start:]` that occurs in `s`. -/
theorem findMaxMatch_spec {s : Str} {A : SAM} {rep : Nat → Str} (hInv : Inv s A rep)
    (query : Str) (start : Nat) :
    (query.drop start).take (A.FindMaxMatch query start) <:+: s ∧
    A.FindMaxMatch query start ≤ query.length - start ∧
    ∀ l, l ≤ query.length - start → (query.drop start).take l <:+: s →
      l ≤ A.FindMaxMatch query start := by
  unfold SAM.FindMaxMatch
  refine ⟨(hInv.run_occurs _).1 (matchFrom_run _ _ _), ?_, ?_⟩
  · simpa using matchFrom_le A.states 0 (query.drop start)
  · intro l hl hi
    obtain ⟨u, hu⟩ := (hInv.run_occurs _).2 hi
    exact matchFrom_max _ _ _ l u (by simpa using hl) hu


/-- Claim C6.  For strings `S` and `Q` over {A,C,G,T,N} and `0 ≤ pos ≤ |Q|`,
`BuildSAMByString(S)` returns an automaton and `FindMaxMatch(Q, pos)` on it is the
largest `l` such that `Q[pos..pos+l)` occurs as a contiguous substring of `S`. -/
theorem findMaxMatch_longest_substring (S Q : Str) (pos : Nat)
    (_hS : IsDNA S) (_hQ : IsDNA Q) (_hpos : pos ≤ Q.length) :
    ∃ sam, BuildSAMByString S = some sam ∧
      IsGreatest {l | pos + l ≤ Q.length ∧ slice Q pos (pos + l) <:+: S}
        (sam.FindMaxMatch Q pos) := by
  obtain ⟨A, rep, hb, hInv⟩ := build_inv S
  obtain ⟨h1, h2, h3⟩ := findMaxMatch_spec hInv Q pos
  refine ⟨A, hb, ⟨?_, ?_⟩, ?_⟩
  · omega
  · simpa [slice] using h1
  · rintro l ⟨hl1, hl2⟩
    exact h3 l (by omega) (by simpa [slice] using hl2)

theorem findMaxMatch_longest_substring_witness :
    IsDNA (bytes "ACGTAC") ∧ IsDNA (bytes "GGTACA") ∧ 2 ≤ (bytes "GGTACA").length ∧
    ∃ sam, BuildSAMByString (bytes "ACGTAC") = some sam ∧
      IsGreatest {l | 2 + l ≤ (bytes "GGTACA").length ∧
          slice (bytes "GGTACA") 2 (2 + l) <:+: bytes "ACGTAC"}
        (sam.FindMaxMatch (bytes "GGTACA") 2) :=
  ⟨by decide, by decide, by decide,
    findMaxMatch_longest_substring (bytes "ACGTAC") (bytes "GGTACA") 2
      (by decide) (by decide) (by decide)⟩

/-- Claim C7.  For a string `S` over {A,C,G,T,N} and `0 ≤ i ≤ |S|`,
`BuildSAMByString(S)` returns an automaton and `FindMaxMatch(S, i) ≥ |S| - i`: the
automaton built from `S` recognizes every suffix of `S`. -/
theorem findMaxMatch_suffix (S : Str) (i : Nat) (_hS : IsDNA S) (_hi : i ≤ S.length) :
    ∃ sam, BuildSAMByString S = some sam ∧ S.length - i ≤ sam.FindMaxMatch S i := by
  obtain ⟨A, rep, hb, hInv⟩ := build_inv S
  refine ⟨A, hb, ?_⟩
  apply (findMaxMatch_spec hInv S i).2.2 _ (le_refl _)
  have : (S.drop i).take (S.length - i) = S.drop i := by
    apply List.take_of_length_le; simp
  rw [this]
  exact (List.drop_suffix i S).isInfix

theorem findMaxMatch_suffix_witness :
    IsDNA (bytes "ACGTNAC") ∧ 3 ≤ (bytes "ACGTNAC").length ∧
    ∃ sam, BuildSAMByString (bytes "ACGTNAC") = some sam ∧
      (bytes "ACGTNAC").length - 3 ≤ sam.FindMaxMatch (bytes "ACGTNAC") 3 :=
  ⟨by decide, by decide,
    findMaxMatch_suffix (bytes "ACGTNAC") 3 (by decide) (by decide)⟩

end Dup

namespace Dup

/-! ## `analyzeDuplicates` -/

theorem occursAt_iff {u r : Str} {i : Nat} :
    OccursAt u r i ↔ (i ≤ r.length ∧ u <+: r.drop i) := by
  unfold OccursAt slice
  constructor
  · rintro ⟨h1, h2⟩
    refine ⟨by omega, ?_⟩
    rw [← h2]
    exact List.take_prefix _ _
  · rintro ⟨h1, h2⟩
    have hl := h2.length_le
    simp at hl
    refine ⟨by omega, ?_⟩
    have : i + u.length - i = u.length := by omega
    rw [this]
    exact (List.prefix_iff_eq_take.1 h2).symm

theorem indexFrom_spec (sub : Str) : ∀ (s : Str) (i : Nat),
    (indexFrom sub s i = -1 ∧ ∀ k, k ≤ s.length → ¬ sub <+: s.drop k) ∨
    (∃ k : Nat, indexFrom sub s i = ((i + k : Nat) : Int) ∧ k ≤ s.length ∧ sub <+: s.drop k ∧
      ∀ j, j < k → ¬ sub <+: s.drop j) := by
  intro s
  induction s with
  | nil =>
    intro i
    unfold indexFrom
    by_cases h : sub = []
    · right
      exact ⟨0, by simp [h], by simp, by simp [h], by intro j hj; omega⟩
    · left
      refine ⟨by simp [h], ?_⟩
      intro k _
      simpa using h
  | cons x xs ih =>
    intro i
    unfold indexFrom
    by_cases h : sub.isPrefixOf (x :: xs) = true
    · right
      rw [if_pos h]
      exact ⟨0, by simp, by simp, by simpa using List.isPrefixOf_iff_prefix.1 h,
        by intro j hj; omega⟩
    · rw [if_neg h]
      have hnp : ¬ sub <+: x :: xs := fun hp => h (List.isPrefixOf_iff_prefix.2 hp)
      rcases ih (i + 1) with ⟨h1, h2⟩ | ⟨k, h1, h2, h3, h4⟩
      · left
        refine ⟨h1, ?_⟩
        intro k hk
        cases k with
        | zero => simpa using hnp
        | succ k => simpa using h2 k (by simpa using hk)
      · right
        refine ⟨k + 1, ?_, by simpa using h2, by simpa using h3, ?_⟩
        · rw [h1]; congr 1; omega
        · intro j hj
          cases j with
          | zero => simpa using hnp
          | succ j => simpa using h4 j (by omega)

/-- `strings.Index` returns the first index of an occurrence, or `-1`. -/
theorem stringsIndex_isFirstIndex (r u : Str) : IsFirstIndex r u (stringsIndex r u) := by
  unfold stringsIndex IsFirstIndex
  rcases indexFrom_spec u r 0 with ⟨h1, h2⟩ | ⟨k, h1, h2, h3, h4⟩
  · left
    refine ⟨h1, ?_⟩
    intro i hi
    obtain ⟨h5, h6⟩ := occursAt_iff.1 hi
    exact h2 i h5 h6
  · right
    refine ⟨k, by simpa using h1, occursAt_iff.2 ⟨h2, h3⟩, ?_⟩
    intro j hj hocc
    exact h4 j hj (occursAt_iff.1 hocc).2

theorem matchData_getD (refSAM invRefSAM : SAM) (query : Str) (pos : Nat)
    (h : pos < query.length) :
    (matchData refSAM invRefSAM query).getD pos ⟨0, false⟩ =
      matchAt refSAM invRefSAM query pos := by
  simp [matchData, List.getD_eq_getElem?_getD, List.getElem?_map, List.getElem?_range h]

theorem countRepeats_total (query : Str) (md : List matchInfo) (repeatUnit : Str)
    (unitLength : Nat) (unitInverted : Bool) (hu : 1 ≤ unitLength) :
    ∀ (fuel repeatCount nextStart : Nat), 1 ≤ fuel → query.length + 1 ≤ fuel + nextStart →
      ∃ cnt ns, countRepeats query md repeatUnit unitLength unitInverted fuel
          repeatCount nextStart = some (cnt, ns) ∧ repeatCount ≤ cnt ∧ nextStart ≤ ns := by
  intro fuel
  induction fuel with
  | zero => intro _ _ h; omega
  | succ fuel ih =>
    intro repeatCount nextStart _ hf
    unfold countRepeats
    by_cases hg : nextStart + unitLength ≤ query.length
    · rw [if_pos hg]
      split
      · exact ⟨_, _, rfl, le_refl _, le_refl _⟩
      · obtain ⟨cnt, ns, h1, h2, h3⟩ :=
          ih (repeatCount + 1) (nextStart + unitLength) (by omega) (by omega)
        exact ⟨cnt, ns, h1, by omega, by omega⟩
    · rw [if_neg hg]
      exact ⟨_, _, rfl, le_refl _, le_refl _⟩

theorem scanLoop_total (query ref : Str) (md : List matchInfo) :
    ∀ (fuel position : Nat) (acc : List Duplicate), 1 ≤ fuel →
      query.length + 1 ≤ fuel + position →
      (∀ d ∈ acc, RecordOk query ref md d) →
      ∃ ds, scanLoop query ref md fuel position acc = some ds ∧
        ∀ d ∈ ds, RecordOk query ref md d := by
  intro fuel
  induction fuel with
  | zero => intro _ _ h; omega
  | succ fuel ih =>
    intro position acc _ hf hacc
    unfold scanLoop
    by_cases hg : position < query.length
    · rw [if_pos hg]
      by_cases hz : (md.getD position ⟨0, false⟩).maxLength = 0
      · simp only [hz, if_true]
        exact ih (position + 1) acc (by omega) (by omega) hacc
      · simp only [hz, if_false]
        obtain ⟨cnt, ns, h1, h2, h3⟩ := countRepeats_total query md
          (slice query position (position + (md.getD position ⟨0, false⟩).maxLength))
          (md.getD position ⟨0, false⟩).maxLength (md.getD position ⟨0, false⟩).isInv
          (by omega) (query.length + 1) 1
          (position + (md.getD position ⟨0, false⟩).maxLength) (by omega) (by omega)
        simp only [h1]
        apply ih ns _ (by omega) (by omega)
        intro d hd
        rcases List.mem_append.1 hd with hd | hd
        · exact hacc d hd
        · simp only [List.mem_singleton] at hd
          subst hd
          exact ⟨hg, rfl, rfl, by simp only; omega, h2, rfl⟩
    · rw [if_neg hg]
      exact ⟨acc, rfl, hacc⟩

end Dup

namespace Dup

theorem baseMapping_eq_compSpec {c : Nat} (h : c = bA ∨ c = bC ∨ c = bG ∨ c = bT) :
    baseMapping c = compSpec c := by
  rcases h with h | h | h | h <;> subst h <;> rfl

theorem baseMapping_dna {c : Nat} (h : c = bA ∨ c = bC ∨ c = bG ∨ c = bT ∨ c = bN) :
    baseMapping c = bT ∨ baseMapping c = bG ∨ baseMapping c = bC ∨ baseMapping c = bA ∨
      baseMapping c = 0 := by
  rcases h with h | h | h | h | h <;> subst h <;> simp [baseMapping]

/-- A string over {A,C,G,T,N} that occurs in `reverseComplement(ref)` has no `N`,
so on it `reverseComplement` is the reverse complement of the glossary. -/
theorem reverseComplement_eq_spec {u Q R : Str} (hQ : IsDNA Q) (hR : IsDNA R)
    (huQ : ∀ c ∈ u, c ∈ Q) (hu : u <:+: reverseComplement R) :
    reverseComplement u = revCompSpec u := by
  unfold reverseComplement revCompSpec
  apply List.map_congr_left
  intro c hc
  have hcu : c ∈ u := List.mem_reverse.1 hc
  apply baseMapping_eq_compSpec
  have h1 := hQ c (huQ c hcu)
  have h2 : c ∈ reverseComplement R := hu.subset hcu
  unfold reverseComplement at h2
  obtain ⟨c', hc', rfl⟩ := List.mem_map.1 h2
  have h3 := baseMapping_dna (hR c' (List.mem_reverse.1 hc'))
  rcases h1 with h | h | h | h | h
  · exact Or.inl h
  · exact Or.inr (Or.inl h)
  · exact Or.inr (Or.inr (Or.inl h))
  · exact Or.inr (Or.inr (Or.inr h))
  · rw [h] at h3
    simp at h3

theorem matchAt_maxLength_of_inv (refSAM invRefSAM : SAM) (query : Str) (pos : Nat)
    (h : (matchAt refSAM invRefSAM query pos).isInv = true) :
    (matchAt refSAM invRefSAM query pos).maxLength = invRefSAM.FindMaxMatch query pos := by
  unfold matchAt at h ⊢
  simp only at h ⊢
  rw [if_pos h]

/-- Claim C8, as the code behaves.  For `R = "ACGTACGT"` and `Q = "ACGTACGTACGTACGT"`,
`analyzeDuplicates(Q, R)` returns exactly one record, with `QueryStart = 0`,
`RefStart = 0`, `Length = 8`, `Count = 2` and `IsInverted = true`: `R` is its own
reverse complement and the tie between the two strands goes to inverted. -/
theorem analyzeDuplicates_tandem :
    analyzeDuplicates (bytes "ACGTACGTACGTACGT") (bytes "ACGTACGT") =
      some [⟨0, 0, 8, 2, true⟩] := by decide!

/-- Claim C8, as stated, fails: the single record is not the one with
`IsInverted = false`. -/
theorem analyzeDuplicates_tandem_not_forward :
    analyzeDuplicates (bytes "ACGTACGTACGTACGT") (bytes "ACGTACGT") ≠
      some [⟨0, 0, 8, 2, false⟩] := by decide!

/-- Claim C9.  For `R = "AAACCCGGG"` and `Q = "CCCGGGTTTCCCGGGTTT"` (the reverse
complement of `R` written twice), `analyzeDuplicates(Q, R)` returns exactly one
record, and that record has `IsInverted = true` and `Count = 2`. -/
theorem analyzeDuplicates_inverted_tandem :
    bytes "CCCGGGTTTCCCGGGTTT" =
      revCompSpec (bytes "AAACCCGGG") ++ revCompSpec (bytes "AAACCCGGG") ∧
    ∃ d, analyzeDuplicates (bytes "CCCGGGTTTCCCGGGTTT") (bytes "AAACCCGGG") = some [d] ∧
      d.IsInverted = true ∧ d.Count = 2 :=
  ⟨by decide!, ⟨0, 0, 9, 2, true⟩, by decide!, rfl, rfl⟩

/-- Claim C10.  For `Q` and `R` over {A,C,G,T,N}, `analyzeDuplicates(Q, R)` returns,
and every record it returns has `Count ≥ 1` and `Length ≥ 1`, and its `RefStart`
is the smallest index at which the unit `Q[QueryStart .. QueryStart + Length)`
(or the reverse complement of that unit when `IsInverted`) occurs in `R`, or `-1`
when it does not occur. -/
theorem analyzeDuplicates_record_invariant (Q R : Str) (hQ : IsDNA Q) (hR : IsDNA R) :
    ∃ ds, analyzeDuplicates Q R = some ds ∧ ∀ d ∈ ds,
      1 ≤ d.Count ∧ 1 ≤ d.Length ∧
      IsFirstIndex R (if d.IsInverted then revCompSpec (unitOf Q d) else unitOf Q d)
        d.RefStart := by
  obtain ⟨refSAM, rep₁, hb₁, _⟩ := build_inv R
  obtain ⟨invRefSAM, rep₂, hb₂, hInv₂⟩ := build_inv (reverseComplement R)
  obtain ⟨ds, hds, hrec⟩ := scanLoop_total Q R (matchData refSAM invRefSAM Q)
    (Q.length + 1) 0 [] (by omega) (by omega) (by simp)
  refine ⟨ds, by simp [analyzeDuplicates, hb₁, hb₂, hds], ?_⟩
  intro d hd
  obtain ⟨hpos, hlen, hinv, h1, h2, href⟩ := hrec d hd
  refine ⟨h2, h1, ?_⟩
  rw [href]
  by_cases hi : d.IsInverted = true
  · simp only [hi, if_true]
    rw [matchData_getD _ _ _ _ hpos] at hlen hinv
    have hlen' : d.Length = invRefSAM.FindMaxMatch Q d.QueryStart := by
      rw [hlen]
      rw [hi] at hinv
      exact matchAt_maxLength_of_inv _ _ _ _ hinv.symm
    have hinf : unitOf Q d <:+: reverseComplement R := by
      have := (findMaxMatch_spec hInv₂ Q d.QueryStart).1
      rw [← hlen'] at this
      simpa [unitOf, slice] using this
    have hsub : ∀ c ∈ unitOf Q d, c ∈ Q := by
      intro c hc
      unfold unitOf slice at hc
      exact List.mem_of_mem_drop (List.mem_of_mem_take hc)
    rw [reverseComplement_eq_spec hQ hR hsub hinf]
    exact stringsIndex_isFirstIndex _ _
  · simp only [hi]
    exact stringsIndex_isFirstIndex _ _

theorem analyzeDuplicates_record_invariant_witness :
    IsDNA (bytes "ACGTTNACGA") ∧ IsDNA (bytes "ACGN") ∧
    ∃ ds, analyzeDuplicates (bytes "ACGTTNACGA") (bytes "ACGN") = some ds ∧ ∀ d ∈ ds,
      1 ≤ d.Count ∧ 1 ≤ d.Length ∧
      IsFirstIndex (bytes "ACGN")
        (if d.IsInverted then revCompSpec (unitOf (bytes "ACGTTNACGA") d)
          else unitOf (bytes "ACGTTNACGA") d)
        d.RefStart :=
  ⟨by decide, by decide,
    analyzeDuplicates_record_invariant (bytes "ACGTTNACGA") (bytes "ACGN")
      (by decide) (by decide)⟩

end Dup

namespace Dup

/-- Claim C12 (the code at an input with `N`).  `baseMapping` has the four keys
`A`, `T`, `C`, `G` only, so `reverseComplement` writes Go's zero byte for an `N`:
on `"ACGN"` it returns the bytes `0, 'C', 'G', 'T'`, where the reverse complement
of the glossary is `"NCGT"`. -/
theorem reverseComplement_unknown_base :
    reverseComplement (bytes "ACGN") = [0, bC, bG, bT] ∧
    revCompSpec (bytes "ACGN") = bytes "NCGT" ∧
    reverseComplement (bytes "ACGN") ≠ revCompSpec (bytes "ACGN") := by
  decide

end Dup

namespace Dup

/-! ## The link structure and the size of the automaton -/

theorem linksOk_of_inv {s : Str} {A : SAM} {rep : Nat → Str} (h : Inv s A rep) : LinksOk A := by
  refine ⟨?_, h.link_zero, ?_⟩
  · rw [h.len_rep 0 h.size_pos, h.rep_zero]
    rfl
  · intro v hv0 hv
    rw [h.size_eq] at hv ⊢
    obtain ⟨u, hu, hlt, _, hlen⟩ := h.link_pos v hv (by omega)
    refine ⟨u, hu, hlt, ?_⟩
    rw [h.len_rep u hlt, h.len_rep v hv]
    exact hlen

/-- Claim C24.  For every string `S` (over any alphabet, hence over
`{A, C, G, T, N}`) and every number `n` of `Extend` steps, the automaton after the
first `n` steps of `BuildSAMByString(S)` exists (no loop runs out of fuel), the
remaining steps lead from it to the result of `BuildSAMByString(S)`, and in it
state `0` has `len 0` and `link -1` and every other state has a link that is a
state index with a smaller `len`. -/
theorem buildSAM_links_ok (S : Str) (n : Nat) :
    ∃ A, BuildSAMByString (S.take n) = some A ∧
      (S.drop n).foldlM SAM.Extend A = BuildSAMByString S ∧ LinksOk A := by
  obtain ⟨A, rep, hA, hInv⟩ := build_inv (S.take n)
  refine ⟨A, hA, ?_, linksOk_of_inv hInv⟩
  have h : BuildSAMByString S = (S.take n ++ S.drop n).foldlM SAM.Extend NewSAM := by
    rw [List.take_append_drop]
    rfl
  rw [h, List.foldlM_append]
  unfold BuildSAMByString at hA
  rw [hA]
  rfl

/-- A step of `Extend` adds one state or two. -/
theorem extend_size {A A' : SAM} {c : Nat} (h : A.Extend c = some A') :
    A'.size ≤ A.size + 2 := by
  unfold SAM.Extend at h
  simp only [] at h
  split at h
  · cases h
  · split_ifs at h
    · cases h; simp
    · cases h; simp
    · split at h
      · cases h
      · cases h; simp

theorem foldlM_extend_size : ∀ (t : Str) (A A' : SAM),
    t.foldlM SAM.Extend A = some A' → A'.size ≤ A.size + 2 * t.length := by
  intro t
  induction t with
  | nil =>
    intro A A' h
    simp only [List.foldlM_nil, Option.pure_def, Option.some.injEq] at h
    subst h
    simp
  | cons c cs ih =>
    intro A A' h
    rw [List.foldlM_cons] at h
    cases h1 : A.Extend c with
    | none => rw [h1] at h; cases h
    | some A1 =>
      rw [h1] at h
      have h2 := ih A1 A' h
      have h3 := extend_size h1
      simp only [List.length_cons]
      omega

/-- The first step of the construction adds one state. -/
theorem extend_NewSAM (c : Nat) : ∃ A, NewSAM.Extend c = some A ∧ A.size = 2 :=
  ⟨_, rfl, rfl⟩

/-- Claim C25.  For every non-empty string `R` (over any alphabet, hence over
`{A, C, G, T, N}`) the automaton that `BuildSAMByString(R)` returns has at most
`2 * |R|` states: its `size` field and the length of its `states` array are both
at most `2 * |R|`. -/
theorem buildSAM_size (R : Str) (hR : R ≠ []) :
    ∃ A, BuildSAMByString R = some A ∧ A.size ≤ 2 * R.length ∧
      A.states.length ≤ 2 * R.length := by
  obtain ⟨A, rep, hA, hInv⟩ := build_inv R
  refine ⟨A, hA, ?_⟩
  have hsize : A.size ≤ 2 * R.length := by
    cases R with
    | nil => exact absurd rfl hR
    | cons c t =>
      obtain ⟨A1, h1, h2⟩ := extend_NewSAM c
      unfold BuildSAMByString at hA
      rw [List.foldlM_cons, h1] at hA
      have := foldlM_extend_size t A1 A hA
      simp only [List.length_cons]
      omega
  exact ⟨hsize, by rw [hInv.size_eq]; exact hsize⟩

theorem buildSAM_size_witness :
    bytes "ACGTN" ≠ [] ∧
    ∃ A, BuildSAMByString (bytes "ACGTN") = some A ∧ A.size ≤ 2 * (bytes "ACGTN").length ∧
      A.states.length ≤ 2 * (bytes "ACGTN").length :=
  ⟨by decide, buildSAM_size (bytes "ACGTN") (by decide)⟩

end Dup

namespace Dup

/-! ## The records of `analyzeDuplicates` as blocks of the query -/

theorem matchAt_maxLength_le (refSAM invRefSAM : SAM) (query : Str) (pos : Nat) :
    (matchAt refSAM invRefSAM query pos).maxLength ≤ query.length - pos := by
  have h1 : refSAM.FindMaxMatch query pos ≤ query.length - pos := by
    simpa [SAM.FindMaxMatch] using matchFrom_le refSAM.states 0 (query.drop pos)
  have h2 : invRefSAM.FindMaxMatch query pos ≤ query.length - pos := by
    simpa [SAM.FindMaxMatch] using matchFrom_le invRefSAM.states 0 (query.drop pos)
  unfold matchAt
  simp only
  split_ifs
  · exact h2
  · exact h1

/-- The counting loop returns a count of pieces that all equal the unit, and the
position after the last of them. -/
theorem countRepeats_block (query : Str) (md : List matchInfo) (pos unitLength : Nat)
    (unitInverted : Bool) (hu : 1 ≤ unitLength) :
    ∀ (fuel repeatCount nextStart : Nat), 1 ≤ fuel → query.length + 1 ≤ fuel + nextStart →
      nextStart = pos + repeatCount * unitLength → nextStart ≤ query.length →
      (∀ j, j < repeatCount →
        slice query (pos + j * unitLength) (pos + (j + 1) * unitLength) =
          slice query pos (pos + unitLength)) →
      ∃ cnt ns, countRepeats query md (slice query pos (pos + unitLength)) unitLength
          unitInverted fuel repeatCount nextStart = some (cnt, ns) ∧
        ns = pos + cnt * unitLength ∧ ns ≤ query.length ∧ repeatCount ≤ cnt ∧
        ∀ j, j < cnt →
          slice query (pos + j * unitLength) (pos + (j + 1) * unitLength) =
            slice query pos (pos + unitLength) := by
  intro fuel
  induction fuel with
  | zero => intro _ _ h; omega
  | succ fuel ih =>
    intro repeatCount nextStart _ hf hns hle hpieces
    unfold countRepeats
    by_cases hg : nextStart + unitLength ≤ query.length
    · rw [if_pos hg]
      split
      · exact ⟨_, _, rfl, hns, hle, le_refl _, hpieces⟩
      · rename_i hcond
        have hsl : slice query nextStart (nextStart + unitLength) =
            slice query pos (pos + unitLength) := by
          by_contra hne
          exact hcond (Or.inl hne)
        obtain ⟨cnt, ns, h1, h2, h3, h4, h5⟩ :=
          ih (repeatCount + 1) (nextStart + unitLength) (by omega) (by omega)
            (by rw [hns, Nat.add_mul]; omega) hg
            (by
              intro j hj
              by_cases hjc : j < repeatCount
              · exact hpieces j hjc
              · have hjeq : j = repeatCount := by omega
                have e1 : pos + j * unitLength = nextStart := by rw [hjeq, hns]
                have e2 : pos + (j + 1) * unitLength = nextStart + unitLength := by
                  rw [hjeq, hns, Nat.add_mul]; omega
                rw [e1, e2]
                exact hsl)
        exact ⟨cnt, ns, h1, h2, h3, by omega, h5⟩
    · rw [if_neg hg]
      exact ⟨_, _, rfl, hns, hle, le_refl _, hpieces⟩

/-- The main loop returns, and its records are blocks of the query, each at or
after the end of the ones before it. -/
theorem scanLoop_blocks (query ref : Str) (md : List matchInfo)
    (hmd : ∀ pos, pos < query.length →
      (md.getD pos ⟨0, false⟩).maxLength ≤ query.length - pos) :
    ∀ (fuel position : Nat) (acc : List Duplicate), 1 ≤ fuel →
      query.length + 1 ≤ fuel + position →
      (∀ d ∈ acc, BlockOk query d ∧ d.QueryStart + d.Count * d.Length ≤ position) →
      acc.Pairwise BlockBefore →
      ∃ ds, scanLoop query ref md fuel position acc = some ds ∧
        (∀ d ∈ ds, BlockOk query d) ∧ ds.Pairwise BlockBefore := by
  intro fuel
  induction fuel with
  | zero => intro _ _ h; omega
  | succ fuel ih =>
    intro position acc _ hf hacc hpw
    unfold scanLoop
    by_cases hg : position < query.length
    · rw [if_pos hg]
      by_cases hz : (md.getD position ⟨0, false⟩).maxLength = 0
      · simp only [hz, if_true]
        apply ih (position + 1) acc (by omega) (by omega) ?_ hpw
        intro d hd
        have := hacc d hd
        exact ⟨this.1, by omega⟩
      · simp only [hz, if_false]
        have hL := hmd position hg
        obtain ⟨cnt, ns, h1, h2, h3, h4, h5⟩ := countRepeats_block query md position
          (md.getD position ⟨0, false⟩).maxLength (md.getD position ⟨0, false⟩).isInv
          (by omega) (query.length + 1) 1
          (position + (md.getD position ⟨0, false⟩).maxLength) (by omega) (by omega)
          (by omega) (by omega)
          (by
            intro j hj
            have hj0 : j = 0 := by omega
            subst hj0
            simp)
        simp only [h1]
        apply ih ns _ (by omega) (by
          have : 1 * (md.getD position ⟨0, false⟩).maxLength ≤
              cnt * (md.getD position ⟨0, false⟩).maxLength := Nat.mul_le_mul_right _ h4
          omega)
        · intro d hd
          rcases List.mem_append.1 hd with hd | hd
          · have := hacc d hd
            exact ⟨this.1, by omega⟩
          · simp only [List.mem_singleton] at hd
            subst hd
            refine ⟨⟨?_, ?_⟩, ?_⟩
            · simp only
              omega
            · intro j hj
              exact h5 j hj
            · simp only
              omega
        · rw [List.pairwise_append]
          refine ⟨hpw, List.pairwise_singleton _ _, ?_⟩
          intro a ha b hb
          rw [List.mem_singleton.1 hb]
          exact (hacc a ha).2
    · rw [if_neg hg]
      exact ⟨acc, rfl, fun d hd => (hacc d hd).1, hpw⟩

/-- Claim C38.  For every `Q` and `R`, `analyzeDuplicates(Q, R)` returns, and its
records, in output order, describe disjoint left-to-right blocks of `Q`: the block
`[QueryStart, QueryStart + Count * Length)` of each record lies within `[0, |Q|)`,
each of its `Count` consecutive pieces of length `Length` equals the unit
`Q[QueryStart .. QueryStart + Length)`, and every later record (in particular the
next one) starts at or after the end of the block. -/
theorem analyzeDuplicates_blocks (Q R : Str) :
    ∃ ds, analyzeDuplicates Q R = some ds ∧
      (∀ d ∈ ds, d.QueryStart + d.Count * d.Length ≤ Q.length ∧
        ∀ j, j < d.Count →
          slice Q (d.QueryStart + j * d.Length) (d.QueryStart + (j + 1) * d.Length) =
            slice Q d.QueryStart (d.QueryStart + d.Length)) ∧
      ds.Pairwise (fun a b => a.QueryStart + a.Count * a.Length ≤ b.QueryStart) ∧
      ds.Chain' BlockBefore := by
  obtain ⟨refSAM, rep₁, hb₁, _⟩ := build_inv R
  obtain ⟨invRefSAM, rep₂, hb₂, _⟩ := build_inv (reverseComplement R)
  obtain ⟨ds, hds, hblk, hpw⟩ := scanLoop_blocks Q R (matchData refSAM invRefSAM Q)
    (by
      intro pos hpos
      rw [matchData_getD _ _ _ _ hpos]
      exact matchAt_maxLength_le _ _ _ _)
    (Q.length + 1) 0 [] (by omega) (by omega) (by simp) List.Pairwise.nil
  exact ⟨ds, by simp [analyzeDuplicates, hb₁, hb₂, hds], hblk, hpw, hpw.chain'⟩

end Dup

namespace Dup

/-! ## The unit of a record occurs in the reference -/

theorem matchAt_maxLength_of_not_inv (refSAM invRefSAM : SAM) (query : Str) (pos : Nat)
    (h : (matchAt refSAM invRefSAM query pos).isInv = false) :
    (matchAt refSAM invRefSAM query pos).maxLength = refSAM.FindMaxMatch query pos := by
  unfold matchAt at h ⊢
  simp only at h ⊢
  rw [if_neg (by simp [h])]

theorem baseMapping_involutive {c : Nat} (h : c = bA ∨ c = bC ∨ c = bG ∨ c = bT) :
    baseMapping (baseMapping c) = c := by
  rcases h with h | h | h | h <;> subst h <;> rfl

/-- A string without `N` that occurs in `reverseComplement(R)` is the reverse
complement of a string that occurs in `R`. -/
theorem reverseComplement_occurs {u R : Str} (hR : IsDNA R)
    (hu : ∀ c ∈ u, c = bA ∨ c = bC ∨ c = bG ∨ c = bT)
    (h : u <:+: reverseComplement R) : reverseComplement u <:+: R := by
  obtain ⟨s, t, hst⟩ := h
  unfold reverseComplement at hst
  obtain ⟨l₁, t', h1, h2, h3⟩ := List.append_eq_map_iff.1 hst
  obtain ⟨s', u', h4, h5, h6⟩ := List.map_eq_append_iff.1 h2
  have hu' : ∀ c ∈ u', c = bA ∨ c = bC ∨ c = bG ∨ c = bT := by
    intro c hc
    have hcR : c ∈ R := by
      have : c ∈ R.reverse := by
        rw [h1, h4]
        simp [hc]
      exact List.mem_reverse.1 this
    have hbm := hu (baseMapping c) (by rw [← h6]; exact List.mem_map_of_mem _ hc)
    rcases hR c hcR with h | h | h | h | h
    · exact Or.inl h
    · exact Or.inr (Or.inl h)
    · exact Or.inr (Or.inr (Or.inl h))
    · exact Or.inr (Or.inr (Or.inr h))
    · rw [h] at hbm
      simp [baseMapping] at hbm
  have hrc : reverseComplement u = u'.reverse := by
    unfold reverseComplement
    rw [← h6, ← List.map_reverse, List.map_map]
    conv_rhs => rw [← List.map_id u'.reverse]
    apply List.map_congr_left
    intro c hc
    exact baseMapping_involutive (hu' c (List.mem_reverse.1 hc))
  rw [hrc]
  refine ⟨t'.reverse, s'.reverse, ?_⟩
  have hRR : R = (s' ++ u' ++ t').reverse := by
    rw [← h4, ← h1, List.reverse_reverse]
  rw [hRR]
  simp [List.reverse_append]

/-- `strings.Index` finds a string that occurs. -/
theorem stringsIndex_of_occurs {r u : Str} (h : u <:+: r) :
    0 ≤ stringsIndex r u ∧ OccursAt u r (stringsIndex r u).toNat := by
  rcases stringsIndex_isFirstIndex r u with ⟨_, hno⟩ | ⟨i, hi, hocc, _⟩
  · exfalso
    obtain ⟨s, t, hst⟩ := h
    refine hno s.length (occursAt_iff.2 ⟨?_, ?_⟩)
    · rw [← hst]
      simp
    · rw [← hst]
      simp
  · rw [hi]
    exact ⟨Int.ofNat_nonneg i, by simpa using hocc⟩

/-- Claim C39.  For `Q` and `R` over {A,C,G,T,N}, `analyzeDuplicates(Q, R)` returns,
and every record it returns has `RefStart ≥ 0`: the unit
`Q[QueryStart .. QueryStart + Length)`, or its reverse complement when `IsInverted`,
occurs in `R` at `RefStart`, so the value `-1` is never emitted. -/
theorem analyzeDuplicates_refStart_found (Q R : Str) (hQ : IsDNA Q) (hR : IsDNA R) :
    ∃ ds, analyzeDuplicates Q R = some ds ∧ ∀ d ∈ ds,
      0 ≤ d.RefStart ∧ d.RefStart ≠ -1 ∧
      OccursAt (if d.IsInverted then revCompSpec (unitOf Q d) else unitOf Q d) R
        d.RefStart.toNat := by
  obtain ⟨refSAM, rep₁, hb₁, hInv₁⟩ := build_inv R
  obtain ⟨invRefSAM, rep₂, hb₂, hInv₂⟩ := build_inv (reverseComplement R)
  obtain ⟨ds, hds, hrec⟩ := scanLoop_total Q R (matchData refSAM invRefSAM Q)
    (Q.length + 1) 0 [] (by omega) (by omega) (by simp)
  refine ⟨ds, by simp [analyzeDuplicates, hb₁, hb₂, hds], ?_⟩
  intro d hd
  obtain ⟨hpos, hlen, hinv, h1, h2, href⟩ := hrec d hd
  rw [matchData_getD _ _ _ _ hpos] at hlen hinv
  have hsub : ∀ c ∈ unitOf Q d, c ∈ Q := by
    intro c hc
    unfold unitOf slice at hc
    exact List.mem_of_mem_drop (List.mem_of_mem_take hc)
  have key : ∀ x : Str, x <:+: R → d.RefStart = stringsIndex R x →
      0 ≤ d.RefStart ∧ d.RefStart ≠ -1 ∧ OccursAt x R d.RefStart.toNat := by
    intro x hx hd
    rw [hd]
    obtain ⟨h3, h4⟩ := stringsIndex_of_occurs hx
    exact ⟨h3, by omega, h4⟩
  by_cases hi : d.IsInverted = true
  · simp only [hi, if_true] at href ⊢
    have hlen' : d.Length = invRefSAM.FindMaxMatch Q d.QueryStart := by
      rw [hlen]
      rw [hi] at hinv
      exact matchAt_maxLength_of_inv _ _ _ _ hinv.symm
    have hinf : unitOf Q d <:+: reverseComplement R := by
      have := (findMaxMatch_spec hInv₂ Q d.QueryStart).1
      rw [← hlen'] at this
      simpa [unitOf, slice] using this
    have hspec := reverseComplement_eq_spec hQ hR hsub hinf
    have hacgt : ∀ c ∈ unitOf Q d, c = bA ∨ c = bC ∨ c = bG ∨ c = bT := by
      intro c hc
      have hcR : c ∈ reverseComplement R := hinf.subset hc
      unfold reverseComplement at hcR
      obtain ⟨c', hc', rfl⟩ := List.mem_map.1 hcR
      have h3 := baseMapping_dna (hR c' (List.mem_reverse.1 hc'))
      rcases hQ _ (hsub _ hc) with h | h | h | h | h
      · exact Or.inl h
      · exact Or.inr (Or.inl h)
      · exact Or.inr (Or.inr (Or.inl h))
      · exact Or.inr (Or.inr (Or.inr h))
      · rw [h] at h3
        simp at h3
    have hocc := reverseComplement_occurs hR hacgt hinf
    rw [hspec] at hocc href
    exact key _ hocc href
  · simp only [hi] at href ⊢
    have hif : d.IsInverted = false := by simpa using hi
    have hlen' : d.Length = refSAM.FindMaxMatch Q d.QueryStart := by
      rw [hlen]
      rw [hif] at hinv
      exact matchAt_maxLength_of_not_inv _ _ _ _ hinv.symm
    have hinf : unitOf Q d <:+: R := by
      have := (findMaxMatch_spec hInv₁ Q d.QueryStart).1
      rw [← hlen'] at this
      simpa [unitOf, slice] using this
    exact key _ hinf (by simpa using href)

theorem analyzeDuplicates_refStart_found_witness :
    IsDNA (bytes "ACGTTNACGA") ∧ IsDNA (bytes "ACGN") ∧
    ∃ ds, analyzeDuplicates (bytes "ACGTTNACGA") (bytes "ACGN") = some ds ∧ ∀ d ∈ ds,
      0 ≤ d.RefStart ∧ d.RefStart ≠ -1 ∧
      OccursAt
        (if d.IsInverted then revCompSpec (unitOf (bytes "ACGTTNACGA") d)
          else unitOf (bytes "ACGTTNACGA") d)
        (bytes "ACGN") d.RefStart.toNat :=
  ⟨by decide, by decide,
    analyzeDuplicates_refStart_found (bytes "ACGTTNACGA") (bytes "ACGN")
      (by decide) (by decide)⟩

end Dup

namespace Dup

/-! ## The strand of a record -/

/-- On a string over {A,C,G,T} the function `reverseComplement` is the reverse
complement of the glossary. -/
theorem reverseComplement_eq_revCompSpec {R : Str}
    (hR : ∀ c ∈ R, c = bA ∨ c = bC ∨ c = bG ∨ c = bT) :
    reverseComplement R = revCompSpec R := by
  unfold reverseComplement revCompSpec
  apply List.map_congr_left
  intro c hc
  exact baseMapping_eq_compSpec (hR c (List.mem_reverse.1 hc))

/-- The strand rule of `analyzeDuplicates`, with the function `reverseComplement`
of the code: a record at position `p` is inverted exactly when the longest match
of `Q[p..]` in `reverseComplement(R)` is at least as long as its longest match in
`R`, and its `Length` is the larger of the two match lengths. -/
theorem analyzeDuplicates_strand_rule (Q R : Str) :
    ∃ ds, analyzeDuplicates Q R = some ds ∧ ∀ d ∈ ds, ∃ f r : Nat,
      IsGreatest {l | d.QueryStart + l ≤ Q.length ∧
        slice Q d.QueryStart (d.QueryStart + l) <:+: R} f ∧
      IsGreatest {l | d.QueryStart + l ≤ Q.length ∧
        slice Q d.QueryStart (d.QueryStart + l) <:+: reverseComplement R} r ∧
      (d.IsInverted = true ↔ f ≤ r) ∧ d.Length = max f r := by
  obtain ⟨refSAM, rep₁, hb₁, hInv₁⟩ := build_inv R
  obtain ⟨invRefSAM, rep₂, hb₂, hInv₂⟩ := build_inv (reverseComplement R)
  obtain ⟨ds, hds, hrec⟩ := scanLoop_total Q R (matchData refSAM invRefSAM Q)
    (Q.length + 1) 0 [] (by omega) (by omega) (by simp)
  refine ⟨ds, by simp [analyzeDuplicates, hb₁, hb₂, hds], ?_⟩
  intro d hd
  obtain ⟨hpos, hlen, hinv, h1, _, _⟩ := hrec d hd
  rw [matchData_getD _ _ _ _ hpos] at hlen hinv
  have hgreat : ∀ {s : Str} {A : SAM} {rep : Nat → Str}, Inv s A rep →
      IsGreatest {l | d.QueryStart + l ≤ Q.length ∧
        slice Q d.QueryStart (d.QueryStart + l) <:+: s} (A.FindMaxMatch Q d.QueryStart) := by
    intro s A rep hI
    obtain ⟨g1, g2, g3⟩ := findMaxMatch_spec hI Q d.QueryStart
    refine ⟨⟨by omega, by simpa [slice] using g1⟩, ?_⟩
    rintro l ⟨hl1, hl2⟩
    exact g3 l (by omega) (by simpa [slice] using hl2)
  refine ⟨refSAM.FindMaxMatch Q d.QueryStart, invRefSAM.FindMaxMatch Q d.QueryStart,
    hgreat hInv₁, hgreat hInv₂, ?_, ?_⟩
  · rw [hinv]
    unfold matchAt at hlen ⊢
    simp only at hlen ⊢
    simp only [Bool.or_eq_true, Bool.and_eq_true, decide_eq_true_eq]
    constructor
    · intro h
      omega
    · intro h
      by_cases hlt : refSAM.FindMaxMatch Q d.QueryStart < invRefSAM.FindMaxMatch Q d.QueryStart
      · exact Or.inl hlt
      · right
        have heq : invRefSAM.FindMaxMatch Q d.QueryStart =
            refSAM.FindMaxMatch Q d.QueryStart := by omega
        refine ⟨heq, ?_⟩
        rw [heq] at hlen
        simp only [ite_self] at hlen
        omega
  · rw [hlen]
    unfold matchAt
    simp only
    split_ifs with hc
    · simp only [Bool.or_eq_true, Bool.and_eq_true, decide_eq_true_eq] at hc
      omega
    · simp only [Bool.or_eq_true, Bool.and_eq_true, decide_eq_true_eq, not_or, not_and] at hc
      omega

/-- When `R` has no `N`, the strand rule holds with the reverse complement of the
glossary. -/
theorem analyzeDuplicates_strand_rule_acgt (Q R : Str)
    (hR : ∀ c ∈ R, c = bA ∨ c = bC ∨ c = bG ∨ c = bT) :
    ∃ ds, analyzeDuplicates Q R = some ds ∧ ∀ d ∈ ds, ∃ f r : Nat,
      IsGreatest {l | d.QueryStart + l ≤ Q.length ∧
        slice Q d.QueryStart (d.QueryStart + l) <:+: R} f ∧
      IsGreatest {l | d.QueryStart + l ≤ Q.length ∧
        slice Q d.QueryStart (d.QueryStart + l) <:+: revCompSpec R} r ∧
      (d.IsInverted = true ↔ f ≤ r) ∧ d.Length = max f r := by
  rw [← reverseComplement_eq_revCompSpec hR]
  exact analyzeDuplicates_strand_rule Q R

/-- Claim C31 (the code at an input with `N`).  For `Q = "NA"` and `R = "TN"` the
reverse complement of `R` is `"NA"`, so at position `0` the longest match of
`Q[0..]` in it has length `2`, and the longest match in `R` has length `1`: the
record at position `0` should be inverted and have `Length = 2`.
`reverseComplement` writes the byte `0` for the `N` of `R`, so the code finds no
match on the reverse strand there and emits the record with `IsInverted = false`
and `Length = 1`. -/
theorem analyzeDuplicates_strand_unknown_base :
    IsDNA (bytes "NA") ∧ IsDNA (bytes "TN") ∧
    analyzeDuplicates (bytes "NA") (bytes "TN") =
      some [⟨0, 1, 1, 1, false⟩, ⟨1, 0, 1, 1, true⟩] ∧
    revCompSpec (bytes "TN") = bytes "NA" ∧
    reverseComplement (bytes "TN") = [0, bA] ∧
    IsGreatest {l | 0 + l ≤ (bytes "NA").length ∧
      slice (bytes "NA") 0 (0 + l) <:+: revCompSpec (bytes "TN")} 2 ∧
    IsGreatest {l | 0 + l ≤ (bytes "NA").length ∧
      slice (bytes "NA") 0 (0 + l) <:+: bytes "TN"} 1 := by
  refine ⟨by decide, by decide, by decide!, by decide, by decide, ⟨?_, ?_⟩, ⟨?_, ?_⟩⟩
  · exact ⟨by decide, by decide⟩
  · rintro l ⟨hl, _⟩
    have : (bytes "NA").length = 2 := rfl
    omega
  · exact ⟨by decide, by decide⟩
  · rintro l ⟨hl, hin⟩
    have h2 : (bytes "NA").length = 2 := rfl
    have hl2 : l ≤ 2 := by omega
    by_contra hgt
    have hl3 : l = 2 := by omega
    subst hl3
    revert hin
    decide

end Dup

namespace Aligner

variable {F : Type}

/-! ## Sorting -/

theorem sortStable_perm {α : Type} (less : α → α → Bool) (xs : List α) :
    (sortStable less xs).Perm xs :=
  List.perm_insertionSort _ xs

theorem mem_sortStable {α : Type} (less : α → α → Bool) (xs : List α) (x : α) :
    x ∈ sortStable less xs ↔ x ∈ xs :=
  (sortStable_perm less xs).mem_iff

theorem mem_sortSlice {α : Type} (less : α → α → Bool) (xs : List α) (x : α) :
    x ∈ sortSlice less xs ↔ x ∈ xs :=
  mem_sortStable less xs x

theorem sortSlice_perm {α : Type} (less : α → α → Bool) (xs : List α) :
    (sortSlice less xs).Perm xs :=
  sortStable_perm less xs

/-- A list that is already in order is left unchanged. -/
theorem sortSlice_eq_self {α : Type} (less : α → α → Bool) (xs : List α)
    (h : xs.Pairwise (fun a b => less b a = false)) : sortSlice less xs = xs :=
  List.Sorted.insertionSort_eq h

/-- The result of a sort is in order, for a comparison that is a strict weak
order. -/
theorem sortSlice_sorted {α : Type} (less : α → α → Bool)
    (htot : ∀ a b, less b a = false ∨ less a b = false)
    (htrans : ∀ a b c, less b a = false → less c b = false → less c a = false)
    (xs : List α) : (sortSlice less xs).Pairwise (fun a b => less b a = false) := by
  haveI : IsTotal α (fun a b => less b a = false) := ⟨htot⟩
  haveI : IsTrans α (fun a b => less b a = false) := ⟨htrans⟩
  exact List.sorted_insertionSort _ xs

theorem sortSlice_qs_sorted (xs : List Segment) :
    (sortSlice (fun a b => decide (a.QueryStart < b.QueryStart)) xs).Pairwise
      (fun a b => a.QueryStart ≤ b.QueryStart) := by
  have h := sortSlice_sorted (fun (a b : Segment) => decide (a.QueryStart < b.QueryStart))
    (by intro a b; simp; omega) (by intro a b c; simp; omega) xs
  exact h.imp (by intro a b hab; simpa using hab)

/-! ## `ResolveOverlaps` -/

theorem resolveLess_false_iff (a b : Segment) :
    resolveLess b a = false ↔
      (a.QueryStart < b.QueryStart ∨ (a.QueryStart = b.QueryStart ∧
        (a.QueryEnd - a.QueryStart > b.QueryEnd - b.QueryStart ∨
          (a.QueryEnd - a.QueryStart = b.QueryEnd - b.QueryStart ∧
            a.RefStart ≤ b.RefStart)))) := by
  unfold resolveLess
  split_ifs with h1 h2 <;> simp <;> omega

theorem resolve_sorted (xs : List Segment) :
    (sortSlice resolveLess xs).Pairwise (fun a b => resolveLess b a = false) := by
  apply sortSlice_sorted
  · intro a b
    rw [resolveLess_false_iff, resolveLess_false_iff]; omega
  · intro a b c
    rw [resolveLess_false_iff, resolveLess_false_iff, resolveLess_false_iff]; omega

theorem resolve_qs_sorted (xs : List Segment) :
    (sortSlice resolveLess xs).Pairwise (fun a b => a.QueryStart ≤ b.QueryStart) := by
  apply (resolve_sorted xs).imp
  intro a b h
  rw [resolveLess_false_iff] at h; omega

theorem resolveWalk_mem : ∀ (rest : List Segment) (prev : Segment) (out : List Segment) (x : Segment),
    x ∈ resolveWalk prev out rest → x ∈ out ∨ x = prev ∨ x ∈ rest := by
  intro rest
  induction rest with
  | nil =>
    intro prev out x h
    simp only [resolveWalk, List.mem_append, List.mem_singleton] at h
    rcases h with h | h
    · exact Or.inl h
    · exact Or.inr (Or.inl h)
  | cons curr rest ih =>
    intro prev out x h
    simp only [resolveWalk] at h
    split_ifs at h
    · rcases ih _ _ _ h with h | h | h
      · exact Or.inl h
      · exact Or.inr (Or.inr (h ▸ List.mem_cons_self _ _))
      · exact Or.inr (Or.inr (List.mem_cons_of_mem _ h))
    · rcases ih _ _ _ h with h | h | h
      · exact Or.inl h
      · exact Or.inr (Or.inl h)
      · exact Or.inr (Or.inr (List.mem_cons_of_mem _ h))
    · rcases ih _ _ _ h with h | h | h
      · rcases List.mem_append.1 h with h | h
        · exact Or.inl h
        · exact Or.inr (Or.inl (List.mem_singleton.1 h))
      · exact Or.inr (Or.inr (h ▸ List.mem_cons_self _ _))
      · exact Or.inr (Or.inr (List.mem_cons_of_mem _ h))

/-- Every segment that `ResolveOverlaps` returns is one of its input. -/
theorem ResolveOverlaps_mem (segments : List Segment) (x : Segment)
    (h : x ∈ ResolveOverlaps segments) : x ∈ segments := by
  unfold ResolveOverlaps at h
  rw [← mem_sortSlice resolveLess segments x]
  split at h
  · simp at h
  · rename_i first rest heq
    rw [heq]
    rcases resolveWalk_mem _ _ _ _ h with h | h | h
    · simp at h
    · exact h ▸ List.mem_cons_self _ _
    · exact List.mem_cons_of_mem _ h

theorem resolveWalk_pairwise : ∀ (rest : List Segment) (prev : Segment) (out : List Segment),
    (out ++ [prev]).Pairwise QBefore →
    (∀ o ∈ out, o.QueryEnd < prev.QueryStart) →
    (∀ x ∈ rest, prev.QueryStart ≤ x.QueryStart) →
    rest.Pairwise (fun a b => a.QueryStart ≤ b.QueryStart) →
    (resolveWalk prev out rest).Pairwise QBefore := by
  intro rest
  induction rest with
  | nil =>
    intro prev out h _ _ _
    simpa [resolveWalk] using h
  | cons curr rest ih =>
    intro prev out h ho hr hs
    have hpc : prev.QueryStart ≤ curr.QueryStart := hr curr (List.mem_cons_self _ _)
    obtain ⟨hs1, hs2⟩ := List.pairwise_cons.1 hs
    have hout : out.Pairwise QBefore := (List.pairwise_append.1 h).1
    simp only [resolveWalk]
    split_ifs with h1 h2
    · apply ih curr out
      · rw [List.pairwise_append]
        refine ⟨hout, List.pairwise_singleton _ _, ?_⟩
        intro a ha b hb
        rw [List.mem_singleton] at hb
        subst hb
        have := ho a ha
        unfold QBefore; omega
      · intro o hoo; have := ho o hoo; omega
      · exact hs1
      · exact hs2
    · apply ih prev out h ho
      · intro x hx; exact hr x (List.mem_cons_of_mem _ hx)
      · exact hs2
    · apply ih curr (out ++ [prev])
      · rw [List.pairwise_append]
        refine ⟨h, List.pairwise_singleton _ _, ?_⟩
        intro a ha b hb
        rw [List.mem_singleton] at hb
        subst hb
        rcases List.mem_append.1 ha with ha | ha
        · have := ho a ha
          unfold QBefore; omega
        · rw [List.mem_singleton] at ha
          subst ha
          unfold QBefore; omega
      · intro o hoo
        rcases List.mem_append.1 hoo with ha | ha
        · have := ho o ha; omega
        · rw [List.mem_singleton] at ha
          subst ha; omega
      · exact hs1
      · exact hs2

/-- In the output of `ResolveOverlaps`, every segment ends in the query strictly
before each later one starts. -/
theorem ResolveOverlaps_pairwise (segments : List Segment) :
    (ResolveOverlaps segments).Pairwise QBefore := by
  unfold ResolveOverlaps
  have hs := resolve_qs_sorted segments
  split
  · exact List.Pairwise.nil
  · rename_i first rest heq
    rw [heq] at hs
    obtain ⟨hs1, hs2⟩ := List.pairwise_cons.1 hs
    apply resolveWalk_pairwise rest first []
    · simp
    · simp
    · exact hs1
    · exact hs2

/-! ## The clamping loop and the final sort -/

theorem mem_clampSegments (queryLen refLen : Int) (segs : List Segment) (z : Segment) :
    z ∈ clampSegments queryLen refLen segs ↔
      ∃ s ∈ segs, s.QueryStart ≤ min s.QueryEnd (queryLen - 1) ∧
        s.RefStart ≤ min s.RefEnd (refLen - 1) ∧
        z = ⟨s.QueryStart, min s.QueryEnd (queryLen - 1), s.RefStart,
          min s.RefEnd (refLen - 1)⟩ := by
  unfold clampSegments
  simp only [List.mem_flatMap]
  constructor
  · rintro ⟨s, hs, hz⟩
    split_ifs at hz with h
    · rw [List.mem_singleton] at hz
      exact ⟨s, hs, h.1, h.2, hz⟩
    · simp at hz
  · rintro ⟨s, hs, h1, h2, hz⟩
    refine ⟨s, hs, ?_⟩
    rw [if_pos ⟨h1, h2⟩, List.mem_singleton]
    exact hz

theorem clampSegments_pairwise (queryLen refLen : Int) (segs : List Segment)
    (h : segs.Pairwise QBefore) : (clampSegments queryLen refLen segs).Pairwise QBefore := by
  unfold clampSegments
  rw [List.pairwise_flatMap]
  constructor
  · intro s _
    dsimp only
    split_ifs <;> simp
  · apply h.imp
    intro a b hab x hx y hy
    dsimp only at hx hy
    split_ifs at hx with h1
    · split_ifs at hy with h2
      · rw [List.mem_singleton] at hx hy
        subst hx; subst hy
        unfold QBefore at hab ⊢
        simp only
        omega
      · simp at hy
    · simp at hx

/-- A list in which every segment is non-empty in the query and ends before the
later ones start is in the order of the final sort. -/
theorem finalLess_sorted_of_pairwise (segs : List Segment)
    (h : segs.Pairwise QBefore) (hwf : ∀ s ∈ segs, s.QueryStart ≤ s.QueryEnd) :
    segs.Pairwise (fun a b => finalLess b a = false) := by
  induction segs with
  | nil => exact List.Pairwise.nil
  | cons a rest ih =>
    obtain ⟨h1, h2⟩ := List.pairwise_cons.1 h
    refine List.pairwise_cons.2 ⟨?_, ih h2 (fun s hs => hwf s (List.mem_cons_of_mem _ hs))⟩
    intro b hb
    have hab := h1 b hb
    have ha := hwf a (List.mem_cons_self _ _)
    unfold QBefore at hab
    unfold finalLess
    have hne : b.QueryStart ≠ a.QueryStart := by omega
    simp only [hne, ne_eq, not_false_eq_true, if_true, decide_eq_false_iff_not]
    omega

/-- The last three steps of `FindAlignment` (overlap resolution, clamping, final
sort) return the clamped segments in the order of `ResolveOverlaps`. -/
theorem final_steps_eq (queryLen refLen : Int) (segs : List Segment) :
    sortSlice finalLess (clampSegments queryLen refLen (ResolveOverlaps segs)) =
      clampSegments queryLen refLen (ResolveOverlaps segs) := by
  apply sortSlice_eq_self
  apply finalLess_sorted_of_pairwise
  · exact clampSegments_pairwise _ _ _ (ResolveOverlaps_pairwise segs)
  · intro z hz
    obtain ⟨s, _, h1, _, rfl⟩ := (mem_clampSegments _ _ _ _).1 hz
    exact h1

/-- The segments that `FindAlignment` passes to its final overlap resolution, for
non-empty inputs. -/
theorem FindAlignment_final_form (fl : FloatOps F) (query ref : Str) (minMatchLenUser : Int) :
    ∃ segs, FindAlignment fl query ref minMatchLenUser =
      if strLen query = 0 ∨ strLen ref = 0 then []
      else clampSegments (strLen query) (strLen ref) (ResolveOverlaps segs) := by
  unfold FindAlignment
  simp only []
  by_cases h : strLen query = 0 ∨ strLen ref = 0
  · exact ⟨[], by simp [h]⟩
  · simp only [h, if_false]
    exact ⟨_, final_steps_eq _ _ _⟩

end Aligner

/-! ## Coordinates of the anchors

Every anchor that `FindAnchors` returns starts at a non-negative position of the
query and of the reference and ends inside the reference; the starts of a reverse
anchor, mapped back to the forward strand, are non-negative too.  None of this
depends on the floating-point tests, which only decide whether an anchor is kept. -/

namespace Aligner

variable {F : Type}

theorem mem_stepRange_nonneg {n step x : Int} (h : x ∈ stepRange n step) : 0 ≤ x := by
  unfold stepRange at h
  obtain ⟨i, hi, rfl⟩ := List.mem_map.1 h
  have hi0 : 0 ≤ i := by
    simp only [List.bind_eq_flatMap, List.mem_flatMap, List.mem_pure] at hi
    obtain ⟨a, _, rfl⟩ := hi
    exact Int.ofNat_nonneg a
  have hpos : step.toNat ≠ 0 := by
    intro h0
    rw [h0, Nat.div_zero] at hi
    simp at hi
  have : 0 < step := by
    by_contra hneg
    exact hpos (Int.toNat_eq_zero.2 (not_lt.1 hneg))
  exact mul_nonneg hi0 this.le

theorem foldl_kmers_mem (ref : Str) (k : Int) (key : Str) (rPos : Int) :
    ∀ (l : List Int) (m : Str → List Int),
      rPos ∈ (l.foldl (fun m (i : Int) => fun key =>
        if key = sliceI ref i (i + k) then m key ++ [i] else m key) m) key →
      rPos ∈ m key ∨ rPos ∈ l := by
  intro l
  induction l with
  | nil => intro m h; exact Or.inl h
  | cons a l ih =>
    intro m h
    rw [List.foldl_cons] at h
    rcases ih _ h with h1 | hi
    · split_ifs at h1
      · rcases List.mem_append.1 h1 with h2 | h2
        · exact Or.inl h2
        · rw [List.mem_singleton.1 h2]
          exact Or.inr (List.mem_cons_self _ _)
      · exact Or.inl h1
    · exact Or.inr (List.mem_cons_of_mem _ hi)

theorem mem_buildRefKmers {ref : Str} {k : Int} {key : Str} {rPos : Int}
    (h : rPos ∈ buildRefKmers ref k key) : 0 ≤ rPos ∧ rPos + k ≤ strLen ref := by
  unfold buildRefKmers at h
  rcases foldl_kmers_mem ref k key rPos _ _ h with h1 | hi
  · simp at h1
  · simp only [List.bind_eq_flatMap, List.mem_flatMap, List.mem_pure, List.mem_range] at hi
    obtain ⟨a, ha, rfl⟩ := hi
    omega

/-- The seeds of `FindExactMatches` lie inside both strings. -/
theorem mem_FindExactMatches {query ref : Str} {k : Int} {em : KmerMatch}
    (h : em ∈ FindExactMatches query ref k) :
    0 ≤ em.QueryPos ∧ 0 ≤ em.RefPos ∧ 0 < em.Length ∧
      em.QueryPos + em.Length ≤ strLen query ∧ em.RefPos + em.Length ≤ strLen ref := by
  unfold FindExactMatches at h
  simp only [] at h
  generalize (if k = 0 then DefaultK else k) = k0 at h
  split_ifs at h with hk
  · simp at h
  · obtain ⟨i, hi, hem⟩ := List.mem_flatMap.1 h
    obtain ⟨rPos, hr, rfl⟩ := List.mem_map.1 hem
    have := mem_buildRefKmers hr
    rw [List.mem_range] at hi
    push_neg at hk
    refine ⟨by simp, this.1, ?_, ?_, this.2⟩
    · simp only; omega
    · simp only; omega

theorem fwdBody_r_le (query ref : Str) (s : ExtState) (h : s.r < strLen ref) :
    (fwdBody query ref s).r ≤ strLen ref := by
  unfold fwdBody
  split_ifs <;> simp only <;> omega

theorem fwdLoop_r_le (query ref : Str) (maxErrors : Int) :
    ∀ (fuel : Nat) (s : ExtState), s.r ≤ strLen ref →
      (fwdLoop query ref maxErrors fuel s).r ≤ strLen ref := by
  intro fuel
  induction fuel with
  | zero => intro s h; exact h
  | succ n ih =>
    intro s h
    unfold fwdLoop
    split_ifs with hc
    · exact ih _ (fwdBody_r_le query ref s hc.2.1)
    · exact h

theorem bwdBody_ge (query ref : Str) (s : ExtState) (hq : 0 ≤ s.q) (hr : 0 ≤ s.r) :
    -1 ≤ (bwdBody query ref s).q ∧ -1 ≤ (bwdBody query ref s).r := by
  unfold bwdBody
  split_ifs <;> simp only <;> omega

theorem bwdLoop_ge (query ref : Str) (maxErrors : Int) :
    ∀ (fuel : Nat) (s : ExtState), -1 ≤ s.q → -1 ≤ s.r →
      -1 ≤ (bwdLoop query ref maxErrors fuel s).q ∧
        -1 ≤ (bwdLoop query ref maxErrors fuel s).r := by
  intro fuel
  induction fuel with
  | zero => intro s hq hr; exact ⟨hq, hr⟩
  | succ n ih =>
    intro s hq hr
    unfold bwdLoop
    split_ifs with hc
    · have := bwdBody_ge query ref s hc.1 hc.2.1
      exact ih _ this.1 this.2
    · exact ⟨hq, hr⟩

/-- The coordinates of an anchor that `ExtendMatch` returns for a seed inside the
strings. -/
theorem ExtendMatch_bounds (fl : FloatOps F) (query ref : Str) (qS rS k mm me : Int)
    (a : AnchorMatch F) (h : ExtendMatch fl query ref qS rS k mm me = some a)
    (hq : 0 ≤ qS) (hr : 0 ≤ rS) (hk : rS + k ≤ strLen ref) :
    0 ≤ a.QueryStart ∧ 0 ≤ a.RefStart ∧ a.RefEnd < strLen ref := by
  unfold ExtendMatch at h
  simp only [] at h
  generalize (if me = 0 then ExtendMaxErrors else me) = me0 at h
  generalize (if mm = 0 then MinMatchLength else mm) = mm0 at h
  have hf := fwdLoop_r_le query ref me0 (query.length + 1) ⟨qS + k, rS + k, 0, k⟩ hk
  generalize fwdLoop query ref me0 (query.length + 1) ⟨qS + k, rS + k, 0, k⟩ = fwd at h hf
  have hb := bwdLoop_ge query ref me0 (query.length + 1) ⟨qS - 1, rS - 1, 0, fwd.totalMatches⟩
    (by simp only; omega) (by simp only; omega)
  generalize bwdLoop query ref me0 (query.length + 1)
    ⟨qS - 1, rS - 1, 0, fwd.totalMatches⟩ = bwd at h hb
  split_ifs at h <;> cases h <;>
    exact ⟨by simp only; omega, by simp only; omega, by simp only; omega⟩

end Aligner

namespace Aligner

variable {F : Type}

theorem anchorsLoop_mem (fl : FloatOps F) (query ref : Str) (mm st me : Int)
    (x : AnchorMatch F) :
    ∀ (ems : List KmerMatch) (i : Nat) (anchors : List (AnchorMatch F))
      (processed : Int → Int → Bool),
      x ∈ anchorsLoop fl query ref mm st me ems i anchors processed →
      x ∈ anchors ∨ ∃ em ∈ ems,
        ExtendMatch fl query ref em.QueryPos em.RefPos em.Length mm me = some x := by
  intro ems
  induction ems with
  | nil => intro i anchors processed h; exact Or.inl h
  | cons em rest ih =>
    intro i anchors processed h
    unfold anchorsLoop at h
    split_ifs at h with hc
    · rcases ih _ _ _ h with h1 | ⟨e, he, hx⟩
      · exact Or.inl h1
      · exact Or.inr ⟨e, List.mem_cons_of_mem _ he, hx⟩
    · cases hext : ExtendMatch fl query ref em.QueryPos em.RefPos em.Length mm me with
      | none =>
        rw [hext] at h
        rcases ih _ _ _ h with h1 | ⟨e, he, hx⟩
        · exact Or.inl h1
        · exact Or.inr ⟨e, List.mem_cons_of_mem _ he, hx⟩
      | some anchor =>
        rw [hext] at h
        rcases ih _ _ _ h with h1 | ⟨e, he, hx⟩
        · rcases List.mem_append.1 h1 with h2 | h2
          · exact Or.inl h2
          · rw [List.mem_singleton.1 h2]
            exact Or.inr ⟨em, List.mem_cons_self _ _, hext⟩
        · exact Or.inr ⟨e, List.mem_cons_of_mem _ he, hx⟩

theorem filterLoop_mem (fl : FloatOps F) (thr : F) (x : AnchorMatch F) :
    ∀ (l : List (AnchorMatch F)) (flags : List Bool),
      x ∈ filterLoop fl thr l flags → x ∈ l := by
  intro l
  induction l with
  | nil => intro flags h; simp [filterLoop] at h
  | cons a rest ih =>
    intro flags h
    unfold filterLoop at h
    split_ifs at h
    · exact List.mem_cons_of_mem _ (ih _ h)
    · rcases List.mem_cons.1 h with h1 | h1
      · rw [h1]; exact List.mem_cons_self _ _
      · exact List.mem_cons_of_mem _ (ih _ h1)

/-- `FilterAnchors` only selects among the anchors it is given. -/
theorem FilterAnchors_mem (fl : FloatOps F) (anchors : List (AnchorMatch F)) (thr : F)
    (x : AnchorMatch F) (h : x ∈ FilterAnchors fl anchors thr) : x ∈ anchors := by
  unfold FilterAnchors at h
  split_ifs at h
  · simp at h
  · simp only [] at h
    rw [mem_sortStable] at h
    have := filterLoop_mem fl thr x _ _ h
    rwa [mem_sortStable] at this

/-- Every anchor of `FindAnchors` comes from `ExtendMatch` at a seed inside the
strings. -/
theorem FindAnchors_mem (fl : FloatOps F) (query ref : Str) (k mm st me : Int)
    (x : AnchorMatch F) (h : x ∈ FindAnchors fl query ref k mm st me) :
    ∃ (qS rS k0 me0 : Int),
      ExtendMatch fl query ref qS rS k0 (if mm = 0 then MinMatchLength else mm) me0 = some x ∧
      0 ≤ qS ∧ 0 ≤ rS ∧ 0 < k0 ∧ qS + k0 ≤ strLen query ∧ rS + k0 ≤ strLen ref := by
  unfold FindAnchors at h
  simp only [] at h
  generalize (if k = 0 then DefaultK else k) = k1 at h
  generalize (if st = 0 then DefaultStride else st) = st1 at h
  generalize (if me = 0 then DefaultMaxErrors else me) = me1 at h
  by_cases hk1 : k1 ≤ 0
  · rw [if_pos hk1] at h
    simp at h
  · rw [if_neg hk1] at h
    have h1 := FilterAnchors_mem fl _ _ x h
    rcases anchorsLoop_mem fl query ref _ _ _ x _ _ _ _ h1 with h2 | ⟨em, hem, hx⟩
    · simp at h2
    · have := mem_FindExactMatches hem
      exact ⟨_, _, _, _, hx, this.1, this.2.1, this.2.2.1, this.2.2.2.1, this.2.2.2.2⟩

theorem FindAnchors_bounds (fl : FloatOps F) (query ref : Str) (k mm st me : Int)
    (x : AnchorMatch F) (h : x ∈ FindAnchors fl query ref k mm st me) :
    0 ≤ x.QueryStart ∧ 0 ≤ x.RefStart ∧ x.RefEnd < strLen ref := by
  obtain ⟨qS, rS, k0, me0, hx, hq, hr, _, _, hk⟩ := FindAnchors_mem fl query ref k mm st me x h
  exact ExtendMatch_bounds fl query ref qS rS k0 _ me0 x hx hq hr hk

theorem strLen_ReverseComplement (s : Str) : strLen (ReverseComplement s) = strLen s := by
  simp [strLen, ReverseComplement]

theorem FindReverseAnchors_bounds (fl : FloatOps F) (query ref : Str) (k mm st me : Int)
    (x : AnchorMatch F) (h : x ∈ FindReverseAnchors fl query ref k mm st me) :
    0 ≤ x.QueryStart ∧ 0 ≤ x.RefStart := by
  unfold FindReverseAnchors at h
  simp only [] at h
  obtain ⟨a, ha, rfl⟩ := List.mem_map.1 h
  have := FindAnchors_bounds fl query _ k mm st me a ha
  rw [strLen_ReverseComplement] at this
  exact ⟨this.1, by simp only; omega⟩

/-- Every segment of the chain is one of the anchors. -/
theorem chainSegments_mem (fl : FloatOps F) (anchors : List (AnchorMatch F)) (s : Segment)
    (h : s ∈ chainSegments fl anchors) :
    ∃ a ∈ anchors, s = ⟨a.QueryStart, a.QueryEnd, a.RefStart, a.RefEnd⟩ := by
  unfold chainSegments at h
  split_ifs at h
  · obtain ⟨idx, hidx, rfl⟩ := List.mem_map.1 h
    unfold FindMaximumWeightPath at hidx
    simp only [] at hidx
    have hb := (List.mem_filter.1 hidx).2
    simp only [decide_eq_true_eq] at hb
    have hlt : idx.toNat < anchors.length := by omega
    refine ⟨anchors[idx.toNat], List.getElem_mem _, ?_⟩
    simp only [anchorAt, List.getD_eq_getElem _ _ hlt]
  · simp at h

end Aligner

/-! ## `FindExactMatches` -/

namespace Aligner

variable {F : Type}

/-- The loop that fills `refKmers`, seen from one key: the positions whose `k`-mer
is the key are appended in the order of the loop. -/
theorem foldl_kmers_eq (ref : Str) (k : Int) (key : Str) :
    ∀ (l : List Int) (m : Str → List Int),
      (l.foldl (fun m (i : Int) => fun key =>
        if key = sliceI ref i (i + k) then m key ++ [i] else m key) m) key =
      m key ++ l.filter (fun i => decide (key = sliceI ref i (i + k))) := by
  intro l
  induction l with
  | nil => intro m; simp
  | cons a l ih =>
    intro m
    rw [List.foldl_cons, ih]
    by_cases h : key = sliceI ref a (a + k)
    · rw [if_pos h, List.filter_cons_of_pos (by simpa using h)]
      simp
    · rw [if_neg h, List.filter_cons_of_neg (by simpa using h)]

/-- The positions `0 .. n-1` as `int`s. -/
theorem castList_eq (l : List Nat) :
    (do let a ← l; pure (a : Int) : List Int) = l.map (fun (a : Nat) => (a : Int)) := by
  simp only [List.bind_eq_flatMap]
  induction l with
  | nil => rfl
  | cons a l ih =>
    simp only [List.flatMap_cons, List.map_cons, ih]
    rfl

theorem buildRefKmers_eq (ref : Str) (k : Int) (key : Str) :
    buildRefKmers ref k key =
      ((List.range (strLen ref - k + 1).toNat).map (fun (a : Nat) => (a : Int))).filter
        (fun i => decide (key = sliceI ref i (i + k))) := by
  unfold buildRefKmers
  rw [foldl_kmers_eq, castList_eq]
  simp

/-- The entry of `refKmers` for a key: the positions of `ref` at which the key
occurs. -/
theorem mem_buildRefKmers_iff (ref : Str) (k : Int) (key : Str) (rPos : Int) :
    rPos ∈ buildRefKmers ref k key ↔
      0 ≤ rPos ∧ rPos + k ≤ strLen ref ∧ key = sliceI ref rPos (rPos + k) := by
  rw [buildRefKmers_eq]
  simp only [List.mem_filter, List.mem_map, List.mem_range, decide_eq_true_eq]
  constructor
  · rintro ⟨⟨a, ha, rfl⟩, hkey⟩
    exact ⟨Int.ofNat_nonneg a, by omega, hkey⟩
  · rintro ⟨h0, h1, hkey⟩
    exact ⟨⟨rPos.toNat, by omega, Int.toNat_of_nonneg h0⟩, hkey⟩

theorem buildRefKmers_sorted (ref : Str) (k : Int) (key : Str) :
    (buildRefKmers ref k key).Pairwise (fun a b => a < b) := by
  rw [buildRefKmers_eq]
  apply List.Pairwise.filter
  rw [List.pairwise_map]
  exact (List.pairwise_lt_range _).imp (fun h => by exact_mod_cast h)

/-- Claim C22.  For every `Q`, `R` and `k` with `1 ≤ k ≤ min(|Q|, |R|)`, the list
`FindExactMatches(Q, R, k)` holds exactly the triples `(i, j, k)` with
`Q[i..i+k) = R[j..j+k)`, and it is strictly increasing in the lexicographic order
by `i` and then `j`, so each triple is listed exactly once. -/
theorem findExactMatches_spec (Q R : Str) (k : Int) (hk : 1 ≤ k) (hQ : k ≤ strLen Q)
    (hR : k ≤ strLen R) :
    (∀ m, m ∈ FindExactMatches Q R k ↔ IsExactMatch Q R k m) ∧
    (FindExactMatches Q R k).Pairwise KmerLexLt ∧
    (FindExactMatches Q R k).Nodup := by
  have hk0 : (if k = 0 then DefaultK else k) = k := if_neg (by omega)
  have hform : FindExactMatches Q R k =
      (List.range (strLen Q - k + 1).toNat).flatMap fun (i : Nat) =>
        (buildRefKmers R k (sliceI Q i (i + k))).map
          fun rPos => (⟨(i : Int), rPos, k⟩ : KmerMatch) := by
    unfold FindExactMatches
    simp only [hk0]
    rw [if_neg (by omega)]
  have hpw : (FindExactMatches Q R k).Pairwise KmerLexLt := by
    rw [hform, List.pairwise_flatMap]
    constructor
    · intro i _
      rw [List.pairwise_map]
      exact (buildRefKmers_sorted R k _).imp (fun h => Or.inr ⟨rfl, h⟩)
    · apply (List.pairwise_lt_range _).imp
      intro a b hab x hx y hy
      obtain ⟨_, _, rfl⟩ := List.mem_map.1 hx
      obtain ⟨_, _, rfl⟩ := List.mem_map.1 hy
      left
      show (a : Int) < (b : Int)
      exact_mod_cast hab
  refine ⟨?_, hpw, ?_⟩
  · intro m
    rw [hform]
    simp only [List.mem_flatMap, List.mem_map, List.mem_range, mem_buildRefKmers_iff]
    unfold IsExactMatch
    constructor
    · rintro ⟨i, hi, rPos, ⟨h0, h1, hkey⟩, rfl⟩
      exact ⟨rfl, Int.ofNat_nonneg i, by simp only; omega, h0, h1, hkey⟩
    · rintro ⟨hlen, h0, h1, h2, h3, hkey⟩
      refine ⟨m.QueryPos.toNat, by omega, m.RefPos, ⟨h2, h3, ?_⟩, ?_⟩
      · rw [Int.toNat_of_nonneg h0]
        exact hkey
      · rw [Int.toNat_of_nonneg h0, ← hlen]
  · apply hpw.imp
    intro a b hab heq
    subst heq
    unfold KmerLexLt at hab
    omega

theorem findExactMatches_spec_witness :
    (1 : Int) ≤ 2 ∧ (2 : Int) ≤ strLen (bytes "ACAC") ∧ (2 : Int) ≤ strLen (bytes "CAC") ∧
    ((∀ m, m ∈ FindExactMatches (bytes "ACAC") (bytes "CAC") 2 ↔
        IsExactMatch (bytes "ACAC") (bytes "CAC") 2 m) ∧
      (FindExactMatches (bytes "ACAC") (bytes "CAC") 2).Pairwise KmerLexLt ∧
      (FindExactMatches (bytes "ACAC") (bytes "CAC") 2).Nodup) :=
  ⟨by decide, by decide, by decide,
    findExactMatches_spec (bytes "ACAC") (bytes "CAC") 2 (by decide) (by decide) (by decide)⟩

/-- Claim C23, amended.  For every `Q`, `R` and every `k` other than `0` with
`k < 0`, `k > |Q|` or `k > |R|`, the matcher skips that `k`:
`FindExactMatches(Q, R, k)` returns the empty list, and so does
`FindAnchors(Q, R, k, ...)`.  (The value `k = 0` is not skipped: it stands for the
default `K`.) -/
theorem findExactMatches_invalid_k (fl : FloatOps F) (Q R : Str) (k : Int) (hk : k ≠ 0)
    (h : k < 0 ∨ k > strLen Q ∨ k > strLen R) (minMatchLen stride maxErrors : Int) :
    FindExactMatches Q R k = [] ∧
      FindAnchors fl Q R k minMatchLen stride maxErrors = [] := by
  have hk0 : (if k = 0 then DefaultK else k) = k := if_neg hk
  have h1 : FindExactMatches Q R k = [] := by
    unfold FindExactMatches
    simp only [hk0]
    rw [if_pos (by omega)]
  refine ⟨h1, ?_⟩
  unfold FindAnchors
  simp only [hk0, h1]
  generalize (if minMatchLen = 0 then MinMatchLength else minMatchLen) = mm
  generalize (if stride = 0 then DefaultStride else stride) = st
  generalize (if maxErrors = 0 then DefaultMaxErrors else maxErrors) = me
  split_ifs
  · rfl
  · unfold anchorsLoop FilterAnchors
    simp

theorem findExactMatches_invalid_k_witness :
    (-1 : Int) ≠ 0 ∧
    ((-1 : Int) < 0 ∨ (-1 : Int) > strLen (bytes "ACGT") ∨ (-1 : Int) > strLen (bytes "ACGT")) ∧
    (FindExactMatches (bytes "ACGT") (bytes "ACGT") (-1) = [] ∧
      FindAnchors exactOps (bytes "ACGT") (bytes "ACGT") (-1) 0 0 0 = []) :=
  ⟨by decide, Or.inl (by decide),
    findExactMatches_invalid_k exactOps (bytes "ACGT") (bytes "ACGT") (-1) (by decide)
      (Or.inl (by decide)) 0 0 0⟩

/-- Claim C23 as stated fails at `k = 0`, which is `≤ 0`: the matcher replaces `0`
by the default `K = 10` and reports the match of the two equal 10-mers. -/
theorem findExactMatches_zero_k_not_skipped :
    (0 : Int) ≤ 0 ∧
    FindExactMatches (bytes "ACGTACGTAC") (bytes "ACGTACGTAC") 0 = [⟨0, 0, 10⟩] := by
  refine ⟨le_refl _, ?_⟩
  decide

end Aligner

/-! ## `FilterAnchors` -/

namespace Aligner

variable {F : Type}

/-- The test of `FilterAnchors` fails exactly when the overlap is within the
threshold. -/
theorem overlapsTooMuch_false_iff (fl : FloatOps F) (tau : F) (A B : AnchorMatch F) :
    overlapsTooMuch fl tau A B = false ↔ OverlapWithin fl tau A B := by
  have hq : (if min A.QueryEnd B.QueryEnd ≥ max A.QueryStart B.QueryStart then
      min A.QueryEnd B.QueryEnd - max A.QueryStart B.QueryStart + 1 else 0) =
      overlapLen A.QueryStart A.QueryEnd B.QueryStart B.QueryEnd := by
    unfold overlapLen
    split_ifs <;> omega
  have hr : (if min A.RefEnd B.RefEnd ≥ max A.RefStart B.RefStart then
      min A.RefEnd B.RefEnd - max A.RefStart B.RefStart + 1 else 0) =
      overlapLen A.RefStart A.RefEnd B.RefStart B.RefEnd := by
    unfold overlapLen
    split_ifs <;> omega
  unfold overlapsTooMuch OverlapWithin NotAbove
  simp only [hq, hr, Bool.or_eq_false_iff]

/-- The marks after a kept anchor `a`: an anchor stays unmarked only if it was
unmarked before and passes the test against `a`. -/
theorem zip_zipWith_flags (fl : FloatOps F) (tau : F) (a : AnchorMatch F) :
    ∀ (rest : List (AnchorMatch F)) (flags : List Bool) (x : AnchorMatch F),
      (x, false) ∈ rest.zip
        (List.zipWith (fun b e => e || overlapsTooMuch fl tau a b) rest flags) →
      (x, false) ∈ rest.zip flags ∧ overlapsTooMuch fl tau a x = false := by
  intro rest
  induction rest with
  | nil => intro flags x h; simp at h
  | cons b rest ih =>
    intro flags x h
    cases flags with
    | nil => simp at h
    | cons e flags =>
      simp only [List.zipWith_cons_cons, List.zip_cons_cons, List.mem_cons, Prod.mk.injEq,
        Bool.false_eq, Bool.or_eq_false_iff] at h ⊢
      rcases h with ⟨rfl, h1, h2⟩ | h
      · exact ⟨Or.inl ⟨rfl, h1⟩, h2⟩
      · have := ih flags x h
        exact ⟨Or.inr this.1, this.2⟩

/-- The double loop of `FilterAnchors`: it keeps a sublist of the anchors, only
unmarked ones, and a kept anchor passes the test against every anchor kept before
it. -/
theorem filterLoop_spec (fl : FloatOps F) (tau : F) :
    ∀ (l : List (AnchorMatch F)) (flags : List Bool), flags.length = l.length →
      (filterLoop fl tau l flags).Sublist l ∧
      (filterLoop fl tau l flags).Pairwise (fun A B => overlapsTooMuch fl tau A B = false) ∧
      ∀ x ∈ filterLoop fl tau l flags, (x, false) ∈ l.zip flags := by
  intro l
  induction l with
  | nil => intro flags _; simp [filterLoop]
  | cons a rest ih =>
    intro flags hlen
    cases flags with
    | nil => simp at hlen
    | cons e flags =>
      simp only [List.length_cons, add_left_inj] at hlen
      unfold filterLoop
      simp only [List.headD_cons, List.tail_cons]
      split_ifs with hf
      · obtain ⟨h1, h2, h3⟩ := ih flags hlen
        refine ⟨h1.trans (List.sublist_cons_self _ _), h2, ?_⟩
        intro x hx
        simp only [List.zip_cons_cons, List.mem_cons]
        exact Or.inr (h3 x hx)
      · obtain ⟨h1, h2, h3⟩ :=
          ih (List.zipWith (fun b e => e || overlapsTooMuch fl tau a b) rest flags)
            (by simp [hlen])
        refine ⟨h1.cons₂ a, List.pairwise_cons.2 ⟨?_, h2⟩, ?_⟩
        · intro x hx
          exact (zip_zipWith_flags fl tau a rest flags x (h3 x hx)).2
        · intro x hx
          simp only [List.zip_cons_cons, List.mem_cons, Prod.mk.injEq]
          rcases List.mem_cons.1 hx with rfl | hx1
          · left
            exact ⟨rfl, by simpa using hf⟩
          · right
            exact (zip_zipWith_flags fl tau a rest flags x (h3 x hx1)).1

/-- Claim C28.  For every anchor list and every threshold `tau`, the anchors that
`FilterAnchors(anchors, tau)` returns are those of a list `kept` that is a sublist
of the input in its stable score-descending order (the output is `kept` sorted
again by query start), and for any two of them, `A` before `B` in that order,
the inclusive query overlap of `A` and `B` divided by the query length of `B`
and the inclusive reference overlap divided by the reference length of `B` are
both not above `tau`. -/
theorem filterAnchors_overlap (fl : FloatOps F) (anchors : List (AnchorMatch F)) (tau : F) :
    ∃ kept : List (AnchorMatch F),
      kept.Sublist (sortStable (fun a b => fl.lt b.Score a.Score) anchors) ∧
      FilterAnchors fl anchors tau =
        sortStable (fun a b => decide (a.QueryStart < b.QueryStart)) kept ∧
      (FilterAnchors fl anchors tau).Perm kept ∧
      kept.Pairwise (OverlapWithin fl tau) := by
  by_cases h0 : anchors.length = 0
  · refine ⟨[], List.nil_sublist _, ?_, ?_, List.Pairwise.nil⟩
    · unfold FilterAnchors
      rw [if_pos h0]
      rfl
    · unfold FilterAnchors
      rw [if_pos h0]
  · obtain ⟨h1, h2, _⟩ := filterLoop_spec fl tau
      (sortStable (fun a b => fl.lt b.Score a.Score) anchors)
      ((sortStable (fun a b => fl.lt b.Score a.Score) anchors).map fun _ => false)
      (by simp)
    refine ⟨_, h1, ?_, ?_, h2.imp (fun h => (overlapsTooMuch_false_iff fl tau _ _).1 h)⟩
    · unfold FilterAnchors
      rw [if_neg h0]
    · unfold FilterAnchors
      rw [if_neg h0]
      exact sortStable_perm _ _

end Aligner

/-! ## The identity of an anchor -/

namespace Aligner

variable {F : Type}

theorem fwdBody_matches (query ref : Str) (s : ExtState) :
    (fwdBody query ref s).totalMatches - (fwdBody query ref s).q ≤ s.totalMatches - s.q ∧
      s.totalMatches ≤ (fwdBody query ref s).totalMatches := by
  unfold fwdBody
  split_ifs <;> simp only <;> omega

theorem fwdLoop_matches (query ref : Str) (maxErrors : Int) :
    ∀ (fuel : Nat) (s : ExtState),
      (fwdLoop query ref maxErrors fuel s).totalMatches -
          (fwdLoop query ref maxErrors fuel s).q ≤ s.totalMatches - s.q ∧
        s.totalMatches ≤ (fwdLoop query ref maxErrors fuel s).totalMatches := by
  intro fuel
  induction fuel with
  | zero => intro s; exact ⟨le_rfl, le_rfl⟩
  | succ n ih =>
    intro s
    unfold fwdLoop
    split_ifs
    · have h1 := fwdBody_matches query ref s
      have h2 := ih (fwdBody query ref s)
      omega
    · exact ⟨le_rfl, le_rfl⟩

theorem bwdBody_matches (query ref : Str) (s : ExtState) :
    (bwdBody query ref s).totalMatches + (bwdBody query ref s).q ≤ s.totalMatches + s.q ∧
      s.totalMatches ≤ (bwdBody query ref s).totalMatches := by
  unfold bwdBody
  split_ifs <;> simp only <;> omega

theorem bwdLoop_matches (query ref : Str) (maxErrors : Int) :
    ∀ (fuel : Nat) (s : ExtState),
      (bwdLoop query ref maxErrors fuel s).totalMatches +
          (bwdLoop query ref maxErrors fuel s).q ≤ s.totalMatches + s.q ∧
        s.totalMatches ≤ (bwdLoop query ref maxErrors fuel s).totalMatches := by
  intro fuel
  induction fuel with
  | zero => intro s; exact ⟨le_rfl, le_rfl⟩
  | succ n ih =>
    intro s
    unfold bwdLoop
    split_ifs
    · have h1 := bwdBody_matches query ref s
      have h2 := ih (bwdBody query ref s)
      omega
    · exact ⟨le_rfl, le_rfl⟩

/-- The match count lies between the seed length and the query length of the
extended interval. -/
theorem extend_matches_le (query ref : Str) (qS rS k me : Int) :
    k ≤ (extendBwd query ref qS rS k me).totalMatches ∧
      (extendBwd query ref qS rS k me).totalMatches ≤
        (extendFwd query ref qS rS k me).q - ((extendBwd query ref qS rS k me).q + 1) := by
  unfold extendBwd
  have h1 := bwdLoop_matches query ref (if me = 0 then ExtendMaxErrors else me)
    (query.length + 1) ⟨qS - 1, rS - 1, 0, (extendFwd query ref qS rS k me).totalMatches⟩
  have h2 : (extendFwd query ref qS rS k me).totalMatches -
      (extendFwd query ref qS rS k me).q ≤ k - (qS + k) ∧
      k ≤ (extendFwd query ref qS rS k me).totalMatches :=
    fwdLoop_matches query ref (if me = 0 then ExtendMaxErrors else me)
      (query.length + 1) ⟨qS + k, rS + k, 0, k⟩
  simp only at h1
  omega

theorem leftMatches_range (leftQ leftR : Str) (c : Int) (hc : 0 ≤ c) :
    0 ≤ leftMatches leftQ leftR c ∧ leftMatches leftQ leftR c ≤ c := by
  unfold leftMatches
  rw [castList_eq]
  refine ⟨Int.ofNat_nonneg _, ?_⟩
  have h1 := List.length_filter_le (fun (i : Int) => decide (byteAt leftQ i = byteAt leftR i))
    ((List.range c.toNat).map (fun (a : Nat) => (a : Int)))
  rw [List.length_map, List.length_range] at h1
  have h2 : ((c.toNat : Nat) : Int) = c := Int.toNat_of_nonneg hc
  omega

/-- What `ExtendMatch` returns, in terms of the final loop variables. -/
theorem ExtendMatch_some (fl : FloatOps F) (query ref : Str) (qS rS k mm me : Int)
    (a : AnchorMatch F) (h : ExtendMatch fl query ref qS rS k mm me = some a) :
    a.QueryStart = (extendBwd query ref qS rS k me).q + 1 ∧
    a.QueryEnd = (extendFwd query ref qS rS k me).q - 1 ∧
    a.RefStart = (extendBwd query ref qS rS k me).r + 1 ∧
    a.RefEnd = (extendFwd query ref qS rS k me).r - 1 ∧
    0 < a.QueryEnd - a.QueryStart + 1 ∧
    (if mm = 0 then MinMatchLength else mm) ≤ a.QueryEnd - a.QueryStart + 1 ∧
    fl.le (fl.lit MinIdentityThreshold) a.Identity = true ∧
    a.Score = fl.mul (fl.mul (fl.ofInt (a.QueryEnd - a.QueryStart + 1)) a.Identity)
      (fl.sub (fl.lit 1)
        (fl.mul (fl.lit (5 / 100)) (fl.ofInt (extendBwd query ref qS rS k me).errors))) ∧
    a.Identity =
      if a.QueryEnd - a.QueryStart + 1 > 50 ∧
          a.QueryStart ≥ min 20 ((a.QueryEnd - a.QueryStart + 1) / 4) ∧
          a.RefStart ≥ min 20 ((a.QueryEnd - a.QueryStart + 1) / 4) then
        blendedIdentity fl
          (fl.div (fl.ofInt (extendBwd query ref qS rS k me).totalMatches)
            (fl.ofInt (a.QueryEnd - a.QueryStart + 1)))
          (a.QueryEnd - a.QueryStart + 1)
          (leftMatches
            (sliceI query (a.QueryStart - min 20 ((a.QueryEnd - a.QueryStart + 1) / 4))
              a.QueryStart)
            (sliceI ref (a.RefStart - min 20 ((a.QueryEnd - a.QueryStart + 1) / 4)) a.RefStart)
            (min 20 ((a.QueryEnd - a.QueryStart + 1) / 4)))
          (min 20 ((a.QueryEnd - a.QueryStart + 1) / 4))
      else
        fl.div (fl.ofInt (extendBwd query ref qS rS k me).totalMatches)
          (fl.ofInt (a.QueryEnd - a.QueryStart + 1)) := by
  unfold ExtendMatch at h
  simp only [] at h
  generalize (if mm = 0 then MinMatchLength else mm) = mm0 at h ⊢
  have hf : fwdLoop query ref (if me = 0 then ExtendMaxErrors else me) (query.length + 1)
      ⟨qS + k, rS + k, 0, k⟩ = extendFwd query ref qS rS k me := rfl
  rw [hf] at h
  have hb : bwdLoop query ref (if me = 0 then ExtendMaxErrors else me) (query.length + 1)
      ⟨qS - 1, rS - 1, 0, (extendFwd query ref qS rS k me).totalMatches⟩ =
      extendBwd query ref qS rS k me := rfl
  rw [hb] at h
  generalize extendFwd query ref qS rS k me = fwd at h
  generalize extendBwd query ref qS rS k me = bwd at h
  have e1 : fwd.q - 1 - (bwd.q + 1) + 1 = fwd.q - (bwd.q + 1) := by ring
  by_cases hL : fwd.q - (bwd.q + 1) ≤ 0
  · rw [if_pos hL] at h
    cases h
  · rw [if_neg hL] at h
    by_cases hc : fwd.q - (bwd.q + 1) > 50 ∧
        bwd.q + 1 ≥ min 20 ((fwd.q - (bwd.q + 1)) / 4) ∧
        bwd.r + 1 ≥ min 20 ((fwd.q - (bwd.q + 1)) / 4)
    · rw [if_pos hc] at h
      split_ifs at h with hacc
      · cases h
        simp only [e1, if_pos hc, true_and]
        exact ⟨by omega, hacc.1, hacc.2, rfl⟩
    · rw [if_neg hc] at h
      split_ifs at h with hacc
      · cases h
        simp only [e1, if_neg hc, true_and]
        refine ⟨by omega, hacc.1, ?_⟩
        first
          | exact hacc.2
          | exact ⟨hacc.2, rfl⟩
          | exact ⟨hacc.2, trivial⟩

/-- Claim C29.  For every `Q`, `R`, every seed `(q0, r0, k)` with `k ≥ 1` (the
bounds on `q0` and `r0` are not needed) and every `min_match` and `max_errors`,
an anchor that `ExtendMatch` returns has an identity in `[0, 1]`, in exact
arithmetic: the match count never exceeds the query length of the extended
interval, and the context matches never exceed the context size. -/
theorem extendMatch_identity_range (Q R : Str) (q0 r0 k mm me : Int) (a : AnchorMatch Exact)
    (hk : 1 ≤ k) (h : ExtendMatch exactOps Q R q0 r0 k mm me = some a) :
    ∃ x : ℚ, a.Identity = .fin x ∧ 0 ≤ x ∧ x ≤ 1 := by
  obtain ⟨hqs, hqe, _, _, hL, _, _, _, hId⟩ := ExtendMatch_some exactOps Q R q0 r0 k mm me a h
  obtain ⟨ht0, ht1⟩ := extend_matches_le Q R q0 r0 k me
  have hLen : a.QueryEnd - a.QueryStart + 1 =
      (extendFwd Q R q0 r0 k me).q - ((extendBwd Q R q0 r0 k me).q + 1) := by omega
  rw [← hLen] at ht1
  generalize (extendBwd Q R q0 r0 k me).totalMatches = tm at hId ht0 ht1
  generalize a.QueryEnd - a.QueryStart + 1 = L at hId hL ht1
  have hLq : (0 : ℚ) < (L : ℚ) := by exact_mod_cast hL
  have hT0 : (0 : ℚ) ≤ (tm : ℚ) := by exact_mod_cast (by omega : (0 : Int) ≤ tm)
  have hT1 : (tm : ℚ) ≤ (L : ℚ) := by exact_mod_cast ht1
  split_ifs at hId with hc
  · have hcn : 0 ≤ min 20 (L / 4) := by omega
    obtain ⟨hm0, hm1⟩ := leftMatches_range
      (sliceI Q (a.QueryStart - min 20 (L / 4)) a.QueryStart)
      (sliceI R (a.RefStart - min 20 (L / 4)) a.RefStart) (min 20 (L / 4)) hcn
    generalize leftMatches (sliceI Q (a.QueryStart - min 20 (L / 4)) a.QueryStart)
      (sliceI R (a.RefStart - min 20 (L / 4)) a.RefStart) (min 20 (L / 4)) = m at hId hm0 hm1
    generalize min 20 (L / 4) = c at hId hcn hm1
    have hM0 : (0 : ℚ) ≤ (m : ℚ) := by exact_mod_cast hm0
    have hM1 : (m : ℚ) ≤ (c : ℚ) := by exact_mod_cast hm1
    have hcancel : (tm : ℚ) / (L : ℚ) * (L : ℚ) = (tm : ℚ) := div_mul_cancel₀ _ hLq.ne'
    refine ⟨((tm : ℚ) / L * L + m * (1 / 2)) / (L + c * (1 / 2)), ?_, ?_, ?_⟩
    · rw [hId]
      rfl
    · rw [hcancel]
      apply div_nonneg <;> linarith
    · rw [hcancel, div_le_one (by linarith)]
      linarith
  · refine ⟨(tm : ℚ) / L, ?_, div_nonneg hT0 hLq.le, (div_le_one hLq).2 hT1⟩
    rw [hId]
    rfl

/-- Claim C30, amended.  For every seed that `ExtendMatch` extends to an anchor
with query length `L` and `total_matches` matches, the identity used for
acceptance and scoring is `total_matches / L` unless all of `L > 50`,
`finalQStart ≥ c` and `finalRStart ≥ c` hold with `c = min(20, L/4)`, and only in
that case it is replaced by `(identity*L + 0.5*m_ctx) / (L + 0.5*c)`. -/
theorem extendMatch_identity_formula (fl : FloatOps F) (Q R : Str) (q0 r0 k mm me : Int)
    (a : AnchorMatch F) (h : ExtendMatch fl Q R q0 r0 k mm me = some a) :
    a.Identity =
      (if a.QueryEnd - a.QueryStart + 1 > 50 ∧
          a.QueryStart ≥ min 20 ((a.QueryEnd - a.QueryStart + 1) / 4) ∧
          a.RefStart ≥ min 20 ((a.QueryEnd - a.QueryStart + 1) / 4) then
        blendedIdentity fl
          (fl.div (fl.ofInt (extendBwd Q R q0 r0 k me).totalMatches)
            (fl.ofInt (a.QueryEnd - a.QueryStart + 1)))
          (a.QueryEnd - a.QueryStart + 1)
          (leftMatches
            (sliceI Q (a.QueryStart - min 20 ((a.QueryEnd - a.QueryStart + 1) / 4))
              a.QueryStart)
            (sliceI R (a.RefStart - min 20 ((a.QueryEnd - a.QueryStart + 1) / 4)) a.RefStart)
            (min 20 ((a.QueryEnd - a.QueryStart + 1) / 4)))
          (min 20 ((a.QueryEnd - a.QueryStart + 1) / 4))
      else
        fl.div (fl.ofInt (extendBwd Q R q0 r0 k me).totalMatches)
          (fl.ofInt (a.QueryEnd - a.QueryStart + 1))) ∧
    fl.le (fl.lit MinIdentityThreshold) a.Identity = true ∧
    a.Score = fl.mul (fl.mul (fl.ofInt (a.QueryEnd - a.QueryStart + 1)) a.Identity)
      (fl.sub (fl.lit 1)
        (fl.mul (fl.lit (5 / 100)) (fl.ofInt (extendBwd Q R q0 r0 k me).errors))) := by
  obtain ⟨_, _, _, _, _, _, hacc, hscore, hId⟩ := ExtendMatch_some fl Q R q0 r0 k mm me a h
  exact ⟨hId, hacc, hscore⟩

theorem extendMatch_identity_range_witness :
    (1 : Int) ≤ 4 ∧
    ExtendMatch exactOps (bytes "AACCA") (bytes "AACCA") 0 0 4 4 1 =
      some ⟨0, 4, 0, 4, .fin 5, .fin 1, 0⟩ ∧
    ∃ x : ℚ, Exact.fin 1 = .fin x ∧ 0 ≤ x ∧ x ≤ 1 :=
  ⟨by decide, by decide!,
    extendMatch_identity_range (bytes "AACCA") (bytes "AACCA") 0 0 4 4 1
      ⟨0, 4, 0, 4, .fin 5, .fin 1, 0⟩ (by decide) (by decide!)⟩

/-- The anchor that `ExtendMatch` returns on the two 77-base strings, for the seed
`(17, 17, 5)` and `max_errors = 1`. -/
theorem contextAnchor_eq :
    ExtendMatch exactOps contextQuery contextRef 17 17 5 0 1 =
      some ⟨15, 76, 15, 76, .fin (6696 / 139), .fin (120 / 139), 0⟩ := by
  decide!

theorem extendMatch_identity_formula_witness :
    ExtendMatch exactOps contextQuery contextRef 17 17 5 0 1 =
      some ⟨15, 76, 15, 76, .fin (6696 / 139), .fin (120 / 139), 0⟩ ∧
    Exact.fin (120 / 139) =
      (if (76 : Int) - 15 + 1 > 50 ∧ (15 : Int) ≥ min 20 ((76 - 15 + 1) / 4) ∧
          (15 : Int) ≥ min 20 ((76 - 15 + 1) / 4) then
        blendedIdentity exactOps
          (exactOps.div (exactOps.ofInt (extendBwd contextQuery contextRef 17 17 5 1).totalMatches)
            (exactOps.ofInt (76 - 15 + 1)))
          (76 - 15 + 1)
          (leftMatches (sliceI contextQuery (15 - min 20 ((76 - 15 + 1) / 4)) 15)
            (sliceI contextRef (15 - min 20 ((76 - 15 + 1) / 4)) 15)
            (min 20 ((76 - 15 + 1) / 4)))
          (min 20 ((76 - 15 + 1) / 4))
      else
        exactOps.div (exactOps.ofInt (extendBwd contextQuery contextRef 17 17 5 1).totalMatches)
          (exactOps.ofInt (76 - 15 + 1))) ∧
    exactOps.le (exactOps.lit MinIdentityThreshold) (Exact.fin (120 / 139)) = true ∧
    Exact.fin (6696 / 139) =
      exactOps.mul (exactOps.mul (exactOps.ofInt (76 - 15 + 1)) (Exact.fin (120 / 139)))
        (exactOps.sub (exactOps.lit 1)
          (exactOps.mul (exactOps.lit (5 / 100))
            (exactOps.ofInt (extendBwd contextQuery contextRef 17 17 5 1).errors))) :=
  ⟨contextAnchor_eq,
    extendMatch_identity_formula exactOps contextQuery contextRef 17 17 5 0 1
      ⟨15, 76, 15, 76, .fin (6696 / 139), .fin (120 / 139), 0⟩ contextAnchor_eq⟩

/-- Claim C30 as stated fails on the two 77-base strings: the anchor has
`L = 62 > 50` and `60` matches, `L/4 = 15 < 20` and `finalQStart = 15 < 20`, and
its identity is the adjusted `120/139`, not `total_matches / L = 60/62`. -/
theorem extendMatch_adjusts_short_context :
    ExtendMatch exactOps contextQuery contextRef 17 17 5 0 1 =
      some ⟨15, 76, 15, 76, .fin (6696 / 139), .fin (120 / 139), 0⟩ ∧
    (extendBwd contextQuery contextRef 17 17 5 1).totalMatches = 60 ∧
    (76 : Int) - 15 + 1 = 62 ∧ ¬ ((62 : Int) / 4 ≥ 20) ∧ ¬ ((15 : Int) ≥ 20) ∧
    Exact.fin (120 / 139) ≠ exactOps.div (exactOps.ofInt 60) (exactOps.ofInt 62) := by
  refine ⟨by decide!, by decide!, by decide, by decide, by decide, by decide!⟩

end Aligner

/-! ## Start coordinates are never negative

Every segment that reaches the clamping loop of `FindAlignment` has non-negative
start coordinates: anchors start inside the strings, merging keeps the starts of
the first segment merged, and the segments that `EnsureCompleteCoverage` adds start
inside an uncovered region of the query and at a sampled or wrapped position of
the reference. -/

namespace Aligner

variable {F : Type}

theorem mergeWalk_starts (fl : FloatOps F) (g : Int) :
    ∀ (rest : List Segment) (cur : Segment) (out : List Segment),
      StartsNonneg cur → (∀ s ∈ out, StartsNonneg s) → (∀ s ∈ rest, StartsNonneg s) →
      ∀ s ∈ mergeWalk fl g cur out rest, StartsNonneg s := by
  intro rest
  induction rest with
  | nil =>
    intro cur out hc ho _ s hs
    unfold mergeWalk at hs
    rcases List.mem_append.1 hs with h | h
    · exact ho s h
    · rw [List.mem_singleton.1 h]; exact hc
  | cons n rest ih =>
    intro cur out hc ho hr s hs
    unfold mergeWalk at hs
    split_ifs at hs
    · exact ih ⟨cur.QueryStart, n.QueryEnd, cur.RefStart, n.RefEnd⟩ out ⟨hc.1, hc.2⟩ ho
        (fun t ht => hr t (List.mem_cons_of_mem _ ht)) s hs
    · refine ih n _ (hr n (List.mem_cons_self _ _)) ?_
        (fun t ht => hr t (List.mem_cons_of_mem _ ht)) s hs
      intro t ht
      rcases List.mem_append.1 ht with h | h
      · exact ho t h
      · rw [List.mem_singleton.1 h]; exact hc

theorem MergeAdjacentSegments_starts (fl : FloatOps F) (segs : List Segment) (g : Int)
    (h : ∀ s ∈ segs, StartsNonneg s) : ∀ s ∈ MergeAdjacentSegments fl segs g, StartsNonneg s := by
  unfold MergeAdjacentSegments
  split
  · simp
  · exact h
  · rename_i first rest _
    exact mergeWalk_starts fl g rest first [] (h first (List.mem_cons_self _ _)) (by simp)
      (fun t ht => h t (List.mem_cons_of_mem _ ht))

theorem uncoveredWalk_start (queryLen : Int) :
    ∀ (segs : List Segment) (pos : Int), 0 ≤ pos →
      ∀ reg ∈ uncoveredWalk queryLen pos segs, 0 ≤ reg.1 := by
  intro segs
  induction segs with
  | nil =>
    intro pos hpos reg hreg
    unfold uncoveredWalk at hreg
    split_ifs at hreg
    · rw [List.mem_singleton.1 hreg]; exact hpos
    · simp at hreg
  | cons seg rest ih =>
    intro pos hpos reg hreg
    unfold uncoveredWalk at hreg
    rcases List.mem_append.1 hreg with h | h
    · split_ifs at h
      · rw [List.mem_singleton.1 h]; exact hpos
      · simp at h
    · exact ih _ (le_max_of_le_left hpos) reg h

theorem FindUncoveredRegions_start (queryLen : Int) (segs : List Segment) :
    ∀ reg ∈ FindUncoveredRegions queryLen segs, 0 ≤ reg.1 := by
  intro reg hreg
  unfold FindUncoveredRegions at hreg
  split_ifs at hreg
  · rw [List.mem_singleton.1 hreg]
  · simp at hreg
  · exact uncoveredWalk_start queryLen _ 0 le_rfl reg hreg

theorem findMatchesInRegionCore_starts (fl : FloatOps F) (qr ref : Str) (mm me : Int)
    (ks : List Int) (st : Int) :
    ∀ a ∈ findMatchesInRegionCore fl qr ref mm me ks st, 0 ≤ a.QueryStart ∧ 0 ≤ a.RefStart := by
  intro a ha
  unfold findMatchesInRegionCore at ha
  obtain ⟨k, _, hk⟩ := List.mem_flatMap.1 ha
  split_ifs at hk
  · simp at hk
  · rcases List.mem_append.1 hk with h | h
    · obtain ⟨b, hb, rfl⟩ := List.mem_map.1 h
      have := FindAnchors_bounds fl qr ref k mm st me b hb
      exact ⟨this.1, this.2.1⟩
    · obtain ⟨b, hb, rfl⟩ := List.mem_map.1 h
      exact FindReverseAnchors_bounds fl qr ref k mm st me b hb

theorem FindMatchesInRegion_starts (fl : FloatOps F) (qr ref : Str) (mm me : Int) :
    ∀ a ∈ FindMatchesInRegion fl qr ref mm me, 0 ≤ a.QueryStart ∧ 0 ≤ a.RefStart := by
  intro a ha
  unfold FindMatchesInRegion at ha
  simp only [] at ha
  split_ifs at ha <;>
    first
      | exact absurd ha (List.not_mem_nil _)
      | exact findMatchesInRegionCore_starts fl qr ref _ _ _ _ a ha

theorem largeFilterLoop_mem (fl : FloatOps F) (ms : List (AnchorMatch F)) (x : AnchorMatch F) :
    ∀ (idxs : List Nat) (excluded : List Bool), (∀ i ∈ idxs, i < ms.length) →
      x ∈ largeFilterLoop fl ms idxs excluded → x ∈ ms := by
  intro idxs
  induction idxs with
  | nil => intro excluded _ h; simp [largeFilterLoop] at h
  | cons i rest ih =>
    intro excluded hidx h
    unfold largeFilterLoop at h
    have hrest : ∀ j ∈ rest, j < ms.length := fun j hj => hidx j (List.mem_cons_of_mem _ hj)
    split_ifs at h
    · exact ih _ hrest h
    · simp only [] at h
      rcases List.mem_cons.1 h with h1 | h1
      · rw [h1]
        have hi : i < ms.length := hidx i (List.mem_cons_self _ _)
        simp only [anchorAt, List.getD_eq_getElem _ _ hi]
        exact List.getElem_mem _
      · exact ih _ hrest h1

theorem FindMatchesInLargeRegion_starts (fl : FloatOps F) (qr ref : Str) (ms mm me : Int) :
    ∀ a ∈ FindMatchesInLargeRegion fl qr ref ms mm me, 0 ≤ a.QueryStart ∧ 0 ≤ a.RefStart := by
  intro a ha
  unfold FindMatchesInLargeRegion at ha
  lift_lets at ha
  extract_lets regionLen maxSegSize minMatchL maxErrDefault chunkSize0 overlap0 chunkSize
    overlap1 overlap2 overlap found sorted at ha
  split_ifs at ha with h0 h1 h2
  · simp at ha
  · exact FindMatchesInRegion_starts fl qr ref _ _ a ha
  · simp at ha
  · have hmem := largeFilterLoop_mem fl _ a _ _
      (fun i hi => List.mem_range.1 hi) ha
    rw [mem_sortStable] at hmem
    obtain ⟨i, hi, hx⟩ := List.mem_flatMap.1 hmem
    have hi0 := mem_stepRange_nonneg hi
    simp only [] at hx
    split_ifs at hx <;>
      first
        | exact absurd hx (List.not_mem_nil _)
        | (obtain ⟨b, hb, rfl⟩ := List.mem_map.1 hx
           have := findMatchesInRegionCore_starts fl _ ref _ _ _ _ b hb
           exact ⟨by simp only; omega, this.2⟩)

end Aligner

namespace Aligner

variable {F : Type}

theorem addRegionMatches_starts (qStart : Int) (hq : 0 ≤ qStart) :
    ∀ (ms : List (AnchorMatch F)) (acc : List Segment),
      (∀ m ∈ ms, 0 ≤ m.QueryStart ∧ 0 ≤ m.RefStart) → (∀ s ∈ acc, StartsNonneg s) →
      ∀ s ∈ addRegionMatches qStart ms acc, StartsNonneg s := by
  intro ms
  induction ms with
  | nil => intro acc _ hacc s hs; exact hacc s hs
  | cons m rest ih =>
    intro acc hms hacc s hs
    unfold addRegionMatches at hs
    simp only [] at hs
    have hrest : ∀ m ∈ rest, 0 ≤ m.QueryStart ∧ 0 ≤ m.RefStart :=
      fun x hx => hms x (List.mem_cons_of_mem _ hx)
    have hm := hms m (List.mem_cons_self _ _)
    split_ifs at hs
    · exact ih acc hrest hacc s hs
    · refine ih _ hrest ?_ s hs
      intro t ht
      rcases List.mem_append.1 ht with h | h
      · exact hacc t h
      · rw [List.mem_singleton.1 h]
        exact ⟨by simp only; omega, hm.2⟩

theorem bestSample_nonneg (fl : FloatOps F) (ref chunkStr : Str) (n : Int) :
    ∀ (ps : List Int) (best : Int × F), (∀ p ∈ ps, 0 ≤ p) → 0 ≤ best.1 →
      0 ≤ (bestSample fl ref chunkStr n ps best).1 := by
  intro ps
  induction ps with
  | nil => intro best _ hb; exact hb
  | cons p rest ih =>
    intro best hps hb
    unfold bestSample
    simp only []
    have hrest : ∀ x ∈ rest, 0 ≤ x := fun x hx => hps x (List.mem_cons_of_mem _ hx)
    split_ifs
    · exact ih _ hrest (hps p (List.mem_cons_self _ _))
    · exact ih _ hrest hb

theorem fallbackTile_starts (fl : FloatOps F) (query ref : Str) (qStart len off : Int)
    (hq : 0 ≤ qStart) (ho : 0 ≤ off) :
    ∀ s ∈ fallbackTile fl query ref qStart len off, StartsNonneg s := by
  intro s hs
  unfold fallbackTile at hs
  simp only [] at hs
  split_ifs at hs
  · simp at hs
  · rw [List.mem_singleton.1 hs]
    refine ⟨by simp only; omega, ?_⟩
    exact bestSample_nonneg fl ref _ _ _ _ (fun p hp => mem_stepRange_nonneg hp) le_rfl
  · rw [List.mem_singleton.1 hs]
    refine ⟨by simp only; omega, ?_⟩
    exact bestSample_nonneg fl ref _ _ _ _ (fun p hp => mem_stepRange_nonneg hp) le_rfl

theorem emod_nonneg_of_nonneg (a b : Int) (ha : 0 ≤ a) : 0 ≤ a % b := by
  by_cases hb : b = 0
  · rw [hb, Int.emod_zero]; exact ha
  · exact Int.emod_nonneg a hb

theorem fallbackSegment_starts (refLen qStart qEnd : Int) (hq : 0 ≤ qStart) :
    StartsNonneg (fallbackSegment refLen qStart qEnd) := by
  have h := emod_nonneg_of_nonneg qStart refLen hq
  unfold fallbackSegment
  simp only []
  split_ifs <;> exact ⟨hq, by first | exact h | exact le_rfl⟩

theorem finalFallback_starts (refLen : Int) (reg : Int × Int) (hq : 0 ≤ reg.1) :
    StartsNonneg (finalFallback refLen reg) := by
  have h := emod_nonneg_of_nonneg reg.1 refLen hq
  unfold finalFallback
  simp only []
  split_ifs <;> exact ⟨hq, by first | exact h | exact le_rfl⟩

theorem regionSegments_starts (fl : FloatOps F) (query ref : Str) (region : Int × Int)
    (hq : 0 ≤ region.1) : ∀ s ∈ regionSegments fl query ref region, StartsNonneg s := by
  intro s hs
  unfold regionSegments at hs
  simp only [] at hs
  split_ifs at hs with h1 h2 h3 h4 h5
  · simp at hs
  · refine addRegionMatches_starts _ hq _ [] ?_ (by simp) s hs
    intro m hm
    rw [mem_sortSlice] at hm
    exact FindMatchesInLargeRegion_starts fl _ ref _ _ _ m hm
  · obtain ⟨off, hoff, hs1⟩ := List.mem_flatMap.1 hs
    exact fallbackTile_starts fl query ref _ _ off hq (mem_stepRange_nonneg hoff) s hs1
  · rw [List.mem_singleton.1 hs]
    exact fallbackSegment_starts _ _ _ hq
  · refine addRegionMatches_starts _ hq _ [] ?_ (by simp) s hs
    intro m hm
    rw [mem_sortSlice] at hm
    exact FindMatchesInRegion_starts fl _ ref _ _ m hm
  · obtain ⟨off, hoff, hs1⟩ := List.mem_flatMap.1 hs
    exact fallbackTile_starts fl query ref _ _ off hq (mem_stepRange_nonneg hoff) s hs1
  · rw [List.mem_singleton.1 hs]
    exact fallbackSegment_starts _ _ _ hq

theorem preferWalk_mem (init : List Segment) (x : Segment) :
    ∀ (rest : List Segment) (cur : Segment) (out : List Segment),
      x ∈ preferWalk init cur out rest → x ∈ out ∨ x = cur ∨ x ∈ rest := by
  intro rest
  induction rest with
  | nil =>
    intro cur out h
    unfold preferWalk at h
    rcases List.mem_append.1 h with h | h
    · exact Or.inl h
    · exact Or.inr (Or.inl (List.mem_singleton.1 h))
  | cons n rest ih =>
    intro cur out h
    unfold preferWalk at h
    simp only [] at h
    split_ifs at h
    all_goals
      rcases ih _ _ h with h1 | h1 | h1
      all_goals
        first
          | exact Or.inl h1
          | exact Or.inr (Or.inl h1)
          | exact Or.inr (Or.inr (List.mem_cons_of_mem _ h1))
          | exact Or.inr (Or.inr (h1 ▸ List.mem_cons_self _ _))
          | (rcases List.mem_append.1 h1 with h2 | h2
             · exact Or.inl h2
             · exact Or.inr (Or.inl (List.mem_singleton.1 h2)))

/-- All segments of `EnsureCompleteCoverage` have non-negative starts if the
initial ones have. -/
theorem EnsureCompleteCoverage_starts (fl : FloatOps F) (query ref : Str)
    (init : List Segment) (h : ∀ s ∈ init, StartsNonneg s) :
    ∀ s ∈ EnsureCompleteCoverage fl query ref init, StartsNonneg s := by
  intro s hs
  unfold EnsureCompleteCoverage at hs
  lift_lets at hs
  extract_lets queryLen refLen current uncovered newly all resolved finalUncovered at hs
  have hcur : ∀ t ∈ current, StartsNonneg t := fun t ht => h t ((mem_sortSlice _ _ _).1 ht)
  have hnew : ∀ t ∈ newly, StartsNonneg t := by
    intro t ht
    obtain ⟨reg, hreg, ht1⟩ := List.mem_flatMap.1 ht
    exact regionSegments_starts fl query ref reg
      (FindUncoveredRegions_start _ _ reg hreg) t ht1
  have hall : ∀ t ∈ all, StartsNonneg t := by
    intro t ht
    rcases List.mem_append.1 ((mem_sortSlice _ _ _).1 ht) with h1 | h1
    · exact hcur t h1
    · exact hnew t h1
  clear_value all
  have hres : ∀ t ∈ resolved, StartsNonneg t := by
    intro t ht
    unfold resolved at ht
    split at ht
    · simp at ht
    · rcases preferWalk_mem _ t _ _ _ ht with h1 | h1 | h1
      · simp at h1
      · exact hall t (h1 ▸ List.mem_cons_self _ _)
      · exact hall t (List.mem_cons_of_mem _ h1)
  split_ifs at hs
  · simp at hs
  · exact hcur s hs
  · rcases List.mem_append.1 (ResolveOverlaps_mem _ s hs) with h1 | h1
    · exact hres s h1
    · obtain ⟨reg, hreg, rfl⟩ := List.mem_map.1 h1
      exact finalFallback_starts _ reg (FindUncoveredRegions_start _ _ reg hreg)
  · exact hres s hs

end Aligner

/-! ## The stages of `FindAlignment` -/

namespace Aligner

variable {F : Type}

theorem selectParams_spec (fl : FloatOps F) (gc : F) (len m : Int) :
    (∀ k ∈ (selectParams fl gc len m).1, 5 ≤ k) ∧
      (m = 0 → 20 ≤ (selectParams fl gc len m).2.1) := by
  unfold selectParams
  simp only []
  split_ifs <;> refine ⟨?_, ?_⟩ <;>
    simp [VeryShortSeqKValues, LowGCKValues, MedGCKValues, HighGCKValues,
      VeryShortSeqMinMatchLength, MinMatchLength] <;> intro h <;> simp_all

/-- The pipeline of `FindAlignment` on non-empty inputs: anchors for the selected
values of `k`, filter, chain, overlap resolution, merge, coverage pass, sort,
merge, overlap resolution, clamping. -/
theorem FindAlignment_stages (fl : FloatOps F) (query ref : Str) (m : Int)
    (h : ¬ (strLen query = 0 ∨ strLen ref = 0)) :
    ∃ (ks : List Int) (mm : Int) (st : Int → Int) (me : Int) (thr : F),
      (∀ k ∈ ks, 5 ≤ k) ∧ (m = 0 → 20 ≤ mm) ∧
      FindAlignment fl query ref m =
        clampSegments (strLen query) (strLen ref) (ResolveOverlaps (MergeAdjacentSegments fl
          (sortSlice
            (fun a b =>
              if a.QueryStart ≠ b.QueryStart then decide (a.QueryStart < b.QueryStart)
              else decide (a.RefStart < b.RefStart))
            (EnsureCompleteCoverage fl query ref (MergeAdjacentSegments fl (ResolveOverlaps
              (chainSegments fl
                  (FilterAnchors fl (ks.flatMap fun k => FindAnchors fl query ref k mm (st k) me)
                    thr) ++
                chainSegments fl
                  (FilterAnchors fl
                    (ks.flatMap fun k => FindReverseAnchors fl query ref k mm (st k) me) thr)))
              AdjacentMergeMaxGap)))
          FinalMergeMaxGap)) := by
  have hp := selectParams_spec fl (CalculateGCContent fl query) (min (strLen query) (strLen ref)) m
  refine ⟨(selectParams fl (CalculateGCContent fl query) (min (strLen query) (strLen ref)) m).1,
    (selectParams fl (CalculateGCContent fl query) (min (strLen query) (strLen ref)) m).2.1,
    (fun k => if min (strLen query) (strLen ref) ≥ VeryShortSeqThreshold then max 1 (k - 5)
      else (selectParams fl (CalculateGCContent fl query)
        (min (strLen query) (strLen ref)) m).2.2.1),
    (selectParams fl (CalculateGCContent fl query) (min (strLen query) (strLen ref)) m).2.2.2,
    (if fl.lt (CalculateGCContent fl query) (fl.lit LowGCThreshold) then
        fl.add (fl.lit HighQualityOverlapThreshold) (fl.lit (2 / 100))
      else fl.lit HighQualityOverlapThreshold), hp.1, hp.2, ?_⟩
  unfold FindAlignment
  simp only []
  rw [if_neg h]
  exact final_steps_eq _ _ _

/-- The segments that enter the clamping loop have non-negative starts. -/
theorem FindAlignment_preclamp_starts (fl : FloatOps F) (ks : List Int) (mm : Int)
    (st : Int → Int) (me : Int) (thr : F) (query ref : Str) (less : Segment → Segment → Bool) :
    ∀ s ∈ ResolveOverlaps (MergeAdjacentSegments fl
          (sortSlice less
            (EnsureCompleteCoverage fl query ref (MergeAdjacentSegments fl (ResolveOverlaps
              (chainSegments fl
                  (FilterAnchors fl (ks.flatMap fun k => FindAnchors fl query ref k mm (st k) me)
                    thr) ++
                chainSegments fl
                  (FilterAnchors fl
                    (ks.flatMap fun k => FindReverseAnchors fl query ref k mm (st k) me) thr)))
              AdjacentMergeMaxGap)))
          FinalMergeMaxGap), StartsNonneg s := by
  intro s hs
  refine MergeAdjacentSegments_starts fl _ _ ?_ s (ResolveOverlaps_mem _ s hs)
  intro t ht
  rw [mem_sortSlice] at ht
  refine EnsureCompleteCoverage_starts fl query ref _ ?_ t ht
  intro u hu
  refine MergeAdjacentSegments_starts fl _ _ ?_ u hu
  intro v hv
  rcases List.mem_append.1 (ResolveOverlaps_mem _ v hv) with h1 | h1
  · obtain ⟨a, ha, rfl⟩ := chainSegments_mem fl _ v h1
    obtain ⟨k, _, hk⟩ := List.mem_flatMap.1 (FilterAnchors_mem fl _ _ a ha)
    have := FindAnchors_bounds fl query ref k mm (st k) me a hk
    exact ⟨this.1, this.2.1⟩
  · obtain ⟨a, ha, rfl⟩ := chainSegments_mem fl _ v h1
    obtain ⟨k, _, hk⟩ := List.mem_flatMap.1 (FilterAnchors_mem fl _ _ a ha)
    exact FindReverseAnchors_bounds fl query ref k mm (st k) me a hk

end Aligner

/-! ## Claims about `ResolveOverlaps` -/

namespace Aligner

/-- Claim C16, as the code has it.  For every list of segments (sorted or not)
in which every segment has `q_start ≤ q_end`, the output of `ResolveOverlaps`
consists only of segments of the input, is in strictly increasing `q_start`
order, and each output segment starts strictly after the end of the one before it
(so the output is pairwise non-overlapping in the query). -/
theorem resolveOverlaps_sorted_disjoint (segments : List Segment)
    (hwf : ∀ s ∈ segments, s.QueryStart ≤ s.QueryEnd) :
    (∀ s ∈ ResolveOverlaps segments, s ∈ segments) ∧
    (ResolveOverlaps segments).Pairwise (fun a b => a.QueryStart < b.QueryStart) ∧
    (ResolveOverlaps segments).Chain' QBefore ∧
    (ResolveOverlaps segments).Pairwise QDisjoint := by
  have hp := ResolveOverlaps_pairwise segments
  have hm := ResolveOverlaps_mem segments
  refine ⟨hm, ?_, hp.chain', hp.imp (fun h => Or.inl h)⟩
  have hwf2 : ∀ s ∈ ResolveOverlaps segments, s.QueryStart ≤ s.QueryEnd :=
    fun s hs => hwf s (hm s hs)
  generalize ResolveOverlaps segments = out at hp hwf2
  induction out with
  | nil => exact List.Pairwise.nil
  | cons a rest ih =>
    obtain ⟨h1, h2⟩ := List.pairwise_cons.1 hp
    refine List.pairwise_cons.2 ⟨?_, ih h2 (fun s hs => hwf2 s (List.mem_cons_of_mem _ hs))⟩
    intro b hb
    have hab := h1 b hb
    have ha := hwf2 a (List.mem_cons_self _ _)
    unfold QBefore at hab
    omega

theorem resolveOverlaps_sorted_disjoint_witness :
    (∀ s ∈ ([⟨20, 30, 5, 15⟩, ⟨0, 10, 0, 10⟩, ⟨8, 12, 40, 44⟩] : List Segment),
        s.QueryStart ≤ s.QueryEnd) ∧
      ((∀ s ∈ ResolveOverlaps [⟨20, 30, 5, 15⟩, ⟨0, 10, 0, 10⟩, ⟨8, 12, 40, 44⟩],
          s ∈ ([⟨20, 30, 5, 15⟩, ⟨0, 10, 0, 10⟩, ⟨8, 12, 40, 44⟩] : List Segment)) ∧
        (ResolveOverlaps [⟨20, 30, 5, 15⟩, ⟨0, 10, 0, 10⟩, ⟨8, 12, 40, 44⟩]).Pairwise
          (fun a b => a.QueryStart < b.QueryStart) ∧
        (ResolveOverlaps [⟨20, 30, 5, 15⟩, ⟨0, 10, 0, 10⟩, ⟨8, 12, 40, 44⟩]).Chain' QBefore ∧
        (ResolveOverlaps [⟨20, 30, 5, 15⟩, ⟨0, 10, 0, 10⟩, ⟨8, 12, 40, 44⟩]).Pairwise
          QDisjoint) :=
  ⟨by decide, resolveOverlaps_sorted_disjoint _ (by decide)⟩

/-- Claim C16 as stated fails for segments with `q_end < q_start`.  The two
segments `(5, 2)` and `(5, 1)` have the same `q_start`; the second does not start
at or before the end `2` of the first, so the walk keeps both, and the output is
not in strictly increasing `q_start` order. -/
theorem resolveOverlaps_equal_starts_kept :
    ResolveOverlaps [⟨5, 2, 0, 0⟩, ⟨5, 1, 0, 0⟩] = [⟨5, 2, 0, 0⟩, ⟨5, 1, 0, 0⟩] ∧
    ¬ (ResolveOverlaps [⟨5, 2, 0, 0⟩, ⟨5, 1, 0, 0⟩]).Pairwise
      (fun a b => a.QueryStart < b.QueryStart) := by
  have h : ResolveOverlaps [⟨5, 2, 0, 0⟩, ⟨5, 1, 0, 0⟩] = [⟨5, 2, 0, 0⟩, ⟨5, 1, 0, 0⟩] := by
    decide
  refine ⟨h, ?_⟩
  rw [h]
  simp

/-- For every segment of the walk there is one in the result that is at least as
long. -/
theorem resolveWalk_longer : ∀ (rest : List Segment) (prev : Segment) (out : List Segment)
    (t : Segment), t ∈ out ++ prev :: rest →
    ∃ s ∈ resolveWalk prev out rest, qLength t ≤ qLength s := by
  intro rest
  induction rest with
  | nil =>
    intro prev out t ht
    unfold resolveWalk
    exact ⟨t, by simpa using ht, le_rfl⟩
  | cons curr rest ih =>
    intro prev out t ht
    have hcases : t ∈ out ∨ t = prev ∨ t = curr ∨ t ∈ rest := by
      simpa [List.mem_append, List.mem_cons] using ht
    unfold resolveWalk
    split_ifs with h1 h2
    · rcases hcases with h | h | h | h
      · exact ih curr out t (by simp [h])
      · obtain ⟨s, hs, hle⟩ := ih curr out curr (by simp)
        refine ⟨s, hs, ?_⟩
        unfold qLength at hle ⊢
        rw [h]
        omega
      · exact ih curr out t (by simp [h])
      · exact ih curr out t (by simp [h])
    · rcases hcases with h | h | h | h
      · exact ih prev out t (by simp [h])
      · exact ih prev out t (by simp [h])
      · obtain ⟨s, hs, hle⟩ := ih prev out prev (by simp)
        refine ⟨s, hs, ?_⟩
        unfold qLength at hle ⊢
        rw [h]
        omega
      · exact ih prev out t (by simp [h])
    · rcases hcases with h | h | h | h
      · exact ih curr (out ++ [prev]) t (by simp [h])
      · exact ih curr (out ++ [prev]) t (by simp [h])
      · exact ih curr (out ++ [prev]) t (by simp [h])
      · exact ih curr (out ++ [prev]) t (by simp [h])

theorem ResolveOverlaps_longer (segments : List Segment) (t : Segment) (ht : t ∈ segments) :
    ∃ s ∈ ResolveOverlaps segments, qLength t ≤ qLength s := by
  have ht2 := (mem_sortSlice resolveLess segments t).2 ht
  unfold ResolveOverlaps
  split
  · rename_i heq
    rw [heq] at ht2
    simp at ht2
  · rename_i first rest heq
    rw [heq] at ht2
    exact resolveWalk_longer rest first [] t (by simpa using ht2)

theorem exists_longest : ∀ (l : List Segment), l ≠ [] →
    ∃ m ∈ l, ∀ t ∈ l, qLength t ≤ qLength m := by
  intro l
  induction l with
  | nil => intro h; exact absurd rfl h
  | cons a rest ih =>
    intro _
    by_cases hr : rest = []
    · subst hr
      exact ⟨a, by simp, by simp⟩
    · obtain ⟨m, hm, hmax⟩ := ih hr
      by_cases hle : qLength m ≤ qLength a
      · refine ⟨a, by simp, ?_⟩
        intro t ht
        rcases List.mem_cons.1 ht with h | h
        · rw [h]
        · exact le_trans (hmax t h) hle
      · refine ⟨m, List.mem_cons_of_mem _ hm, ?_⟩
        intro t ht
        rcases List.mem_cons.1 ht with h | h
        · rw [h]; omega
        · exact hmax t h

/-- The walk of `ResolveOverlaps` over a list sorted by `q_start` keeps a longest
segment at `p`, when no input segment that is at least as long and does not
contain `p` overlaps a longest segment at `p`. -/
theorem resolveWalk_longest_at (segments : List Segment) (p : Int)
    (hiso : ∀ x ∈ segments, ∀ l ∈ segments, InQuery l p →
      (∀ t ∈ segments, InQuery t p → qLength t ≤ qLength l) →
      ¬ QDisjoint x l → qLength l ≤ qLength x → InQuery x p) :
    ∀ (rest : List Segment) (prev : Segment) (out : List Segment),
      (∀ x ∈ out ++ prev :: rest, x ∈ segments) →
      (∀ x ∈ rest, prev.QueryStart ≤ x.QueryStart) →
      rest.Pairwise (fun a b => a.QueryStart ≤ b.QueryStart) →
      (∃ l ∈ out ++ prev :: rest, InQuery l p ∧
        ∀ t ∈ segments, InQuery t p → qLength t ≤ qLength l) →
      ∃ s ∈ resolveWalk prev out rest, InQuery s p ∧
        ∀ t ∈ segments, InQuery t p → qLength t ≤ qLength s := by
  intro rest
  induction rest with
  | nil =>
    intro prev out _ _ _ h
    unfold resolveWalk
    exact h
  | cons curr rest ih =>
    intro prev out hmem hprev hsorted h
    obtain ⟨hs1, hs2⟩ := List.pairwise_cons.1 hsorted
    have hpc : prev.QueryStart ≤ curr.QueryStart := hprev curr (List.mem_cons_self _ _)
    have hprevmem : prev ∈ segments := hmem prev (by simp)
    have hcurrmem : curr ∈ segments := hmem curr (by simp)
    obtain ⟨l, hl, hlp, hlmax⟩ := h
    have hcases : l ∈ out ∨ l = prev ∨ l = curr ∨ l ∈ rest := by
      simpa [List.mem_append, List.mem_cons] using hl
    unfold resolveWalk
    split_ifs with h1 h2
    · -- overlap, `curr` is longer and replaces `prev`
      have hmem2 : ∀ x ∈ out ++ curr :: rest, x ∈ segments := by
        intro x hx
        apply hmem
        simp only [List.mem_append, List.mem_cons] at hx ⊢
        tauto
      refine ih curr out hmem2 hs1 hs2 ?_
      rcases hcases with h | h | h | h
      · exact ⟨l, by simp [h], hlp, hlmax⟩
      · exfalso
        subst h
        have hin : InQuery curr p := by
          apply hiso curr hcurrmem l hprevmem hlp hlmax
          · unfold QDisjoint
            unfold InQuery at hlp
            omega
          · unfold qLength
            omega
        have := hlmax curr hcurrmem hin
        unfold qLength at this
        omega
      · exact ⟨l, by simp [h], hlp, hlmax⟩
      · exact ⟨l, by simp [h], hlp, hlmax⟩
    · -- overlap, `prev` is kept
      have hmem2 : ∀ x ∈ out ++ prev :: rest, x ∈ segments := by
        intro x hx
        apply hmem
        simp only [List.mem_append, List.mem_cons] at hx ⊢
        tauto
      have hprev2 : ∀ x ∈ rest, prev.QueryStart ≤ x.QueryStart :=
        fun x hx => hprev x (List.mem_cons_of_mem _ hx)
      refine ih prev out hmem2 hprev2 hs2 ?_
      rcases hcases with h | h | h | h
      · exact ⟨l, by simp [h], hlp, hlmax⟩
      · exact ⟨l, by simp [h], hlp, hlmax⟩
      · subst h
        have hle : qLength l ≤ qLength prev := by
          unfold qLength
          omega
        have hin : InQuery prev p := by
          apply hiso prev hprevmem l hcurrmem hlp hlmax
          · unfold QDisjoint
            unfold InQuery at hlp
            omega
          · exact hle
        exact ⟨prev, by simp, hin, fun t ht htp => le_trans (hlmax t ht htp) hle⟩
      · exact ⟨l, by simp [h], hlp, hlmax⟩
    · -- no overlap, `prev` stays in the output
      have hmem2 : ∀ x ∈ (out ++ [prev]) ++ curr :: rest, x ∈ segments := by
        intro x hx
        apply hmem
        simp only [List.mem_append, List.mem_cons, List.mem_singleton] at hx ⊢
        tauto
      refine ih curr (out ++ [prev]) hmem2 hs1 hs2 ?_
      rcases hcases with h | h | h | h
      · exact ⟨l, by simp [h], hlp, hlmax⟩
      · exact ⟨l, by simp [h], hlp, hlmax⟩
      · exact ⟨l, by simp [h], hlp, hlmax⟩
      · exact ⟨l, by simp [h], hlp, hlmax⟩

/-- Among the segments of a list that contain `p` there is a longest one. -/
theorem exists_longest_at (segments : List Segment) (p : Int)
    (hp : ∃ t ∈ segments, InQuery t p) :
    ∃ l ∈ segments, InQuery l p ∧ ∀ t ∈ segments, InQuery t p → qLength t ≤ qLength l := by
  obtain ⟨t0, ht0, htp0⟩ := hp
  have hne : segments.filter (fun t => decide (t.QueryStart ≤ p ∧ p ≤ t.QueryEnd)) ≠ [] := by
    apply List.ne_nil_of_mem (a := t0)
    rw [List.mem_filter]
    exact ⟨ht0, by simpa [InQuery] using htp0⟩
  obtain ⟨m, hm, hmax⟩ := exists_longest _ hne
  rw [List.mem_filter] at hm
  refine ⟨m, hm.1, by simpa [InQuery] using hm.2, ?_⟩
  intro t ht htp
  apply hmax t
  rw [List.mem_filter]
  exact ⟨ht, by simpa [InQuery] using htp⟩

/-- Claim C17, as the code has it.  For every list of segments and every query
position `p` that lies inside an input segment: if every input segment that
overlaps (in the query) a longest input segment containing `p` and is at least as
long as it contains `p` itself, then the output of `ResolveOverlaps` contains a
segment of greatest query length among the input segments that contain `p`, and
that segment contains `p`. -/
theorem resolveOverlaps_longest_at_position (segments : List Segment) (p : Int)
    (hp : ∃ t ∈ segments, InQuery t p)
    (hiso : ∀ x ∈ segments, ∀ l ∈ segments, InQuery l p →
      (∀ t ∈ segments, InQuery t p → qLength t ≤ qLength l) →
      ¬ QDisjoint x l → qLength l ≤ qLength x → InQuery x p) :
    LongestAtPreserved segments (ResolveOverlaps segments) p := by
  obtain ⟨l, hl, hlp, hlmax⟩ := exists_longest_at segments p hp
  have hl2 := (mem_sortSlice resolveLess segments l).2 hl
  have hsorted := resolve_qs_sorted segments
  have hmem : ∀ x ∈ sortSlice resolveLess segments, x ∈ segments :=
    fun x hx => (mem_sortSlice resolveLess segments x).1 hx
  have key : ∃ s ∈ ResolveOverlaps segments, InQuery s p ∧
      ∀ t ∈ segments, InQuery t p → qLength t ≤ qLength s := by
    unfold ResolveOverlaps
    split
    · rename_i heq
      rw [heq] at hl2
      simp at hl2
    · rename_i first rest heq
      rw [heq] at hl2 hsorted hmem
      obtain ⟨hs1, hs2⟩ := List.pairwise_cons.1 hsorted
      exact resolveWalk_longest_at segments p hiso rest first []
        (by simpa using hmem) hs1 hs2 ⟨l, by simpa using hl2, hlp, hlmax⟩
  obtain ⟨s, hs, hsp, hsmax⟩ := key
  exact ⟨s, hs, ResolveOverlaps_mem segments s hs, hsp, hsmax⟩

theorem resolveOverlaps_longest_at_position_witness :
    (∃ t ∈ ([⟨0, 10, 0, 10⟩, ⟨5, 30, 5, 30⟩, ⟨40, 60, 40, 60⟩] : List Segment), InQuery t 7) ∧
      (∀ x ∈ ([⟨0, 10, 0, 10⟩, ⟨5, 30, 5, 30⟩, ⟨40, 60, 40, 60⟩] : List Segment),
        ∀ l ∈ ([⟨0, 10, 0, 10⟩, ⟨5, 30, 5, 30⟩, ⟨40, 60, 40, 60⟩] : List Segment),
        InQuery l 7 →
        (∀ t ∈ ([⟨0, 10, 0, 10⟩, ⟨5, 30, 5, 30⟩, ⟨40, 60, 40, 60⟩] : List Segment),
          InQuery t 7 → qLength t ≤ qLength l) →
        ¬ QDisjoint x l → qLength l ≤ qLength x → InQuery x 7) ∧
      LongestAtPreserved [⟨0, 10, 0, 10⟩, ⟨5, 30, 5, 30⟩, ⟨40, 60, 40, 60⟩]
        (ResolveOverlaps [⟨0, 10, 0, 10⟩, ⟨5, 30, 5, 30⟩, ⟨40, 60, 40, 60⟩]) 7 :=
  have hp : ∃ t ∈ ([⟨0, 10, 0, 10⟩, ⟨5, 30, 5, 30⟩, ⟨40, 60, 40, 60⟩] : List Segment),
      InQuery t 7 := ⟨⟨0, 10, 0, 10⟩, by simp, by unfold InQuery; decide⟩
  have hiso : ∀ x ∈ ([⟨0, 10, 0, 10⟩, ⟨5, 30, 5, 30⟩, ⟨40, 60, 40, 60⟩] : List Segment),
      ∀ l ∈ ([⟨0, 10, 0, 10⟩, ⟨5, 30, 5, 30⟩, ⟨40, 60, 40, 60⟩] : List Segment),
      InQuery l 7 →
      (∀ t ∈ ([⟨0, 10, 0, 10⟩, ⟨5, 30, 5, 30⟩, ⟨40, 60, 40, 60⟩] : List Segment),
        InQuery t 7 → qLength t ≤ qLength l) →
      ¬ QDisjoint x l → qLength l ≤ qLength x → InQuery x 7 := by
    unfold InQuery QDisjoint qLength
    decide
  ⟨hp, hiso, resolveOverlaps_longest_at_position _ 7 hp hiso⟩

/-- Claim C17 as stated fails.  The position `7` lies inside the input segments
`(0, 10)` and `(5, 30)`; the longest input segment that contains it is `(5, 30)`.
The walk replaces `(0, 10)` by `(5, 30)` and then `(5, 30)` by the longer
`(25, 60)`, so the output is `[(25, 60)]`, which contains no segment at position
`7` at all. -/
theorem resolveOverlaps_drops_longest_at_position :
    InQuery (⟨0, 10, 0, 10⟩ : Segment) 7 ∧ InQuery (⟨5, 30, 5, 30⟩ : Segment) 7 ∧
    ResolveOverlaps [⟨0, 10, 0, 10⟩, ⟨5, 30, 5, 30⟩, ⟨25, 60, 25, 60⟩] = [⟨25, 60, 25, 60⟩] ∧
    ¬ LongestAtPreserved [⟨0, 10, 0, 10⟩, ⟨5, 30, 5, 30⟩, ⟨25, 60, 25, 60⟩]
      (ResolveOverlaps [⟨0, 10, 0, 10⟩, ⟨5, 30, 5, 30⟩, ⟨25, 60, 25, 60⟩]) 7 := by
  have h : ResolveOverlaps [⟨0, 10, 0, 10⟩, ⟨5, 30, 5, 30⟩, ⟨25, 60, 25, 60⟩] =
      [⟨25, 60, 25, 60⟩] := by decide
  refine ⟨by unfold InQuery; decide, by unfold InQuery; decide, h, ?_⟩
  rw [h]
  rintro ⟨s, hs, _, hin, _⟩
  rw [List.mem_singleton] at hs
  subst hs
  unfold InQuery at hin
  simp at hin

end Aligner

/-! ## Claims about `MergeAdjacentSegments` -/

namespace Aligner

variable {F : Type}

theorem canMerge_gap (fl : FloatOps F) (g : Int) (cur n : Segment)
    (h : canMerge fl g cur n = true) :
    n.QueryStart - cur.QueryEnd - 1 ≤ g ∧ n.RefStart - cur.RefEnd - 1 ≤ g := by
  unfold canMerge at h
  simp only [Bool.and_eq_true, decide_eq_true_eq] at h
  exact h.1

/-- Merging never uncovers a query position, for segments in query order without
overlap. -/
theorem mergeWalk_covers (fl : FloatOps F) (g : Int) :
    ∀ (rest : List Segment) (cur : Segment) (out : List Segment),
      cur.QueryStart ≤ cur.QueryEnd → (∀ x ∈ rest, cur.QueryEnd < x.QueryStart) →
      rest.Pairwise QBefore → (∀ x ∈ rest, x.QueryStart ≤ x.QueryEnd) →
      ∀ p, Covered (out ++ cur :: rest) p → Covered (mergeWalk fl g cur out rest) p := by
  intro rest
  induction rest with
  | nil =>
    intro cur out _ _ _ _ p hp
    unfold mergeWalk
    exact hp
  | cons n rest ih =>
    intro cur out hc hlt hpw hwf p hp
    obtain ⟨h1, h2⟩ := List.pairwise_cons.1 hpw
    have hn := hwf n (List.mem_cons_self _ _)
    have hcn := hlt n (List.mem_cons_self _ _)
    have hwf2 : ∀ x ∈ rest, x.QueryStart ≤ x.QueryEnd :=
      fun x hx => hwf x (List.mem_cons_of_mem _ hx)
    unfold mergeWalk
    split_ifs
    · apply ih ⟨cur.QueryStart, n.QueryEnd, cur.RefStart, n.RefEnd⟩ out
        (by simp only; omega) (fun x hx => h1 x hx) h2 hwf2 p
      obtain ⟨s, hs, hsp⟩ := hp
      have hcases : s ∈ out ∨ s = cur ∨ s = n ∨ s ∈ rest := by
        simpa [List.mem_append, List.mem_cons] using hs
      rcases hcases with h | h | h | h
      · exact ⟨s, by simp [h], hsp⟩
      · subst h
        exact ⟨⟨s.QueryStart, n.QueryEnd, s.RefStart, n.RefEnd⟩, by simp,
          by simp only; omega⟩
      · subst h
        exact ⟨⟨cur.QueryStart, s.QueryEnd, cur.RefStart, s.RefEnd⟩, by simp,
          by simp only; omega⟩
      · exact ⟨s, by simp [h], hsp⟩
    · apply ih n (out ++ [cur]) hn (fun x hx => h1 x hx) h2 hwf2 p
      obtain ⟨s, hs, hsp⟩ := hp
      exact ⟨s, by simpa [List.mem_append, List.mem_cons, or_assoc] using hs, hsp⟩

/-- Every position that a merged segment covers is covered by the input or lies
in a gap that a merge closed. -/
theorem mergeWalk_covered (fl : FloatOps F) (g : Int) (input : List Segment) :
    ∀ (rest : List Segment) (cur : Segment) (out : List Segment),
      (∀ x ∈ rest, x ∈ input) → (∃ l ∈ input, l.QueryEnd = cur.QueryEnd) →
      (∀ p, cur.QueryStart ≤ p ∧ p ≤ cur.QueryEnd → Covered input p ∨ InGap input g p) →
      (∀ s ∈ out, ∀ p, s.QueryStart ≤ p ∧ p ≤ s.QueryEnd →
        Covered input p ∨ InGap input g p) →
      ∀ s ∈ mergeWalk fl g cur out rest, ∀ p, s.QueryStart ≤ p ∧ p ≤ s.QueryEnd →
        Covered input p ∨ InGap input g p := by
  intro rest
  induction rest with
  | nil =>
    intro cur out _ _ hc ho s hs p hp
    unfold mergeWalk at hs
    rcases List.mem_append.1 hs with h | h
    · exact ho s h p hp
    · rw [List.mem_singleton.1 h] at hp
      exact hc p hp
  | cons n rest ih =>
    intro cur out hr hl hc ho s hs p hp
    have hn : n ∈ input := hr n (List.mem_cons_self _ _)
    have hr2 : ∀ x ∈ rest, x ∈ input := fun x hx => hr x (List.mem_cons_of_mem _ hx)
    unfold mergeWalk at hs
    split_ifs at hs with hm
    · refine ih ⟨cur.QueryStart, n.QueryEnd, cur.RefStart, n.RefEnd⟩ out hr2
        ⟨n, hn, rfl⟩ ?_ ho s hs p hp
      intro p' hp'
      simp only at hp'
      obtain ⟨l, hl1, hl2⟩ := hl
      have hgap := (canMerge_gap fl g cur n hm).1
      by_cases h1 : p' ≤ cur.QueryEnd
      · exact hc p' ⟨hp'.1, h1⟩
      · by_cases h2 : p' < n.QueryStart
        · exact Or.inr ⟨l, hl1, n, hn, by omega, h2, by omega⟩
        · exact Or.inl ⟨n, hn, by omega, hp'.2⟩
    · refine ih n (out ++ [cur]) hr2 ⟨n, hn, rfl⟩ ?_ ?_ s hs p hp
      · intro p' hp'
        exact Or.inl ⟨n, hn, hp'⟩
      · intro t ht p' hp'
        rcases List.mem_append.1 ht with h | h
        · exact ho t h p' hp'
        · rw [List.mem_singleton.1 h] at hp'
          exact hc p' hp'

/-- Claim C18, as the code has it.  For every list of segments with
`q_start ≤ q_end` in which every segment starts strictly after the end of every
segment before it (query order, no two segments overlap) and every `max_gap`,
every query position covered by the input is covered by the output of
`MergeAdjacentSegments`, and every position covered by the output is covered by the
input or lies in a gap of at most `max_gap` positions between two input segments
(a merge also covers the gap it closes). -/
theorem mergeAdjacentSegments_coverage (fl : FloatOps F) (segs : List Segment) (g : Int)
    (hs : segs.Pairwise QBefore) (hwf : ∀ s ∈ segs, s.QueryStart ≤ s.QueryEnd) :
    (∀ p, Covered segs p → Covered (MergeAdjacentSegments fl segs g) p) ∧
    (∀ p, Covered (MergeAdjacentSegments fl segs g) p → Covered segs p ∨ InGap segs g p) := by
  unfold MergeAdjacentSegments
  split
  · exact ⟨fun p hp => hp, fun p hp => Or.inl hp⟩
  · exact ⟨fun p hp => hp, fun p hp => Or.inl hp⟩
  · rename_i first rest _
    obtain ⟨h1, h2⟩ := List.pairwise_cons.1 hs
    constructor
    · intro p hp
      exact mergeWalk_covers fl g rest first [] (hwf first (List.mem_cons_self _ _))
        (fun x hx => h1 x hx) h2 (fun x hx => hwf x (List.mem_cons_of_mem _ hx)) p
        (by simpa using hp)
    · rintro p ⟨s, hs1, hsp⟩
      exact mergeWalk_covered fl g (first :: rest) rest first []
        (fun x hx => List.mem_cons_of_mem _ hx) ⟨first, List.mem_cons_self _ _, rfl⟩
        (fun p' hp' => Or.inl ⟨first, List.mem_cons_self _ _, hp'⟩) (by simp) s hs1 p hsp

theorem mergeAdjacentSegments_coverage_witness :
    ([⟨0, 9, 0, 9⟩, ⟨12, 20, 12, 20⟩, ⟨50, 60, 70, 80⟩] : List Segment).Pairwise QBefore ∧
    (∀ s ∈ ([⟨0, 9, 0, 9⟩, ⟨12, 20, 12, 20⟩, ⟨50, 60, 70, 80⟩] : List Segment),
      s.QueryStart ≤ s.QueryEnd) ∧
    ((∀ p, Covered [⟨0, 9, 0, 9⟩, ⟨12, 20, 12, 20⟩, ⟨50, 60, 70, 80⟩] p →
        Covered (MergeAdjacentSegments exactOps
          [⟨0, 9, 0, 9⟩, ⟨12, 20, 12, 20⟩, ⟨50, 60, 70, 80⟩] 5) p) ∧
      (∀ p, Covered (MergeAdjacentSegments exactOps
          [⟨0, 9, 0, 9⟩, ⟨12, 20, 12, 20⟩, ⟨50, 60, 70, 80⟩] 5) p →
        Covered [⟨0, 9, 0, 9⟩, ⟨12, 20, 12, 20⟩, ⟨50, 60, 70, 80⟩] p ∨
          InGap [⟨0, 9, 0, 9⟩, ⟨12, 20, 12, 20⟩, ⟨50, 60, 70, 80⟩] 5 p)) :=
  ⟨by unfold QBefore; decide, by decide,
    mergeAdjacentSegments_coverage exactOps _ 5 (by unfold QBefore; decide) (by decide)⟩

/-- Claim C18 as stated fails.  The input `[(0, 9), (12, 20)]` is in query order
and covers neither `10` nor `11`; with `max_gap = 5` the two segments are merged
into `(0, 20)`, which covers both. -/
theorem mergeAdjacentSegments_covers_gap :
    MergeAdjacentSegments exactOps [⟨0, 9, 0, 9⟩, ⟨12, 20, 12, 20⟩] 5 = [⟨0, 20, 0, 20⟩] ∧
    Covered (MergeAdjacentSegments exactOps [⟨0, 9, 0, 9⟩, ⟨12, 20, 12, 20⟩] 5) 10 ∧
    ¬ Covered [⟨0, 9, 0, 9⟩, ⟨12, 20, 12, 20⟩] 10 := by
  have h : MergeAdjacentSegments exactOps [⟨0, 9, 0, 9⟩, ⟨12, 20, 12, 20⟩] 5 =
      [⟨0, 20, 0, 20⟩] := by decide!
  refine ⟨h, ?_, ?_⟩
  · rw [h]
    exact ⟨⟨0, 20, 0, 20⟩, by simp, by decide⟩
  · rintro ⟨s, hs, hsp⟩
    simp only [List.mem_cons, List.mem_singleton, List.not_mem_nil, or_false] at hs
    rcases hs with rfl | rfl <;> simp at hsp

theorem mergeWalk_zero_id (fl : FloatOps F) :
    ∀ (rest : List Segment) (cur : Segment) (out : List Segment),
      (cur :: rest).Chain'
        (fun a b => a.QueryEnd + 1 < b.QueryStart ∨ a.RefEnd + 1 < b.RefStart) →
      mergeWalk fl 0 cur out rest = out ++ cur :: rest := by
  intro rest
  induction rest with
  | nil => intro cur out _; rfl
  | cons n rest ih =>
    intro cur out h
    obtain ⟨h1, h2⟩ := List.chain'_cons.1 h
    have hno : canMerge fl 0 cur n = false := by
      unfold canMerge
      simp only [Bool.and_eq_false_imp, decide_eq_true_eq]
      intro hc
      omega
    unfold mergeWalk
    rw [if_neg (by simp [hno])]
    rw [ih n (out ++ [cur]) h2]
    simp

/-- Claim C19, as the code has it.  For every list `S` of segments in which each
segment starts, in the query or in the reference, at least two positions after
the end of the segment before it (a gap of at least one position),
`MergeAdjacentSegments(S, 0)` returns `S` unchanged. -/
theorem mergeAdjacentSegments_zero_id (fl : FloatOps F) (S : List Segment)
    (h : S.Chain' (fun a b => a.QueryEnd + 1 < b.QueryStart ∨ a.RefEnd + 1 < b.RefStart)) :
    MergeAdjacentSegments fl S 0 = S := by
  unfold MergeAdjacentSegments
  split
  · rfl
  · rfl
  · rename_i first rest _
    simpa using mergeWalk_zero_id fl rest first [] h

theorem mergeAdjacentSegments_zero_id_witness :
    ([⟨0, 9, 0, 9⟩, ⟨11, 19, 10, 18⟩, ⟨20, 29, 40, 49⟩] : List Segment).Chain'
        (fun a b => a.QueryEnd + 1 < b.QueryStart ∨ a.RefEnd + 1 < b.RefStart) ∧
      MergeAdjacentSegments exactOps [⟨0, 9, 0, 9⟩, ⟨11, 19, 10, 18⟩, ⟨20, 29, 40, 49⟩] 0 =
        [⟨0, 9, 0, 9⟩, ⟨11, 19, 10, 18⟩, ⟨20, 29, 40, 49⟩] :=
  ⟨by simp, mergeAdjacentSegments_zero_id exactOps _ (by simp)⟩

/-- Claim C19 as stated fails.  The segments `(0, 9, 0, 9)` and `(10, 19, 10, 19)`
are in query order and do not overlap; they are exactly adjacent (both gaps are
`0`), and `MergeAdjacentSegments` with `max_gap = 0` merges them. -/
theorem mergeAdjacentSegments_zero_merges_adjacent :
    ([⟨0, 9, 0, 9⟩, ⟨10, 19, 10, 19⟩] : List Segment).Pairwise QBefore ∧
    MergeAdjacentSegments exactOps [⟨0, 9, 0, 9⟩, ⟨10, 19, 10, 19⟩] 0 = [⟨0, 19, 0, 19⟩] ∧
    MergeAdjacentSegments exactOps [⟨0, 9, 0, 9⟩, ⟨10, 19, 10, 19⟩] 0 ≠
      [⟨0, 9, 0, 9⟩, ⟨10, 19, 10, 19⟩] := by
  have h : MergeAdjacentSegments exactOps [⟨0, 9, 0, 9⟩, ⟨10, 19, 10, 19⟩] 0 =
      [⟨0, 19, 0, 19⟩] := by decide!
  refine ⟨by unfold QBefore; decide, h, ?_⟩
  rw [h]
  decide

end Aligner

/-! ## The chainer: `BuildSegmentGraph` and `FindMaximumWeightPath` -/

namespace Aligner

variable {F : Type}

/-- Every edge of the graph goes from a node to a later node, and an edge between
two anchors joins anchors that do not overlap in the query. -/
theorem mem_BuildSegmentGraph (fl : FloatOps F) (anchors : List (AnchorMatch F)) (u : Int)
    (e : Edge F) (he : e ∈ BuildSegmentGraph fl anchors u) :
    -1 ≤ u ∧ u < e.To ∧ e.To ≤ anchors.length ∧ u < anchors.length ∧
      (0 ≤ u → e.To < anchors.length →
        (anchorAt fl anchors u.toNat).QueryEnd < (anchorAt fl anchors e.To.toNat).QueryStart) := by
  unfold BuildSegmentGraph at he
  split_ifs at he with h1 h2 h3
  · rw [List.mem_singleton.1 he]
    subst h1
    simp [h2]
  · obtain ⟨i, hi, rfl⟩ := List.mem_map.1 he
    rw [List.mem_range] at hi
    subst h1
    simp only
    refine ⟨le_rfl, by omega, by omega, by omega, fun h => absurd h (by omega)⟩
  · rcases List.mem_append.1 he with h | h
    · obtain ⟨j, hj, rfl⟩ := List.mem_map.1 h
      obtain ⟨hj1, hj2⟩ := List.mem_filter.1 hj
      rw [List.mem_range] at hj1
      simp only [Bool.and_eq_true, decide_eq_true_eq] at hj2
      simp only
      refine ⟨by omega, by omega, by omega, by omega, ?_⟩
      intro _ _
      simpa using hj2.2
    · rw [List.mem_singleton.1 h]
      simp only
      exact ⟨by omega, by omega, le_rfl, by omega, fun _ h => absurd h (lt_irrefl _)⟩
  · simp at he

theorem relax_pred (fl : FloatOps F) (G : Int → List (Edge F)) (u : Int)
    (dp : (Int → F) × (Int → Option Int)) (edge : Edge F) (he : edge ∈ G u)
    (h : ∀ v w, dp.2 v = some w → ∃ e ∈ G w, e.To = v) :
    ∀ v w, (relax fl u dp edge).2 v = some w → ∃ e ∈ G w, e.To = v := by
  intro v w hvw
  unfold relax at hvw
  simp only [] at hvw
  split_ifs at hvw with hc
  · simp only at hvw
    split_ifs at hvw with hv
    · rw [Option.some.injEq] at hvw
      subst hvw
      exact ⟨edge, he, hv.symm⟩
    · exact h v w hvw
  · exact h v w hvw

theorem foldl_relax_pred (fl : FloatOps F) (G : Int → List (Edge F)) (u : Int) :
    ∀ (edges : List (Edge F)) (dp : (Int → F) × (Int → Option Int)),
      (∀ e ∈ edges, e ∈ G u) → (∀ v w, dp.2 v = some w → ∃ e ∈ G w, e.To = v) →
      ∀ v w, (edges.foldl (relax fl u) dp).2 v = some w → ∃ e ∈ G w, e.To = v := by
  intro edges
  induction edges with
  | nil => intro dp _ h; exact h
  | cons e rest ih =>
    intro dp he h
    rw [List.foldl_cons]
    exact ih _ (fun x hx => he x (List.mem_cons_of_mem _ hx))
      (relax_pred fl G u dp e (he e (List.mem_cons_self _ _)) h)

theorem foldl_nodes_pred (fl : FloatOps F) (G : Int → List (Edge F)) :
    ∀ (nodes : List Int) (dp : (Int → F) × (Int → Option Int)),
      (∀ v w, dp.2 v = some w → ∃ e ∈ G w, e.To = v) →
      ∀ v w, (nodes.foldl (fun dp u => (G u).foldl (relax fl u) dp) dp).2 v = some w →
        ∃ e ∈ G w, e.To = v := by
  intro nodes
  induction nodes with
  | nil => intro dp h; exact h
  | cons u rest ih =>
    intro dp h
    rw [List.foldl_cons]
    exact ih _ (foldl_relax_pred fl G u (G u) dp (fun e he => he) h)

/-- The backtracking loop returns a descending chain of anchor indices along the
predecessor map. -/
theorem backtrack_chain (pred : Int → Option Int) (n : Int) (R : Int → Int → Prop)
    (hP : ∀ v w, pred v = some w → -1 ≤ w ∧ w < v ∧ v ≤ n ∧ (0 ≤ w → v < n → R v w)) :
    ∀ (fuel : Nat) (curr : Int) (path : List Int),
      path.Chain' R → (∀ x ∈ path, 0 ≤ x ∧ x < n) →
      (curr = -1 ∨ (path = [] ∧ curr = n) ∨ path.getLast? = some curr) →
      (backtrack pred fuel curr path).Chain' R ∧
        ∀ x ∈ backtrack pred fuel curr path, 0 ≤ x ∧ x < n := by
  intro fuel
  induction fuel with
  | zero => intro curr path h1 h2 _; exact ⟨h1, h2⟩
  | succ k ih =>
    intro curr path h1 h2 h3
    unfold backtrack
    cases hp : pred curr with
    | none => exact ⟨h1, h2⟩
    | some p =>
      simp only []
      split_ifs with hc hpm
      · exact ⟨h1, h2⟩
      · obtain ⟨hp1, hp2, hp3, hp4⟩ := hP curr p hp
        have hp0 : 0 ≤ p := by omega
        apply ih
        · rw [List.chain'_append]
          refine ⟨h1, List.chain'_singleton p, ?_⟩
          intro x hx y hy
          simp only [List.head?_cons, Option.mem_def, Option.some.injEq] at hy
          subst hy
          rcases h3 with h | ⟨h, _⟩ | h
          · exact absurd h hc
          · rw [h] at hx; simp at hx
          · rw [h] at hx
            simp only [Option.mem_def, Option.some.injEq] at hx
            subst hx
            have hmem : curr ∈ path := List.mem_of_getLast?_eq_some h
            exact hp4 hp0 (h2 curr hmem).2
        · intro x hx
          rcases List.mem_append.1 hx with h | h
          · exact h2 x h
          · rw [List.mem_singleton.1 h]
            exact ⟨hp0, by omega⟩
        · right; right
          simp
      · push_neg at hpm
        apply ih _ _ h1 h2
        left
        exact hpm

/-- Claim C14.  For every list of `n` anchors (whatever their scores), the index
list returned by `FindMaximumWeightPath(BuildSegmentGraph(anchors), n)` contains
only indices in `[0, n)`, is strictly increasing, and for every two consecutive
indices `a < b` in it, `anchors[a].QueryEnd < anchors[b].QueryStart`. -/
theorem findMaximumWeightPath_valid (fl : FloatOps F) (anchors : List (AnchorMatch F)) :
    (∀ i ∈ FindMaximumWeightPath fl (BuildSegmentGraph fl anchors) anchors.length,
      0 ≤ i ∧ i < anchors.length) ∧
    (FindMaximumWeightPath fl (BuildSegmentGraph fl anchors) anchors.length).Pairwise
      (fun a b => a < b) ∧
    (FindMaximumWeightPath fl (BuildSegmentGraph fl anchors) anchors.length).Chain'
      (fun a b => a < b ∧
        (anchorAt fl anchors a.toNat).QueryEnd < (anchorAt fl anchors b.toNat).QueryStart) := by
  unfold FindMaximumWeightPath
  simp only []
  have hpred := foldl_nodes_pred fl (BuildSegmentGraph fl anchors)
    ([-1] ++ (List.range anchors.length).map (fun i => (i : Int)) ++ [(anchors.length : Int)])
    (fun x => if x = -1 then fl.lit 0 else fl.negInf, fun _ => none) (by simp)
  generalize (([-1] ++ (List.range anchors.length).map (fun i => (i : Int)) ++
    [(anchors.length : Int)]).foldl
      (fun dp u => (BuildSegmentGraph fl anchors u).foldl (relax fl u) dp)
      ((fun x => if x = -1 then fl.lit 0 else fl.negInf), fun _ => none)) = dp at hpred
  have hP : ∀ v w, dp.2 v = some w → -1 ≤ w ∧ w < v ∧ v ≤ (anchors.length : Int) ∧
      (0 ≤ w → v < (anchors.length : Int) →
        (fun b a => a < b ∧ (anchorAt fl anchors a.toNat).QueryEnd <
          (anchorAt fl anchors b.toNat).QueryStart) v w) := by
    intro v w hvw
    obtain ⟨e, he, rfl⟩ := hpred v w hvw
    obtain ⟨h1, h2, h3, _, h5⟩ := mem_BuildSegmentGraph fl anchors w e he
    exact ⟨h1, h2, h3, fun h0 hlt => ⟨h2, h5 h0 hlt⟩⟩
  obtain ⟨hc, hr⟩ := backtrack_chain dp.2 (anchors.length : Int) _ hP (anchors.length + 2)
    (anchors.length : Int) [] List.chain'_nil (by simp) (Or.inr (Or.inl ⟨rfl, rfl⟩))
  have hfilter : (backtrack dp.2 (anchors.length + 2) (anchors.length : Int) []).reverse.filter
      (fun idx => decide (idx ≥ 0 ∧ idx < (anchors.length : Int))) =
      (backtrack dp.2 (anchors.length + 2) (anchors.length : Int) []).reverse := by
    rw [List.filter_eq_self]
    intro x hx
    have := hr x (List.mem_reverse.1 hx)
    simpa using this
  rw [hfilter]
  have hrev : (backtrack dp.2 (anchors.length + 2) (anchors.length : Int) []).reverse.Chain'
      (fun a b => a < b ∧ (anchorAt fl anchors a.toNat).QueryEnd <
        (anchorAt fl anchors b.toNat).QueryStart) := by
    rw [List.chain'_reverse]
    exact hc
  refine ⟨fun i hi => hr i (List.mem_reverse.1 hi), ?_, hrev⟩
  have hlt : (backtrack dp.2 (anchors.length + 2) (anchors.length : Int) []).reverse.Chain'
      (fun a b => a < b) := hrev.imp (fun _ _ h => h.1)
  exact List.chain'_iff_pairwise.1 hlt

end Aligner

/-! ## Optimality of the chain, in exact arithmetic -/

namespace Aligner

theorem anchorAt_mem (anchors : List (AnchorMatch Exact)) (i : Nat) (h : i < anchors.length) :
    anchorAt exactOps anchors i ∈ anchors := by
  simp only [anchorAt, List.getD_eq_getElem _ _ h]
  exact List.getElem_mem _

theorem score_eq_scoreQ (anchors : List (AnchorMatch Exact))
    (hfin : ∀ a ∈ anchors, ∃ q, a.Score = .fin q) (i : Nat) (h : i < anchors.length) :
    (anchorAt exactOps anchors i).Score = .fin (scoreQ anchors (i : Int)) := by
  obtain ⟨q, hq⟩ := hfin _ (anchorAt_mem anchors i h)
  unfold scoreQ
  simp only [Int.toNat_ofNat]
  rw [hq]

/-- The weight of every edge is the weight of its target node. -/
theorem edge_weight (anchors : List (AnchorMatch Exact))
    (hfin : ∀ a ∈ anchors, ∃ q, a.Score = .fin q) (u : Int) (e : Edge Exact)
    (he : e ∈ BuildSegmentGraph exactOps anchors u) :
    e.Weight = .fin (nodeWeight anchors e.To) := by
  unfold BuildSegmentGraph at he
  split_ifs at he with h1 h2 h3
  · rw [List.mem_singleton.1 he]
    simp [nodeWeight, h2, exactOps]
  · obtain ⟨i, hi, rfl⟩ := List.mem_map.1 he
    rw [List.mem_range] at hi
    simp only [nodeWeight]
    rw [if_pos (by omega)]
    exact score_eq_scoreQ anchors hfin i hi
  · rcases List.mem_append.1 he with h | h
    · obtain ⟨j, hj, rfl⟩ := List.mem_map.1 h
      obtain ⟨hj1, _⟩ := List.mem_filter.1 hj
      rw [List.mem_range] at hj1
      simp only [nodeWeight]
      rw [if_pos (by omega)]
      exact score_eq_scoreQ anchors hfin j hj1
    · rw [List.mem_singleton.1 h]
      simp [nodeWeight, exactOps]
  · simp at he

/-- One relaxation keeps the invariant of the longest-path loop. -/
theorem relax_inv (anchors : List (AnchorMatch Exact))
    (hfin : ∀ a ∈ anchors, ∃ q, a.Score = .fin q) (N : Int → Prop)
    (Rel : Int → Edge Exact → Prop) (x : Int) (e : Edge Exact)
    (dp : (Int → Exact) × (Int → Option Int))
    (he : e ∈ BuildSegmentGraph exactOps anchors x) (hN : N x)
    (hRel : ∀ u e', Rel u e' → u ≤ x) (hNle : ∀ u, N u → u ≤ x)
    (h : DpInv anchors N Rel dp) :
    DpInv anchors N (fun u e' => Rel u e' ∨ (u = x ∧ e' = e)) (relax exactOps x dp e) := by
  obtain ⟨hx1, hx2, _, _, _⟩ := mem_BuildSegmentGraph exactOps anchors x e he
  have hw := edge_weight anchors hfin x e he
  unfold relax
  simp only []
  split_ifs with hc
  · -- the edge improves the distance of its target
    obtain ⟨hc1, hc2⟩ := hc
    obtain ⟨dx, hdx⟩ : ∃ dx, dp.1 x = .fin dx := by
      cases hd : dp.1 x with
      | negInf => rw [hd] at hc1; simp [exactOps] at hc1
      | fin q => exact ⟨q, rfl⟩
    have hnew : exactOps.add (dp.1 x) e.Weight = .fin (dx + nodeWeight anchors e.To) := by
      rw [hdx, hw]; rfl
    rw [hnew] at hc2 ⊢
    have hold : ∀ dv, dp.1 e.To = .fin dv → dv < dx + nodeWeight anchors e.To := by
      intro dv hdv
      rw [hdv] at hc2
      simpa [exactOps, Exact.ltB] using hc2
    refine ⟨?_, ?_, ?_, ?_⟩
    · simp only
      rw [if_neg (by omega)]
      exact h.source
    · intro u e' hr du hdu
      simp only at hdu ⊢
      have hux : u ≤ x := by
        rcases hr with hr | ⟨hr, _⟩
        · exact hRel u e' hr
        · omega
      rw [if_neg (by omega)] at hdu
      by_cases hto : e'.To = e.To
      · rw [if_pos hto]
        refine ⟨_, rfl, ?_⟩
        rcases hr with hr | ⟨hr1, hr2⟩
        · obtain ⟨dv, hdv1, hdv2⟩ := h.relaxed u e' hr du hdu
          rw [hto] at hdv1 hdv2
          have := hold dv hdv1
          rw [hto]
          linarith
        · subst hr1
          rw [hdx] at hdu
          cases hdu
          rw [hr2]
      · rw [if_neg hto]
        rcases hr with hr | ⟨hr1, hr2⟩
        · exact h.relaxed u e' hr du hdu
        · exact absurd (by rw [hr2]) hto
    · intro v u hvu
      simp only at hvu ⊢
      by_cases hv : v = e.To
      · rw [if_pos hv] at hvu
        rw [Option.some.injEq] at hvu
        subst hvu
        refine ⟨hN, ⟨e, he, hv.symm⟩, dx, dx + nodeWeight anchors e.To, ?_, ?_, ?_⟩
        · rw [if_neg (by omega)]; exact hdx
        · rw [if_pos hv]
        · rw [hv]
      · rw [if_neg hv] at hvu
        obtain ⟨h1, h2, du, dv, h3, h4, h5⟩ := h.pred_ok v u hvu
        refine ⟨h1, h2, du, dv, ?_, ?_, h5⟩
        · have := hNle u h1
          rw [if_neg (by omega)]; exact h3
        · rw [if_neg hv]; exact h4
    · intro v d hv hd
      simp only at hd ⊢
      by_cases hve : v = e.To
      · rw [if_pos hve]; exact ⟨x, rfl⟩
      · rw [if_neg hve] at hd ⊢
        exact h.pred_some v d hv hd
  · -- the edge does not improve the distance
    refine ⟨h.source, ?_, h.pred_ok, h.pred_some⟩
    intro u e' hr du hdu
    rcases hr with hr | ⟨hr1, hr2⟩
    · exact h.relaxed u e' hr du hdu
    · subst hr1; subst hr2
      have hw2 : exactOps.add (dp.1 u) e'.Weight = .fin (du + nodeWeight anchors e'.To) := by
        rw [hdu, hw]; rfl
      rw [hw2, hdu] at hc
      cases hd : dp.1 e'.To with
      | negInf =>
        rw [hd] at hc
        simp [exactOps, Exact.ltB] at hc
      | fin dv =>
        rw [hd] at hc
        refine ⟨dv, rfl, ?_⟩
        simpa [exactOps, Exact.ltB] using hc

end Aligner

namespace Aligner

theorem DpInv.mono (anchors : List (AnchorMatch Exact)) {N N' : Int → Prop}
    {Rel Rel' : Int → Edge Exact → Prop} {dp : (Int → Exact) × (Int → Option Int)}
    (hN : ∀ u, N u → N' u) (hRel : ∀ u e, Rel' u e → Rel u e) (h : DpInv anchors N Rel dp) :
    DpInv anchors N' Rel' dp :=
  ⟨h.source, fun u e hr => h.relaxed u e (hRel u e hr),
    fun v u hvu => ⟨hN u (h.pred_ok v u hvu).1, (h.pred_ok v u hvu).2⟩, h.pred_some⟩

/-- Relaxing all the edges of a list keeps the invariant. -/
theorem foldl_relax_inv (anchors : List (AnchorMatch Exact))
    (hfin : ∀ a ∈ anchors, ∃ q, a.Score = .fin q) (N : Int → Prop) (x : Int) (hN : N x)
    (hNle : ∀ u, N u → u ≤ x) :
    ∀ (es : List (Edge Exact)) (Rel : Int → Edge Exact → Prop)
      (dp : (Int → Exact) × (Int → Option Int)),
      (∀ e ∈ es, e ∈ BuildSegmentGraph exactOps anchors x) → (∀ u e', Rel u e' → u ≤ x) →
      DpInv anchors N Rel dp →
      DpInv anchors N (fun u e' => Rel u e' ∨ (u = x ∧ e' ∈ es))
        (es.foldl (relax exactOps x) dp) := by
  intro es
  induction es with
  | nil =>
    intro Rel dp _ _ h
    exact h.mono anchors (fun _ hu => hu) (fun u e hr => by simpa using hr)
  | cons e rest ih =>
    intro Rel dp hes hRel h
    rw [List.foldl_cons]
    have h1 := relax_inv anchors hfin N Rel x e dp (hes e (List.mem_cons_self _ _)) hN hRel
      hNle h
    have h2 := ih (fun u e' => Rel u e' ∨ (u = x ∧ e' = e)) _
      (fun e' he' => hes e' (List.mem_cons_of_mem _ he'))
      (by
        intro u e' hr
        rcases hr with hr | ⟨hr, _⟩
        · exact hRel u e' hr
        · omega) h1
    refine h2.mono anchors (fun _ hu => hu) ?_
    intro u e' hr
    rcases hr with hr | ⟨hr1, hr2⟩
    · exact Or.inl (Or.inl hr)
    · rcases List.mem_cons.1 hr2 with h3 | h3
      · exact Or.inl (Or.inr ⟨hr1, h3⟩)
      · exact Or.inr ⟨hr1, h3⟩

/-- Visiting the nodes of an increasing list keeps the invariant. -/
theorem foldl_nodes_inv (anchors : List (AnchorMatch Exact))
    (hfin : ∀ a ∈ anchors, ∃ q, a.Score = .fin q) :
    ∀ (nodes P : List Int) (dp : (Int → Exact) × (Int → Option Int)),
      (P ++ nodes).Pairwise (fun a b => a < b) →
      DpInv anchors (fun u => u ∈ P)
        (fun u e => u ∈ P ∧ e ∈ BuildSegmentGraph exactOps anchors u) dp →
      DpInv anchors (fun u => u ∈ P ++ nodes)
        (fun u e => u ∈ P ++ nodes ∧ e ∈ BuildSegmentGraph exactOps anchors u)
        (nodes.foldl
          (fun dp u => (BuildSegmentGraph exactOps anchors u).foldl (relax exactOps u) dp) dp) := by
  intro nodes
  induction nodes with
  | nil =>
    intro P dp _ h
    simpa using h
  | cons x rest ih =>
    intro P dp hpw h
    rw [List.foldl_cons]
    have hlt : ∀ u ∈ P, u < x := by
      intro u hu
      exact (List.pairwise_append.1 hpw).2.2 u hu x (List.mem_cons_self _ _)
    have h0 : DpInv anchors (fun u => u ∈ P ++ [x])
        (fun u e => u ∈ P ∧ e ∈ BuildSegmentGraph exactOps anchors u) dp :=
      h.mono anchors (fun u hu => List.mem_append_left _ hu) (fun _ _ hr => hr)
    have h1 := foldl_relax_inv anchors hfin (fun u => u ∈ P ++ [x]) x (by simp)
      (by
        intro u hu
        rcases List.mem_append.1 hu with h2 | h2
        · exact le_of_lt (hlt u h2)
        · rw [List.mem_singleton.1 h2])
      (BuildSegmentGraph exactOps anchors x) _ dp (fun e he => he)
      (fun u e' hr => le_of_lt (hlt u hr.1)) h0
    have h2 : DpInv anchors (fun u => u ∈ P ++ [x])
        (fun u e => u ∈ P ++ [x] ∧ e ∈ BuildSegmentGraph exactOps anchors u)
        ((BuildSegmentGraph exactOps anchors x).foldl (relax exactOps x) dp) := by
      refine h1.mono anchors (fun _ hu => hu) ?_
      rintro u e ⟨hu, he⟩
      rcases List.mem_append.1 hu with h3 | h3
      · exact Or.inl ⟨h3, he⟩
      · rw [List.mem_singleton] at h3
        subst h3
        exact Or.inr ⟨rfl, he⟩
    have h3 := ih (P ++ [x]) _ (by simpa using hpw) h2
    simpa using h3

theorem castRange_eq (n : Nat) :
    (List.range n).map (fun i => (i : Int)) =
      (List.range n).map (fun (a : Nat) => (a : Int)) := by
  simp only [List.map_id', List.bind_eq_flatMap]
  induction (List.range n) with
  | nil => rfl
  | cons a l ih => simp only [List.flatMap_cons, List.map_cons, ih]; rfl

theorem topoOrder_pairwise (n : Nat) :
    ([-1] ++ (List.range n).map (fun i => (i : Int)) ++ [(n : Int)]).Pairwise
      (fun a b => a < b) := by
  rw [castRange_eq]
  rw [List.pairwise_append]
  refine ⟨?_, List.pairwise_singleton _ _, ?_⟩
  · rw [List.pairwise_append]
    refine ⟨List.pairwise_singleton _ _, ?_, ?_⟩
    · rw [List.pairwise_map]
      exact (List.pairwise_lt_range n).imp (fun h => by exact_mod_cast h)
    · intro a ha b hb
      rw [List.mem_singleton.1 ha]
      obtain ⟨i, _, rfl⟩ := List.mem_map.1 hb
      omega
  · intro a ha b hb
    rw [List.mem_singleton.1 hb]
    rcases List.mem_append.1 ha with h | h
    · rw [List.mem_singleton.1 h]; omega
    · obtain ⟨i, hi, rfl⟩ := List.mem_map.1 h
      rw [List.mem_range] at hi
      omega

/-- The invariant holds after the longest-path loop, with every node visited. -/
theorem dp_final_inv (anchors : List (AnchorMatch Exact))
    (hfin : ∀ a ∈ anchors, ∃ q, a.Score = .fin q) :
    DpInv anchors
      (fun u => u ∈ [-1] ++ (List.range anchors.length).map (fun i => (i : Int)) ++
        [(anchors.length : Int)])
      (fun u e => u ∈ [-1] ++ (List.range anchors.length).map (fun i => (i : Int)) ++
        [(anchors.length : Int)] ∧ e ∈ BuildSegmentGraph exactOps anchors u)
      (([-1] ++ (List.range anchors.length).map (fun i => (i : Int)) ++
          [(anchors.length : Int)]).foldl
        (fun dp u => (BuildSegmentGraph exactOps anchors u).foldl (relax exactOps u) dp)
        ((fun x => if x = -1 then exactOps.lit 0 else exactOps.negInf), fun _ => none)) := by
  have h := foldl_nodes_inv anchors hfin
    ([-1] ++ (List.range anchors.length).map (fun i => (i : Int)) ++ [(anchors.length : Int)])
    [] ((fun x => if x = -1 then exactOps.lit 0 else exactOps.negInf), fun _ => none)
    (by simpa using topoOrder_pairwise anchors.length)
    ⟨by simp [exactOps], by simp, by simp, by
      intro v d hv hd
      simp only [if_neg hv, exactOps] at hd
      cases hd⟩
  simpa using h

end Aligner

namespace Aligner

theorem source_edge (anchors : List (AnchorMatch Exact)) (i : Int) (h0 : 0 ≤ i)
    (h1 : i < (anchors.length : Int)) :
    ∃ e ∈ BuildSegmentGraph exactOps anchors (-1), e.To = i := by
  unfold BuildSegmentGraph
  rw [if_pos rfl, if_neg (by omega)]
  refine ⟨⟨i, (anchorAt exactOps anchors i.toNat).Score⟩, ?_, rfl⟩
  rw [List.mem_map]
  exact ⟨i.toNat, List.mem_range.2 (by omega), by simp [Int.toNat_of_nonneg h0]⟩

theorem anchor_edge (anchors : List (AnchorMatch Exact)) (u i : Int) (h0 : 0 ≤ u)
    (h1 : u < i) (h2 : i < (anchors.length : Int))
    (h3 : (anchorAt exactOps anchors u.toNat).QueryEnd <
      (anchorAt exactOps anchors i.toNat).QueryStart) :
    ∃ e ∈ BuildSegmentGraph exactOps anchors u, e.To = i := by
  unfold BuildSegmentGraph
  rw [if_neg (by omega), if_pos ⟨h0, by omega⟩]
  refine ⟨⟨i, (anchorAt exactOps anchors i.toNat).Score⟩, ?_, rfl⟩
  apply List.mem_append_left
  rw [List.mem_map]
  refine ⟨i.toNat, ?_, by simp [Int.toNat_of_nonneg (by omega : 0 ≤ i)]⟩
  rw [List.mem_filter]
  refine ⟨List.mem_range.2 (by omega), ?_⟩
  simp only [Bool.and_eq_true, decide_eq_true_eq]
  exact ⟨by omega, h3⟩

theorem sink_edge (anchors : List (AnchorMatch Exact)) (u : Int) (h0 : 0 ≤ u)
    (h1 : u < (anchors.length : Int)) :
    ∃ e ∈ BuildSegmentGraph exactOps anchors u, e.To = (anchors.length : Int) := by
  unfold BuildSegmentGraph
  rw [if_neg (by omega), if_pos ⟨h0, h1⟩]
  exact ⟨⟨(anchors.length : Int), exactOps.lit 0⟩, List.mem_append_right _ (by simp), rfl⟩

theorem mem_topoOrder (n : Nat) (u : Int) :
    u ∈ [-1] ++ (List.range n).map (fun i => (i : Int)) ++ [(n : Int)] ↔
      -1 ≤ u ∧ u ≤ (n : Int) := by
  rw [castRange_eq]
  simp only [List.mem_append, List.mem_singleton, List.mem_map, List.mem_range]
  constructor
  · rintro ((h | ⟨a, ha, rfl⟩) | h) <;> omega
  · intro h
    by_cases h1 : u = -1
    · exact Or.inl (Or.inl h1)
    · by_cases h2 : u = (n : Int)
      · exact Or.inr h2
      · exact Or.inl (Or.inr ⟨u.toNat, by omega, by omega⟩)

/-- Along a chain the distances grow at least by the scores. -/
theorem chain_le_dist (anchors : List (AnchorMatch Exact)) (N : Int → Prop)
    (dp : (Int → Exact) × (Int → Option Int))
    (h : DpInv anchors N
      (fun u e => (-1 ≤ u ∧ u ≤ (anchors.length : Int)) ∧
        e ∈ BuildSegmentGraph exactOps anchors u) dp) :
    ∀ (c : List Int) (u : Int) (du : ℚ), -1 ≤ u → u ≤ (anchors.length : Int) →
      dp.1 u = .fin du →
      (∀ i ∈ c.head?, ∃ e ∈ BuildSegmentGraph exactOps anchors u, e.To = i) →
      (∀ i ∈ c, 0 ≤ i ∧ i < (anchors.length : Int)) →
      c.Chain' (fun a b => a < b ∧
        (anchorAt exactOps anchors a.toNat).QueryEnd <
          (anchorAt exactOps anchors b.toNat).QueryStart) →
      ∃ dm, dp.1 (c.getLastD u) = .fin dm ∧ du + chainScore anchors c ≤ dm := by
  intro c
  induction c with
  | nil =>
    intro u du _ _ hdu _ _ _
    exact ⟨du, hdu, by simp [chainScore]⟩
  | cons i rest ih =>
    intro u du hu1 hu2 hdu hhead hrange hchain
    obtain ⟨e, he, hto⟩ := hhead i (by simp)
    obtain ⟨di, hdi, hle⟩ := h.relaxed u e ⟨⟨hu1, hu2⟩, he⟩ du hdu
    rw [hto] at hdi hle
    have hi := hrange i (List.mem_cons_self _ _)
    have hw : nodeWeight anchors i = scoreQ anchors i := by
      unfold nodeWeight
      rw [if_pos hi.2]
    obtain ⟨dm, hdm, hle2⟩ := ih i di (by omega) (by omega) hdi
      (by
        intro j hj
        cases rest with
        | nil => simp at hj
        | cons j' rest' =>
          simp only [List.head?_cons, Option.mem_def, Option.some.injEq] at hj
          subst hj
          have hR := (List.chain'_cons.1 hchain).1
          have hj2 := hrange j' (by simp)
          exact anchor_edge anchors i j' hi.1 hR.1 hj2.2 hR.2)
      (fun j hj => hrange j (List.mem_cons_of_mem _ hj))
      (List.Chain'.tail hchain)
    refine ⟨dm, by rw [List.getLastD_cons]; exact hdm, ?_⟩
    have hsum : chainScore anchors (i :: rest) = scoreQ anchors i + chainScore anchors rest := by
      simp [chainScore]
    rw [hsum]
    linarith

/-- The backtracking loop collects indices whose scores add up to the distance of
the sink. -/
theorem backtrack_sum (anchors : List (AnchorMatch Exact)) (Rel : Int → Edge Exact → Prop)
    (dp : (Int → Exact) × (Int → Option Int)) (D : ℚ)
    (h : DpInv anchors (fun u => -1 ≤ u ∧ u ≤ (anchors.length : Int)) Rel dp) :
    ∀ (fuel : Nat) (curr : Int) (path : List Int), -1 ≤ curr →
      curr ≤ (anchors.length : Int) → curr + 2 ≤ (fuel : Int) →
      (curr = -1 → D = chainScore anchors path) →
      (curr ≠ -1 → ∃ dc, dp.1 curr = .fin dc ∧
        D + nodeWeight anchors curr = dc + chainScore anchors path) →
      chainScore anchors (backtrack dp.2 fuel curr path) = D := by
  intro fuel
  induction fuel with
  | zero =>
    intro curr path h1 _ h3 _ _
    simp at h3
    omega
  | succ k ih =>
    intro curr path h1 h2 h3 h4 h5
    unfold backtrack
    cases hp : dp.2 curr with
    | none =>
      simp only []
      by_cases hc : curr = -1
      · exact (h4 hc).symm
      · obtain ⟨dc, hdc, _⟩ := h5 hc
        obtain ⟨u, hu⟩ := h.pred_some curr dc hc hdc
        rw [hp] at hu
        cases hu
    | some p =>
      simp only []
      by_cases hc : curr = -1
      · rw [if_pos hc]
        exact (h4 hc).symm
      · rw [if_neg hc]
        obtain ⟨⟨hp1, hp2⟩, ⟨e, he, hto⟩, dpv, dcv, hd1, hd2, hd3⟩ := h.pred_ok curr p hp
        have hlt : p < curr := by
          have := (mem_BuildSegmentGraph exactOps anchors p e he).2.1
          omega
        obtain ⟨dc, hdc, hD⟩ := h5 hc
        rw [hd2] at hdc
        cases hdc
        apply ih p _ hp1 hp2 (by push_cast at h3 ⊢; omega)
        · intro hpm
          rw [if_neg (by simpa using hpm)]
          rw [hpm, h.source] at hd1
          cases hd1
          linarith
        · intro hpm
          rw [if_pos hpm]
          refine ⟨dpv, hd1, ?_⟩
          have hw : nodeWeight anchors p = scoreQ anchors p := by
            unfold nodeWeight
            rw [if_pos (by omega)]
          have hsum : chainScore anchors (path ++ [p]) =
              chainScore anchors path + scoreQ anchors p := by
            simp [chainScore]
          rw [hw, hsum]
          linarith

end Aligner

namespace Aligner

theorem getLastD_mem : ∀ (l : List Int) (d : Int), l.getLastD d = d ∨ l.getLastD d ∈ l := by
  intro l
  induction l with
  | nil => intro d; exact Or.inl rfl
  | cons a rest ih =>
    intro d
    rw [List.getLastD_cons]
    rcases ih a with h | h
    · rw [h]; exact Or.inr (List.mem_cons_self _ _)
    · exact Or.inr (List.mem_cons_of_mem _ h)

theorem getLastD_mem_of_ne (l : List Int) (d : Int) (h : l ≠ []) : l.getLastD d ∈ l := by
  cases l with
  | nil => exact absurd rfl h
  | cons a rest =>
    rw [List.getLastD_cons]
    rcases getLastD_mem rest a with h2 | h2
    · rw [h2]; exact List.mem_cons_self _ _
    · exact List.mem_cons_of_mem _ h2

/-- Optimality in exact arithmetic.  For every list of anchors with finite scores,
when no sum is rounded, the sum of the scores of the anchors selected by
`FindMaximumWeightPath(BuildSegmentGraph(anchors), n)` is greater than or equal to
the sum of the scores of every chain. -/
theorem findMaximumWeightPath_optimal_exact (anchors : List (AnchorMatch Exact))
    (hfin : ∀ a ∈ anchors, ∃ q, a.Score = .fin q) (c : List Int)
    (hc : IsChain anchors c) :
    chainScore anchors c ≤
      chainScore anchors
        (FindMaximumWeightPath exactOps (BuildSegmentGraph exactOps anchors) anchors.length) := by
  obtain ⟨hc1, hc2, hc3⟩ := hc
  unfold FindMaximumWeightPath
  simp only []
  have hinv0 := dp_final_inv anchors hfin
  generalize (([-1] ++ (List.range anchors.length).map (fun i => (i : Int)) ++
    [(anchors.length : Int)]).foldl
      (fun dp u => (BuildSegmentGraph exactOps anchors u).foldl (relax exactOps u) dp)
      ((fun x => if x = -1 then exactOps.lit 0 else exactOps.negInf), fun _ => none)) = dp
    at hinv0
  have hinv : DpInv anchors (fun u => -1 ≤ u ∧ u ≤ (anchors.length : Int))
      (fun u e => (-1 ≤ u ∧ u ≤ (anchors.length : Int)) ∧
        e ∈ BuildSegmentGraph exactOps anchors u) dp :=
    hinv0.mono anchors (fun u hu => (mem_topoOrder anchors.length u).1 hu)
      (fun u e hr => ⟨(mem_topoOrder anchors.length u).2 hr.1, hr.2⟩)
  -- the distance of the sink bounds the score of the chain
  obtain ⟨dm, hdm, hle⟩ := chain_le_dist anchors _ dp hinv c (-1) 0 le_rfl (by omega)
    hinv.source
    (by
      intro i hi
      have := hc2 i (List.mem_of_mem_head? hi)
      exact source_edge anchors i this.1 this.2)
    hc2 hc3
  have hlast : c.getLastD (-1) ∈ c := getLastD_mem_of_ne c (-1) hc1
  have hm := hc2 _ hlast
  obtain ⟨e, he, hto⟩ := sink_edge anchors _ hm.1 hm.2
  obtain ⟨D, hD, hle2⟩ := hinv.relaxed _ e ⟨⟨by omega, by omega⟩, he⟩ dm hdm
  rw [hto] at hD hle2
  have hwn : nodeWeight anchors (anchors.length : Int) = 0 := by
    unfold nodeWeight
    rw [if_neg (lt_irrefl _)]
  rw [hwn] at hle2
  -- the selected indices add up to the distance of the sink
  have hsum := backtrack_sum anchors _ dp D hinv (anchors.length + 2) (anchors.length : Int) []
    (by omega) le_rfl (by push_cast; omega)
    (by intro h; omega)
    (by intro _; exact ⟨D, hD, by rw [hwn]; simp [chainScore]⟩)
  have hP : ∀ v w, dp.2 v = some w → -1 ≤ w ∧ w < v ∧ v ≤ (anchors.length : Int) ∧
      (0 ≤ w → v < (anchors.length : Int) → (fun _ _ => True) v w) := by
    intro v w hvw
    obtain ⟨⟨h1, _⟩, ⟨e', he', hto'⟩, _⟩ := hinv.pred_ok v w hvw
    obtain ⟨_, h3, h4, _⟩ := mem_BuildSegmentGraph exactOps anchors w e' he'
    rw [hto'] at h3 h4
    exact ⟨h1, h3, h4, fun _ _ => trivial⟩
  obtain ⟨_, hr⟩ := backtrack_chain dp.2 (anchors.length : Int) _ hP (anchors.length + 2)
    (anchors.length : Int) [] List.chain'_nil (by simp) (Or.inr (Or.inl ⟨rfl, rfl⟩))
  have hfilter : (backtrack dp.2 (anchors.length + 2) (anchors.length : Int) []).reverse.filter
      (fun idx => decide (idx ≥ 0 ∧ idx < (anchors.length : Int))) =
      (backtrack dp.2 (anchors.length + 2) (anchors.length : Int) []).reverse := by
    rw [List.filter_eq_self]
    intro x hx
    have := hr x (List.mem_reverse.1 hx)
    simpa using this
  rw [hfilter]
  have hrev : chainScore anchors
      (backtrack dp.2 (anchors.length + 2) (anchors.length : Int) []).reverse =
      chainScore anchors (backtrack dp.2 (anchors.length + 2) (anchors.length : Int) []) := by
    unfold chainScore
    rw [List.map_reverse, List.sum_reverse]
  rw [hrev, hsum]
  linarith

end Aligner

/-! ## The chain in `float64` arithmetic -/

namespace Aligner

theorem roundF64_zero : roundF64 0 = 0 := by
  unfold roundF64
  rw [if_pos rfl]

theorem f64Ops_lit_zero : f64Ops.lit 0 = exactOps.lit 0 := by
  show Exact.fin (roundF64 0) = Exact.fin 0
  rw [roundF64_zero]

theorem anchorAt_f64 (anchors : List (AnchorMatch Exact)) (i : Nat) :
    anchorAt f64Ops anchors i = anchorAt exactOps anchors i := by
  unfold anchorAt
  rw [f64Ops_lit_zero]

/-- The graph does not depend on the rounding: no edge weight is computed. -/
theorem BuildSegmentGraph_f64 (anchors : List (AnchorMatch Exact)) :
    BuildSegmentGraph f64Ops anchors = BuildSegmentGraph exactOps anchors := by
  unfold BuildSegmentGraph
  simp only [anchorAt_f64, f64Ops_lit_zero]

/-- A relaxation whose sum is not rounded is the same in both arithmetics. -/
theorem relax_f64 (u : Int) (dp : (Int → Exact) × (Int → Option Int)) (e : Edge Exact)
    (h : roundE (exactOps.add (dp.1 u) e.Weight) = exactOps.add (dp.1 u) e.Weight) :
    relax f64Ops u dp e = relax exactOps u dp e := by
  have hadd : f64Ops.add (dp.1 u) e.Weight = exactOps.add (dp.1 u) e.Weight := h
  have heq : f64Ops.eq = exactOps.eq := rfl
  have hlt : f64Ops.lt = exactOps.lt := rfl
  have hni : f64Ops.negInf = exactOps.negInf := rfl
  unfold relax
  simp only [hadd, heq, hlt, hni]

/-- The edges out of the source lead to anchors. -/
theorem source_edge_lt (anchors : List (AnchorMatch Exact)) (hne : 0 < anchors.length)
    (e : Edge Exact) (he : e ∈ BuildSegmentGraph exactOps anchors (-1)) :
    0 ≤ e.To ∧ e.To < (anchors.length : Int) := by
  unfold BuildSegmentGraph at he
  simp only [if_true] at he
  rw [if_neg (by omega)] at he
  obtain ⟨i, hi, rfl⟩ := List.mem_map.1 he
  rw [List.mem_range] at hi
  simp only
  omega

/-- One relaxation: the sum it forms is the sum of a chain, so it is not rounded,
and the distances stay sums of chains. -/
theorem relax_chainDist (anchors : List (AnchorMatch Exact))
    (hfin : ∀ a ∈ anchors, ∃ q, a.Score = .fin q) (hrep : ChainSumsExact anchors)
    (hne : 0 < anchors.length) (u : Int) (e : Edge Exact)
    (dp : (Int → Exact) × (Int → Option Int))
    (he : e ∈ BuildSegmentGraph exactOps anchors u) (h : ChainDist anchors dp) :
    relax f64Ops u dp e = relax exactOps u dp e ∧
      ChainDist anchors (relax exactOps u dp e) := by
  obtain ⟨hu1, hu2, hu3, hu4, hu5⟩ := mem_BuildSegmentGraph exactOps anchors u e he
  have hw := edge_weight anchors hfin u e he
  cases hdu : dp.1 u with
  | negInf =>
    have h1 : relax f64Ops u dp e = relax exactOps u dp e :=
      relax_f64 u dp e (by rw [hdu, hw]; rfl)
    have h2 : relax exactOps u dp e = dp := by
      unfold relax
      rw [if_neg]
      rw [hdu]
      simp [exactOps]
    rw [h2]
    exact ⟨h1.trans h2, h⟩
  | fin du =>
    have hchain : ∃ c, IsChain anchors c ∧
        chainScore anchors c = du + nodeWeight anchors e.To ∧
        (e.To < (anchors.length : Int) → c.getLast? = some e.To) := by
      by_cases hsrc : u = -1
      · subst hsrc
        rw [h.1] at hdu
        have hd0 : du = 0 := by
          injection hdu with hdu
          exact hdu.symm
        obtain ⟨ht0, ht1⟩ := source_edge_lt anchors hne e he
        refine ⟨[e.To], ⟨by simp, ?_, List.chain'_singleton _⟩, ?_, fun _ => rfl⟩
        · intro i hi
          rw [List.mem_singleton.1 hi]
          exact ⟨ht0, ht1⟩
        · simp [chainScore, nodeWeight, ht1, hd0]
      · have h0 : 0 ≤ u := by omega
        obtain ⟨cu, hcu, hsum, hlast⟩ := h.2 u du hsrc hdu
        have hlast2 := hlast hu4
        obtain ⟨hcu1, hcu2, hcu3⟩ := hcu
        by_cases hsink : e.To < (anchors.length : Int)
        · refine ⟨cu ++ [e.To], ⟨by simp, ?_, ?_⟩, ?_, fun _ => by simp⟩
          · intro i hi
            rcases List.mem_append.1 hi with hi | hi
            · exact hcu2 i hi
            · rw [List.mem_singleton.1 hi]
              exact ⟨by omega, hsink⟩
          · refine List.Chain'.append hcu3 (List.chain'_singleton _) ?_
            intro x hx y hy
            rw [hlast2] at hx
            have hxu : x = u := (Option.mem_some_iff.1 hx).symm
            have hye : y = e.To := by simpa using hy.symm
            rw [hxu, hye]
            exact ⟨hu2, hu5 h0 hsink⟩
          · unfold chainScore at hsum ⊢
            rw [List.map_append, List.sum_append, hsum]
            simp [nodeWeight, hsink]
        · refine ⟨cu, ⟨hcu1, hcu2, hcu3⟩, ?_, fun hlt => absurd hlt hsink⟩
          rw [hsum]
          simp [nodeWeight, hsink]
    obtain ⟨c, hc, hsum, hlast⟩ := hchain
    have hrepc := (hrep c hc).2
    rw [hsum] at hrepc
    have hadd : exactOps.add (dp.1 u) e.Weight = .fin (du + nodeWeight anchors e.To) := by
      rw [hdu, hw]
      rfl
    have h1 : relax f64Ops u dp e = relax exactOps u dp e := by
      apply relax_f64
      rw [hadd]
      show Exact.fin (roundF64 (du + nodeWeight anchors e.To)) = _
      rw [hrepc]
    refine ⟨h1, ?_⟩
    unfold relax
    simp only []
    split_ifs with hcond
    · constructor
      · show (if (-1 : Int) = e.To then _ else dp.1 (-1)) = _
        rw [if_neg (by omega)]
        exact h.1
      · intro v d hv hd
        by_cases hve : v = e.To
        · have hd2 : exactOps.add (dp.1 u) e.Weight = .fin d := by
            simpa [hve] using hd
          rw [hadd] at hd2
          injection hd2 with hd2
          exact ⟨c, hc, hsum.trans hd2, by rw [hve]; exact hlast⟩
        · have hd2 : dp.1 v = .fin d := by
            simpa [hve] using hd
          exact h.2 v d hv hd2
    · exact h

theorem foldl_relax_f64 (anchors : List (AnchorMatch Exact))
    (hfin : ∀ a ∈ anchors, ∃ q, a.Score = .fin q) (hrep : ChainSumsExact anchors)
    (hne : 0 < anchors.length) (u : Int) :
    ∀ (es : List (Edge Exact)) (dp : (Int → Exact) × (Int → Option Int)),
      (∀ e ∈ es, e ∈ BuildSegmentGraph exactOps anchors u) → ChainDist anchors dp →
      es.foldl (relax f64Ops u) dp = es.foldl (relax exactOps u) dp ∧
        ChainDist anchors (es.foldl (relax exactOps u) dp) := by
  intro es
  induction es with
  | nil => intro dp _ h; exact ⟨rfl, h⟩
  | cons e es ih =>
    intro dp hes h
    obtain ⟨h1, h2⟩ := relax_chainDist anchors hfin hrep hne u e dp
      (hes e (List.mem_cons_self _ _)) h
    simp only [List.foldl_cons]
    rw [h1]
    exact ih _ (fun e' he' => hes e' (List.mem_cons_of_mem _ he')) h2

theorem foldl_nodes_f64 (anchors : List (AnchorMatch Exact))
    (hfin : ∀ a ∈ anchors, ∃ q, a.Score = .fin q) (hrep : ChainSumsExact anchors)
    (hne : 0 < anchors.length) :
    ∀ (nodes : List Int) (dp : (Int → Exact) × (Int → Option Int)), ChainDist anchors dp →
      nodes.foldl (fun dp u => (BuildSegmentGraph f64Ops anchors u).foldl (relax f64Ops u) dp)
          dp =
        nodes.foldl
          (fun dp u => (BuildSegmentGraph exactOps anchors u).foldl (relax exactOps u) dp) dp ∧
      ChainDist anchors (nodes.foldl
        (fun dp u => (BuildSegmentGraph exactOps anchors u).foldl (relax exactOps u) dp) dp) := by
  rw [BuildSegmentGraph_f64]
  intro nodes
  induction nodes with
  | nil => intro dp h; exact ⟨rfl, h⟩
  | cons u nodes ih =>
    intro dp h
    obtain ⟨h1, h2⟩ := foldl_relax_f64 anchors hfin hrep hne u
      (BuildSegmentGraph exactOps anchors u) dp (fun _ he => he) h
    simp only [List.foldl_cons]
    rw [h1]
    exact ih _ h2

/-- When no chain sum is rounded, the code selects the same anchors in `float64`
as in exact arithmetic. -/
theorem FindMaximumWeightPath_f64_eq (anchors : List (AnchorMatch Exact))
    (hfin : ∀ a ∈ anchors, ∃ q, a.Score = .fin q) (hrep : ChainSumsExact anchors)
    (hne : 0 < anchors.length) :
    FindMaximumWeightPath f64Ops (BuildSegmentGraph f64Ops anchors) anchors.length =
      FindMaximumWeightPath exactOps (BuildSegmentGraph exactOps anchors) anchors.length := by
  have h0 : ChainDist anchors
      ((fun x => if x = -1 then exactOps.lit 0 else exactOps.negInf), fun _ => none) := by
    constructor
    · simp [exactOps]
    · intro v d hv hd
      simp [hv, exactOps] at hd
  have hd : (fun x : Int => if x = -1 then f64Ops.lit 0 else f64Ops.negInf) =
      (fun x : Int => if x = -1 then exactOps.lit 0 else exactOps.negInf) := by
    rw [f64Ops_lit_zero]
    rfl
  unfold FindMaximumWeightPath
  simp only []
  rw [hd, (foldl_nodes_f64 anchors hfin hrep hne _ _ h0).1]

/-- The chains of `n` anchors are among the increasing index lists, so a check of
those lists shows that no chain sum is rounded. -/
theorem chainSumsExact_of_sublists (anchors : List (AnchorMatch Exact))
    (h : ∀ l ∈ (List.range anchors.length).sublists,
      F64Rep (chainScore anchors (l.map (fun (i : Nat) => (i : Int))))) :
    ChainSumsExact anchors := by
  intro c hc
  obtain ⟨_, h2, h3⟩ := hc
  have hpw : c.Pairwise (fun a b => a < b) :=
    List.chain'_iff_pairwise.1 (h3.imp (fun _ _ hab => hab.1))
  have hpw2 : (c.map Int.toNat).Pairwise (fun a b => a < b) := by
    rw [List.pairwise_map]
    refine hpw.imp_of_mem ?_
    intro a b ha hb hab
    have := h2 a ha
    have := h2 b hb
    omega
  have hsub : c.map Int.toNat ⊆ List.range anchors.length := by
    intro x hx
    obtain ⟨i, hi, rfl⟩ := List.mem_map.1 hx
    have := h2 i hi
    rw [List.mem_range]
    omega
  have hsl : (c.map Int.toNat).Sublist (List.range anchors.length) :=
    List.sublist_of_subperm_of_sorted
      (List.subperm_of_subset (hpw2.imp (fun hab => Nat.ne_of_lt hab)) hsub) hpw2
      (List.sorted_lt_range _)
  have hc2 : (c.map Int.toNat).map (fun (i : Nat) => (i : Int)) = c := by
    rw [List.map_map]
    conv_rhs => rw [← List.map_id c]
    apply List.map_congr_left
    intro a ha
    have := h2 a ha
    simp only [Function.comp, id]
    omega
  have := h _ (List.mem_sublists.2 hsl)
  rw [hc2] at this
  exact this

/-- Claim C15, as the code has it.  For every list of anchors with finite scores
in which the sum of the scores of every chain is a finite `float64` value (so that
no sum `dist[u] + weight` that the code forms is rounded), the sum of the scores of
the anchors selected by `FindMaximumWeightPath(BuildSegmentGraph(anchors), n)`,
computed in `float64`, is greater than or equal to the sum of the scores of every
non-empty chain, a chain being an index sequence `i1 < ... < im` with
`anchors[ij].QueryEnd < anchors[ij+1].QueryStart`. -/
theorem findMaximumWeightPath_optimal_unrounded (anchors : List (AnchorMatch Exact))
    (hfin : ∀ a ∈ anchors, ∃ q, a.Score = .fin q) (hrep : ChainSumsExact anchors)
    (c : List Int) (hc : IsChain anchors c) :
    chainScore anchors c ≤
      chainScore anchors
        (FindMaximumWeightPath f64Ops (BuildSegmentGraph f64Ops anchors) anchors.length) := by
  have hne : 0 < anchors.length := by
    obtain ⟨h1, h2, _⟩ := hc
    obtain ⟨i, hi⟩ := List.exists_mem_of_ne_nil c h1
    have := h2 i hi
    omega
  rw [FindMaximumWeightPath_f64_eq anchors hfin hrep hne]
  exact findMaximumWeightPath_optimal_exact anchors hfin c hc

theorem findMaximumWeightPath_optimal_unrounded_witness :
    (∀ a ∈ ([⟨0, 9, 0, 9, .fin 10, .fin 1, 0⟩, ⟨5, 30, 5, 30, .fin (25 / 2), .fin 1, 0⟩,
        ⟨12, 20, 12, 20, .fin (39 / 4), .fin 1, 0⟩] : List (AnchorMatch Exact)),
      ∃ q, a.Score = .fin q) ∧
    ChainSumsExact [⟨0, 9, 0, 9, .fin 10, .fin 1, 0⟩, ⟨5, 30, 5, 30, .fin (25 / 2), .fin 1, 0⟩,
        ⟨12, 20, 12, 20, .fin (39 / 4), .fin 1, 0⟩] ∧
    IsChain [⟨0, 9, 0, 9, .fin 10, .fin 1, 0⟩, ⟨5, 30, 5, 30, .fin (25 / 2), .fin 1, 0⟩,
        ⟨12, 20, 12, 20, .fin (39 / 4), .fin 1, 0⟩] [1] ∧
    chainScore [⟨0, 9, 0, 9, .fin 10, .fin 1, 0⟩, ⟨5, 30, 5, 30, .fin (25 / 2), .fin 1, 0⟩,
        ⟨12, 20, 12, 20, .fin (39 / 4), .fin 1, 0⟩] [1] ≤
      chainScore [⟨0, 9, 0, 9, .fin 10, .fin 1, 0⟩, ⟨5, 30, 5, 30, .fin (25 / 2), .fin 1, 0⟩,
          ⟨12, 20, 12, 20, .fin (39 / 4), .fin 1, 0⟩]
        (FindMaximumWeightPath f64Ops
          (BuildSegmentGraph f64Ops [⟨0, 9, 0, 9, .fin 10, .fin 1, 0⟩,
            ⟨5, 30, 5, 30, .fin (25 / 2), .fin 1, 0⟩,
            ⟨12, 20, 12, 20, .fin (39 / 4), .fin 1, 0⟩])
          ([⟨0, 9, 0, 9, .fin 10, .fin 1, 0⟩, ⟨5, 30, 5, 30, .fin (25 / 2), .fin 1, 0⟩,
            ⟨12, 20, 12, 20, .fin (39 / 4), .fin 1, 0⟩] : List (AnchorMatch Exact)).length) :=
  have hfin : ∀ a ∈ ([⟨0, 9, 0, 9, .fin 10, .fin 1, 0⟩,
      ⟨5, 30, 5, 30, .fin (25 / 2), .fin 1, 0⟩,
      ⟨12, 20, 12, 20, .fin (39 / 4), .fin 1, 0⟩] : List (AnchorMatch Exact)),
      ∃ q, a.Score = .fin q := by
    intro a ha
    simp only [List.mem_cons, List.mem_singleton, List.not_mem_nil, or_false] at ha
    rcases ha with rfl | rfl | rfl <;> exact ⟨_, rfl⟩
  have hrep : ChainSumsExact [⟨0, 9, 0, 9, .fin 10, .fin 1, 0⟩,
      ⟨5, 30, 5, 30, .fin (25 / 2), .fin 1, 0⟩,
      ⟨12, 20, 12, 20, .fin (39 / 4), .fin 1, 0⟩] :=
    chainSumsExact_of_sublists _ (by decide!)
  have hchain : IsChain [⟨0, 9, 0, 9, .fin 10, .fin 1, 0⟩,
      ⟨5, 30, 5, 30, .fin (25 / 2), .fin 1, 0⟩,
      ⟨12, 20, 12, 20, .fin (39 / 4), .fin 1, 0⟩] [1] :=
    ⟨by simp, by simp, by simp⟩
  ⟨hfin, hrep, hchain, findMaximumWeightPath_optimal_unrounded _ hfin hrep [1] hchain⟩

/-- Claim C15 as stated fails: the sums are rounded.  The scores `1`, `1` and
`2^-54` are `float64` values; anchor `0` spans the query positions `0..10`, and the
anchors `1` (`0..4`) and `2` (`5..10`) form a chain.  The code sets `dist[0] = 1`
and `dist[sink] = 1` through anchor `0`; for the chain it forms `1 + 2^-54`, which
rounds to `1`, and `1 > 1` fails, so the sink keeps the predecessor `0`.  The code
selects `[0]`, of sum `1`, while the chain `[1, 2]` has the sum `1 + 2^-54`. -/
theorem findMaximumWeightPath_rounded_sum :
    (∀ a ∈ ([⟨0, 10, 0, 10, .fin 1, .fin 1, 0⟩, ⟨0, 4, 0, 4, .fin 1, .fin 1, 0⟩,
        ⟨5, 10, 5, 10, .fin (1 / 2 ^ 54), .fin 1, 0⟩] : List (AnchorMatch Exact)),
      ∃ q, a.Score = .fin q ∧ F64Rep q) ∧
    FindMaximumWeightPath f64Ops
      (BuildSegmentGraph f64Ops [⟨0, 10, 0, 10, .fin 1, .fin 1, 0⟩,
        ⟨0, 4, 0, 4, .fin 1, .fin 1, 0⟩, ⟨5, 10, 5, 10, .fin (1 / 2 ^ 54), .fin 1, 0⟩]) 3 =
      [0] ∧
    IsChain [⟨0, 10, 0, 10, .fin 1, .fin 1, 0⟩, ⟨0, 4, 0, 4, .fin 1, .fin 1, 0⟩,
      ⟨5, 10, 5, 10, .fin (1 / 2 ^ 54), .fin 1, 0⟩] [1, 2] ∧
    chainScore [⟨0, 10, 0, 10, .fin 1, .fin 1, 0⟩, ⟨0, 4, 0, 4, .fin 1, .fin 1, 0⟩,
        ⟨5, 10, 5, 10, .fin (1 / 2 ^ 54), .fin 1, 0⟩] [0] <
      chainScore [⟨0, 10, 0, 10, .fin 1, .fin 1, 0⟩, ⟨0, 4, 0, 4, .fin 1, .fin 1, 0⟩,
        ⟨5, 10, 5, 10, .fin (1 / 2 ^ 54), .fin 1, 0⟩] [1, 2] := by
  refine ⟨?_, by decide!, ⟨by simp, by simp, by simp [anchorAt]⟩, by decide!⟩
  intro a ha
  simp only [List.mem_cons, List.mem_singleton, List.not_mem_nil, or_false] at ha
  rcases ha with rfl | rfl | rfl
  · exact ⟨_, rfl, by decide!⟩
  · exact ⟨_, rfl, by decide!⟩
  · exact ⟨_, rfl, by decide!⟩

end Aligner

/-! ## `FindUncoveredRegions` and the coverage pass -/

namespace Aligner

variable {F : Type}

/-- An anchor of `ExtendMatch` is never empty in the query. -/
theorem ExtendMatch_wf (fl : FloatOps F) (query ref : Str) (qS rS k mm me : Int)
    (a : AnchorMatch F) (h : ExtendMatch fl query ref qS rS k mm me = some a) :
    a.QueryStart ≤ a.QueryEnd := by
  unfold ExtendMatch at h
  simp only [] at h
  generalize (if me = 0 then ExtendMaxErrors else me) = me0 at h
  generalize (if mm = 0 then MinMatchLength else mm) = mm0 at h
  generalize fwdLoop query ref me0 (query.length + 1) ⟨qS + k, rS + k, 0, k⟩ = fwd at h
  generalize bwdLoop query ref me0 (query.length + 1)
    ⟨qS - 1, rS - 1, 0, fwd.totalMatches⟩ = bwd at h
  split_ifs at h <;> cases h <;> (simp only; omega)

theorem FindAnchors_wf (fl : FloatOps F) (query ref : Str) (k mm st me : Int)
    (x : AnchorMatch F) (h : x ∈ FindAnchors fl query ref k mm st me) :
    x.QueryStart ≤ x.QueryEnd := by
  obtain ⟨qS, rS, k0, me0, hx, _⟩ := FindAnchors_mem fl query ref k mm st me x h
  exact ExtendMatch_wf fl query ref qS rS k0 _ me0 x hx

theorem FindReverseAnchors_wf (fl : FloatOps F) (query ref : Str) (k mm st me : Int)
    (x : AnchorMatch F) (h : x ∈ FindReverseAnchors fl query ref k mm st me) :
    x.QueryStart ≤ x.QueryEnd := by
  unfold FindReverseAnchors at h
  simp only [] at h
  obtain ⟨a, ha, rfl⟩ := List.mem_map.1 h
  exact FindAnchors_wf fl query _ k mm st me a ha

theorem findMatchesInRegionCore_wf (fl : FloatOps F) (qr ref : Str) (mm me : Int)
    (ks : List Int) (st : Int) :
    ∀ a ∈ findMatchesInRegionCore fl qr ref mm me ks st, a.QueryStart ≤ a.QueryEnd := by
  intro a ha
  unfold findMatchesInRegionCore at ha
  obtain ⟨k, _, hk⟩ := List.mem_flatMap.1 ha
  split_ifs at hk
  · simp at hk
  · rcases List.mem_append.1 hk with h | h
    · obtain ⟨b, hb, rfl⟩ := List.mem_map.1 h
      exact FindAnchors_wf fl qr ref k mm st me b hb
    · obtain ⟨b, hb, rfl⟩ := List.mem_map.1 h
      exact FindReverseAnchors_wf fl qr ref k mm st me b hb

theorem FindMatchesInRegion_wf (fl : FloatOps F) (qr ref : Str) (mm me : Int) :
    ∀ a ∈ FindMatchesInRegion fl qr ref mm me, a.QueryStart ≤ a.QueryEnd := by
  intro a ha
  unfold FindMatchesInRegion at ha
  simp only [] at ha
  split_ifs at ha <;>
    first
      | exact absurd ha (List.not_mem_nil _)
      | exact findMatchesInRegionCore_wf fl qr ref _ _ _ _ a ha

theorem FindMatchesInLargeRegion_wf (fl : FloatOps F) (qr ref : Str) (ms mm me : Int) :
    ∀ a ∈ FindMatchesInLargeRegion fl qr ref ms mm me, a.QueryStart ≤ a.QueryEnd := by
  intro a ha
  unfold FindMatchesInLargeRegion at ha
  lift_lets at ha
  extract_lets regionLen maxSegSize minMatchL maxErrDefault chunkSize0 overlap0 chunkSize
    overlap1 overlap2 overlap found sorted at ha
  split_ifs at ha with h0 h1 h2
  · simp at ha
  · exact FindMatchesInRegion_wf fl qr ref _ _ a ha
  · simp at ha
  · have hmem := largeFilterLoop_mem fl _ a _ _
      (fun i hi => List.mem_range.1 hi) ha
    rw [mem_sortStable] at hmem
    obtain ⟨i, hi, hx⟩ := List.mem_flatMap.1 hmem
    simp only [] at hx
    split_ifs at hx <;>
      first
        | exact absurd hx (List.not_mem_nil _)
        | (obtain ⟨b, hb, rfl⟩ := List.mem_map.1 hx
           have := findMatchesInRegionCore_wf fl _ ref _ _ _ _ b hb
           simp only
           omega)

theorem addRegionMatches_wf (qStart : Int) :
    ∀ (ms : List (AnchorMatch F)) (acc : List Segment),
      (∀ m ∈ ms, m.QueryStart ≤ m.QueryEnd) → (∀ s ∈ acc, s.QueryStart ≤ s.QueryEnd) →
      ∀ s ∈ addRegionMatches qStart ms acc, s.QueryStart ≤ s.QueryEnd := by
  intro ms
  induction ms with
  | nil => intro acc _ hacc s hs; exact hacc s hs
  | cons m rest ih =>
    intro acc hms hacc s hs
    unfold addRegionMatches at hs
    simp only [] at hs
    have hrest : ∀ m ∈ rest, m.QueryStart ≤ m.QueryEnd :=
      fun x hx => hms x (List.mem_cons_of_mem _ hx)
    have hm := hms m (List.mem_cons_self _ _)
    split_ifs at hs
    · exact ih acc hrest hacc s hs
    · refine ih _ hrest ?_ s hs
      intro t ht
      rcases List.mem_append.1 ht with h | h
      · exact hacc t h
      · rw [List.mem_singleton.1 h]
        simp only
        omega

theorem fallbackTile_wf (fl : FloatOps F) (query ref : Str) (qStart len off : Int) :
    ∀ s ∈ fallbackTile fl query ref qStart len off, s.QueryStart ≤ s.QueryEnd := by
  intro s hs
  unfold fallbackTile at hs
  simp only [] at hs
  split_ifs at hs <;>
    first
      | exact absurd hs (List.not_mem_nil _)
      | (rw [List.mem_singleton.1 hs]
         simp only
         omega)

theorem regionSegments_wf (fl : FloatOps F) (query ref : Str) (region : Int × Int)
    (hr : region.1 ≤ region.2) :
    ∀ s ∈ regionSegments fl query ref region, s.QueryStart ≤ s.QueryEnd := by
  intro s hs
  unfold regionSegments at hs
  simp only [] at hs
  split_ifs at hs with h1 h2 h3 h4 h5
  · simp at hs
  · refine addRegionMatches_wf _ _ [] ?_ (by simp) s hs
    intro m hm
    rw [mem_sortSlice] at hm
    exact FindMatchesInLargeRegion_wf fl _ ref _ _ _ m hm
  · obtain ⟨off, _, hs1⟩ := List.mem_flatMap.1 hs
    exact fallbackTile_wf fl query ref _ _ off s hs1
  · rw [List.mem_singleton.1 hs]
    unfold fallbackSegment
    simp only []
    split_ifs <;> exact hr
  · refine addRegionMatches_wf _ _ [] ?_ (by simp) s hs
    intro m hm
    rw [mem_sortSlice] at hm
    exact FindMatchesInRegion_wf fl _ ref _ _ m hm
  · obtain ⟨off, _, hs1⟩ := List.mem_flatMap.1 hs
    exact fallbackTile_wf fl query ref _ _ off s hs1
  · rw [List.mem_singleton.1 hs]
    unfold fallbackSegment
    simp only []
    split_ifs <;> exact hr

end Aligner

namespace Aligner

variable {F : Type}

/-- Every region of the walk starts at or after the current position and is not
empty. -/
theorem uncoveredWalk_le (queryLen : Int) :
    ∀ (segs : List Segment) (pos : Int),
      ∀ reg ∈ uncoveredWalk queryLen pos segs, pos ≤ reg.1 ∧ reg.1 ≤ reg.2 := by
  intro segs
  induction segs with
  | nil =>
    intro pos reg hreg
    unfold uncoveredWalk at hreg
    split_ifs at hreg
    · rw [List.mem_singleton.1 hreg]
      simp only
      omega
    · simp at hreg
  | cons seg rest ih =>
    intro pos reg hreg
    unfold uncoveredWalk at hreg
    rcases List.mem_append.1 hreg with h | h
    · split_ifs at h
      · rw [List.mem_singleton.1 h]
        simp only
        omega
      · simp at h
    · have := ih _ reg h
      have hmax : pos ≤ max pos (seg.QueryEnd + 1) := le_max_left _ _
      omega

/-- Every position from the current one on is covered by a segment or lies in a
region of the walk. -/
theorem uncoveredWalk_cover (queryLen : Int) :
    ∀ (segs : List Segment) (pos p : Int), pos ≤ p → p < queryLen →
      Covered segs p ∨ ∃ reg ∈ uncoveredWalk queryLen pos segs, reg.1 ≤ p ∧ p ≤ reg.2 := by
  intro segs
  induction segs with
  | nil =>
    intro pos p h1 h2
    right
    unfold uncoveredWalk
    rw [if_pos (by omega)]
    exact ⟨(pos, queryLen - 1), by simp, by simp only; omega⟩
  | cons seg rest ih =>
    intro pos p h1 h2
    unfold uncoveredWalk
    by_cases hp : max pos (seg.QueryEnd + 1) ≤ p
    · rcases ih (max pos (seg.QueryEnd + 1)) p hp h2 with ⟨s, hs, hsp⟩ | ⟨reg, hreg, hrp⟩
      · exact Or.inl ⟨s, List.mem_cons_of_mem _ hs, hsp⟩
      · exact Or.inr ⟨reg, List.mem_append_right _ hreg, hrp⟩
    · have hlt : p ≤ seg.QueryEnd := by
        rcases le_max_iff.1 (le_refl (max pos (seg.QueryEnd + 1))) with h | h <;> omega
      by_cases hq : seg.QueryStart ≤ p
      · exact Or.inl ⟨seg, List.mem_cons_self _ _, hq, hlt⟩
      · right
        refine ⟨(pos, seg.QueryStart - 1), ?_, by simp only; omega⟩
        apply List.mem_append_left
        rw [if_pos (by omega)]
        simp

/-- A region of the walk meets no segment, for segments in query order. -/
theorem uncoveredWalk_disjoint (queryLen : Int) :
    ∀ (segs : List Segment) (pos : Int),
      segs.Pairwise (fun a b => a.QueryStart ≤ b.QueryStart) →
      ∀ reg ∈ uncoveredWalk queryLen pos segs, ∀ s ∈ segs,
        s.QueryEnd < reg.1 ∨ reg.2 < s.QueryStart := by
  intro segs
  induction segs with
  | nil => intro pos _ reg _ s hs; simp at hs
  | cons seg rest ih =>
    intro pos hpw reg hreg s hs
    obtain ⟨h1, h2⟩ := List.pairwise_cons.1 hpw
    unfold uncoveredWalk at hreg
    rcases List.mem_append.1 hreg with h | h
    · split_ifs at h with hc
      · rw [List.mem_singleton.1 h]
        right
        simp only
        rcases List.mem_cons.1 hs with hs1 | hs1
        · rw [hs1]; omega
        · have := h1 s hs1; omega
      · simp at h
    · rcases List.mem_cons.1 hs with hs1 | hs1
      · left
        have := (uncoveredWalk_le queryLen rest _ reg h).1
        have hmax : seg.QueryEnd + 1 ≤ max pos (seg.QueryEnd + 1) := le_max_right _ _
        rw [hs1]; omega
      · exact ih _ h2 reg h s hs1

/-- The regions of the walk are in query order and apart from one another, for
segments that are not empty. -/
theorem uncoveredWalk_pairwise (queryLen : Int) :
    ∀ (segs : List Segment) (pos : Int), (∀ s ∈ segs, s.QueryStart ≤ s.QueryEnd) →
      (uncoveredWalk queryLen pos segs).Pairwise (fun a b => a.2 < b.1) := by
  intro segs
  induction segs with
  | nil =>
    intro pos _
    unfold uncoveredWalk
    split_ifs <;> simp
  | cons seg rest ih =>
    intro pos hwf
    unfold uncoveredWalk
    rw [List.pairwise_append]
    refine ⟨?_, ih _ (fun s hs => hwf s (List.mem_cons_of_mem _ hs)), ?_⟩
    · split_ifs <;> simp
    · intro a ha b hb
      split_ifs at ha
      · rw [List.mem_singleton.1 ha]
        have := (uncoveredWalk_le queryLen rest _ b hb).1
        have hmax : seg.QueryEnd + 1 ≤ max pos (seg.QueryEnd + 1) := le_max_right _ _
        have := hwf seg (List.mem_cons_self _ _)
        simp only
        omega
      · simp at ha

theorem FindUncoveredRegions_le (queryLen : Int) (segs : List Segment) :
    ∀ reg ∈ FindUncoveredRegions queryLen segs, reg.1 ≤ reg.2 := by
  intro reg hreg
  unfold FindUncoveredRegions at hreg
  split_ifs at hreg
  · rw [List.mem_singleton.1 hreg]
    simp only
    omega
  · simp at hreg
  · exact (uncoveredWalk_le queryLen _ 0 reg hreg).2

theorem FindUncoveredRegions_cover (queryLen : Int) (segs : List Segment) (p : Int)
    (h1 : 0 ≤ p) (h2 : p < queryLen) :
    Covered segs p ∨ ∃ reg ∈ FindUncoveredRegions queryLen segs, reg.1 ≤ p ∧ p ≤ reg.2 := by
  unfold FindUncoveredRegions
  by_cases h3 : segs.length = 0
  · right
    refine ⟨(0, queryLen - 1), ?_, by simp only; omega⟩
    rw [if_pos h3, if_pos (by omega)]
    simp
  · rcases uncoveredWalk_cover queryLen
        (sortSlice (fun a b => decide (a.QueryStart < b.QueryStart)) segs) 0 p h1 h2 with
      ⟨s, hs, hsp⟩ | ⟨reg, hreg, hrp⟩
    · exact Or.inl ⟨s, (mem_sortSlice _ _ _).1 hs, hsp⟩
    · exact Or.inr ⟨reg, by rw [if_neg h3]; exact hreg, hrp⟩

theorem FindUncoveredRegions_disjoint (queryLen : Int) (segs : List Segment) :
    ∀ reg ∈ FindUncoveredRegions queryLen segs, ∀ s ∈ segs,
      s.QueryEnd < reg.1 ∨ reg.2 < s.QueryStart := by
  intro reg hreg s hs
  unfold FindUncoveredRegions at hreg
  split_ifs at hreg with h3 h4
  · rw [List.length_eq_zero] at h3
    rw [h3] at hs
    simp at hs
  · simp at hreg
  · exact uncoveredWalk_disjoint queryLen _ 0 (sortSlice_qs_sorted segs) reg hreg s
      ((mem_sortSlice _ _ _).2 hs)

theorem FindUncoveredRegions_pairwise (queryLen : Int) (segs : List Segment)
    (hwf : ∀ s ∈ segs, s.QueryStart ≤ s.QueryEnd) :
    (FindUncoveredRegions queryLen segs).Pairwise (fun a b => a.2 < b.1) := by
  unfold FindUncoveredRegions
  split_ifs
  · simp
  · simp
  · exact uncoveredWalk_pairwise queryLen _ 0
      (fun s hs => hwf s ((mem_sortSlice _ _ _).1 hs))

end Aligner

namespace Aligner

variable {F : Type}

/-- In the result of the preference walk every segment ends before the later ones
start, for segments in query order. -/
theorem preferWalk_pairwise (init : List Segment) :
    ∀ (rest : List Segment) (cur : Segment) (out : List Segment),
      (out ++ [cur]).Pairwise QBefore →
      (∀ o ∈ out, o.QueryEnd < cur.QueryStart) →
      (∀ x ∈ rest, cur.QueryStart ≤ x.QueryStart) →
      rest.Pairwise (fun a b => a.QueryStart ≤ b.QueryStart) →
      (preferWalk init cur out rest).Pairwise QBefore := by
  intro rest
  induction rest with
  | nil =>
    intro cur out h _ _ _
    simpa [preferWalk] using h
  | cons n rest ih =>
    intro cur out h ho hr hs
    have hcn : cur.QueryStart ≤ n.QueryStart := hr n (List.mem_cons_self _ _)
    obtain ⟨hs1, hs2⟩ := List.pairwise_cons.1 hs
    have hout : out.Pairwise QBefore := (List.pairwise_append.1 h).1
    have hnext : (out ++ [n]).Pairwise QBefore := by
      rw [List.pairwise_append]
      refine ⟨hout, List.pairwise_singleton _ _, ?_⟩
      intro a ha b hb
      rw [List.mem_singleton] at hb
      subst hb
      have := ho a ha
      unfold QBefore; omega
    have hon : ∀ o ∈ out, o.QueryEnd < n.QueryStart := by
      intro o hoo; have := ho o hoo; omega
    have hrest : ∀ x ∈ rest, cur.QueryStart ≤ x.QueryStart :=
      fun x hx => hr x (List.mem_cons_of_mem _ hx)
    unfold preferWalk
    simp only []
    split_ifs with h1
    · exact ih n out hnext hon hs1 hs2
    · exact ih cur out h ho hrest hs2
    · exact ih n out hnext hon hs1 hs2
    · exact ih cur out h ho hrest hs2
    · apply ih n (out ++ [cur])
      · rw [List.pairwise_append]
        refine ⟨h, List.pairwise_singleton _ _, ?_⟩
        intro a ha b hb
        rw [List.mem_singleton] at hb
        subst hb
        rcases List.mem_append.1 ha with ha | ha
        · have := ho a ha
          unfold QBefore; omega
        · rw [List.mem_singleton] at ha
          subst ha
          unfold QBefore; omega
      · intro o hoo
        rcases List.mem_append.1 hoo with ha | ha
        · have := ho o ha; omega
        · rw [List.mem_singleton] at ha
          subst ha; omega
      · exact hs1
      · exact hs2

/-- The walk of `ResolveOverlaps` keeps a list without overlaps as it is. -/
theorem resolveWalk_id : ∀ (rest : List Segment) (prev : Segment) (out : List Segment),
    (prev :: rest).Pairwise QBefore → resolveWalk prev out rest = out ++ prev :: rest := by
  intro rest
  induction rest with
  | nil => intro prev out _; rfl
  | cons curr rest ih =>
    intro prev out h
    obtain ⟨h1, h2⟩ := List.pairwise_cons.1 h
    have := h1 curr (List.mem_cons_self _ _)
    unfold QBefore at this
    unfold resolveWalk
    rw [if_neg (by omega), ih curr (out ++ [prev]) h2]
    simp

/-- Segments that are pairwise disjoint and not empty, put in query order, end
each before the later ones start. -/
theorem qBefore_of_disjoint_sorted (l : List Segment) (hd : l.Pairwise QDisjoint)
    (hwf : ∀ s ∈ l, s.QueryStart ≤ s.QueryEnd)
    (hs : l.Pairwise (fun a b => a.QueryStart ≤ b.QueryStart)) : l.Pairwise QBefore := by
  induction l with
  | nil => exact List.Pairwise.nil
  | cons a rest ih =>
    obtain ⟨hd1, hd2⟩ := List.pairwise_cons.1 hd
    obtain ⟨hs1, hs2⟩ := List.pairwise_cons.1 hs
    refine List.pairwise_cons.2
      ⟨?_, ih hd2 (fun s h => hwf s (List.mem_cons_of_mem _ h)) hs2⟩
    intro b hb
    have h1 := hd1 b hb
    have h2 := hs1 b hb
    have h3 := hwf b (List.mem_cons_of_mem _ hb)
    unfold QDisjoint at h1
    unfold QBefore
    omega

theorem qDisjoint_symm : Symmetric QDisjoint := by
  intro a b h
  unfold QDisjoint at h ⊢
  omega

/-- `ResolveOverlaps` only reorders a list of non-empty segments without
overlaps. -/
theorem ResolveOverlaps_perm_of_disjoint (l : List Segment) (hd : l.Pairwise QDisjoint)
    (hwf : ∀ s ∈ l, s.QueryStart ≤ s.QueryEnd) : (ResolveOverlaps l).Perm l := by
  have hperm := sortSlice_perm resolveLess l
  have hq : (sortSlice resolveLess l).Pairwise QBefore :=
    qBefore_of_disjoint_sorted _ ((hperm.pairwise_iff (fun {a b} h => qDisjoint_symm h)).2 hd)
      (fun s hs => hwf s ((mem_sortSlice _ _ _).1 hs)) (resolve_qs_sorted l)
  unfold ResolveOverlaps
  split
  · rename_i heq
    rw [heq] at hperm
    exact hperm
  · rename_i first rest heq
    rw [heq] at hq hperm
    rw [resolveWalk_id rest first [] hq]
    simpa using hperm

end Aligner

namespace Aligner

variable {F : Type}

theorem finalFallback_query (refLen : Int) (reg : Int × Int) :
    (finalFallback refLen reg).QueryStart = reg.1 ∧
      (finalFallback refLen reg).QueryEnd = reg.2 := by
  unfold finalFallback
  simp only []
  split_ifs <;> exact ⟨rfl, rfl⟩

/-- The segments that the preference walk keeps: pairwise apart in the query, and
among the segments it is given. -/
theorem preferWalk_resolved (init all : List Segment)
    (hs : all.Pairwise (fun a b => a.QueryStart ≤ b.QueryStart)) :
    (match all with
      | [] => []
      | first :: rest => preferWalk init first [] rest).Pairwise QBefore ∧
    ∀ s ∈ (match all with
      | [] => []
      | first :: rest => preferWalk init first [] rest), s ∈ all := by
  cases all with
  | nil => exact ⟨List.Pairwise.nil, fun s hs => hs⟩
  | cons first rest =>
    obtain ⟨h1, h2⟩ := List.pairwise_cons.1 hs
    refine ⟨preferWalk_pairwise init rest first [] (by simp) (by simp) h1 h2, ?_⟩
    intro s hs
    rcases preferWalk_mem init s rest first [] hs with h | h | h
    · simp at h
    · exact h ▸ List.mem_cons_self _ _
    · exact List.mem_cons_of_mem _ h

/-- The coverage pass leaves no query position uncovered: a position that the
preference walk does not cover lies in a region of the final pass, which gets a
fallback segment, and the last overlap resolution drops nothing. -/
theorem EnsureCompleteCoverage_covered (fl : FloatOps F) (Q R : Str) (initial : List Segment)
    (hQ : 0 < strLen Q) (hwf : ∀ s ∈ initial, s.QueryStart ≤ s.QueryEnd) (p : Int)
    (hp0 : 0 ≤ p) (hp1 : p < strLen Q) :
    Covered (EnsureCompleteCoverage fl Q R initial) p := by
  unfold EnsureCompleteCoverage
  lift_lets
  extract_lets queryLen refLen current uncovered newly all resolved finalUncovered
  have hcur : ∀ t ∈ current, t.QueryStart ≤ t.QueryEnd :=
    fun t ht => hwf t ((mem_sortSlice _ _ _).1 ht)
  have hnew : ∀ t ∈ newly, t.QueryStart ≤ t.QueryEnd := by
    intro t ht
    obtain ⟨reg, hreg, ht1⟩ := List.mem_flatMap.1 ht
    exact regionSegments_wf fl Q R reg (FindUncoveredRegions_le _ _ reg hreg) t ht1
  have hall : ∀ t ∈ all, t.QueryStart ≤ t.QueryEnd := by
    intro t ht
    rcases List.mem_append.1 ((mem_sortSlice _ _ _).1 ht) with h1 | h1
    · exact hcur t h1
    · exact hnew t h1
  have hsorted : all.Pairwise (fun a b => a.QueryStart ≤ b.QueryStart) :=
    sortSlice_qs_sorted _
  obtain ⟨hrpw, hrmem⟩ := preferWalk_resolved initial all hsorted
  have hrwf : ∀ t ∈ resolved, t.QueryStart ≤ t.QueryEnd := fun t ht => hall t (hrmem t ht)
  have hq0 : ¬ queryLen = 0 := by
    intro h
    have : strLen Q = 0 := h
    omega
  rw [if_neg hq0]
  split_ifs with h1 h2
  · rcases FindUncoveredRegions_cover queryLen current p hp0 hp1 with h | ⟨reg, hreg, _⟩
    · exact h
    · have hnil : uncovered = [] := List.length_eq_zero.1 h1
      have hreg2 : reg ∈ uncovered := hreg
      rw [hnil] at hreg2
      simp at hreg2
  · have hcov : Covered (resolved ++ finalUncovered.map (finalFallback refLen)) p := by
      rcases FindUncoveredRegions_cover queryLen resolved p hp0 hp1 with
        ⟨s, hs, hsp⟩ | ⟨reg, hreg, hrp⟩
      · exact ⟨s, List.mem_append_left _ hs, hsp⟩
      · refine ⟨finalFallback refLen reg,
          List.mem_append_right _ (List.mem_map.2 ⟨reg, hreg, rfl⟩), ?_⟩
        rw [(finalFallback_query refLen reg).1, (finalFallback_query refLen reg).2]
        exact hrp
    have hdis : (resolved ++ finalUncovered.map (finalFallback refLen)).Pairwise QDisjoint := by
      rw [List.pairwise_append]
      refine ⟨hrpw.imp (fun h => Or.inl h), ?_, ?_⟩
      · rw [List.pairwise_map]
        apply (FindUncoveredRegions_pairwise queryLen resolved hrwf).imp
        intro a b hab
        unfold QDisjoint
        rw [(finalFallback_query refLen a).2, (finalFallback_query refLen b).1]
        exact Or.inl hab
      · intro s hs f hf
        obtain ⟨reg, hreg, rfl⟩ := List.mem_map.1 hf
        unfold QDisjoint
        rw [(finalFallback_query refLen reg).1, (finalFallback_query refLen reg).2]
        exact FindUncoveredRegions_disjoint queryLen resolved reg hreg s hs
    have hwfL : ∀ s ∈ resolved ++ finalUncovered.map (finalFallback refLen),
        s.QueryStart ≤ s.QueryEnd := by
      intro s hs
      rcases List.mem_append.1 hs with h | h
      · exact hrwf s h
      · obtain ⟨reg, hreg, rfl⟩ := List.mem_map.1 h
        rw [(finalFallback_query refLen reg).1, (finalFallback_query refLen reg).2]
        exact FindUncoveredRegions_le _ _ reg hreg
    obtain ⟨s, hs, hsp⟩ := hcov
    exact ⟨s, (ResolveOverlaps_perm_of_disjoint _ hdis hwfL).mem_iff.2 hs, hsp⟩
  · rcases FindUncoveredRegions_cover queryLen resolved p hp0 hp1 with h | ⟨reg, hreg, _⟩
    · exact h
    · have hnil : finalUncovered = [] := by
        apply List.length_eq_zero.1
        omega
      have hreg2 : reg ∈ finalUncovered := hreg
      rw [hnil] at hreg2
      simp at hreg2

/-- Claim C20.  For every non-empty `Q`, every `R` and every initial list of
segments each with `q_start ≤ q_end` (in particular each with
`0 ≤ q_start ≤ q_end < |Q|`), the query intervals of the segments returned by
`EnsureCompleteCoverage(Q, R, initial)` cover every position `0 .. |Q| - 1`,
whatever the region matchers return and in every `float64` arithmetic. -/
theorem ensureCompleteCoverage_covers (fl : FloatOps F) (Q R : Str) (initial : List Segment)
    (hQ : 0 < strLen Q) (hwf : ∀ s ∈ initial, s.QueryStart ≤ s.QueryEnd) (p : Int)
    (hp0 : 0 ≤ p) (hp1 : p < strLen Q) :
    Covered (EnsureCompleteCoverage fl Q R initial) p := by
  obtain ⟨s, hs, hsp⟩ := EnsureCompleteCoverage_covered fl Q R initial hQ hwf p hp0 hp1
  exact ⟨s, hs, hsp⟩

theorem ensureCompleteCoverage_covers_witness :
    0 < strLen (bytes "ACGTAC") ∧
    (∀ s ∈ ([⟨1, 2, 0, 1⟩] : List Segment), s.QueryStart ≤ s.QueryEnd) ∧ (0 : Int) ≤ 4 ∧
    (4 : Int) < strLen (bytes "ACGTAC") ∧
    Covered (EnsureCompleteCoverage exactOps (bytes "ACGTAC") (bytes "GT") [⟨1, 2, 0, 1⟩]) 4 :=
  ⟨by decide, by decide, by decide, by decide,
    ensureCompleteCoverage_covers exactOps (bytes "ACGTAC") (bytes "GT") [⟨1, 2, 0, 1⟩]
      (by decide) (by decide) 4 (by decide) (by decide)⟩

end Aligner

/-! ## Anchors are long

The extension loops advance the query by at most three positions for every
position of the reference, so an anchor of query length at least `20` that grew
from a `k`-mer with `k ≥ 4` spans at least ten reference positions. -/

namespace Aligner

variable {F : Type}

theorem mergeTestSound_exact : MergeTestSound exactOps := by
  intro qGap rGap hq hr h
  have hmin : exactOps.min (exactOps.ofInt qGap) (exactOps.ofInt rGap) = .fin (rGap : ℚ) := by
    have : (rGap : ℚ) < (qGap : ℚ) := by exact_mod_cast (by omega : rGap < qGap)
    simp [exactOps, Exact.ltB, this]
  rw [hmin] at h
  have hneg : (rGap : ℚ) * MaxGapRatioDifference < 5 := by
    have h1 : (rGap : ℚ) < 0 := by exact_mod_cast hr
    have h2 : (0 : ℚ) < MaxGapRatioDifference := by unfold MaxGapRatioDifference; norm_num
    nlinarith
  have hmax : exactOps.max (exactOps.lit 5)
      (exactOps.mul (.fin (rGap : ℚ)) (exactOps.lit MaxGapRatioDifference)) = .fin 5 := by
    simp only [exactOps, Exact.lift, Exact.ltB]
    rw [if_neg (by simp; linarith)]
  rw [hmax] at h
  have hpos : ¬ (((qGap - rGap : Int) : ℚ) < 0) := by
    have : (0 : ℚ) ≤ ((qGap - rGap : Int) : ℚ) := by exact_mod_cast (by omega : 0 ≤ qGap - rGap)
    linarith
  simp only [exactOps, Exact.ltB, if_neg hpos, Bool.not_eq_true', decide_eq_false_iff_not,
    not_lt] at h
  exact_mod_cast h

theorem fwdBody_inv (query ref : Str) (s : ExtState) (c : Int)
    (hg : s.q < strLen query ∧ s.r < strLen ref)
    (h : s.q - 3 * s.r ≤ c) :
    (fwdBody query ref s).q ≤ strLen query ∧
      (fwdBody query ref s).q - 3 * (fwdBody query ref s).r ≤ c := by
  unfold fwdBody
  split_ifs <;> simp only <;> omega

theorem fwdLoop_inv (query ref : Str) (maxErrors : Int) (c : Int) :
    ∀ (fuel : Nat) (s : ExtState), s.q ≤ strLen query → s.q - 3 * s.r ≤ c →
      (fwdLoop query ref maxErrors fuel s).q ≤ strLen query ∧
        (fwdLoop query ref maxErrors fuel s).q -
          3 * (fwdLoop query ref maxErrors fuel s).r ≤ c := by
  intro fuel
  induction fuel with
  | zero => intro s h1 h2; exact ⟨h1, h2⟩
  | succ n ih =>
    intro s h1 h2
    unfold fwdLoop
    split_ifs with hc
    · have := fwdBody_inv query ref s c ⟨hc.1, hc.2.1⟩ h2
      exact ih _ this.1 this.2
    · exact ⟨h1, h2⟩

theorem bwdBody_inv (query ref : Str) (s : ExtState) (c r0 : Int)
    (h : 3 * s.r - s.q ≤ c) (hr : s.r ≤ r0) :
    3 * (bwdBody query ref s).r - (bwdBody query ref s).q ≤ c ∧
      (bwdBody query ref s).r ≤ r0 := by
  unfold bwdBody
  split_ifs <;> simp only <;> omega

theorem bwdLoop_inv (query ref : Str) (maxErrors : Int) (c r0 : Int) :
    ∀ (fuel : Nat) (s : ExtState), 3 * s.r - s.q ≤ c → s.r ≤ r0 →
      3 * (bwdLoop query ref maxErrors fuel s).r - (bwdLoop query ref maxErrors fuel s).q ≤ c ∧
        (bwdLoop query ref maxErrors fuel s).r ≤ r0 := by
  intro fuel
  induction fuel with
  | zero => intro s h1 h2; exact ⟨h1, h2⟩
  | succ n ih =>
    intro s h1 h2
    unfold bwdLoop
    split_ifs
    · have := bwdBody_inv query ref s c r0 h1 h2
      exact ih _ this.1 this.2
    · exact ⟨h1, h2⟩

/-- An anchor that `ExtendMatch` returns for a seed inside the strings, with
`k ≥ 4` and a minimum match length of at least `20`, lies inside both strings and
is long. -/
theorem ExtendMatch_good (fl : FloatOps F) (query ref : Str) (qS rS k mm me : Int)
    (a : AnchorMatch F) (h : ExtendMatch fl query ref qS rS k mm me = some a)
    (hq : 0 ≤ qS) (hr : 0 ≤ rS) (hkq : qS + k ≤ strLen query) (hkr : rS + k ≤ strLen ref)
    (hk : 4 ≤ k) (hmm : mm = 0 ∨ 20 ≤ mm) :
    AnchorGood (strLen query) (strLen ref) a := by
  unfold ExtendMatch at h
  simp only [] at h
  generalize (if me = 0 then ExtendMaxErrors else me) = me0 at h
  have hmm0 : 20 ≤ (if mm = 0 then MinMatchLength else mm) := by
    split_ifs with h0
    · unfold MinMatchLength; omega
    · rcases hmm with h1 | h1
      · exact absurd h1 h0
      · exact h1
  generalize (if mm = 0 then MinMatchLength else mm) = mm0 at h hmm0
  have hf := fwdLoop_r_le query ref me0 (query.length + 1) ⟨qS + k, rS + k, 0, k⟩ hkr
  have hf2 := fwdLoop_inv query ref me0 (qS + k - 3 * (rS + k)) (query.length + 1)
    ⟨qS + k, rS + k, 0, k⟩ hkq le_rfl
  generalize fwdLoop query ref me0 (query.length + 1) ⟨qS + k, rS + k, 0, k⟩ = fwd at h hf hf2
  have hb := bwdLoop_ge query ref me0 (query.length + 1) ⟨qS - 1, rS - 1, 0, fwd.totalMatches⟩
    (by simp only; omega) (by simp only; omega)
  have hb2 := bwdLoop_inv query ref me0 (3 * (rS - 1) - (qS - 1)) (rS - 1)
    (query.length + 1) ⟨qS - 1, rS - 1, 0, fwd.totalMatches⟩ le_rfl le_rfl
  generalize bwdLoop query ref me0 (query.length + 1)
    ⟨qS - 1, rS - 1, 0, fwd.totalMatches⟩ = bwd at h hb hb2
  unfold AnchorGood
  split_ifs at h with h1 h2 h3 h4 <;> cases h <;> simp only <;>
    refine ⟨by omega, by omega, by omega, by omega, by omega, by omega⟩

end Aligner

namespace Aligner

variable {F : Type}

theorem mem_FindExactMatches_length {query ref : Str} {k : Int} {em : KmerMatch}
    (h : em ∈ FindExactMatches query ref k) : em.Length = if k = 0 then DefaultK else k := by
  unfold FindExactMatches at h
  simp only [] at h
  generalize (if k = 0 then DefaultK else k) = k0 at h ⊢
  split_ifs at h
  · simp at h
  · obtain ⟨i, _, hem⟩ := List.mem_flatMap.1 h
    obtain ⟨rPos, _, rfl⟩ := List.mem_map.1 hem
    rfl

/-- The anchors of `FindAnchors`, for `k ≥ 4` and a minimum match length that is
`0` (the default, `28`) or at least `20`. -/
theorem FindAnchors_good (fl : FloatOps F) (query ref : Str) (k mm st me : Int)
    (hk : 4 ≤ k) (hmm : mm = 0 ∨ 20 ≤ mm)
    (x : AnchorMatch F) (h : x ∈ FindAnchors fl query ref k mm st me) :
    AnchorGood (strLen query) (strLen ref) x := by
  unfold FindAnchors at h
  simp only [] at h
  have hk0 : (if k = 0 then DefaultK else k) = k := if_neg (by omega)
  rw [hk0] at h
  generalize (if st = 0 then DefaultStride else st) = st1 at h
  generalize (if me = 0 then DefaultMaxErrors else me) = me1 at h
  rw [if_neg (by omega)] at h
  have h1 := FilterAnchors_mem fl _ _ x h
  rcases anchorsLoop_mem fl query ref _ _ _ x _ _ _ _ h1 with h2 | ⟨em, hem, hx⟩
  · simp at h2
  · have hb := mem_FindExactMatches hem
    have hl := mem_FindExactMatches_length hem
    rw [hk0] at hl
    rw [hl] at hx hb
    have hmm2 : (if mm = 0 then MinMatchLength else mm) = 0 ∨
        20 ≤ (if mm = 0 then MinMatchLength else mm) := by
      right
      split_ifs with h0
      · unfold MinMatchLength; omega
      · rcases hmm with h3 | h3
        · exact absurd h3 h0
        · exact h3
    exact ExtendMatch_good fl query ref _ _ k _ me1 x hx hb.1 hb.2.1 hb.2.2.2.1 hb.2.2.2.2 hk
      hmm2

theorem FindReverseAnchors_good (fl : FloatOps F) (query ref : Str) (k mm st me : Int)
    (hk : 4 ≤ k) (hmm : mm = 0 ∨ 20 ≤ mm)
    (x : AnchorMatch F) (h : x ∈ FindReverseAnchors fl query ref k mm st me) :
    AnchorGood (strLen query) (strLen ref) x := by
  unfold FindReverseAnchors at h
  simp only [] at h
  obtain ⟨a, ha, rfl⟩ := List.mem_map.1 h
  have := FindAnchors_good fl query _ k mm st me hk hmm a ha
  rw [strLen_ReverseComplement] at this
  unfold AnchorGood at this ⊢
  simp only
  omega

theorem findMatchesInRegionCore_good (fl : FloatOps F) (qr ref : Str) (mm me : Int)
    (ks : List Int) (st : Int) (hks : ∀ k ∈ ks, 4 ≤ k) (hmm : mm = 0 ∨ 20 ≤ mm) :
    ∀ a ∈ findMatchesInRegionCore fl qr ref mm me ks st,
      AnchorGood (strLen qr) (strLen ref) a := by
  intro a ha
  unfold findMatchesInRegionCore at ha
  obtain ⟨k, hk, hk2⟩ := List.mem_flatMap.1 ha
  split_ifs at hk2
  · simp at hk2
  · rcases List.mem_append.1 hk2 with h | h
    · obtain ⟨b, hb, rfl⟩ := List.mem_map.1 h
      exact FindAnchors_good fl qr ref k mm st me (hks k hk) hmm b hb
    · obtain ⟨b, hb, rfl⟩ := List.mem_map.1 h
      exact FindReverseAnchors_good fl qr ref k mm st me (hks k hk) hmm b hb

theorem FindMatchesInRegion_good (fl : FloatOps F) (qr ref : Str) (mm me : Int)
    (hmm : mm = 0 ∨ 20 ≤ mm) :
    ∀ a ∈ FindMatchesInRegion fl qr ref mm me, AnchorGood (strLen qr) (strLen ref) a := by
  intro a ha
  unfold FindMatchesInRegion at ha
  simp only [] at ha
  have hmm2 : (if mm = 0 then MinMatchLength else mm) = 0 ∨
      20 ≤ (if mm = 0 then MinMatchLength else mm) := by
    right
    split_ifs with h0
    · unfold MinMatchLength; omega
    · rcases hmm with h3 | h3
      · exact absurd h3 h0
      · exact h3
  generalize (if mm = 0 then MinMatchLength else mm) = mm0 at ha hmm2
  split_ifs at ha <;>
    first
      | exact absurd ha (List.not_mem_nil _)
      | exact findMatchesInRegionCore_good fl qr ref _ _ _ _
          (by simp [SmallKForShortSegments, MediumKForShortSegments, LargeKForShortSegments])
          hmm2 a ha

end Aligner

namespace Aligner

variable {F : Type}

theorem strLen_sliceI_le (s : Str) (a b : Int) : strLen (sliceI s a b) ≤ max 0 (b - a) := by
  unfold strLen sliceI
  rw [List.length_take]
  have h1 : ((min (b - a).toNat (List.drop a.toNat s).length : Nat) : Int) ≤
      ((b - a).toNat : Int) := by
    exact_mod_cast Nat.min_le_left _ _
  have h2 : ((b - a).toNat : Int) = max (b - a) 0 := Int.toNat_eq_max _
  rw [max_comm] at h2
  omega

theorem strLen_sliceI (s : Str) (a b : Int) (h0 : 0 ≤ a) (h1 : a ≤ b) (h2 : b ≤ strLen s) :
    strLen (sliceI s a b) = b - a := by
  unfold strLen at h2 ⊢
  unfold sliceI
  rw [List.length_take, List.length_drop]
  have h3 : ((b - a).toNat : Int) = b - a := Int.toNat_of_nonneg (by omega)
  have h4 : (a.toNat : Int) = a := Int.toNat_of_nonneg h0
  have h5 : (b - a).toNat ≤ s.length - a.toNat := by omega
  rw [Nat.min_eq_left h5]
  exact h3

theorem FindMatchesInLargeRegion_good (fl : FloatOps F) (qr ref : Str) :
    ∀ a ∈ FindMatchesInLargeRegion fl qr ref 500 0 0,
      AnchorGood (strLen qr) (strLen ref) a := by
  intro a ha
  unfold FindMatchesInLargeRegion at ha
  lift_lets at ha
  extract_lets regionLen maxSegSize minMatchL maxErrDefault chunkSize0 overlap0 chunkSize
    overlap1 overlap2 overlap found sorted at ha
  split_ifs at ha with h0 h1 h2
  · simp at ha
  · refine FindMatchesInRegion_good fl qr ref _ _ ?_ a ha
    right
    show 20 ≤ (if (0 : Int) = 0 then MinMatchLength else 0)
    simp [MinMatchLength]
  · simp at ha
  · have hmem := largeFilterLoop_mem fl _ a _ _
      (fun i hi => List.mem_range.1 hi) ha
    rw [mem_sortStable] at hmem
    obtain ⟨i, hi, hx⟩ := List.mem_flatMap.1 hmem
    have hi0 := mem_stepRange_nonneg hi
    simp only [] at hx
    have hlen := strLen_sliceI_le qr i (min (i + chunkSize) regionLen)
    have hmin : min (i + chunkSize) regionLen ≤ strLen qr := min_le_right _ _
    have hmm : minMatchL = 0 ∨ 20 ≤ minMatchL := by
      right
      show 20 ≤ (if (0 : Int) = 0 then MinMatchLength else 0)
      simp [MinMatchLength]
    split_ifs at hx <;>
      first
        | exact absurd hx (List.not_mem_nil _)
        | (obtain ⟨b, hb, rfl⟩ := List.mem_map.1 hx
           have hg := findMatchesInRegionCore_good fl _ ref _ _ _ _
             (by simp [VeryShortSegmentKValues, ShortSegmentKValues, LongerSegmentKValues])
             hmm b hb
           unfold AnchorGood at hg ⊢
           simp only
           rcases le_max_iff.1 (le_refl (max 0 (min (i + chunkSize) regionLen - i))) with
             h3 | h3 <;> omega)

end Aligner

/-! ## What merging keeps -/

namespace Aligner

variable {F : Type}

/-- A merge never moves the reference end back by more than four positions. -/
theorem canMerge_ref (fl : FloatOps F) (hfl : MergeTestSound fl) (g : Int) (cur n : Segment)
    (h : canMerge fl g cur n = true) (hq : cur.QueryEnd < n.QueryStart) :
    cur.RefEnd - 4 ≤ n.RefStart := by
  unfold canMerge at h
  simp only [Bool.and_eq_true, decide_eq_true_eq] at h
  by_cases hr : n.RefStart - cur.RefEnd - 1 < 0
  · have := hfl (n.QueryStart - cur.QueryEnd - 1) (n.RefStart - cur.RefEnd - 1) (by omega) hr h.2
    omega
  · omega

theorem pairwise_snoc_qBefore (out : List Segment) (cur n : Segment)
    (h : (out ++ [cur]).Pairwise QBefore) (hc : cur.QueryStart ≤ cur.QueryEnd)
    (hn : cur.QueryEnd < n.QueryStart) : ((out ++ [cur]) ++ [n]).Pairwise QBefore := by
  rw [List.pairwise_append]
  refine ⟨h, List.pairwise_singleton _ _, ?_⟩
  intro a ha b hb
  rw [List.mem_singleton] at hb
  subst hb
  rcases List.mem_append.1 ha with h1 | h1
  · have := (List.pairwise_append.1 h).2.2 a h1 cur (by simp)
    unfold QBefore at this ⊢
    omega
  · rw [List.mem_singleton] at h1
    subst h1
    exact hn

theorem pairwise_snoc_replace (out : List Segment) (cur cur2 : Segment)
    (h : (out ++ [cur]).Pairwise QBefore) (hq : cur2.QueryStart = cur.QueryStart) :
    (out ++ [cur2]).Pairwise QBefore := by
  rw [List.pairwise_append] at h ⊢
  refine ⟨h.1, List.pairwise_singleton _ _, ?_⟩
  intro a ha b hb
  rw [List.mem_singleton] at hb
  subst hb
  have := h.2.2 a ha cur (by simp)
  unfold QBefore at this ⊢
  omega

/-- Merging long segments gives long segments, in query order. -/
theorem mergeWalk_long (fl : FloatOps F) (hfl : MergeTestSound fl) (g qLen rLen : Int) :
    ∀ (rest : List Segment) (cur : Segment) (out : List Segment),
      Sound qLen rLen cur ∧ Long cur → (∀ s ∈ rest, Sound qLen rLen s ∧ Long s) →
      (∀ x ∈ rest, cur.QueryEnd < x.QueryStart) → rest.Pairwise QBefore →
      (∀ s ∈ out, Sound qLen rLen s ∧ Long s) → (out ++ [cur]).Pairwise QBefore →
      (∀ s ∈ mergeWalk fl g cur out rest, Sound qLen rLen s ∧ Long s) ∧
        (mergeWalk fl g cur out rest).Pairwise QBefore := by
  intro rest
  induction rest with
  | nil =>
    intro cur out hc _ _ _ ho hpw
    unfold mergeWalk
    refine ⟨?_, hpw⟩
    intro s hs
    rcases List.mem_append.1 hs with h | h
    · exact ho s h
    · rw [List.mem_singleton.1 h]; exact hc
  | cons n rest ih =>
    intro cur out hc hr hlt hrp ho hpw
    obtain ⟨h1, h2⟩ := List.pairwise_cons.1 hrp
    have hn := hr n (List.mem_cons_self _ _)
    have hcn := hlt n (List.mem_cons_self _ _)
    have hr2 : ∀ s ∈ rest, Sound qLen rLen s ∧ Long s :=
      fun s hs => hr s (List.mem_cons_of_mem _ hs)
    unfold mergeWalk
    split_ifs with hm
    · have href := canMerge_ref fl hfl g cur n hm hcn
      apply ih ⟨cur.QueryStart, n.QueryEnd, cur.RefStart, n.RefEnd⟩ out ?_ hr2
        (fun x hx => h1 x hx) h2 ho (pairwise_snoc_replace out cur _ hpw rfl)
      unfold Sound Long at hc hn ⊢
      simp only
      omega
    · apply ih n (out ++ [cur]) hn hr2 (fun x hx => h1 x hx) h2 ?_
        (pairwise_snoc_qBefore out cur n hpw hc.1.2.1 hcn)
      intro s hs
      rcases List.mem_append.1 hs with h | h
      · exact ho s h
      · rw [List.mem_singleton.1 h]; exact hc

/-- Merging segments of which no two neighbours are both short gives segments that
the clamping loop keeps, in query order. -/
theorem mergeWalk_sound (fl : FloatOps F) (hfl : MergeTestSound fl) (g qLen rLen : Int) :
    ∀ (rest : List Segment) (cur : Segment) (out : List Segment) (lastLong : Prop),
      Sound qLen rLen cur → (lastLong → cur.RefStart + 4 ≤ cur.RefEnd) →
      (∀ n ∈ rest.head?, lastLong ∨ Long n) →
      rest.Chain' (fun a b => Long a ∨ Long b) →
      (∀ s ∈ rest, Sound qLen rLen s) →
      (∀ x ∈ rest, cur.QueryEnd < x.QueryStart) → rest.Pairwise QBefore →
      (∀ s ∈ out, Sound qLen rLen s) → (out ++ [cur]).Pairwise QBefore →
      (∀ s ∈ mergeWalk fl g cur out rest, Sound qLen rLen s) ∧
        (mergeWalk fl g cur out rest).Pairwise QBefore := by
  intro rest
  induction rest with
  | nil =>
    intro cur out _ hc _ _ _ _ _ _ ho hpw
    unfold mergeWalk
    refine ⟨?_, hpw⟩
    intro s hs
    rcases List.mem_append.1 hs with h | h
    · exact ho s h
    · rw [List.mem_singleton.1 h]; exact hc
  | cons n rest ih =>
    intro cur out lastLong hc hl hhead hchain hr hlt hrp ho hpw
    obtain ⟨h1, h2⟩ := List.pairwise_cons.1 hrp
    have hn := hr n (List.mem_cons_self _ _)
    have hcn := hlt n (List.mem_cons_self _ _)
    have hln := hhead n (by simp)
    have hr2 : ∀ s ∈ rest, Sound qLen rLen s := fun s hs => hr s (List.mem_cons_of_mem _ hs)
    have hhead2 : ∀ m ∈ rest.head?, Long n ∨ Long m := by
      intro m hm
      cases rest with
      | nil => simp at hm
      | cons m' rest' =>
        simp only [List.head?_cons, Option.mem_def, Option.some.injEq] at hm
        subst hm
        exact (List.chain'_cons.1 hchain).1
    have hchain2 : rest.Chain' (fun a b => Long a ∨ Long b) := List.Chain'.tail hchain
    unfold mergeWalk
    split_ifs with hm
    · have href := canMerge_ref fl hfl g cur n hm hcn
      apply ih ⟨cur.QueryStart, n.QueryEnd, cur.RefStart, n.RefEnd⟩ out (Long n) ?_ ?_ hhead2
        hchain2 hr2 (fun x hx => h1 x hx) h2 ho (pairwise_snoc_replace out cur _ hpw rfl)
      · unfold Sound at hc hn ⊢
        simp only
        refine ⟨hc.1, by omega, hn.2.2.1, ?_, hc.2.2.2.2⟩
        rcases hln with h3 | h3
        · have := hl h3
          omega
        · unfold Long at h3
          omega
      · intro h3
        unfold Long at h3
        unfold Sound at hc
        simp only
        omega
    · apply ih n (out ++ [cur]) (Long n) hn ?_ hhead2 hchain2 hr2 (fun x hx => h1 x hx) h2 ?_
        (pairwise_snoc_qBefore out cur n hpw hc.2.1 hcn)
      · intro h3
        unfold Long at h3
        omega
      · intro s hs
        rcases List.mem_append.1 hs with h | h
        · exact ho s h
        · rw [List.mem_singleton.1 h]; exact hc

end Aligner

/-! ## The segments found for an uncovered region -/

namespace Aligner

variable {F : Type}

theorem stepRange_eq (n step : Int) :
    stepRange n step =
      (List.range ((n.toNat + step.toNat - 1) / step.toNat)).map
        (fun (i : Nat) => (i : Int) * step) := by
  unfold stepRange
  simp only [List.bind_eq_flatMap]
  induction (List.range ((n.toNat + step.toNat - 1) / step.toNat)) with
  | nil => rfl
  | cons a l ih =>
    simp only [List.flatMap_cons, List.map_cons, List.map_append, ih]
    rfl

/-- The loop variable of `for j := 0; j < n; j += step` takes the multiples of
`step` below `n`. -/
theorem mem_stepRange {n step x : Int} (hs : 0 < step) :
    x ∈ stepRange n step ↔ ∃ i : Nat, x = (i : Int) * step ∧ x < n := by
  obtain ⟨s, rfl⟩ : ∃ s : Nat, step = (s : Int) := ⟨step.toNat, (Int.toNat_of_nonneg hs.le).symm⟩
  have hs0 : 0 < s := by exact_mod_cast hs
  rw [stepRange_eq]
  simp only [List.mem_map, List.mem_range, Int.toNat_ofNat]
  constructor
  · rintro ⟨i, hi, rfl⟩
    refine ⟨i, rfl, ?_⟩
    have h1 : (i + 1) * s ≤ n.toNat + s - 1 := (Nat.le_div_iff_mul_le hs0).1 hi
    have h2 : i * s < n.toNat := by
      rw [Nat.add_mul] at h1
      omega
    have h3 : ((i * s : Nat) : Int) < n := by
      have := Int.lt_toNat.1 h2
      exact this
    push_cast at h3
    exact h3
  · rintro ⟨i, rfl, hi⟩
    refine ⟨i, ?_, rfl⟩
    apply (Nat.le_div_iff_mul_le hs0).2
    have h2 : i * s < n.toNat := by
      apply Int.lt_toNat.2
      push_cast
      exact hi
    rw [Nat.succ_mul]
    omega

theorem stepRange_pairwise (n step : Int) :
    (stepRange n step).Pairwise (fun a b => a + step ≤ b) := by
  rw [stepRange_eq, List.pairwise_map]
  by_cases hs : 0 ≤ step
  · apply (List.pairwise_lt_range _).imp
    intro a b hab
    have h : ((a : Int) + 1) ≤ (b : Int) := by exact_mod_cast hab
    nlinarith
  · have : step.toNat = 0 := Int.toNat_eq_zero.2 (by omega)
    rw [this, Nat.div_zero]
    simp

/-- The sampling loop returns the start it was given or one of the probed
positions. -/
theorem bestSample_mem (fl : FloatOps F) (ref chunkStr : Str) (len : Int) :
    ∀ (ps : List Int) (best : Int × F),
      (bestSample fl ref chunkStr len ps best).1 = best.1 ∨
        (bestSample fl ref chunkStr len ps best).1 ∈ ps := by
  intro ps
  induction ps with
  | nil => intro best; left; rfl
  | cons p rest ih =>
    intro best
    unfold bestSample
    simp only []
    split_ifs
    · rcases ih (p, _) with h | h
      · right; rw [h]; exact List.mem_cons_self _ _
      · right; exact List.mem_cons_of_mem _ h
    · rcases ih best with h | h
      · left; exact h
      · right; exact List.mem_cons_of_mem _ h

/-- The matches of a region that the coverage pass adds are long, inside the
region and pairwise apart. -/
theorem addRegionMatches_ok (qLen rLen qStart len : Int) (hq : 0 ≤ qStart)
    (hlen : qStart + len ≤ qLen) :
    ∀ (ms : List (AnchorMatch F)) (acc : List Segment),
      (∀ m ∈ ms, AnchorGood len rLen m) →
      (∀ s ∈ acc, (Sound qLen rLen s ∧ qStart ≤ s.QueryStart ∧ s.QueryEnd ≤ qStart + len - 1) ∧
        Long s) →
      acc.Pairwise QDisjoint →
      (∀ s ∈ addRegionMatches qStart ms acc,
        (Sound qLen rLen s ∧ qStart ≤ s.QueryStart ∧ s.QueryEnd ≤ qStart + len - 1) ∧ Long s) ∧
      (addRegionMatches qStart ms acc).Pairwise QDisjoint := by
  intro ms
  induction ms with
  | nil => intro acc _ hacc hpw; exact ⟨hacc, hpw⟩
  | cons m rest ih =>
    intro acc hms hacc hpw
    have hrest : ∀ m ∈ rest, AnchorGood len rLen m :=
      fun x hx => hms x (List.mem_cons_of_mem _ hx)
    have hm := hms m (List.mem_cons_self _ _)
    unfold AnchorGood at hm
    unfold addRegionMatches
    simp only []
    split_ifs with hany
    · exact ih acc hrest hacc hpw
    · apply ih _ hrest
      · intro t ht
        rcases List.mem_append.1 ht with h | h
        · exact hacc t h
        · rw [List.mem_singleton.1 h]
          unfold Sound Long
          simp only
          omega
      · rw [List.pairwise_append]
        refine ⟨hpw, List.pairwise_singleton _ _, ?_⟩
        intro a ha b hb
        rw [List.mem_singleton] at hb
        subst hb
        have h1 : ¬ (max a.QueryStart (m.QueryStart + qStart) ≤
            min a.QueryEnd (m.QueryEnd + qStart)) := by
          intro hc
          apply hany
          rw [List.any_eq_true]
          exact ⟨a, ha, by simpa using hc⟩
        have h2 := (hacc a ha).1.1
        unfold Sound at h2
        unfold QDisjoint
        simp only
        omega

/-- A fallback tile: the tile that starts `off` positions into the region, mapped
to a start inside the reference, with the same length in both coordinates. -/
theorem fallbackTile_spec (fl : FloatOps F) (query ref : Str) (qStart len off : Int)
    (hq : 0 ≤ qStart) (hlen : qStart + len ≤ strLen query) (ho : 0 ≤ off) (hol : off < len)
    (hr : 0 < strLen ref) :
    ∃ b : Int, 0 ≤ b ∧ b < strLen ref ∧
      fallbackTile fl query ref qStart len off =
        [⟨qStart + off, qStart + min (off + SmallSegmentLength) len - 1, b,
          b + (min (off + SmallSegmentLength) len - off) - 1⟩] := by
  have hS : SmallSegmentLength = 275 := rfl
  have hchunk : strLen (sliceI query (qStart + off)
      (qStart + min (off + SmallSegmentLength) len - 1 + 1)) =
      min (off + SmallSegmentLength) len - off := by
    rw [strLen_sliceI query _ _ (by omega) (by omega) (by omega)]
    omega
  unfold fallbackTile
  simp only []
  rw [if_neg (by omega), hchunk]
  generalize (if max 1 (strLen ref / SamplePositionsCount) = 0 then 1
    else max 1 (strLen ref / SamplePositionsCount)) = step
  refine ⟨_, ?_, ?_, rfl⟩
  · exact bestSample_nonneg fl ref _ _ _ _ (fun p hp => mem_stepRange_nonneg hp) le_rfl
  · rcases bestSample_mem fl ref
        (sliceI query (qStart + off) (qStart + min (off + SmallSegmentLength) len - 1 + 1))
        (min (off + SmallSegmentLength) len - off)
        (stepRange (strLen ref - (min (off + SmallSegmentLength) len - off) + 1) step)
        (0, fl.lit (-1)) with h | h
    · rw [h]; exact hr
    · by_cases hstep : 0 < step
      · obtain ⟨i, _, hi⟩ := (mem_stepRange hstep).1 h
        omega
      · have h0 : step.toNat = 0 := Int.toNat_eq_zero.2 (by omega)
        rw [stepRange_eq, h0, Nat.div_zero] at h
        simp at h

/-- The fallback tiles of a long region without matches. -/
theorem fallbackTiles_ok (fl : FloatOps F) (query ref : Str) (R : Int × Int)
    (hq : 0 ≤ R.1) (hlen : R.2 < strLen query) (hr : 0 < strLen ref)
    (hbig : (R.2 - R.1) + 1 > MaxSegmentSize) :
    RegionOk (strLen query) (strLen ref) R
      ((stepRange ((R.2 - R.1) + 1) SmallSegmentLength).flatMap
        (fallbackTile fl query ref R.1 ((R.2 - R.1) + 1))) := by
  have hS : SmallSegmentLength = 275 := rfl
  have hM : MaxSegmentSize = 475 := rfl
  have hspec : ∀ off ∈ stepRange ((R.2 - R.1) + 1) SmallSegmentLength,
      ∃ b : Int, 0 ≤ b ∧ b < strLen ref ∧
        fallbackTile fl query ref R.1 ((R.2 - R.1) + 1) off =
          [⟨R.1 + off, R.1 + min (off + SmallSegmentLength) ((R.2 - R.1) + 1) - 1, b,
            b + (min (off + SmallSegmentLength) ((R.2 - R.1) + 1) - off) - 1⟩] := by
    intro off hoff
    obtain ⟨i, _, hlt⟩ := (mem_stepRange (by decide)).1 hoff
    exact fallbackTile_spec fl query ref R.1 _ off hq (by omega) (mem_stepRange_nonneg hoff)
      hlt hr
  refine ⟨?_, ?_, ?_⟩
  · intro x hx
    obtain ⟨off, hoff, hx1⟩ := List.mem_flatMap.1 hx
    obtain ⟨b, hb0, hb1, heq⟩ := hspec off hoff
    obtain ⟨i, _, hlt⟩ := (mem_stepRange (by decide)).1 hoff
    have ho := mem_stepRange_nonneg hoff
    rw [heq, List.mem_singleton] at hx1
    subst hx1
    unfold Sound
    simp only
    omega
  · rw [List.pairwise_flatMap]
    constructor
    · intro off hoff
      obtain ⟨b, _, _, heq⟩ := hspec off hoff
      rw [heq]
      exact List.pairwise_singleton _ _
    · have hpw := stepRange_pairwise ((R.2 - R.1) + 1) SmallSegmentLength
      refine (List.Pairwise.and_mem.1 hpw).imp ?_
      rintro a c ⟨ha, hc, hac⟩ x hx y hy
      obtain ⟨b1, _, _, heq1⟩ := hspec a ha
      obtain ⟨b2, _, _, heq2⟩ := hspec c hc
      rw [heq1, List.mem_singleton] at hx
      rw [heq2, List.mem_singleton] at hy
      subst hx
      subst hy
      unfold QDisjoint
      simp only
      omega
  · intro x hx hshort
    obtain ⟨off, hoff, hx1⟩ := List.mem_flatMap.1 hx
    obtain ⟨b, hb0, hb1, heq⟩ := hspec off hoff
    obtain ⟨i, hi, hlt⟩ := (mem_stepRange (by decide)).1 hoff
    have ho := mem_stepRange_nonneg hoff
    rw [heq, List.mem_singleton] at hx1
    subst hx1
    unfold Long at hshort
    simp only at hshort ⊢
    refine ⟨by omega, Or.inr ?_⟩
    have hi1 : 1 ≤ i := by
      rcases Nat.eq_zero_or_pos i with h0 | h0
      · subst h0
        simp only [Nat.cast_zero, zero_mul] at hi
        omega
      · exact h0
    have hprev : off - SmallSegmentLength ∈ stepRange ((R.2 - R.1) + 1) SmallSegmentLength := by
      apply (mem_stepRange (by decide)).2
      refine ⟨i - 1, ?_, by omega⟩
      rw [Nat.cast_sub hi1, hi]
      ring
    obtain ⟨b2, _, _, heq2⟩ := hspec _ hprev
    refine ⟨_, List.mem_flatMap.2 ⟨_, hprev, by rw [heq2]; exact List.mem_singleton_self _⟩, ?_⟩
    simp only
    omega

/-- The single fallback segment of a short region without matches. -/
theorem fallbackSegment_ok (qLen rLen : Int) (R : Int × Int) (hq : 0 ≤ R.1) (hle : R.1 ≤ R.2)
    (hlen : R.2 < qLen) (hr : 0 < rLen) :
    RegionOk qLen rLen R [fallbackSegment rLen R.1 R.2] := by
  have h0 : 0 ≤ R.1 % rLen := Int.emod_nonneg _ (by omega)
  have h1 : R.1 % rLen < rLen := Int.emod_lt_of_pos _ hr
  have hqs : (fallbackSegment rLen R.1 R.2).QueryStart = R.1 := by
    unfold fallbackSegment
    simp only []
    split_ifs <;> rfl
  have hqe : (fallbackSegment rLen R.1 R.2).QueryEnd = R.2 := by
    unfold fallbackSegment
    simp only []
    split_ifs <;> rfl
  refine ⟨?_, List.pairwise_singleton _ _, ?_⟩
  · intro x hx
    rw [List.mem_singleton.1 hx]
    refine ⟨?_, by omega, by omega⟩
    unfold Sound
    rw [hqs, hqe]
    refine ⟨hq, hle, hlen, ?_⟩
    unfold fallbackSegment
    simp only []
    split_ifs <;> simp only <;> omega
  · intro x hx _
    rw [List.mem_singleton.1 hx]
    exact ⟨hqe, Or.inl hqs⟩

theorem regionMatches_ok (qLen rLen : Int) (R : Int × Int) (hq : 0 ≤ R.1) (hlen : R.2 < qLen)
    (ms : List (AnchorMatch F)) (hms : ∀ m ∈ ms, AnchorGood ((R.2 + 1) - R.1) rLen m) :
    RegionOk qLen rLen R (addRegionMatches R.1 ms []) := by
  obtain ⟨h1, h2⟩ := addRegionMatches_ok qLen rLen R.1 ((R.2 + 1) - R.1) hq (by omega) ms []
    hms (by simp) List.Pairwise.nil
  refine ⟨?_, h2, ?_⟩
  · intro x hx
    have := (h1 x hx).1
    exact ⟨this.1, this.2.1, by omega⟩
  · intro x hx hshort
    exact absurd (h1 x hx).2 hshort

/-- The segments found for an uncovered region inside the query. -/
theorem regionSegments_ok (fl : FloatOps F) (query ref : Str) (R : Int × Int)
    (hq : 0 ≤ R.1) (hle : R.1 ≤ R.2) (hlen : R.2 < strLen query) (hr : 0 < strLen ref) :
    RegionOk (strLen query) (strLen ref) R (regionSegments fl query ref R) := by
  have hslice : strLen (sliceI query R.1 (R.2 + 1)) = (R.2 + 1) - R.1 :=
    strLen_sliceI query _ _ hq (by omega) (by omega)
  unfold regionSegments
  simp only []
  split_ifs
  · exact ⟨by simp, List.Pairwise.nil, by simp⟩
  · apply regionMatches_ok _ _ R hq hlen
    intro m hm
    rw [mem_sortSlice] at hm
    rw [← hslice]
    exact FindMatchesInLargeRegion_good fl _ ref m hm
  · exact fallbackTiles_ok fl query ref R hq hlen hr (by assumption)
  · exact fallbackSegment_ok _ _ R hq hle hlen hr
  · apply regionMatches_ok _ _ R hq hlen
    intro m hm
    rw [mem_sortSlice] at hm
    rw [← hslice]
    exact FindMatchesInRegion_good fl _ ref 0 0 (Or.inl rfl) m hm
  · exact fallbackTiles_ok fl query ref R hq hlen hr (by assumption)
  · exact fallbackSegment_ok _ _ R hq hle hlen hr

/-- The preference walk keeps a list without overlaps as it is. -/
theorem preferWalk_id (init : List Segment) :
    ∀ (rest : List Segment) (cur : Segment) (out : List Segment),
      (cur :: rest).Pairwise QBefore → preferWalk init cur out rest = out ++ cur :: rest := by
  intro rest
  induction rest with
  | nil => intro cur out _; rfl
  | cons n rest ih =>
    intro cur out h
    obtain ⟨h1, h2⟩ := List.pairwise_cons.1 h
    have := h1 n (List.mem_cons_self _ _)
    unfold QBefore at this
    unfold preferWalk
    rw [if_neg (by omega), ih n (out ++ [cur]) h2]
    simp

end Aligner

/-! ## The neighbours of an uncovered region -/

namespace Aligner

variable {F : Type}

/-- A region of the walk ends at the end of the query or right before a segment. -/
theorem uncoveredWalk_right (queryLen : Int) :
    ∀ (segs : List Segment) (pos : Int), ∀ reg ∈ uncoveredWalk queryLen pos segs,
      reg.2 = queryLen - 1 ∨ ∃ y ∈ segs, y.QueryStart = reg.2 + 1 := by
  intro segs
  induction segs with
  | nil =>
    intro pos reg hreg
    unfold uncoveredWalk at hreg
    split_ifs at hreg
    · rw [List.mem_singleton.1 hreg]
      exact Or.inl rfl
    · simp at hreg
  | cons seg rest ih =>
    intro pos reg hreg
    unfold uncoveredWalk at hreg
    rcases List.mem_append.1 hreg with h | h
    · split_ifs at h
      · rw [List.mem_singleton.1 h]
        exact Or.inr ⟨seg, List.mem_cons_self _ _, by simp only; omega⟩
      · simp at h
    · rcases ih _ reg h with h1 | ⟨y, hy, h1⟩
      · exact Or.inl h1
      · exact Or.inr ⟨y, List.mem_cons_of_mem _ hy, h1⟩

/-- A region of the walk starts at the start of the query or right after a
segment. -/
theorem uncoveredWalk_left (queryLen : Int) (S : List Segment) :
    ∀ (segs : List Segment) (pos : Int), (∀ s ∈ segs, s ∈ S) →
      (pos = 0 ∨ ∃ y ∈ S, y.QueryEnd + 1 = pos) →
      ∀ reg ∈ uncoveredWalk queryLen pos segs,
        reg.1 = 0 ∨ ∃ y ∈ S, y.QueryEnd + 1 = reg.1 := by
  intro segs
  induction segs with
  | nil =>
    intro pos _ hpos reg hreg
    unfold uncoveredWalk at hreg
    split_ifs at hreg
    · rw [List.mem_singleton.1 hreg]
      exact hpos
    · simp at hreg
  | cons seg rest ih =>
    intro pos hS hpos reg hreg
    unfold uncoveredWalk at hreg
    rcases List.mem_append.1 hreg with h | h
    · split_ifs at h
      · rw [List.mem_singleton.1 h]
        exact hpos
      · simp at h
    · refine ih _ (fun s hs => hS s (List.mem_cons_of_mem _ hs)) ?_ reg h
      rcases le_total pos (seg.QueryEnd + 1) with h1 | h1
      · rw [max_eq_right h1]
        exact Or.inr ⟨seg, hS seg (List.mem_cons_self _ _), rfl⟩
      · rw [max_eq_left h1]
        exact hpos

/-- A region of the walk ends inside the query, for segments that start inside
it. -/
theorem uncoveredWalk_lt (queryLen : Int) :
    ∀ (segs : List Segment) (pos : Int), (∀ s ∈ segs, s.QueryStart ≤ queryLen) →
      ∀ reg ∈ uncoveredWalk queryLen pos segs, reg.2 < queryLen := by
  intro segs
  induction segs with
  | nil =>
    intro pos _ reg hreg
    unfold uncoveredWalk at hreg
    split_ifs at hreg
    · rw [List.mem_singleton.1 hreg]
      simp only
      omega
    · simp at hreg
  | cons seg rest ih =>
    intro pos hS reg hreg
    unfold uncoveredWalk at hreg
    rcases List.mem_append.1 hreg with h | h
    · split_ifs at h
      · rw [List.mem_singleton.1 h]
        have := hS seg (List.mem_cons_self _ _)
        simp only
        omega
      · simp at h
    · exact ih _ (fun s hs => hS s (List.mem_cons_of_mem _ hs)) reg h

theorem FindUncoveredRegions_right (queryLen : Int) (segs : List Segment) :
    ∀ reg ∈ FindUncoveredRegions queryLen segs,
      reg.2 = queryLen - 1 ∨ ∃ y ∈ segs, y.QueryStart = reg.2 + 1 := by
  intro reg hreg
  unfold FindUncoveredRegions at hreg
  split_ifs at hreg
  · rw [List.mem_singleton.1 hreg]
    exact Or.inl rfl
  · simp at hreg
  · rcases uncoveredWalk_right queryLen _ 0 reg hreg with h | ⟨y, hy, h⟩
    · exact Or.inl h
    · exact Or.inr ⟨y, (mem_sortSlice _ _ _).1 hy, h⟩

theorem FindUncoveredRegions_left (queryLen : Int) (segs : List Segment) :
    ∀ reg ∈ FindUncoveredRegions queryLen segs,
      reg.1 = 0 ∨ ∃ y ∈ segs, y.QueryEnd + 1 = reg.1 := by
  intro reg hreg
  unfold FindUncoveredRegions at hreg
  split_ifs at hreg
  · rw [List.mem_singleton.1 hreg]
    exact Or.inl rfl
  · simp at hreg
  · exact uncoveredWalk_left queryLen segs _ 0 (fun s hs => (mem_sortSlice _ _ _).1 hs)
      (Or.inl rfl) reg hreg

theorem FindUncoveredRegions_lt (queryLen : Int) (segs : List Segment)
    (hS : ∀ s ∈ segs, s.QueryStart ≤ queryLen) :
    ∀ reg ∈ FindUncoveredRegions queryLen segs, reg.2 < queryLen := by
  intro reg hreg
  unfold FindUncoveredRegions at hreg
  split_ifs at hreg
  · rw [List.mem_singleton.1 hreg]
    simp only
    omega
  · simp at hreg
  · exact uncoveredWalk_lt queryLen _ 0 (fun s hs => hS s ((mem_sortSlice _ _ _).1 hs)) reg hreg

/-- The fallback segment of the final pass, for a region inside the query. -/
theorem finalFallback_sound (qLen rLen : Int) (reg : Int × Int) (hq : 0 ≤ reg.1)
    (hle : reg.1 ≤ reg.2) (hlen : reg.2 < qLen) (hr : 0 < rLen) :
    Sound qLen rLen (finalFallback rLen reg) := by
  have h0 : 0 ≤ reg.1 % rLen := Int.emod_nonneg _ (by omega)
  have h1 : reg.1 % rLen < rLen := Int.emod_lt_of_pos _ hr
  unfold Sound
  rw [(finalFallback_query rLen reg).1, (finalFallback_query rLen reg).2]
  refine ⟨hq, hle, hlen, ?_⟩
  unfold finalFallback
  simp only []
  split_ifs <;> simp only <;> omega

/-- In a list in query order in which every short segment is followed at once by
a long one or ends the query, no two neighbours are both short. -/
theorem chain_of_right_neighbour (B : Int) :
    ∀ (L : List Segment), L.Pairwise QBefore →
      (∀ x ∈ L, x.QueryStart ≤ x.QueryEnd ∧ x.QueryEnd < B) →
      (∀ x ∈ L, ¬ Long x →
        x.QueryEnd = B - 1 ∨ ∃ y ∈ L, y.QueryStart = x.QueryEnd + 1 ∧ Long y) →
      L.Chain' (fun a b => Long a ∨ Long b) := by
  intro L
  induction L with
  | nil => intro _ _ _; exact List.chain'_nil
  | cons a rest ih =>
    intro hpw hwf hnb
    obtain ⟨h1, h2⟩ := List.pairwise_cons.1 hpw
    have hrest : rest.Chain' (fun a b => Long a ∨ Long b) := by
      apply ih h2 (fun x hx => hwf x (List.mem_cons_of_mem _ hx))
      intro x hx hshort
      rcases hnb x (List.mem_cons_of_mem _ hx) hshort with h | ⟨y, hy, hy1, hy2⟩
      · exact Or.inl h
      · rcases List.mem_cons.1 hy with rfl | hy'
        · have := h1 x hx
          have := (hwf x (List.mem_cons_of_mem _ hx)).1
          have := (hwf y (List.mem_cons_self _ _)).1
          unfold QBefore at *
          omega
        · exact Or.inr ⟨y, hy', hy1, hy2⟩
    cases rest with
    | nil => exact List.chain'_singleton _
    | cons b rest2 =>
      refine List.chain'_cons.2 ⟨?_, hrest⟩
      by_contra hc
      rw [not_or] at hc
      have hab : a.QueryEnd < b.QueryStart := h1 b (List.mem_cons_self _ _)
      have hb := hwf b (List.mem_cons_of_mem _ (List.mem_cons_self _ _))
      have ha := hwf a (List.mem_cons_self _ _)
      rcases hnb a (List.mem_cons_self _ _) hc.1 with h | ⟨y, hy, hy1, hy2⟩
      · omega
      · rcases List.mem_cons.1 hy with rfl | hy'
        · omega
        · rcases List.mem_cons.1 hy' with rfl | hy''
          · exact hc.2 hy2
          · have := (List.pairwise_cons.1 h2).1 y hy''
            unfold QBefore at this
            omega

end Aligner

/-! ## The shape of the result of the coverage pass -/

namespace Aligner

variable {F : Type}

theorem preferWalk_resolved_id (init all : List Segment) :
    all.Pairwise QBefore →
      (match all with
        | [] => []
        | first :: rest => preferWalk init first [] rest) = all := by
  intro h
  cases all with
  | nil => rfl
  | cons first rest =>
    simp only []
    rw [preferWalk_id init rest first [] h]
    rfl

/-- The coverage pass, run on long segments in query order: the result is in
query order, the clamping loop keeps each of its segments, and a short segment of
it ends the query or is followed at once by a long one. -/
theorem EnsureCompleteCoverage_shape (fl : FloatOps F) (Q R : Str) (initial : List Segment)
    (hQ : 0 < strLen Q) (hR : 0 < strLen R)
    (hinit : ∀ s ∈ initial, Sound (strLen Q) (strLen R) s ∧ Long s)
    (hpw : initial.Pairwise QBefore) :
    (EnsureCompleteCoverage fl Q R initial).Pairwise QBefore ∧
    (∀ s ∈ EnsureCompleteCoverage fl Q R initial, Sound (strLen Q) (strLen R) s) ∧
    ∀ x ∈ EnsureCompleteCoverage fl Q R initial, ¬ Long x →
      x.QueryEnd = strLen Q - 1 ∨
        ∃ y ∈ EnsureCompleteCoverage fl Q R initial, y.QueryStart = x.QueryEnd + 1 ∧ Long y := by
  unfold EnsureCompleteCoverage
  lift_lets
  extract_lets queryLen refLen current uncovered newly all resolved finalUncovered
  have hcur : current = initial := by
    apply sortSlice_eq_self
    refine hpw.imp_of_mem ?_
    intro a b ha _ hab
    have := (hinit a ha).1.2.1
    unfold QBefore at hab
    simp only [decide_eq_false_iff_not]
    omega
  have hcS : ∀ s ∈ current, Sound queryLen refLen s ∧ Long s := by
    rw [hcur]; exact hinit
  have hcpw : current.Pairwise QBefore := by
    rw [hcur]; exact hpw
  have hcwf : ∀ s ∈ current, s.QueryStart ≤ s.QueryEnd := fun s hs => (hcS s hs).1.2.1
  have hgap : ∀ g ∈ uncovered, 0 ≤ g.1 ∧ g.1 ≤ g.2 ∧ g.2 < queryLen := by
    intro g hg
    refine ⟨FindUncoveredRegions_start _ _ g hg, FindUncoveredRegions_le _ _ g hg,
      FindUncoveredRegions_lt _ _ ?_ g hg⟩
    intro s hs
    have := (hcS s hs).1
    unfold Sound at this
    omega
  have hreg : ∀ g ∈ uncovered, RegionOk queryLen refLen g (regionSegments fl Q R g) := by
    intro g hg
    obtain ⟨h1, h2, h3⟩ := hgap g hg
    exact regionSegments_ok fl Q R g h1 h2 h3 hR
  have hnewS : ∀ x ∈ newly, Sound queryLen refLen x := by
    intro x hx
    obtain ⟨g, hg, hx1⟩ := List.mem_flatMap.1 hx
    exact ((hreg g hg).1 x hx1).1
  have hallmem : ∀ x, x ∈ all ↔ x ∈ current ∨ x ∈ newly := by
    intro x
    exact (mem_sortSlice _ _ _).trans List.mem_append
  have hallS : ∀ x ∈ all, Sound queryLen refLen x := by
    intro x hx
    rcases (hallmem x).1 hx with h | h
    · exact (hcS x h).1
    · exact hnewS x h
  have hdis : (current ++ newly).Pairwise QDisjoint := by
    rw [List.pairwise_append]
    refine ⟨hcpw.imp (fun h => Or.inl h), ?_, ?_⟩
    · refine List.pairwise_flatMap.2 ⟨fun g hg => (hreg g hg).2.1, ?_⟩
      refine (List.Pairwise.and_mem.1
        (FindUncoveredRegions_pairwise queryLen current hcwf)).imp ?_
      rintro g1 g2 ⟨hg1, hg2, h12⟩ x hx y hy
      have h1 := (hreg g1 hg1).1 x hx
      have h2 := (hreg g2 hg2).1 y hy
      unfold QDisjoint
      omega
    · intro s hs x hx
      obtain ⟨g, hg, hx1⟩ := List.mem_flatMap.1 hx
      have h1 := FindUncoveredRegions_disjoint queryLen current g hg s hs
      have h2 := (hreg g hg).1 x hx1
      unfold Sound at h2
      unfold QDisjoint
      omega
  have hallpw : all.Pairwise QBefore :=
    qBefore_of_disjoint_sorted all
      (((sortSlice_perm _ _).pairwise_iff (fun {a b} h => qDisjoint_symm h)).2 hdis)
      (fun s hs => (hallS s hs).2.1) (sortSlice_qs_sorted _)
  have hres : resolved = all := preferWalk_resolved_id initial all hallpw
  have hallnb : ∀ x ∈ all, ¬ Long x →
      x.QueryEnd = queryLen - 1 ∨ ∃ y ∈ current, y.QueryStart = x.QueryEnd + 1 ∧ Long y := by
    intro x hx hshort
    rcases (hallmem x).1 hx with h | h
    · exact absurd (hcS x h).2 hshort
    · obtain ⟨g, hg, hx1⟩ := List.mem_flatMap.1 h
      have h1 := ((hreg g hg).2.2 x hx1 hshort).1
      rcases FindUncoveredRegions_right queryLen current g hg with h2 | ⟨y, hy, h2⟩
      · left; omega
      · exact Or.inr ⟨y, hy, by omega, (hcS y hy).2⟩
  have hq0 : ¬ queryLen = 0 := by
    intro h
    have : strLen Q = 0 := h
    omega
  rw [if_neg hq0]
  split_ifs with h1 h2
  · exact ⟨hcpw, fun s hs => (hcS s hs).1, fun x hx hs => absurd (hcS x hx).2 hs⟩
  · have hfu : finalUncovered = FindUncoveredRegions queryLen all := by
      show FindUncoveredRegions queryLen resolved = _
      rw [hres]
    rw [hres]
    have hfgap : ∀ f ∈ finalUncovered, 0 ≤ f.1 ∧ f.1 ≤ f.2 ∧ f.2 < queryLen := by
      intro f hf
      rw [hfu] at hf
      refine ⟨FindUncoveredRegions_start _ _ f hf, FindUncoveredRegions_le _ _ f hf,
        FindUncoveredRegions_lt _ _ ?_ f hf⟩
      intro s hs
      have := hallS s hs
      unfold Sound at this
      omega
    have hLS : ∀ s ∈ all ++ finalUncovered.map (finalFallback refLen),
        Sound queryLen refLen s := by
      intro s hs
      rcases List.mem_append.1 hs with h | h
      · exact hallS s h
      · obtain ⟨f, hf, rfl⟩ := List.mem_map.1 h
        obtain ⟨h3, h4, h5⟩ := hfgap f hf
        exact finalFallback_sound _ _ f h3 h4 h5 hR
    have hLdis : (all ++ finalUncovered.map (finalFallback refLen)).Pairwise QDisjoint := by
      rw [List.pairwise_append]
      refine ⟨hallpw.imp (fun h => Or.inl h), ?_, ?_⟩
      · rw [List.pairwise_map, hfu]
        apply (FindUncoveredRegions_pairwise queryLen all (fun s hs => (hallS s hs).2.1)).imp
        intro a b hab
        unfold QDisjoint
        rw [(finalFallback_query refLen a).2, (finalFallback_query refLen b).1]
        exact Or.inl hab
      · intro s hs f hf
        obtain ⟨reg, hreg1, rfl⟩ := List.mem_map.1 hf
        rw [hfu] at hreg1
        unfold QDisjoint
        rw [(finalFallback_query refLen reg).1, (finalFallback_query refLen reg).2]
        exact FindUncoveredRegions_disjoint queryLen all reg hreg1 s hs
    have hperm := ResolveOverlaps_perm_of_disjoint _ hLdis (fun s hs => (hLS s hs).2.1)
    refine ⟨ResolveOverlaps_pairwise _, fun s hs => hLS s (hperm.mem_iff.1 hs), ?_⟩
    intro x hx hshort
    rcases List.mem_append.1 (hperm.mem_iff.1 hx) with h | h
    · rcases hallnb x h hshort with h3 | ⟨y, hy, h3, h4⟩
      · exact Or.inl h3
      · exact Or.inr ⟨y, hperm.mem_iff.2
          (List.mem_append_left _ ((hallmem y).2 (Or.inl hy))), h3, h4⟩
    · obtain ⟨f, hf, rfl⟩ := List.mem_map.1 h
      rw [(finalFallback_query refLen f).2]
      obtain ⟨hf0, hf1, _⟩ := hfgap f hf
      rw [hfu] at hf
      rcases FindUncoveredRegions_right queryLen all f hf with h3 | ⟨y, hy, h3⟩
      · exact Or.inl h3
      · right
        refine ⟨y, hperm.mem_iff.2 (List.mem_append_left _ hy), h3, ?_⟩
        by_contra hys
        have hnot : ∀ t ∈ all, t.QueryEnd = f.2 → False := by
          intro t ht hte
          have h4 := FindUncoveredRegions_disjoint queryLen all f hf t ht
          have h5 := (hallS t ht).2.1
          omega
        rcases (hallmem y).1 hy with h4 | h4
        · exact hys (hcS y h4).2
        · obtain ⟨g, hg, hy1⟩ := List.mem_flatMap.1 h4
          rcases ((hreg g hg).2.2 y hy1 hys).2 with h5 | ⟨t, ht, h5⟩
          · rcases FindUncoveredRegions_left queryLen current g hg with h6 | ⟨z, hz, h6⟩
            · omega
            · exact hnot z ((hallmem z).2 (Or.inl hz)) (by omega)
          · exact hnot t ((hallmem t).2 (Or.inr (List.mem_flatMap.2 ⟨g, hg, ht⟩))) (by omega)
  · rw [hres]
    refine ⟨hallpw, hallS, ?_⟩
    intro x hx hshort
    rcases hallnb x hx hshort with h3 | ⟨y, hy, h3, h4⟩
    · exact Or.inl h3
    · exact Or.inr ⟨y, (hallmem y).2 (Or.inl hy), h3, h4⟩

end Aligner

/-! ## Complete coverage of the result of `FindAlignment` -/

namespace Aligner

variable {F : Type}

/-- The first merge, on long segments in query order. -/
theorem MergeAdjacentSegments_long (fl : FloatOps F) (hfl : MergeTestSound fl)
    (g qLen rLen : Int) (segs : List Segment)
    (hS : ∀ s ∈ segs, Sound qLen rLen s ∧ Long s) (hpw : segs.Pairwise QBefore) :
    (∀ s ∈ MergeAdjacentSegments fl segs g, Sound qLen rLen s ∧ Long s) ∧
      (MergeAdjacentSegments fl segs g).Pairwise QBefore := by
  unfold MergeAdjacentSegments
  split
  · exact ⟨hS, hpw⟩
  · exact ⟨hS, hpw⟩
  · rename_i first rest _
    obtain ⟨h1, h2⟩ := List.pairwise_cons.1 hpw
    exact mergeWalk_long fl hfl g qLen rLen rest first [] (hS first (List.mem_cons_self _ _))
      (fun s hs => hS s (List.mem_cons_of_mem _ hs)) (fun x hx => h1 x hx) h2 (by simp)
      (by simp)

/-- The last merge, on segments of which no two neighbours are both short: the
clamping loop keeps every merged segment, and no query position is uncovered. -/
theorem MergeAdjacentSegments_sound (fl : FloatOps F) (hfl : MergeTestSound fl)
    (g qLen rLen : Int) (segs : List Segment)
    (hS : ∀ s ∈ segs, Sound qLen rLen s) (hpw : segs.Pairwise QBefore)
    (hch : segs.Chain' (fun a b => Long a ∨ Long b)) :
    (∀ s ∈ MergeAdjacentSegments fl segs g, Sound qLen rLen s) ∧
      (MergeAdjacentSegments fl segs g).Pairwise QBefore ∧
      ∀ p, Covered segs p → Covered (MergeAdjacentSegments fl segs g) p := by
  unfold MergeAdjacentSegments
  split
  · exact ⟨hS, hpw, fun p hp => hp⟩
  · exact ⟨hS, hpw, fun p hp => hp⟩
  · rename_i first rest _
    obtain ⟨h1, h2⟩ := List.pairwise_cons.1 hpw
    have hfirst := hS first (List.mem_cons_self _ _)
    have hrest : ∀ s ∈ rest, Sound qLen rLen s := fun s hs => hS s (List.mem_cons_of_mem _ hs)
    have hw := mergeWalk_sound fl hfl g qLen rLen rest first [] (Long first) hfirst
      (by intro h; unfold Long at h; omega)
      (by
        intro n hn
        cases rest with
        | nil => simp at hn
        | cons m rest2 =>
          simp only [List.head?_cons, Option.mem_def, Option.some.injEq] at hn
          subst hn
          exact (List.chain'_cons.1 hch).1)
      (List.Chain'.tail hch) hrest (fun x hx => h1 x hx) h2 (by simp) (by simp)
    refine ⟨hw.1, hw.2, ?_⟩
    intro p hp
    exact mergeWalk_covers fl g rest first [] hfirst.2.1 (fun x hx => h1 x hx) h2
      (fun x hx => (hrest x hx).2.1) p (by simpa using hp)

/-- A segment made of an anchor that lies inside both strings and spans nine
reference positions. -/
theorem chainSegments_good (fl : FloatOps F) (qLen rLen : Int) (anchors : List (AnchorMatch F))
    (h : ∀ a ∈ anchors, AnchorGood qLen rLen a) :
    ∀ s ∈ chainSegments fl anchors, Sound qLen rLen s ∧ Long s := by
  intro s hs
  obtain ⟨a, ha, rfl⟩ := chainSegments_mem fl _ s hs
  have := h a ha
  unfold AnchorGood at this
  unfold Sound Long
  simp only
  omega

/-- The pipeline after chaining, on long segments: the query intervals of the
result are the positions of the query. -/
theorem pipeline_covers (fl : FloatOps F) (hfl : MergeTestSound fl) (Q R : Str)
    (hQ : 0 < strLen Q) (hR : 0 < strLen R) (B : List Segment)
    (hB : ∀ v ∈ B, Sound (strLen Q) (strLen R) v ∧ Long v)
    (less : Segment → Segment → Bool)
    (hless : ∀ a b : Segment, a.QueryStart < b.QueryStart → less b a = false)
    (g1 g2 : Int) (p : Int) :
    Covered (clampSegments (strLen Q) (strLen R) (ResolveOverlaps (MergeAdjacentSegments fl
      (sortSlice less (EnsureCompleteCoverage fl Q R
        (MergeAdjacentSegments fl (ResolveOverlaps B) g1))) g2))) p ↔
      0 ≤ p ∧ p < strLen Q := by
  have hB2 : ∀ v ∈ ResolveOverlaps B, Sound (strLen Q) (strLen R) v ∧ Long v :=
    fun v hv => hB v (ResolveOverlaps_mem _ v hv)
  obtain ⟨hC, hCpw⟩ := MergeAdjacentSegments_long fl hfl g1 _ _ _ hB2 (ResolveOverlaps_pairwise B)
  obtain ⟨hEpw, hES, hEnb⟩ := EnsureCompleteCoverage_shape fl Q R _ hQ hR hC hCpw
  have hEcov := EnsureCompleteCoverage_covered fl Q R
    (MergeAdjacentSegments fl (ResolveOverlaps B) g1) hQ (fun s hs => (hC s hs).1.2.1)
  have hEch := chain_of_right_neighbour (strLen Q) _ hEpw
    (fun x hx => ⟨(hES x hx).2.1, (hES x hx).2.2.1⟩) hEnb
  have hsort : sortSlice less (EnsureCompleteCoverage fl Q R
      (MergeAdjacentSegments fl (ResolveOverlaps B) g1)) =
      EnsureCompleteCoverage fl Q R (MergeAdjacentSegments fl (ResolveOverlaps B) g1) := by
    apply sortSlice_eq_self
    refine hEpw.imp_of_mem ?_
    intro a b ha _ hab
    have := (hES a ha).2.1
    unfold QBefore at hab
    exact hless a b (by omega)
  rw [hsort]
  obtain ⟨hMS, hMpw, hMcov⟩ := MergeAdjacentSegments_sound fl hfl g2 _ _ _ hES hEpw hEch
  have hperm := ResolveOverlaps_perm_of_disjoint _ (hMpw.imp (fun h => Or.inl h))
    (fun s hs => (hMS s hs).2.1)
  constructor
  · rintro ⟨z, hz, hzp⟩
    obtain ⟨s, hs, _, _, rfl⟩ := (mem_clampSegments _ _ _ _).1 hz
    have := hMS s (hperm.mem_iff.1 hs)
    unfold Sound at this
    simp only at hzp
    omega
  · rintro ⟨hp0, hp1⟩
    obtain ⟨s, hs, hsp⟩ := hMcov p (hEcov p hp0 hp1)
    have hsS := hMS s hs
    unfold Sound at hsS
    refine ⟨⟨s.QueryStart, min s.QueryEnd (strLen Q - 1), s.RefStart,
      min s.RefEnd (strLen R - 1)⟩, ?_, ?_⟩
    · exact (mem_clampSegments _ _ _ _).2
        ⟨s, hperm.mem_iff.2 hs, by omega, by omega, rfl⟩
    · simp only
      omega

/-- Claim C1.  For every non-empty query `Q` and non-empty reference `R` (over any
alphabet, hence over `{A, C, G, T, N}`), the union of the inclusive query intervals
`[q_start, q_end]` of the segments returned by `FindAlignment(Q, R, 0)` is exactly
the set of positions `0 .. |Q| - 1`.  The arithmetic `fl` is any `float64` model in
which the gap test of `canMerge` fails when the reference gap is negative and
differs from the query gap by more than `5`. -/
theorem findAlignment_complete_coverage (fl : FloatOps F) (hfl : MergeTestSound fl)
    (Q R : Str) (hQ : Q ≠ []) (hR : R ≠ []) (p : Int) :
    Covered (FindAlignment fl Q R 0) p ↔ 0 ≤ p ∧ p < strLen Q := by
  have hQ0 : 0 < strLen Q := by
    unfold strLen
    exact_mod_cast List.length_pos.2 hQ
  have hR0 : 0 < strLen R := by
    unfold strLen
    exact_mod_cast List.length_pos.2 hR
  obtain ⟨ks, mm, st, me, thr, hks, hmm, heq⟩ :=
    FindAlignment_stages fl Q R 0 (by omega)
  rw [heq]
  apply pipeline_covers fl hfl Q R hQ0 hR0
  · intro v hv
    rcases List.mem_append.1 hv with h1 | h1
    · refine chainSegments_good fl _ _ _ ?_ v h1
      intro a ha
      obtain ⟨k, hk, hka⟩ := List.mem_flatMap.1 (FilterAnchors_mem fl _ _ a ha)
      exact FindAnchors_good fl Q R k mm (st k) me (by have := hks k hk; omega)
        (Or.inr (hmm rfl)) a hka
    · refine chainSegments_good fl _ _ _ ?_ v h1
      intro a ha
      obtain ⟨k, hk, hka⟩ := List.mem_flatMap.1 (FilterAnchors_mem fl _ _ a ha)
      exact FindReverseAnchors_good fl Q R k mm (st k) me (by have := hks k hk; omega)
        (Or.inr (hmm rfl)) a hka
  · intro a b hab
    rw [if_pos (by omega)]
    simp only [decide_eq_false_iff_not]
    omega

theorem findAlignment_complete_coverage_witness :
    MergeTestSound exactOps ∧ bytes "ACGT" ≠ [] ∧ bytes "AC" ≠ [] ∧
      (Covered (FindAlignment exactOps (bytes "ACGT") (bytes "AC") 0) 2 ↔
        (0 : Int) ≤ 2 ∧ (2 : Int) < strLen (bytes "ACGT")) :=
  ⟨mergeTestSound_exact, by decide, by decide,
    findAlignment_complete_coverage exactOps mergeTestSound_exact (bytes "ACGT") (bytes "AC")
      (by decide) (by decide) 2⟩

end Aligner

/-! ## `FindUncoveredRegions` returns the complement of the segment union -/

namespace Aligner

variable {F : Type}

/-- Two maximal uncovered intervals that share a position are equal. -/
theorem maximalGap_unique (queryLen : Int) (segs : List Segment) (g h : Int × Int)
    (hg : IsMaximalGap queryLen segs g) (hh : IsMaximalGap queryLen segs h)
    (h1 : h.1 ≤ g.1) (h2 : g.1 ≤ h.2) : g = h := by
  obtain ⟨g0, g1, g2, gun, gl, gr⟩ := hg
  obtain ⟨k0, k1, k2, kun, kl, kr⟩ := hh
  have e1 : g.1 = h.1 := by
    by_contra hne
    rcases gl with h0 | hc
    · omega
    · exact kun (g.1 - 1) (by omega) (by omega) hc
  have e2 : g.2 = h.2 := by
    by_contra hne
    rcases lt_or_gt_of_ne hne with hlt | hgt
    · rcases gr with h0 | hc
      · omega
      · exact kun (g.2 + 1) (by omega) (by omega) hc
    · rcases kr with h0 | hc
      · omega
      · exact gun (h.2 + 1) (by omega) (by omega) hc
  exact Prod.ext e1 e2

/-- Claim C26.  For every `queryLen` and every list of segments each with
`0 ≤ q_start ≤ q_end < queryLen`, `FindUncoveredRegions(queryLen, segments)`
returns exactly the maximal intervals `[s, e]` of positions of
`[0, queryLen - 1]` that lie in no segment's query interval, in increasing
order. -/
theorem findUncoveredRegions_spec (queryLen : Int) (segs : List Segment)
    (hS : ∀ s ∈ segs, 0 ≤ s.QueryStart ∧ s.QueryStart ≤ s.QueryEnd ∧ s.QueryEnd < queryLen) :
    (∀ g, g ∈ FindUncoveredRegions queryLen segs ↔ IsMaximalGap queryLen segs g) ∧
    (FindUncoveredRegions queryLen segs).Pairwise (fun a b => a.2 < b.1) := by
  have hwf : ∀ s ∈ segs, s.QueryStart ≤ s.QueryEnd := fun s hs => (hS s hs).2.1
  have hto : ∀ g ∈ FindUncoveredRegions queryLen segs, IsMaximalGap queryLen segs g := by
    intro g hg
    refine ⟨FindUncoveredRegions_start _ _ g hg, FindUncoveredRegions_le _ _ g hg,
      FindUncoveredRegions_lt _ _ (fun s hs => by have := hS s hs; omega) g hg, ?_, ?_, ?_⟩
    · rintro p hp1 hp2 ⟨s, hs, hsp⟩
      have := FindUncoveredRegions_disjoint queryLen segs g hg s hs
      omega
    · rcases FindUncoveredRegions_left queryLen segs g hg with h | ⟨y, hy, h⟩
      · exact Or.inl h
      · exact Or.inr ⟨y, hy, by have := hwf y hy; omega, by omega⟩
    · rcases FindUncoveredRegions_right queryLen segs g hg with h | ⟨y, hy, h⟩
      · exact Or.inl h
      · exact Or.inr ⟨y, hy, by omega, by have := hwf y hy; omega⟩
  refine ⟨fun g => ⟨hto g, ?_⟩, FindUncoveredRegions_pairwise queryLen segs hwf⟩
  intro hg
  have hg' := hg
  obtain ⟨g0, g1, g2, gun, _, _⟩ := hg
  rcases FindUncoveredRegions_cover queryLen segs g.1 g0 (by omega) with hc | ⟨h, hh, h1, h2⟩
  · exact absurd hc (gun g.1 le_rfl g1)
  · rw [maximalGap_unique queryLen segs g h hg' (hto h hh) h1 h2]
    exact hh

theorem findUncoveredRegions_spec_witness :
    (∀ s ∈ ([⟨2, 3, 0, 1⟩, ⟨6, 7, 0, 1⟩] : List Segment),
      0 ≤ s.QueryStart ∧ s.QueryStart ≤ s.QueryEnd ∧ s.QueryEnd < 10) ∧
    ((∀ g, g ∈ FindUncoveredRegions 10 [⟨2, 3, 0, 1⟩, ⟨6, 7, 0, 1⟩] ↔
        IsMaximalGap 10 [⟨2, 3, 0, 1⟩, ⟨6, 7, 0, 1⟩] g) ∧
      (FindUncoveredRegions 10 [⟨2, 3, 0, 1⟩, ⟨6, 7, 0, 1⟩]).Pairwise (fun a b => a.2 < b.1)) :=
  ⟨by decide, findUncoveredRegions_spec 10 [⟨2, 3, 0, 1⟩, ⟨6, 7, 0, 1⟩] (by decide)⟩

end Aligner

/-! ## Anchors contain their seed; anchors on the reverse complement -/

namespace Aligner

variable {F : Type}

theorem fwdBody_mono (query ref : Str) (s : ExtState) :
    s.q ≤ (fwdBody query ref s).q ∧ s.r ≤ (fwdBody query ref s).r := by
  unfold fwdBody
  split_ifs <;> simp only <;> omega

theorem fwdLoop_mono (query ref : Str) (maxErrors : Int) :
    ∀ (fuel : Nat) (s : ExtState),
      s.q ≤ (fwdLoop query ref maxErrors fuel s).q ∧
        s.r ≤ (fwdLoop query ref maxErrors fuel s).r := by
  intro fuel
  induction fuel with
  | zero => intro s; exact ⟨le_rfl, le_rfl⟩
  | succ n ih =>
    intro s
    unfold fwdLoop
    split_ifs
    · have h1 := fwdBody_mono query ref s
      have h2 := ih (fwdBody query ref s)
      omega
    · exact ⟨le_rfl, le_rfl⟩

theorem bwdBody_mono (query ref : Str) (s : ExtState) :
    (bwdBody query ref s).q ≤ s.q ∧ (bwdBody query ref s).r ≤ s.r := by
  unfold bwdBody
  split_ifs <;> simp only <;> omega

theorem bwdLoop_mono (query ref : Str) (maxErrors : Int) :
    ∀ (fuel : Nat) (s : ExtState),
      (bwdLoop query ref maxErrors fuel s).q ≤ s.q ∧
        (bwdLoop query ref maxErrors fuel s).r ≤ s.r := by
  intro fuel
  induction fuel with
  | zero => intro s; exact ⟨le_rfl, le_rfl⟩
  | succ n ih =>
    intro s
    unfold bwdLoop
    split_ifs
    · have h1 := bwdBody_mono query ref s
      have h2 := ih (bwdBody query ref s)
      omega
    · exact ⟨le_rfl, le_rfl⟩

/-- An anchor that `ExtendMatch` returns for a seed inside the strings contains
the seed, lies inside both strings, and is at least `minMatchLen` long in the
query. -/
theorem ExtendMatch_seed (fl : FloatOps F) (query ref : Str) (qS rS k mm me : Int)
    (a : AnchorMatch F) (h : ExtendMatch fl query ref qS rS k mm me = some a)
    (hq : 0 ≤ qS) (hr : 0 ≤ rS) (hkq : qS + k ≤ strLen query) (hkr : rS + k ≤ strLen ref) :
    0 ≤ a.QueryStart ∧ a.QueryStart ≤ qS ∧ qS + k - 1 ≤ a.QueryEnd ∧
      a.QueryEnd < strLen query ∧
      0 ≤ a.RefStart ∧ a.RefStart ≤ rS ∧ rS + k - 1 ≤ a.RefEnd ∧ a.RefEnd < strLen ref ∧
      (if mm = 0 then MinMatchLength else mm) ≤ a.QueryEnd - a.QueryStart + 1 := by
  unfold ExtendMatch at h
  simp only [] at h
  generalize (if me = 0 then ExtendMaxErrors else me) = me0 at h
  generalize (if mm = 0 then MinMatchLength else mm) = mm0 at h ⊢
  have hf1 := fwdLoop_r_le query ref me0 (query.length + 1) ⟨qS + k, rS + k, 0, k⟩ hkr
  have hf2 := (fwdLoop_inv query ref me0 ((qS + k) - 3 * (rS + k)) (query.length + 1)
    ⟨qS + k, rS + k, 0, k⟩ hkq le_rfl).1
  have hf3 := fwdLoop_mono query ref me0 (query.length + 1) ⟨qS + k, rS + k, 0, k⟩
  generalize fwdLoop query ref me0 (query.length + 1) ⟨qS + k, rS + k, 0, k⟩ = fwd
    at h hf1 hf2 hf3
  have hb1 := bwdLoop_ge query ref me0 (query.length + 1) ⟨qS - 1, rS - 1, 0, fwd.totalMatches⟩
    (by simp only; omega) (by simp only; omega)
  have hb2 := bwdLoop_mono query ref me0 (query.length + 1)
    ⟨qS - 1, rS - 1, 0, fwd.totalMatches⟩
  generalize bwdLoop query ref me0 (query.length + 1)
    ⟨qS - 1, rS - 1, 0, fwd.totalMatches⟩ = bwd at h hb1 hb2
  simp only at hf3 hb2
  split_ifs at h with h1 h2 h3 <;> cases h <;> simp only <;> omega

/-- A slice of the reversed list is the reverse of the mirrored slice. -/
theorem reverse_drop_take {α : Type} (l : List α) (a m : Nat) (h : a + m ≤ l.length) :
    (l.reverse.drop a).take m = ((l.drop (l.length - a - m)).take m).reverse := by
  rw [List.drop_reverse, List.take_reverse, List.drop_take, List.length_take]
  congr 2
  · omega
  · congr 1
    omega

/-- The slice `[a, b]` of the reverse complement is the reverse complement of the
mirrored slice `[n - 1 - b, n - 1 - a]`. -/
theorem sliceI_ReverseComplement (R : Str) (a b : Int) (ha : 0 ≤ a) (hab : a ≤ b)
    (hb : b < strLen R) :
    sliceI (ReverseComplement R) a (b + 1) =
      ReverseComplement (sliceI R (strLen R - 1 - b) (strLen R - 1 - a + 1)) := by
  unfold sliceI ReverseComplement strLen at *
  obtain ⟨a', rfl⟩ : ∃ a' : Nat, a = (a' : Int) := ⟨a.toNat, (Int.toNat_of_nonneg ha).symm⟩
  obtain ⟨m, hm⟩ : ∃ m : Nat, b + 1 - (a' : Int) = (m : Int) :=
    ⟨(b + 1 - a').toNat, (Int.toNat_of_nonneg (by omega)).symm⟩
  have h1 : ((R.length : Int) - 1 - b).toNat = R.length - a' - m := by omega
  have h2 : ((R.length : Int) - 1 - (a' : Int) + 1 - ((R.length : Int) - 1 - b)).toNat = m := by
    omega
  rw [hm, h1, h2, Int.toNat_ofNat, Int.toNat_ofNat, ← List.map_drop, ← List.map_take,
    reverse_drop_take R a' m (by omega)]

/-- Claim C27.  Every anchor `x` that `FindReverseAnchors(Q, R, ...)` returns (for
any `R`, hence for `R` over `{A, C, G, T, N}`) comes from an anchor `y` that
`FindAnchors` finds on `R' = ReverseComplement(R)`: it keeps the query interval,
the score and the identity of `y`; its reference interval `[s, e]` is the image
`[|R|-1-b, |R|-1-a]` of the interval `[a, b]` of `y` and satisfies
`0 ≤ s ≤ e < |R|`; and `R'[a..b]` is the reverse complement of `R[s..e]`. -/
theorem findReverseAnchors_spec (fl : FloatOps F) (Q R : Str) (k mm st me : Int) :
    ∀ x ∈ FindReverseAnchors fl Q R k mm st me,
      ∃ y ∈ FindAnchors fl Q (ReverseComplement R) k mm st me,
        x.QueryStart = y.QueryStart ∧ x.QueryEnd = y.QueryEnd ∧
        x.Score = y.Score ∧ x.Identity = y.Identity ∧
        x.RefStart = strLen R - 1 - y.RefEnd ∧ x.RefEnd = strLen R - 1 - y.RefStart ∧
        0 ≤ x.RefStart ∧ x.RefStart ≤ x.RefEnd ∧ x.RefEnd < strLen R ∧
        sliceI (ReverseComplement R) y.RefStart (y.RefEnd + 1) =
          ReverseComplement (sliceI R x.RefStart (x.RefEnd + 1)) := by
  intro x hx
  unfold FindReverseAnchors at hx
  simp only [] at hx
  obtain ⟨y, hy, rfl⟩ := List.mem_map.1 hx
  obtain ⟨qS, rS, k0, me0, hext, hq, hr, hk0, hkq, hkr⟩ :=
    FindAnchors_mem fl Q (ReverseComplement R) k mm st me y hy
  have hs := ExtendMatch_seed fl Q (ReverseComplement R) qS rS k0 _ me0 y hext hq hr hkq hkr
  rw [strLen_ReverseComplement] at hs
  refine ⟨y, hy, rfl, rfl, rfl, rfl, rfl, rfl, by simp only; omega, by simp only; omega,
    by simp only; omega, ?_⟩
  exact sliceI_ReverseComplement R y.RefStart y.RefEnd (by omega) (by omega) (by omega)

theorem findReverseAnchors_spec_witness :
    (⟨0, 4, 0, 4, .fin 5, .fin 1, 0⟩ : AnchorMatch Exact) ∈
      FindReverseAnchors exactOps (bytes "AACCA") (bytes "TGGTT") 4 4 1 1 ∧
    ∃ y ∈ FindAnchors exactOps (bytes "AACCA") (ReverseComplement (bytes "TGGTT")) 4 4 1 1,
      (0 : Int) = y.QueryStart ∧ (4 : Int) = y.QueryEnd ∧
      Exact.fin 5 = y.Score ∧ Exact.fin 1 = y.Identity ∧
      (0 : Int) = strLen (bytes "TGGTT") - 1 - y.RefEnd ∧
      (4 : Int) = strLen (bytes "TGGTT") - 1 - y.RefStart ∧
      (0 : Int) ≤ 0 ∧ (0 : Int) ≤ 4 ∧ (4 : Int) < strLen (bytes "TGGTT") ∧
      sliceI (ReverseComplement (bytes "TGGTT")) y.RefStart (y.RefEnd + 1) =
        ReverseComplement (sliceI (bytes "TGGTT") 0 (4 + 1)) :=
  ⟨by decide!,
    findReverseAnchors_spec exactOps (bytes "AACCA") (bytes "TGGTT") 4 4 1 1
      ⟨0, 4, 0, 4, .fin 5, .fin 1, 0⟩ (by decide!)⟩

end Aligner

namespace Aligner

variable {F : Type}

/-! ## Claims about `FindAlignment` -/

/-- The output of `FindAlignment` consists of segments that are non-empty in the
query, each ending strictly before the later ones start. -/
theorem FindAlignment_pairwise (fl : FloatOps F) (query ref : Str) (minMatchLenUser : Int) :
    (FindAlignment fl query ref minMatchLenUser).Pairwise QBefore ∧
    ∀ z ∈ FindAlignment fl query ref minMatchLenUser, z.QueryStart ≤ z.QueryEnd := by
  obtain ⟨segs, h⟩ := FindAlignment_final_form fl query ref minMatchLenUser
  rw [h]
  split_ifs
  · exact ⟨List.Pairwise.nil, by simp⟩
  · refine ⟨clampSegments_pairwise _ _ _ (ResolveOverlaps_pairwise segs), ?_⟩
    intro z hz
    obtain ⟨s, _, h1, _, rfl⟩ := (mem_clampSegments _ _ _ _).1 hz
    exact h1

/-- Claim C3.  For every `Q` and `R` (and every `float64` arithmetic), in the list
that `FindAlignment(Q, R, 0)` returns each segment's `q_start` is strictly greater
than the previous segment's `q_end`; the segments are pairwise non-overlapping in
query coordinates and sorted by the key `(q_start, r_start, q_end, r_end)`. -/
theorem findAlignment_ordered (fl : FloatOps F) (Q R : Str) :
    (FindAlignment fl Q R 0).Chain' QBefore ∧
    (FindAlignment fl Q R 0).Pairwise QDisjoint ∧
    (FindAlignment fl Q R 0).Pairwise KeyLE := by
  obtain ⟨hp, hwf⟩ := FindAlignment_pairwise fl Q R 0
  refine ⟨hp.chain', hp.imp (fun h => Or.inl h), ?_⟩
  generalize FindAlignment fl Q R 0 = out at hp hwf
  induction out with
  | nil => exact List.Pairwise.nil
  | cons a rest ih =>
    obtain ⟨h1, h2⟩ := List.pairwise_cons.1 hp
    refine List.pairwise_cons.2 ⟨?_, ih h2 (fun z hz => hwf z (List.mem_cons_of_mem _ hz))⟩
    intro b hb
    have hab := h1 b hb
    have ha := hwf a (List.mem_cons_self _ _)
    unfold QBefore at hab
    exact Or.inl (by omega)

/-- Claim C5.  When `|Q| = 0` or `|R| = 0`, `FindAlignment` returns the empty list
of segments, for every `minMatchLenUser` (and every `float64` arithmetic). -/
theorem findAlignment_empty (fl : FloatOps F) (Q R : Str) (minMatchLenUser : Int)
    (h : Q.length = 0 ∨ R.length = 0) : FindAlignment fl Q R minMatchLenUser = [] := by
  unfold FindAlignment
  have h' : strLen Q = 0 ∨ strLen R = 0 := by
    unfold strLen
    rcases h with h | h
    · left; simp [h]
    · right; simp [h]
  simp only [h', if_true]

theorem findAlignment_empty_witness :
    (([] : Str).length = 0 ∨ (bytes "ACGT").length = 0) ∧
    FindAlignment exactOps [] (bytes "ACGT") 0 = [] :=
  ⟨Or.inl rfl, findAlignment_empty exactOps [] (bytes "ACGT") 0 (Or.inl rfl)⟩

end Aligner

namespace Aligner

variable {F : Type}

/-- Claim C2.  For every query `Q` and reference `R` (over any alphabet, hence
over `{A, C, G, T, N}`, and for every `float64` arithmetic), every segment that
`FindAlignment(Q, R, 0)` returns satisfies `0 ≤ q_start ≤ q_end < |Q|` and
`0 ≤ r_start ≤ r_end < |R|`. -/
theorem findAlignment_segments_in_bounds (fl : FloatOps F) (Q R : Str) :
    ∀ s ∈ FindAlignment fl Q R 0, SegmentOk (strLen Q) (strLen R) s := by
  intro s hs
  by_cases h : strLen Q = 0 ∨ strLen R = 0
  · obtain ⟨segs, hseg⟩ := FindAlignment_final_form fl Q R 0
    rw [hseg, if_pos h] at hs
    simp at hs
  · obtain ⟨ks, mm, st, me, thr, _, _, heq⟩ := FindAlignment_stages fl Q R 0 h
    rw [heq] at hs
    obtain ⟨t, ht, h1, h2, rfl⟩ := (mem_clampSegments _ _ _ _).1 hs
    have hst := FindAlignment_preclamp_starts fl ks mm st me thr Q R _ t ht
    have hq : min t.QueryEnd (strLen Q - 1) ≤ strLen Q - 1 := min_le_right _ _
    have hr : min t.RefEnd (strLen R - 1) ≤ strLen R - 1 := min_le_right _ _
    exact ⟨hst.1, h1, by simp only; omega, hst.2, h2, by simp only; omega⟩

end Aligner

namespace Aligner

set_option maxRecDepth 100000 in
theorem findAlignment_segments_in_bounds_witness :
    (⟨0, 3, 0, 1⟩ : Segment) ∈ FindAlignment exactOps (bytes "ACGT") (bytes "AC") 0 ∧
      SegmentOk (strLen (bytes "ACGT")) (strLen (bytes "AC")) ⟨0, 3, 0, 1⟩ :=
  ⟨by decide, findAlignment_segments_in_bounds exactOps _ _ _ (by decide)⟩

end Aligner

/-! ## The exact-identity example

The pipeline is evaluated stage by stage on the 28-base input: first the
parameters, then the anchors for each `k`, then the rest. -/

namespace Aligner

theorem identityInput_eq : bytes "ACGTACGTACGTACGTACGTACGTACGT" = identityInput := by decide

theorem identityInput_reverse : ReverseComplement identityInput = identityInput := by decide

theorem identity_params :
    selectParams exactOps (CalculateGCContent exactOps identityInput)
      (min (strLen identityInput) (strLen identityInput)) 0 = ([5, 6, 7], 20, 1, 6) := by
  decide!

set_option maxHeartbeats 4000000 in
/-- For each `k` tried, the only anchor that survives the filter is the full
diagonal. -/
theorem identity_anchors (k : Int) (hk : k = 5 ∨ k = 6 ∨ k = 7) :
    FindAnchors exactOps identityInput identityInput k 20 1 6 =
      [⟨0, 27, 0, 27, .fin 28, .fin 1, 0⟩] := by
  rcases hk with rfl | rfl | rfl <;> decide!

/-- The input is its own reverse complement, so the reverse anchors are the
forward ones. -/
theorem identity_reverse_anchors (k : Int) (hk : k = 5 ∨ k = 6 ∨ k = 7) :
    FindReverseAnchors exactOps identityInput identityInput k 20 1 6 =
      [⟨0, 27, 0, 27, .fin 28, .fin 1, 0⟩] := by
  unfold FindReverseAnchors
  simp only [identityInput_reverse, identity_anchors k hk]
  decide

set_option maxHeartbeats 4000000 in
/-- Claim C4.  For `Q = R = "ACGTACGTACGTACGTACGTACGTACGT"` (28 bases),
`FindAlignment(Q, R, 0)` returns exactly one segment, `(0, 27, 0, 27)`, which is
printed with the ends plus one as `(0, 28, 0, 28)`.  On this input every anchor
is an exact diagonal match, so all identities are `1`, all scores are integers,
and every ratio that is compared with a threshold is a quotient of integers below
`29`, far from the threshold: the exact arithmetic decides as `float64` does. -/
theorem findAlignment_exact_identity :
    FindAlignment exactOps (bytes "ACGTACGTACGTACGTACGTACGTACGT")
        (bytes "ACGTACGTACGTACGTACGTACGTACGT") 0 = [⟨0, 27, 0, 27⟩] ∧
    formatSegmentsOutput
        (FindAlignment exactOps (bytes "ACGTACGTACGTACGTACGTACGTACGT")
          (bytes "ACGTACGTACGTACGTACGTACGTACGT") 0) = [(0, 28, 0, 28)] := by
  have h : FindAlignment exactOps identityInput identityInput 0 = [⟨0, 27, 0, 27⟩] := by
    unfold FindAlignment
    simp only [identity_params, List.flatMap_cons, List.flatMap_nil, List.append_nil]
    have hlen : ¬ (min (strLen identityInput) (strLen identityInput) ≥ VeryShortSeqThreshold) := by
      decide
    simp only [if_neg hlen, identity_anchors 5 (by decide), identity_anchors 6 (by decide),
      identity_anchors 7 (by decide), identity_reverse_anchors 5 (by decide),
      identity_reverse_anchors 6 (by decide), identity_reverse_anchors 7 (by decide)]
    decide!
  rw [identityInput_eq]
  exact ⟨h, by rw [h]; rfl⟩

end Aligner

/-! ## `sequence/utils.go` -/

namespace Aligner

variable {F : Type}

theorem complement_complement {c : Nat}
    (h : c = bA ∨ c = bC ∨ c = bG ∨ c = bT ∨ c = bN) : complement (complement c) = c := by
  rcases h with rfl | rfl | rfl | rfl | rfl <;> decide

theorem complement_gc {c : Nat} (h : c = bA ∨ c = bC ∨ c = bG ∨ c = bT ∨ c = bN) :
    (complement c = bG ∨ complement c = bC ∨ complement c = 103 ∨ complement c = 99) ↔
      (c = bG ∨ c = bC ∨ c = 103 ∨ c = 99) := by
  rcases h with rfl | rfl | rfl | rfl | rfl <;> decide

theorem gcCount_ReverseComplement (X : Str) (h : IsDNA X) :
    gcCount (ReverseComplement X) = gcCount X := by
  unfold gcCount ReverseComplement
  congr 1
  rw [← List.countP_eq_length_filter, ← List.countP_eq_length_filter, List.countP_map]
  rw [(List.reverse_perm X).countP_eq]
  apply List.countP_congr
  intro c hc
  simp only [Function.comp, decide_eq_true_eq]
  exact complement_gc (h c hc)

/-- Claim C11.  For every string `X` over `{A, C, G, T, N}`,
`ReverseComplement(ReverseComplement(X)) = X`. -/
theorem reverseComplement_involution (X : Str) (h : IsDNA X) :
    ReverseComplement (ReverseComplement X) = X := by
  unfold ReverseComplement
  rw [← List.map_reverse, List.reverse_reverse, List.map_map]
  conv_rhs => rw [← List.map_id X]
  apply List.map_congr_left
  intro c hc
  exact complement_complement (h c hc)

theorem reverseComplement_involution_witness :
    IsDNA (bytes "ACGTNNGA") ∧
      ReverseComplement (ReverseComplement (bytes "ACGTNNGA")) = bytes "ACGTNNGA" :=
  ⟨by decide, reverseComplement_involution (bytes "ACGTNNGA") (by decide)⟩

/-- Claim C13.  For every string `X` over `{A, C, G, T, N}`, the reverse
complement has the same `G + C` count and the same length as `X`, so
`CalculateGCContent` returns the same value for both, in every `float64`
arithmetic; in the exact arithmetic `GC(X) + GC(rc(X)) = 2 * GC(X)`. -/
theorem gcContent_reverseComplement (fl : FloatOps F) (X : Str) (h : IsDNA X) :
    gcCount (ReverseComplement X) = gcCount X ∧
    strLen (ReverseComplement X) = strLen X ∧
    CalculateGCContent fl (ReverseComplement X) = CalculateGCContent fl X ∧
    exactOps.add (CalculateGCContent exactOps X)
        (CalculateGCContent exactOps (ReverseComplement X)) =
      exactOps.mul (exactOps.lit 2) (CalculateGCContent exactOps X) := by
  have h1 := gcCount_ReverseComplement X h
  have h2 := strLen_ReverseComplement X
  have h3 : ∀ (g : FloatOps F),
      CalculateGCContent g (ReverseComplement X) = CalculateGCContent g X := by
    intro g
    unfold CalculateGCContent
    rw [h1, h2]
    have : (ReverseComplement X).length = X.length := by
      simp [ReverseComplement]
    rw [this]
  have h4 : CalculateGCContent exactOps (ReverseComplement X) = CalculateGCContent exactOps X := by
    unfold CalculateGCContent
    rw [h1, h2]
    have : (ReverseComplement X).length = X.length := by
      simp [ReverseComplement]
    rw [this]
  refine ⟨h1, h2, h3 fl, ?_⟩
  rw [h4]
  unfold CalculateGCContent
  split_ifs
  · simp [exactOps, Exact.lift]
  · simp only [exactOps, Exact.lift]
    congr 1
    ring

theorem gcContent_reverseComplement_witness :
    IsDNA (bytes "GATTACANCG") ∧
      gcCount (ReverseComplement (bytes "GATTACANCG")) = gcCount (bytes "GATTACANCG") ∧
      strLen (ReverseComplement (bytes "GATTACANCG")) = strLen (bytes "GATTACANCG") ∧
      CalculateGCContent exactOps (ReverseComplement (bytes "GATTACANCG")) =
        CalculateGCContent exactOps (bytes "GATTACANCG") ∧
      exactOps.add (CalculateGCContent exactOps (bytes "GATTACANCG"))
          (CalculateGCContent exactOps (ReverseComplement (bytes "GATTACANCG"))) =
        exactOps.mul (exactOps.lit 2) (CalculateGCContent exactOps (bytes "GATTACANCG")) :=
  ⟨by decide, gcContent_reverseComplement exactOps (bytes "GATTACANCG") (by decide)⟩

end Aligner

/-! ## The run-time checks never fail on inputs in range -/

namespace Aligner

namespace Checked

variable {F : Type}

theorem index_eq (s : Str) (i : Int) (h0 : 0 ≤ i) (h1 : i < strLen s) :
    index s i = some (byteAt s i) := by
  unfold index
  rw [if_pos ⟨h0, h1⟩]

theorem slice_eq (s : Str) (a b : Int) (h0 : 0 ≤ a) (h1 : a ≤ b) (h2 : b ≤ strLen s) :
    slice s a b = some (sliceI s a b) := by
  unfold slice
  rw [if_pos ⟨h0, h1, h2⟩]

theorem eqAt_eq (query ref : Str) (i j : Int) (hi0 : 0 ≤ i) (hi1 : i < strLen query)
    (hj0 : 0 ≤ j) (hj1 : j < strLen ref) :
    eqAt query ref i j = some (decide (byteAt query i = byteAt ref j)) := by
  unfold eqAt
  rw [index_eq query i hi0 hi1, index_eq ref j hj0 hj1]
  rfl

theorem guarded_eq (c : Prop) [Decidable c] (x : Option Bool) (p : Prop) [Decidable p]
    (h : c → x = some (decide p)) : guarded c x = some (decide (c ∧ p)) := by
  unfold guarded
  by_cases hc : c
  · rw [if_pos hc, h hc]
    simp [hc]
  · rw [if_neg hc]
    simp [hc]

theorem forEach_eq {α β : Type} (f : α → Option (List β)) (g : α → List β) :
    ∀ (l : List α), (∀ x ∈ l, f x = some (g x)) → forEach f l = some (l.flatMap g) := by
  intro l
  induction l with
  | nil => intro _; rfl
  | cons x xs ih =>
    intro h
    unfold forEach
    rw [h x (List.mem_cons_self _ _), ih (fun y hy => h y (List.mem_cons_of_mem _ hy))]
    rfl

/-- A round of the forward loop reads inside both strings. -/
theorem fwdBody_eq (query ref : Str) (s : ExtState) (hq0 : 0 ≤ s.q) (hr0 : 0 ≤ s.r)
    (hq1 : s.q < strLen query) (hr1 : s.r < strLen ref) :
    fwdBody query ref s = some (Aligner.fwdBody query ref s) := by
  unfold fwdBody Aligner.fwdBody
  rw [eqAt_eq query ref s.q s.r hq0 hq1 hr0 hr1,
    guarded_eq (s.q + 1 < strLen query ∧ s.r < strLen ref) _
      (byteAt query (s.q + 1) = byteAt ref s.r)
      (fun h => eqAt_eq query ref _ _ (by omega) h.1 hr0 h.2),
    guarded_eq (s.q + 2 < strLen query ∧ s.r < strLen ref) _
      (byteAt query (s.q + 2) = byteAt ref s.r)
      (fun h => eqAt_eq query ref _ _ (by omega) h.1 hr0 h.2),
    guarded_eq (s.r + 1 < strLen ref ∧ s.q < strLen query) _
      (byteAt query s.q = byteAt ref (s.r + 1))
      (fun h => eqAt_eq query ref _ _ hq0 h.2 (by omega) h.1),
    guarded_eq (s.r + 2 < strLen ref ∧ s.q < strLen query) _
      (byteAt query s.q = byteAt ref (s.r + 2))
      (fun h => eqAt_eq query ref _ _ hq0 h.2 (by omega) h.1)]
  simp only [Option.bind_eq_bind, Option.some_bind, Option.pure_def, decide_eq_true_eq,
    and_assoc]
  split_ifs <;> rfl

theorem fwdBody_step (query ref : Str) (s : ExtState) :
    s.q + 1 ≤ (Aligner.fwdBody query ref s).q ∧ s.r ≤ (Aligner.fwdBody query ref s).r := by
  unfold Aligner.fwdBody
  split_ifs <;> simp only <;> omega

/-- The forward loop ends before its fuel runs out, and reads inside both
strings. -/
theorem fwdLoop_eq (query ref : Str) (maxErrors : Int) :
    ∀ (fuel : Nat) (s : ExtState), 0 ≤ s.q → 0 ≤ s.r → 0 < fuel →
      strLen query - s.q < fuel →
      fwdLoop query ref maxErrors fuel s = some (Aligner.fwdLoop query ref maxErrors fuel s) := by
  intro fuel
  induction fuel with
  | zero => intro s _ _ h; omega
  | succ n ih =>
    intro s hq hr _ hf
    unfold fwdLoop Aligner.fwdLoop
    split_ifs with hc
    · rw [fwdBody_eq query ref s hq hr hc.1 hc.2.1]
      have hstep := fwdBody_step query ref s
      simp only [Option.bind_eq_bind, Option.some_bind]
      exact ih _ (by omega) (by omega) (by omega) (by omega)
    · rfl

/-- A round of the backward loop reads inside both strings. -/
theorem bwdBody_eq (query ref : Str) (s : ExtState) (hq0 : 0 ≤ s.q) (hr0 : 0 ≤ s.r)
    (hq1 : s.q < strLen query) (hr1 : s.r < strLen ref) :
    bwdBody query ref s = some (Aligner.bwdBody query ref s) := by
  unfold bwdBody Aligner.bwdBody
  rw [eqAt_eq query ref s.q s.r hq0 hq1 hr0 hr1,
    guarded_eq (s.q - 1 ≥ 0 ∧ s.r ≥ 0) _ (byteAt query (s.q - 1) = byteAt ref s.r)
      (fun h => eqAt_eq query ref _ _ h.1 (by omega) hr0 hr1),
    guarded_eq (s.q - 2 ≥ 0 ∧ s.r ≥ 0) _ (byteAt query (s.q - 2) = byteAt ref s.r)
      (fun h => eqAt_eq query ref _ _ h.1 (by omega) hr0 hr1),
    guarded_eq (s.r - 1 ≥ 0 ∧ s.q ≥ 0) _ (byteAt query s.q = byteAt ref (s.r - 1))
      (fun h => eqAt_eq query ref _ _ hq0 hq1 h.1 (by omega)),
    guarded_eq (s.r - 2 ≥ 0 ∧ s.q ≥ 0) _ (byteAt query s.q = byteAt ref (s.r - 2))
      (fun h => eqAt_eq query ref _ _ hq0 hq1 h.1 (by omega))]
  simp only [Option.bind_eq_bind, Option.some_bind, Option.pure_def, decide_eq_true_eq,
    and_assoc]
  split_ifs <;> rfl

theorem bwdBody_step (query ref : Str) (s : ExtState) :
    (Aligner.bwdBody query ref s).q ≤ s.q - 1 ∧ (Aligner.bwdBody query ref s).r ≤ s.r := by
  unfold Aligner.bwdBody
  split_ifs <;> simp only <;> omega

/-- The backward loop ends before its fuel runs out, and reads inside both
strings. -/
theorem bwdLoop_eq (query ref : Str) (maxErrors : Int) :
    ∀ (fuel : Nat) (s : ExtState), s.q < strLen query → s.r < strLen ref → 0 < fuel →
      s.q + 1 < fuel →
      bwdLoop query ref maxErrors fuel s = some (Aligner.bwdLoop query ref maxErrors fuel s) := by
  intro fuel
  induction fuel with
  | zero => intro s _ _ h; omega
  | succ n ih =>
    intro s hq hr _ hf
    unfold bwdLoop Aligner.bwdLoop
    split_ifs with hc
    · rw [bwdBody_eq query ref s hc.1 hc.2.1 hq hr]
      have hstep := bwdBody_step query ref s
      simp only [Option.bind_eq_bind, Option.some_bind]
      exact ih _ (by omega) (by omega) (by omega) (by omega)
    · rfl

theorem countEq_list_eq (leftQ leftR : Str) :
    ∀ (l : List Int), (∀ i ∈ l, 0 ≤ i ∧ i < strLen leftQ ∧ i < strLen leftR) →
      countEq leftQ leftR l =
        some (((l.filter (fun i => decide (byteAt leftQ i = byteAt leftR i))).length : Nat) :
          Int) := by
  intro l
  induction l with
  | nil => intro _; rfl
  | cons i rest ih =>
    intro h
    obtain ⟨h0, h1, h2⟩ := h i (List.mem_cons_self _ _)
    unfold countEq
    rw [eqAt_eq leftQ leftR i i h0 h1 h0 h2, ih (fun j hj => h j (List.mem_cons_of_mem _ hj))]
    simp only [Option.bind_eq_bind, Option.some_bind, Option.pure_def, decide_eq_true_eq]
    by_cases hb : byteAt leftQ i = byteAt leftR i
    · rw [if_pos hb, List.filter_cons_of_pos (by simpa using hb)]
      simp
    · rw [if_neg hb, List.filter_cons_of_neg (by simpa using hb)]

/-- The counting loop of the context adjustment reads inside both slices. -/
theorem countEq_eq (leftQ leftR : Str) (c : Int) (hq : strLen leftQ = c)
    (hr : strLen leftR = c) :
    countEq leftQ leftR ((List.range c.toNat).map fun (i : Nat) => (i : Int)) =
      some (Aligner.leftMatches leftQ leftR c) := by
  rw [countEq_list_eq]
  · unfold Aligner.leftMatches
    rw [castList_eq]
  · intro i hi
    obtain ⟨a, ha, rfl⟩ := List.mem_map.1 hi
    rw [List.mem_range] at ha
    omega

/-- `ExtendMatch` on a seed inside the strings: both loops end, and no read or
slice is out of range. -/
theorem ExtendMatch_eq (fl : FloatOps F) (query ref : Str) (qS rS k mm me : Int)
    (hq : 0 ≤ qS) (hr : 0 ≤ rS) (hk : 0 ≤ k) (hkq : qS + k ≤ strLen query)
    (hkr : rS + k ≤ strLen ref) :
    ExtendMatch fl query ref qS rS k mm me =
      some (Aligner.ExtendMatch fl query ref qS rS k mm me) := by
  have hlen : strLen query = (query.length : Int) := rfl
  unfold ExtendMatch Aligner.ExtendMatch
  simp only []
  generalize (if me = 0 then ExtendMaxErrors else me) = me0
  generalize (if mm = 0 then MinMatchLength else mm) = mm0
  rw [fwdLoop_eq query ref me0 (query.length + 1) ⟨qS + k, rS + k, 0, k⟩
    (by simp only; omega) (by simp only; omega) (by omega) (by simp only; push_cast; omega)]
  simp only [Option.bind_eq_bind, Option.some_bind]
  generalize Aligner.fwdLoop query ref me0 (query.length + 1) ⟨qS + k, rS + k, 0, k⟩ = fwd
  rw [bwdLoop_eq query ref me0 (query.length + 1) ⟨qS - 1, rS - 1, 0, fwd.totalMatches⟩
    (by simp only; omega) (by simp only; omega) (by omega) (by simp only; push_cast; omega)]
  simp only [Option.some_bind]
  have hb1 := bwdLoop_ge query ref me0 (query.length + 1) ⟨qS - 1, rS - 1, 0, fwd.totalMatches⟩
    (by simp only; omega) (by simp only; omega)
  have hb2 := bwdLoop_mono query ref me0 (query.length + 1)
    ⟨qS - 1, rS - 1, 0, fwd.totalMatches⟩
  generalize Aligner.bwdLoop query ref me0 (query.length + 1)
    ⟨qS - 1, rS - 1, 0, fwd.totalMatches⟩ = bwd at hb1 hb2
  simp only at hb2
  by_cases hL : fwd.q - (bwd.q + 1) ≤ 0
  · rw [if_pos hL, if_pos hL]
    rfl
  · rw [if_neg hL, if_neg hL]
    by_cases hc : fwd.q - (bwd.q + 1) > 50 ∧
        bwd.q + 1 ≥ min 20 ((fwd.q - (bwd.q + 1)) / 4) ∧
        bwd.r + 1 ≥ min 20 ((fwd.q - (bwd.q + 1)) / 4)
    · have hc0 : 0 ≤ min 20 ((fwd.q - (bwd.q + 1)) / 4) := by omega
      rw [if_pos hc, if_pos hc,
        slice_eq query _ _ (by omega) (by omega) (by omega),
        slice_eq ref _ _ (by omega) (by omega) (by omega)]
      simp only [Option.bind_eq_bind, Option.some_bind]
      rw [countEq_eq _ _ _
        (by rw [strLen_sliceI query _ _ (by omega) (by omega) (by omega)]; ring)
        (by rw [strLen_sliceI ref _ _ (by omega) (by omega) (by omega)]; ring)]
      simp only [Option.some_bind, Option.pure_def]
      split_ifs <;> rfl
    · rw [if_neg hc, if_neg hc]
      simp only [Option.bind_eq_bind, Option.some_bind, Option.pure_def]
      split_ifs <;> rfl

end Checked

end Aligner

/-! ## The matchers never fail -/

namespace Aligner

namespace Checked

variable {F : Type}

theorem foldlM_eq_foldl {α β : Type} (f : β → α → Option β) (g : β → α → β) :
    ∀ (l : List α) (init : β), (∀ x ∈ l, ∀ acc, f acc x = some (g acc x)) →
      l.foldlM f init = some (l.foldl g init) := by
  intro l
  induction l with
  | nil => intro init _; rfl
  | cons x xs ih =>
    intro init h
    rw [List.foldlM_cons, h x (List.mem_cons_self _ _) init]
    exact ih _ (fun y hy => h y (List.mem_cons_of_mem _ hy))

theorem stepRange_eq_some (n step : Int) (h : 0 < step) :
    stepRange n step = some (Aligner.stepRange n step) := by
  unfold stepRange
  rw [if_neg (by omega)]

theorem buildRefKmers_eq_some (ref : Str) (k : Int) (hk : 0 ≤ k) :
    buildRefKmers ref k = some (Aligner.buildRefKmers ref k) := by
  unfold buildRefKmers Aligner.buildRefKmers
  rw [castList_eq, List.foldl_map]
  apply foldlM_eq_foldl
  intro i hi m
  rw [List.mem_range] at hi
  rw [slice_eq ref _ _ (by omega) (by omega) (by omega)]
  rfl

/-- `FindExactMatches` never fails: its guard keeps every slice in range. -/
theorem FindExactMatches_eq (query ref : Str) (k : Int) :
    FindExactMatches query ref k = some (Aligner.FindExactMatches query ref k) := by
  unfold FindExactMatches Aligner.FindExactMatches
  simp only []
  generalize (if k = 0 then DefaultK else k) = k0
  split_ifs with h
  · rfl
  · push_neg at h
    rw [buildRefKmers_eq_some ref k0 (by omega)]
    simp only [Option.bind_eq_bind, Option.some_bind]
    apply forEach_eq
    intro i hi
    rw [List.mem_range] at hi
    rw [slice_eq query _ _ (by omega) (by omega) (by omega)]
    rfl

/-- The loop of `FindAnchors` never fails on seeds inside the strings, for a
stride other than `0`. -/
theorem anchorsLoop_eq (fl : FloatOps F) (query ref : Str) (mm st me : Int) (hst : st ≠ 0) :
    ∀ (ems : List KmerMatch) (i : Nat) (anchors : List (AnchorMatch F))
      (processed : Int → Int → Bool),
      (∀ em ∈ ems, 0 ≤ em.QueryPos ∧ 0 ≤ em.RefPos ∧ 0 < em.Length ∧
        em.QueryPos + em.Length ≤ strLen query ∧ em.RefPos + em.Length ≤ strLen ref) →
      anchorsLoop fl query ref mm st me ems i anchors processed =
        some (Aligner.anchorsLoop fl query ref mm st me ems i anchors processed) := by
  intro ems
  induction ems with
  | nil => intro i anchors processed _; rfl
  | cons em rest ih =>
    intro i anchors processed h
    obtain ⟨h1, h2, h3, h4, h5⟩ := h em (List.mem_cons_self _ _)
    have hrest := fun e he => h e (List.mem_cons_of_mem _ he)
    unfold anchorsLoop Aligner.anchorsLoop
    have hmod : mod (i : Int) st = some ((i : Int) % st) := by
      unfold mod
      rw [if_neg hst]
    rw [hmod, ExtendMatch_eq fl query ref _ _ _ mm me h1 h2 h3.le h4 h5]
    simp only [Option.bind_eq_bind, Option.some_bind]
    split_ifs with hc
    · exact ih _ _ _ hrest
    · cases hext : Aligner.ExtendMatch fl query ref em.QueryPos em.RefPos em.Length mm me with
      | none => exact ih _ _ _ hrest
      | some anchor =>
        simp only []
        rw [stepRange_eq_some _ _ (by split_ifs <;> omega)]
        simp only [Option.some_bind]
        exact ih _ _ _ hrest

/-- `FindAnchors` never fails. -/
theorem FindAnchors_eq (fl : FloatOps F) (query ref : Str) (k mm st me : Int) :
    FindAnchors fl query ref k mm st me = some (Aligner.FindAnchors fl query ref k mm st me) := by
  unfold FindAnchors Aligner.FindAnchors
  simp only []
  have hst : (if st = 0 then DefaultStride else st) ≠ 0 := by
    split_ifs with h
    · decide
    · exact h
  generalize (if st = 0 then DefaultStride else st) = st0 at hst
  generalize (if k = 0 then DefaultK else k) = k0
  generalize (if mm = 0 then MinMatchLength else mm) = mm0
  generalize (if me = 0 then DefaultMaxErrors else me) = me0
  split_ifs
  · rfl
  · rw [FindExactMatches_eq]
    simp only [Option.bind_eq_bind, Option.some_bind]
    rw [anchorsLoop_eq fl query ref mm0 st0 me0 hst _ _ _ _
      (fun em hem => mem_FindExactMatches hem)]
    rfl

/-- `FindReverseAnchors` never fails. -/
theorem FindReverseAnchors_eq (fl : FloatOps F) (query ref : Str) (k mm st me : Int) :
    FindReverseAnchors fl query ref k mm st me =
      some (Aligner.FindReverseAnchors fl query ref k mm st me) := by
  unfold FindReverseAnchors Aligner.FindReverseAnchors
  simp only []
  rw [FindAnchors_eq]
  rfl

/-- `findMatchesInRegionCore` never fails. -/
theorem findMatchesInRegionCore_eq (fl : FloatOps F) (qr ref : Str) (mm me : Int)
    (ks : List Int) (st : Int) :
    findMatchesInRegionCore fl qr ref mm me ks st =
      some (Aligner.findMatchesInRegionCore fl qr ref mm me ks st) := by
  unfold findMatchesInRegionCore Aligner.findMatchesInRegionCore
  apply forEach_eq
  intro k _
  split_ifs
  · rfl
  · rw [FindAnchors_eq, FindReverseAnchors_eq]
    rfl

/-- `FindMatchesInRegion` never fails. -/
theorem FindMatchesInRegion_eq (fl : FloatOps F) (qr ref : Str) (mm me : Int) :
    FindMatchesInRegion fl qr ref mm me = some (Aligner.FindMatchesInRegion fl qr ref mm me) := by
  unfold FindMatchesInRegion Aligner.FindMatchesInRegion
  simp only []
  split_ifs <;> first | rfl | exact findMatchesInRegionCore_eq fl qr ref _ _ _ _

/-- `FindMatchesInLargeRegion` never fails: the step of its chunk loop is
positive and every chunk lies inside the region. -/
theorem FindMatchesInLargeRegion_eq (fl : FloatOps F) (qr ref : Str) (ms mm me : Int) :
    FindMatchesInLargeRegion fl qr ref ms mm me =
      some (Aligner.FindMatchesInLargeRegion fl qr ref ms mm me) := by
  unfold FindMatchesInLargeRegion Aligner.FindMatchesInLargeRegion
  lift_lets
  extract_lets regionLen maxSegSize minMatchL maxErrDefault chunkSize0 overlap0 chunkSize
    overlap1 overlap2 overlap
  have hcs : 0 < chunkSize := by
    show 0 < (if chunkSize0 ≤ 0 then MaxSegmentSize else chunkSize0)
    split_ifs with h
    · decide
    · omega
  have hstep : 0 < chunkSize - overlap := by
    show 0 < chunkSize - (if chunkSize - overlap2 ≤ 0 then
      (if chunkSize > 1 then chunkSize - 1 else 0) else overlap2)
    split_ifs <;> omega
  clear_value chunkSize overlap
  by_cases h0 : regionLen = 0
  · simp only [if_pos h0]
  · simp only [if_neg h0]
    by_cases h1 : regionLen ≤ maxSegSize
    · simp only [if_pos h1]
      exact FindMatchesInRegion_eq fl qr ref _ _
    · simp only [if_neg h1]
      rw [stepRange_eq_some _ _ hstep]
      simp only [Option.bind_eq_bind, Option.some_bind]
      rw [forEach_eq _ (fun i =>
        if min (i + chunkSize) regionLen - i < minMatchL then []
        else
          (Aligner.findMatchesInRegionCore fl (sliceI qr i (min (i + chunkSize) regionLen)) ref
            minMatchL
            (if i = 0 ∨ min (i + chunkSize) regionLen = regionLen then
              maxErrDefault + BoundaryExtraErrors else maxErrDefault)
            (if strLen (sliceI qr i (min (i + chunkSize) regionLen)) < 100 then
              VeryShortSegmentKValues
            else if strLen (sliceI qr i (min (i + chunkSize) regionLen)) < 300 then
              ShortSegmentKValues
            else LongerSegmentKValues) 1).map
            fun m => { m with QueryStart := m.QueryStart + i, QueryEnd := m.QueryEnd + i })]
      · simp only [Option.some_bind]
        split_ifs <;> rfl
      · intro i hi
        have hi0 := mem_stepRange_nonneg hi
        obtain ⟨_, _, hlt⟩ := (mem_stepRange hstep).1 hi
        by_cases hsmall : min (i + chunkSize) regionLen - i < minMatchL
        · simp only [if_pos hsmall]
        · simp only [if_neg hsmall]
          rw [slice_eq qr _ _ hi0 (by omega)
            (by show min (i + chunkSize) regionLen ≤ strLen qr; omega)]
          simp only [Option.bind_eq_bind, Option.some_bind]
          rw [findMatchesInRegionCore_eq]
          rfl

end Checked

end Aligner

/-! ## The coverage pass never fails on inputs in range -/

namespace Aligner

namespace Checked

variable {F : Type}

/-- The sampling loop reads inside the chunk and the reference. -/
theorem bestSample_eq (fl : FloatOps F) (ref chunkStr : Str) (len : Int)
    (hlen : strLen chunkStr = len) :
    ∀ (ps : List Int) (best : Int × F), (∀ p ∈ ps, 0 ≤ p ∧ p + len ≤ strLen ref) →
      bestSample fl ref chunkStr len ps best =
        some (Aligner.bestSample fl ref chunkStr len ps best) := by
  have hl0 : 0 ≤ len := by rw [← hlen]; exact Int.ofNat_nonneg _
  intro ps
  induction ps with
  | nil => intro best _; rfl
  | cons p rest ih =>
    intro best h
    obtain ⟨h0, h1⟩ := h p (List.mem_cons_self _ _)
    have hrest := fun x hx => h x (List.mem_cons_of_mem _ hx)
    unfold bestSample Aligner.bestSample
    rw [slice_eq ref _ _ h0 (by omega) h1]
    simp only [Option.bind_eq_bind, Option.some_bind]
    rw [countEq_eq chunkStr _ len hlen
      (by rw [strLen_sliceI ref _ _ h0 (by omega) h1]; ring)]
    simp only [Option.some_bind]
    unfold Aligner.leftMatches
    split_ifs
    · exact ih _ hrest
    · exact ih _ hrest

/-- A fallback tile of a region inside the query never fails. -/
theorem fallbackTile_eq (fl : FloatOps F) (query ref : Str) (qStart len off : Int)
    (hq : 0 ≤ qStart) (hlen : qStart + len ≤ strLen query) (ho : 0 ≤ off) :
    fallbackTile fl query ref qStart len off =
      some (Aligner.fallbackTile fl query ref qStart len off) := by
  have hS : SmallSegmentLength = 275 := rfl
  unfold fallbackTile Aligner.fallbackTile
  simp only []
  by_cases hc : min (off + SmallSegmentLength) len ≤ off
  · simp only [if_pos hc]
  · simp only [if_neg hc]
    rw [slice_eq query _ _ (by omega) (by omega) (by omega)]
    simp only [Option.bind_eq_bind, Option.some_bind]
    have hstep : 0 < (if max 1 (strLen ref / SamplePositionsCount) = 0 then 1
        else max 1 (strLen ref / SamplePositionsCount)) := by
      split_ifs <;> omega
    generalize (if max 1 (strLen ref / SamplePositionsCount) = 0 then 1
      else max 1 (strLen ref / SamplePositionsCount)) = step at hstep
    rw [stepRange_eq_some _ _ hstep]
    simp only [Option.some_bind]
    rw [bestSample_eq fl ref _ _ rfl]
    · rfl
    · intro p hp
      obtain ⟨_, _, hlt⟩ := (mem_stepRange hstep).1 hp
      exact ⟨mem_stepRange_nonneg hp, by omega⟩

theorem fallbackSegment_eq (refLen qStart qEnd : Int) (hr : refLen ≠ 0) :
    fallbackSegment refLen qStart qEnd = some (Aligner.fallbackSegment refLen qStart qEnd) := by
  unfold fallbackSegment Aligner.fallbackSegment mod
  rw [if_neg hr]
  simp only [Option.bind_eq_bind, Option.some_bind, Option.pure_def]
  split_ifs <;> rfl

theorem finalFallback_eq (refLen : Int) (reg : Int × Int) (hr : refLen ≠ 0) :
    finalFallback refLen reg = some (Aligner.finalFallback refLen reg) := by
  unfold finalFallback Aligner.finalFallback mod
  simp only [if_neg hr, Option.bind_eq_bind, Option.some_bind, Option.pure_def]
  split_ifs <;> rfl

/-- The search in an uncovered region inside the query never fails, for a
reference that is not empty. -/
theorem regionSegments_eq (fl : FloatOps F) (query ref : Str) (R : Int × Int)
    (hq : 0 ≤ R.1) (hlen : R.2 < strLen query) (hr : strLen ref ≠ 0) :
    regionSegments fl query ref R = some (Aligner.regionSegments fl query ref R) := by
  have hV : VerySmallRegionThreshold = 4 := rfl
  unfold regionSegments Aligner.regionSegments
  simp only []
  by_cases h1 : (R.2 - R.1) + 1 < VerySmallRegionThreshold
  · simp only [if_pos h1]
  · simp only [if_neg h1]
    rw [slice_eq query _ _ hq (by omega) (by omega)]
    simp only [Option.bind_eq_bind, Option.some_bind]
    have hcont : ∀ found : List (AnchorMatch F),
        (if found.length > 0 then
            pure (addRegionMatches R.1 (sortSlice (fun a b => fl.lt b.Score a.Score) found) [])
          else if (R.2 - R.1) + 1 > MaxSegmentSize then
            (stepRange ((R.2 - R.1) + 1) SmallSegmentLength).bind fun offsets =>
              forEach (fallbackTile fl query ref R.1 ((R.2 - R.1) + 1)) offsets
          else (fallbackSegment (strLen ref) R.1 R.2).bind fun seg => pure [seg]) =
        some (if found.length > 0 then
            addRegionMatches R.1 (sortSlice (fun a b => fl.lt b.Score a.Score) found) []
          else if (R.2 - R.1) + 1 > MaxSegmentSize then
            (Aligner.stepRange ((R.2 - R.1) + 1) SmallSegmentLength).flatMap
              (Aligner.fallbackTile fl query ref R.1 ((R.2 - R.1) + 1))
          else [Aligner.fallbackSegment (strLen ref) R.1 R.2]) := by
      intro found
      by_cases h2 : found.length > 0
      · simp only [if_pos h2]
        rfl
      · simp only [if_neg h2]
        by_cases h3 : (R.2 - R.1) + 1 > MaxSegmentSize
        · simp only [if_pos h3]
          rw [stepRange_eq_some _ _ (by decide)]
          simp only [Option.some_bind]
          apply forEach_eq
          intro off hoff
          exact fallbackTile_eq fl query ref R.1 _ off hq (by omega) (mem_stepRange_nonneg hoff)
        · simp only [if_neg h3]
          rw [fallbackSegment_eq _ _ _ hr]
          rfl
    by_cases hbig : (R.2 - R.1) + 1 > 1000
    · simp only [if_pos hbig]
      rw [FindMatchesInLargeRegion_eq]
      simp only [Option.some_bind]
      exact hcont _
    · simp only [if_neg hbig]
      rw [FindMatchesInRegion_eq]
      simp only [Option.some_bind]
      exact hcont _

/-- The walk of `ResolveOverlaps` returns at least one segment. -/
theorem resolveWalk_ne_nil : ∀ (rest : List Segment) (prev : Segment) (out : List Segment),
    resolveWalk prev out rest ≠ [] := by
  intro rest
  induction rest with
  | nil => intro prev out; simp [resolveWalk]
  | cons c rest ih =>
    intro prev out
    unfold resolveWalk
    split_ifs <;> exact ih _ _

theorem ResolveOverlaps_ne_nil (l : List Segment) (h : l ≠ []) : ResolveOverlaps l ≠ [] := by
  unfold ResolveOverlaps
  split
  · rename_i heq
    have := (sortSlice_perm resolveLess l).length_eq
    rw [heq] at this
    exact absurd (List.length_eq_zero.1 this.symm) h
  · exact resolveWalk_ne_nil _ _ _

/-- A non-empty query has an uncovered region when there is no segment. -/
theorem FindUncoveredRegions_nil (queryLen : Int) (h : 0 < queryLen) :
    FindUncoveredRegions queryLen [] ≠ [] := by
  unfold FindUncoveredRegions
  simp [h]

theorem flatMap_single {α β : Type} (f : α → β) (l : List α) :
    (l.flatMap fun x => [f x]) = l.map f := by
  induction l with
  | nil => rfl
  | cons x xs ih => simp [List.flatMap_cons, ih]

/-- The coverage pass returns at least one segment for a query that is not
empty. -/
theorem EnsureCompleteCoverage_ne_nil (fl : FloatOps F) (Q R : Str) (initial : List Segment)
    (hQ : 0 < strLen Q) : Aligner.EnsureCompleteCoverage fl Q R initial ≠ [] := by
  unfold Aligner.EnsureCompleteCoverage
  lift_lets
  extract_lets queryLen refLen current uncovered newly all resolved finalUncovered
  have hq0 : ¬ queryLen = 0 := by
    intro h
    have : strLen Q = 0 := h
    omega
  have hq1 : 0 < queryLen := hQ
  rw [if_neg hq0]
  split_ifs with h1 h2
  · intro hc
    have hu : uncovered = FindUncoveredRegions queryLen [] := by
      show FindUncoveredRegions queryLen current = _
      rw [hc]
    exact FindUncoveredRegions_nil queryLen hq1 (hu ▸ List.length_eq_zero.1 h1)
  · apply ResolveOverlaps_ne_nil
    intro hc
    have := (List.append_eq_nil.1 hc).2
    rw [List.map_eq_nil_iff] at this
    rw [this] at h2
    simp at h2
  · intro hc
    have hu : finalUncovered = FindUncoveredRegions queryLen [] := by
      show FindUncoveredRegions queryLen resolved = _
      rw [hc]
    have h3 : finalUncovered = [] := List.length_eq_zero.1 (by omega)
    exact FindUncoveredRegions_nil queryLen hq1 (hu ▸ h3)

/-- The coverage pass never fails, for a reference that is not empty and initial
segments that start inside the query or at its end. -/
theorem EnsureCompleteCoverage_eq (fl : FloatOps F) (Q R : Str) (initial : List Segment)
    (hR : strLen R ≠ 0) (hinit : ∀ s ∈ initial, s.QueryStart ≤ strLen Q) :
    EnsureCompleteCoverage fl Q R initial =
      some (Aligner.EnsureCompleteCoverage fl Q R initial) := by
  unfold EnsureCompleteCoverage Aligner.EnsureCompleteCoverage
  simp only []
  by_cases h0 : strLen Q = 0
  · simp only [if_pos h0]
  · simp only [if_neg h0]
    by_cases h1 : (FindUncoveredRegions (strLen Q)
        (sortSlice (fun a b => decide (a.QueryStart < b.QueryStart)) initial)).length = 0
    · simp only [if_pos h1]
    · simp only [if_neg h1]
      rw [forEach_eq _ (Aligner.regionSegments fl Q R)]
      · simp only [Option.bind_eq_bind, Option.some_bind]
        split_ifs with h2
        · rw [forEach_eq _ (fun reg => [Aligner.finalFallback (strLen R) reg])]
          · simp only [Option.some_bind, Option.pure_def, flatMap_single]
          · intro reg _
            rw [finalFallback_eq _ _ hR]
            rfl
        · rfl
      · intro g hg
        refine regionSegments_eq fl Q R g (FindUncoveredRegions_start _ _ g hg)
          (FindUncoveredRegions_lt _ _ ?_ g hg) hR
        intro s hs
        exact hinit s ((mem_sortSlice _ _ _).1 hs)

end Checked

/-- Claim C21, amended.  For every query `Q` with `|Q| > 0`, every reference `R`
that is not empty and every initial list of segments with `q_start ≤ |Q|` (in
particular every list of segments that satisfy the Segment invariant),
`EnsureCompleteCoverage(Q, R, initial)` completes without a run-time failure: no
division by zero, no index or slice out of range, every loop ends, here and in the
matchers it calls.  The list it returns has at least one segment. -/
theorem ensureCompleteCoverage_safe (fl : FloatOps F) (Q R : Str) (initial : List Segment)
    (hQ : 0 < strLen Q) (hR : 0 < strLen R)
    (hinit : ∀ s ∈ initial, s.QueryStart ≤ strLen Q) :
    ∃ out, Checked.EnsureCompleteCoverage fl Q R initial = some out ∧
      out = EnsureCompleteCoverage fl Q R initial ∧ out ≠ [] :=
  ⟨_, Checked.EnsureCompleteCoverage_eq fl Q R initial (by omega) hinit, rfl,
    Checked.EnsureCompleteCoverage_ne_nil fl Q R initial hQ⟩

theorem ensureCompleteCoverage_safe_witness :
    0 < strLen (bytes "ACGTAC") ∧ 0 < strLen (bytes "GT") ∧
    (∀ s ∈ ([⟨1, 2, 0, 1⟩] : List Segment), s.QueryStart ≤ strLen (bytes "ACGTAC")) ∧
    ∃ out, Checked.EnsureCompleteCoverage exactOps (bytes "ACGTAC") (bytes "GT")
        [⟨1, 2, 0, 1⟩] = some out ∧
      out = EnsureCompleteCoverage exactOps (bytes "ACGTAC") (bytes "GT") [⟨1, 2, 0, 1⟩] ∧
      out ≠ [] :=
  ⟨by decide, by decide, by decide,
    ensureCompleteCoverage_safe exactOps (bytes "ACGTAC") (bytes "GT") [⟨1, 2, 0, 1⟩]
      (by decide) (by decide) (by decide)⟩

/-- Claim C21 as stated fails for an empty reference and for an initial segment
that starts beyond the query: on the query `ACGT`, the coverage pass divides by
`len(ref) = 0` when the reference is empty, and it slices the query out of range
when the initial list holds a segment with `q_start = 10`. -/
theorem ensureCompleteCoverage_fails :
    0 < strLen (bytes "ACGT") ∧
    Checked.EnsureCompleteCoverage exactOps (bytes "ACGT") [] [] = none ∧
    Checked.mod 0 (strLen []) = none ∧
    Checked.EnsureCompleteCoverage exactOps (bytes "ACGT") (bytes "ACGT") [⟨10, 20, 0, 0⟩] =
      none ∧
    Checked.slice (bytes "ACGT") 0 (9 + 1) = none := by
  refine ⟨by decide, by decide!, by decide, by decide!, by decide⟩

end Aligner

/-! ## `ResolveOverlaps` keeps a segment of maximum query length -/

namespace Aligner

/-- Claim C37.  For every non-empty list of segments, the output of
`ResolveOverlaps` contains a segment whose query length is the maximum of the query
lengths of the input segments: a longest input segment is never discarded. -/
theorem resolveOverlaps_keeps_max_length (segments : List Segment) (hne : segments ≠ []) :
    ∃ s ∈ ResolveOverlaps segments,
      IsGreatest {n | ∃ t ∈ segments, qLength t = n} (qLength s) := by
  obtain ⟨m, hm, hmax⟩ := exists_longest segments hne
  obtain ⟨s, hs, hle⟩ := ResolveOverlaps_longer segments m hm
  refine ⟨s, hs, ⟨s, ResolveOverlaps_mem segments s hs, rfl⟩, ?_⟩
  rintro n ⟨t, ht, rfl⟩
  exact le_trans (hmax t ht) hle

theorem resolveOverlaps_keeps_max_length_witness :
    ([⟨20, 30, 5, 15⟩, ⟨0, 10, 0, 10⟩, ⟨8, 40, 40, 72⟩] : List Segment) ≠ [] ∧
    ∃ s ∈ ResolveOverlaps [⟨20, 30, 5, 15⟩, ⟨0, 10, 0, 10⟩, ⟨8, 40, 40, 72⟩],
      IsGreatest
        {n | ∃ t ∈ ([⟨20, 30, 5, 15⟩, ⟨0, 10, 0, 10⟩, ⟨8, 40, 40, 72⟩] : List Segment),
          qLength t = n}
        (qLength s) :=
  ⟨by simp, resolveOverlaps_keeps_max_length _ (by simp)⟩

end Aligner

/-! ## `MergeAdjacentSegments` keeps the query order -/

namespace Aligner

variable {F : Type}

/-- Segments of which each starts after the end of the one before it are pairwise
in query order. -/
theorem pairwise_of_chain_qBefore : ∀ (l : List Segment),
    (∀ s ∈ l, s.QueryStart ≤ s.QueryEnd) → l.Chain' QBefore → l.Pairwise QBefore := by
  intro l
  induction l with
  | nil => intro _ _; exact List.Pairwise.nil
  | cons a rest ih =>
    intro hwf hch
    have hrest := ih (fun s hs => hwf s (List.mem_cons_of_mem _ hs)) (List.Chain'.tail hch)
    refine List.pairwise_cons.2 ⟨?_, hrest⟩
    cases rest with
    | nil => intro b hb; simp at hb
    | cons b rest2 =>
      have hab : QBefore a b := (List.chain'_cons.1 hch).1
      have hb := hwf b (by simp)
      obtain ⟨hb1, _⟩ := List.pairwise_cons.1 hrest
      intro c hc
      rcases List.mem_cons.1 hc with h | h
      · rw [h]; exact hab
      · have := hb1 c h
        unfold QBefore at hab this ⊢
        omega

/-- The merge loop keeps the query order, and every segment it returns has
`q_start ≤ q_end`. -/
theorem mergeWalk_qBefore (fl : FloatOps F) (g : Int) :
    ∀ (rest : List Segment) (cur : Segment) (out : List Segment),
      cur.QueryStart ≤ cur.QueryEnd → (∀ x ∈ rest, cur.QueryEnd < x.QueryStart) →
      rest.Pairwise QBefore → (∀ x ∈ rest, x.QueryStart ≤ x.QueryEnd) →
      (∀ s ∈ out, s.QueryStart ≤ s.QueryEnd) → (out ++ [cur]).Pairwise QBefore →
      (mergeWalk fl g cur out rest).Pairwise QBefore ∧
        ∀ s ∈ mergeWalk fl g cur out rest, s.QueryStart ≤ s.QueryEnd := by
  intro rest
  induction rest with
  | nil =>
    intro cur out hc _ _ _ ho hpw
    unfold mergeWalk
    refine ⟨hpw, ?_⟩
    intro s hs
    rcases List.mem_append.1 hs with h | h
    · exact ho s h
    · rw [List.mem_singleton.1 h]; exact hc
  | cons n rest ih =>
    intro cur out hc hlt hrp hwf ho hpw
    obtain ⟨h1, h2⟩ := List.pairwise_cons.1 hrp
    have hn := hwf n (List.mem_cons_self _ _)
    have hcn := hlt n (List.mem_cons_self _ _)
    have hwf2 : ∀ x ∈ rest, x.QueryStart ≤ x.QueryEnd :=
      fun x hx => hwf x (List.mem_cons_of_mem _ hx)
    unfold mergeWalk
    split_ifs
    · exact ih ⟨cur.QueryStart, n.QueryEnd, cur.RefStart, n.RefEnd⟩ out
        (by simp only; omega) (fun x hx => h1 x hx) h2 hwf2 ho
        (pairwise_snoc_replace out cur _ hpw rfl)
    · apply ih n (out ++ [cur]) hn (fun x hx => h1 x hx) h2 hwf2 ?_
        (pairwise_snoc_qBefore out cur n hpw hc hcn)
      intro s hs
      rcases List.mem_append.1 hs with h | h
      · exact ho s h
      · rw [List.mem_singleton.1 h]; exact hc

/-- Claim C36.  For every list of segments with `q_start ≤ q_end` in which each
segment starts, in the query, strictly after the end of the one before it, and for
every `max_gap`, the output of `MergeAdjacentSegments` again has each segment
starting strictly after the end of the one before it (and `q_start ≤ q_end`), and
every query position covered by the input is covered by the output. -/
theorem mergeAdjacentSegments_keeps_order (fl : FloatOps F) (segs : List Segment) (g : Int)
    (hwf : ∀ s ∈ segs, s.QueryStart ≤ s.QueryEnd) (hch : segs.Chain' QBefore) :
    (MergeAdjacentSegments fl segs g).Chain' QBefore ∧
    (∀ s ∈ MergeAdjacentSegments fl segs g, s.QueryStart ≤ s.QueryEnd) ∧
    ∀ p, Covered segs p → Covered (MergeAdjacentSegments fl segs g) p := by
  have hpw := pairwise_of_chain_qBefore segs hwf hch
  unfold MergeAdjacentSegments
  split
  · exact ⟨List.chain'_nil, by simp, fun p hp => hp⟩
  · exact ⟨hch, hwf, fun p hp => hp⟩
  · rename_i first rest _
    obtain ⟨h1, h2⟩ := List.pairwise_cons.1 hpw
    have hf := hwf first (List.mem_cons_self _ _)
    have hr : ∀ x ∈ rest, x.QueryStart ≤ x.QueryEnd :=
      fun x hx => hwf x (List.mem_cons_of_mem _ hx)
    obtain ⟨h3, h4⟩ := mergeWalk_qBefore fl g rest first [] hf (fun x hx => h1 x hx) h2 hr
      (by simp) (by simp)
    refine ⟨h3.chain', h4, ?_⟩
    intro p hp
    exact mergeWalk_covers fl g rest first [] hf (fun x hx => h1 x hx) h2 hr p
      (by simpa using hp)

theorem mergeAdjacentSegments_keeps_order_witness :
    (∀ s ∈ ([⟨0, 9, 0, 9⟩, ⟨12, 20, 12, 20⟩, ⟨50, 60, 70, 80⟩] : List Segment),
      s.QueryStart ≤ s.QueryEnd) ∧
    ([⟨0, 9, 0, 9⟩, ⟨12, 20, 12, 20⟩, ⟨50, 60, 70, 80⟩] : List Segment).Chain' QBefore ∧
    ((MergeAdjacentSegments exactOps
        [⟨0, 9, 0, 9⟩, ⟨12, 20, 12, 20⟩, ⟨50, 60, 70, 80⟩] 5).Chain' QBefore ∧
      (∀ s ∈ MergeAdjacentSegments exactOps
          [⟨0, 9, 0, 9⟩, ⟨12, 20, 12, 20⟩, ⟨50, 60, 70, 80⟩] 5,
        s.QueryStart ≤ s.QueryEnd) ∧
      ∀ p, Covered [⟨0, 9, 0, 9⟩, ⟨12, 20, 12, 20⟩, ⟨50, 60, 70, 80⟩] p →
        Covered (MergeAdjacentSegments exactOps
          [⟨0, 9, 0, 9⟩, ⟨12, 20, 12, 20⟩, ⟨50, 60, 70, 80⟩] 5) p) :=
  ⟨by decide, by simp [QBefore],
    mergeAdjacentSegments_keeps_order exactOps _ 5 (by decide) (by simp [QBefore])⟩

end Aligner

/-! ## `ExtendMatch` is safe and keeps the seed -/

namespace Aligner

variable {F : Type}

/-- Claim C34.  For every `Q`, `R` and every seed `(q0, r0, k)` with `k ≥ 1`,
`0 ≤ q0`, `q0 + k ≤ |Q|`, `0 ≤ r0` and `r0 + k ≤ |R|`, `ExtendMatch` returns (both
loops end, and no index or slice expression leaves the bounds of `Q` or `R`: the
function with the run-time checks returns the value of the function without
them), and an anchor that it returns contains the seed and lies in range, with a
query length of at least `min_match` (of at least `MinMatchLength` when `min_match`
is given as `0`). -/
theorem extendMatch_safe (fl : FloatOps F) (Q R : Str) (q0 r0 k mm me : Int)
    (hk : 1 ≤ k) (hq0 : 0 ≤ q0) (hqk : q0 + k ≤ strLen Q) (hr0 : 0 ≤ r0)
    (hrk : r0 + k ≤ strLen R) :
    ∃ res, Checked.ExtendMatch fl Q R q0 r0 k mm me = some res ∧
      res = ExtendMatch fl Q R q0 r0 k mm me ∧
      ∀ a, res = some a →
        0 ≤ a.QueryStart ∧ a.QueryStart ≤ q0 ∧ q0 + k - 1 ≤ a.QueryEnd ∧
        a.QueryEnd < strLen Q ∧
        0 ≤ a.RefStart ∧ a.RefStart ≤ r0 ∧ r0 + k - 1 ≤ a.RefEnd ∧ a.RefEnd < strLen R ∧
        mm ≤ a.QueryEnd - a.QueryStart + 1 ∧
        (mm = 0 → MinMatchLength ≤ a.QueryEnd - a.QueryStart + 1) := by
  refine ⟨_, Checked.ExtendMatch_eq fl Q R q0 r0 k mm me hq0 hr0 (by omega) hqk hrk, rfl, ?_⟩
  intro a ha
  obtain ⟨h1, h2, h3, h4, h5, h6, h7, h8, h9⟩ :=
    ExtendMatch_seed fl Q R q0 r0 k mm me a ha hq0 hr0 hqk hrk
  refine ⟨h1, h2, h3, h4, h5, h6, h7, h8, ?_, ?_⟩
  · by_cases hm : mm = 0
    · rw [if_pos hm] at h9
      have : MinMatchLength = 28 := rfl
      omega
    · rw [if_neg hm] at h9
      exact h9
  · intro hm
    rw [if_pos hm] at h9
    exact h9

theorem extendMatch_safe_witness :
    (1 : Int) ≤ 3 ∧ (0 : Int) ≤ 1 ∧ (1 : Int) + 3 ≤ strLen (bytes "AACCAT") ∧
    (0 : Int) ≤ 2 ∧ (2 : Int) + 3 ≤ strLen (bytes "GAACCA") ∧
    ∃ res, Checked.ExtendMatch exactOps (bytes "AACCAT") (bytes "GAACCA") 1 2 3 4 1 =
        some res ∧
      res = ExtendMatch exactOps (bytes "AACCAT") (bytes "GAACCA") 1 2 3 4 1 ∧
      ∀ a, res = some a →
        0 ≤ a.QueryStart ∧ a.QueryStart ≤ 1 ∧ 1 + 3 - 1 ≤ a.QueryEnd ∧
        a.QueryEnd < strLen (bytes "AACCAT") ∧
        0 ≤ a.RefStart ∧ a.RefStart ≤ 2 ∧ 2 + 3 - 1 ≤ a.RefEnd ∧
        a.RefEnd < strLen (bytes "GAACCA") ∧
        4 ≤ a.QueryEnd - a.QueryStart + 1 ∧
        ((4 : Int) = 0 → MinMatchLength ≤ a.QueryEnd - a.QueryStart + 1) :=
  ⟨by decide, by decide, by decide, by decide, by decide,
    extendMatch_safe exactOps (bytes "AACCAT") (bytes "GAACCA") 1 2 3 4 1
      (by decide) (by decide) (by decide) (by decide) (by decide)⟩

end Aligner

/-! ## `ExtendMatch` on a string against itself -/

namespace Aligner

/-- On the main diagonal of a string against itself the forward loop runs to the
end of the string without an error. -/
theorem fwdLoop_self (S : Str) (me : Int) (hme : 0 ≤ me) :
    ∀ (fuel : Nat) (q t : Int), 0 ≤ q → q ≤ strLen S → strLen S - q ≤ fuel →
      fwdLoop S S me fuel ⟨q, q, 0, t⟩ = ⟨strLen S, strLen S, 0, t + (strLen S - q)⟩ := by
  intro fuel
  induction fuel with
  | zero =>
    intro q t _ h1 h2
    have hq : q = strLen S := by omega
    subst hq
    simp [fwdLoop]
  | succ fuel ih =>
    intro q t h0 h1 h2
    unfold fwdLoop
    by_cases hlt : q < strLen S
    · have hc : (⟨q, q, 0, t⟩ : ExtState).q < strLen S ∧
          (⟨q, q, 0, t⟩ : ExtState).r < strLen S ∧ (⟨q, q, 0, t⟩ : ExtState).errors ≤ me :=
        ⟨hlt, hlt, hme⟩
      rw [if_pos hc]
      have hb : fwdBody S S ⟨q, q, 0, t⟩ = ⟨q + 1, q + 1, 0, t + 1⟩ := by
        unfold fwdBody
        simp
      rw [hb, ih (q + 1) (t + 1) (by omega) (by omega) (by push_cast at h2; omega)]
      congr 1
      omega
    · have hq : q = strLen S := by omega
      have hc : ¬ ((⟨q, q, 0, t⟩ : ExtState).q < strLen S ∧
          (⟨q, q, 0, t⟩ : ExtState).r < strLen S ∧ (⟨q, q, 0, t⟩ : ExtState).errors ≤ me) :=
        fun h => hlt h.1
      rw [if_neg hc]
      subst hq
      simp

/-- On the main diagonal of a string against itself the backward loop runs to the
start of the string without an error. -/
theorem bwdLoop_self (S : Str) (me : Int) (hme : 0 ≤ me) :
    ∀ (fuel : Nat) (q t : Int), -1 ≤ q → q + 1 ≤ fuel →
      bwdLoop S S me fuel ⟨q, q, 0, t⟩ = ⟨-1, -1, 0, t + (q + 1)⟩ := by
  intro fuel
  induction fuel with
  | zero =>
    intro q t h1 h2
    have hq : q = -1 := by omega
    subst hq
    simp [bwdLoop]
  | succ fuel ih =>
    intro q t h1 h2
    unfold bwdLoop
    by_cases hge : 0 ≤ q
    · have hc : (⟨q, q, 0, t⟩ : ExtState).q ≥ 0 ∧
          (⟨q, q, 0, t⟩ : ExtState).r ≥ 0 ∧ (⟨q, q, 0, t⟩ : ExtState).errors ≤ me :=
        ⟨hge, hge, hme⟩
      rw [if_pos hc]
      have hb : bwdBody S S ⟨q, q, 0, t⟩ = ⟨q - 1, q - 1, 0, t + 1⟩ := by
        unfold bwdBody
        simp
      rw [hb, ih (q - 1) (t + 1) (by omega) (by push_cast at h2; omega)]
      congr 1
      omega
    · have hq : q = -1 := by omega
      have hc : ¬ ((⟨q, q, 0, t⟩ : ExtState).q ≥ 0 ∧
          (⟨q, q, 0, t⟩ : ExtState).r ≥ 0 ∧ (⟨q, q, 0, t⟩ : ExtState).errors ≤ me) :=
        fun h => hge h.1
      rw [if_neg hc]
      subst hq
      simp

/-- Claim C35, as the code has it.  For every string `S`, every `min_match` `m`
with `1 ≤ m ≤ |S|`, every `max_errors ≥ 0` and every seed `(q0, q0, k)` on the main
diagonal with `q0 ≥ 0`, `k ≥ 1` and `q0 + k ≤ |S|`, `ExtendMatch(S, S, q0, q0, k, m,
max_errors)` returns the anchor that spans the whole string,
`(0, |S| - 1, 0, |S| - 1)`, with `Identity = 1` and `Score = |S|`. -/
theorem extendMatch_self (S : Str) (q0 k m me : Int) (hm1 : 1 ≤ m) (hm2 : m ≤ strLen S)
    (hme : 0 ≤ me) (hk : 1 ≤ k) (hq0 : 0 ≤ q0) (hqk : q0 + k ≤ strLen S) :
    ExtendMatch exactOps S S q0 q0 k m me =
      some ⟨0, strLen S - 1, 0, strLen S - 1, .fin ((strLen S : Int) : ℚ), .fin 1, 0⟩ := by
  have hlen : ((S.length : Nat) : Int) = strLen S := rfl
  have hme2 : 0 ≤ (if me = 0 then ExtendMaxErrors else me) := by
    split_ifs
    · decide
    · exact hme
  have hfwd := fwdLoop_self S _ hme2 (S.length + 1) (q0 + k) k (by omega) hqk
    (by push_cast; omega)
  have hbwd := bwdLoop_self S _ hme2 (S.length + 1) (q0 - 1) (k + (strLen S - (q0 + k)))
    (by omega) (by push_cast; omega)
  have hL : (0 : ℚ) < ((strLen S : Int) : ℚ) := by
    have : (0 : Int) < strLen S := by omega
    exact_mod_cast this
  unfold ExtendMatch
  simp only [hfwd, hbwd]
  have e1 : strLen S - (-1 + 1) = strLen S := by omega
  have e2 : k + (strLen S - (q0 + k)) + (q0 - 1 + 1) = strLen S := by omega
  simp only [e1, e2]
  rw [if_neg (by omega)]
  have hctx : ¬ (strLen S > 50 ∧ (-1 : Int) + 1 ≥ min 20 (strLen S / 4) ∧
      (-1 : Int) + 1 ≥ min 20 (strLen S / 4)) := by
    rintro ⟨h1, h2, _⟩
    have : 12 ≤ strLen S / 4 := by omega
    omega
  rw [if_neg hctx]
  have hm0 : m ≠ 0 := by omega
  rw [if_neg hm0]
  have hid : exactOps.div (exactOps.ofInt (strLen S)) (exactOps.ofInt (strLen S)) =
      Exact.fin 1 := by
    show Exact.fin (((strLen S : Int) : ℚ) / ((strLen S : Int) : ℚ)) = Exact.fin 1
    rw [div_self (ne_of_gt hL)]
  rw [hid]
  have hle : exactOps.le (exactOps.lit MinIdentityThreshold) (Exact.fin 1) = true := by
    decide!
  rw [if_pos ⟨by omega, hle⟩]
  have hsc : exactOps.mul (exactOps.mul (exactOps.ofInt (strLen S)) (Exact.fin 1))
      (exactOps.sub (exactOps.lit 1) (exactOps.mul (exactOps.lit (5 / 100)) (exactOps.ofInt 0))) =
      Exact.fin ((strLen S : Int) : ℚ) := by
    show Exact.fin (((strLen S : Int) : ℚ) * 1 * (1 - 5 / 100 * ((0 : Int) : ℚ))) = _
    congr 1
    push_cast
    ring
  rw [hsc]
  simp

theorem extendMatch_self_witness :
    (1 : Int) ≤ 3 ∧ (3 : Int) ≤ strLen (bytes "ACGTTGCA") ∧ (0 : Int) ≤ 2 ∧ (1 : Int) ≤ 4 ∧
    (0 : Int) ≤ 3 ∧ (3 : Int) + 4 ≤ strLen (bytes "ACGTTGCA") ∧
    ExtendMatch exactOps (bytes "ACGTTGCA") (bytes "ACGTTGCA") 3 3 4 3 2 =
      some ⟨0, strLen (bytes "ACGTTGCA") - 1, 0, strLen (bytes "ACGTTGCA") - 1,
        .fin ((strLen (bytes "ACGTTGCA") : Int) : ℚ), .fin 1, 0⟩ :=
  ⟨by decide, by decide, by decide, by decide, by decide, by decide,
    extendMatch_self (bytes "ACGTTGCA") 3 4 3 2 (by decide) (by decide) (by decide)
      (by decide) (by decide) (by decide)⟩

/-- Claim C35 as stated fails for a negative `max_errors`: the loops are guarded
by `errors <= maxErrors`, so with `max_errors = -1` neither loop is entered and the
anchor is the seed itself.  On `S = "AAAA"` with the seed `(0, 0, 1)` and
`min_match = 1` the anchor returned is `(0, 0, 0, 0)`, not `(0, 3, 0, 3)`. -/
theorem extendMatch_negative_budget :
    ExtendMatch exactOps (bytes "AAAA") (bytes "AAAA") 0 0 1 1 (-1) =
      some ⟨0, 0, 0, 0, .fin 1, .fin 1, 0⟩ ∧
    ExtendMatch exactOps (bytes "AAAA") (bytes "AAAA") 0 0 1 1 (-1) ≠
      some ⟨0, strLen (bytes "AAAA") - 1, 0, strLen (bytes "AAAA") - 1,
        .fin ((strLen (bytes "AAAA") : Int) : ℚ), .fin 1, 0⟩ := by
  decide!

end Aligner

/-! ## The coverage pass keeps the segments it is given -/

namespace Aligner

variable {F : Type}

/-- Claim C32.  For every non-empty `Q` and `R` and every initial list of segments
that is well-formed (`0 ≤ q_start ≤ q_end < |Q|`) and pairwise non-overlapping in
the query, every segment of the initial list is a segment of the output of
`EnsureCompleteCoverage(Q, R, initial)`: the segments found for the uncovered
regions and the fallback segments lie in the gaps and displace none of them. -/
theorem ensureCompleteCoverage_keeps_initial (fl : FloatOps F) (Q R : Str)
    (initial : List Segment) (hQ : 0 < strLen Q) (hR : 0 < strLen R)
    (hinit : ∀ s ∈ initial, 0 ≤ s.QueryStart ∧ s.QueryStart ≤ s.QueryEnd ∧
      s.QueryEnd < strLen Q)
    (hdisj : initial.Pairwise QDisjoint) :
    ∀ s ∈ initial, s ∈ EnsureCompleteCoverage fl Q R initial := by
  intro s0 hs0
  unfold EnsureCompleteCoverage
  lift_lets
  extract_lets queryLen refLen current uncovered newly all resolved finalUncovered
  have hcmem : ∀ x, x ∈ current ↔ x ∈ initial := fun x => mem_sortSlice _ _ _
  have hcS : ∀ s ∈ current, 0 ≤ s.QueryStart ∧ s.QueryStart ≤ s.QueryEnd ∧
      s.QueryEnd < queryLen := fun s hs => hinit s ((hcmem s).1 hs)
  have hcwf : ∀ s ∈ current, s.QueryStart ≤ s.QueryEnd := fun s hs => (hcS s hs).2.1
  have hcpw : current.Pairwise QBefore :=
    qBefore_of_disjoint_sorted current
      (((sortSlice_perm _ _).pairwise_iff (fun {a b} h => qDisjoint_symm h)).2 hdisj)
      hcwf (sortSlice_qs_sorted _)
  have hgap : ∀ g ∈ uncovered, 0 ≤ g.1 ∧ g.1 ≤ g.2 ∧ g.2 < queryLen := by
    intro g hg
    refine ⟨FindUncoveredRegions_start _ _ g hg, FindUncoveredRegions_le _ _ g hg,
      FindUncoveredRegions_lt _ _ ?_ g hg⟩
    intro s hs
    have := hcS s hs
    omega
  have hreg : ∀ g ∈ uncovered, RegionOk queryLen refLen g (regionSegments fl Q R g) := by
    intro g hg
    obtain ⟨h1, h2, h3⟩ := hgap g hg
    exact regionSegments_ok fl Q R g h1 h2 h3 hR
  have hallmem : ∀ x, x ∈ all ↔ x ∈ current ∨ x ∈ newly := by
    intro x
    exact (mem_sortSlice _ _ _).trans List.mem_append
  have hallS : ∀ x ∈ all, 0 ≤ x.QueryStart ∧ x.QueryStart ≤ x.QueryEnd ∧
      x.QueryEnd < queryLen := by
    intro x hx
    rcases (hallmem x).1 hx with h | h
    · exact hcS x h
    · obtain ⟨g, hg, hx1⟩ := List.mem_flatMap.1 h
      have := ((hreg g hg).1 x hx1).1
      unfold Sound at this
      exact ⟨this.1, this.2.1, this.2.2.1⟩
  have hdis : (current ++ newly).Pairwise QDisjoint := by
    rw [List.pairwise_append]
    refine ⟨hcpw.imp (fun h => Or.inl h), ?_, ?_⟩
    · refine List.pairwise_flatMap.2 ⟨fun g hg => (hreg g hg).2.1, ?_⟩
      refine (List.Pairwise.and_mem.1
        (FindUncoveredRegions_pairwise queryLen current hcwf)).imp ?_
      rintro g1 g2 ⟨hg1, hg2, h12⟩ x hx y hy
      have h1 := (hreg g1 hg1).1 x hx
      have h2 := (hreg g2 hg2).1 y hy
      unfold QDisjoint
      omega
    · intro s hs x hx
      obtain ⟨g, hg, hx1⟩ := List.mem_flatMap.1 hx
      have h1 := FindUncoveredRegions_disjoint queryLen current g hg s hs
      have h2 := (hreg g hg).1 x hx1
      unfold Sound at h2
      unfold QDisjoint
      omega
  have hallpw : all.Pairwise QBefore :=
    qBefore_of_disjoint_sorted all
      (((sortSlice_perm _ _).pairwise_iff (fun {a b} h => qDisjoint_symm h)).2 hdis)
      (fun s hs => (hallS s hs).2.1) (sortSlice_qs_sorted _)
  have hres : resolved = all := preferWalk_resolved_id initial all hallpw
  have hs0all : s0 ∈ all := (hallmem s0).2 (Or.inl ((hcmem s0).2 hs0))
  have hq0 : ¬ queryLen = 0 := by
    intro h
    have : strLen Q = 0 := h
    omega
  rw [if_neg hq0]
  split_ifs with h1 h2
  · exact (hcmem s0).2 hs0
  · have hfu : finalUncovered = FindUncoveredRegions queryLen all := by
      show FindUncoveredRegions queryLen resolved = _
      rw [hres]
    rw [hres]
    have hLwf : ∀ s ∈ all ++ finalUncovered.map (finalFallback refLen),
        s.QueryStart ≤ s.QueryEnd := by
      intro s hs
      rcases List.mem_append.1 hs with h | h
      · exact (hallS s h).2.1
      · obtain ⟨f, hf, rfl⟩ := List.mem_map.1 h
        rw [hfu] at hf
        rw [(finalFallback_query refLen f).1, (finalFallback_query refLen f).2]
        exact FindUncoveredRegions_le _ _ f hf
    have hLdis : (all ++ finalUncovered.map (finalFallback refLen)).Pairwise QDisjoint := by
      rw [List.pairwise_append]
      refine ⟨hallpw.imp (fun h => Or.inl h), ?_, ?_⟩
      · rw [List.pairwise_map, hfu]
        apply (FindUncoveredRegions_pairwise queryLen all (fun s hs => (hallS s hs).2.1)).imp
        intro a b hab
        unfold QDisjoint
        rw [(finalFallback_query refLen a).2, (finalFallback_query refLen b).1]
        exact Or.inl hab
      · intro s hs f hf
        obtain ⟨reg, hreg1, rfl⟩ := List.mem_map.1 hf
        rw [hfu] at hreg1
        unfold QDisjoint
        rw [(finalFallback_query refLen reg).1, (finalFallback_query refLen reg).2]
        exact FindUncoveredRegions_disjoint queryLen all reg hreg1 s hs
    have hperm := ResolveOverlaps_perm_of_disjoint _ hLdis hLwf
    exact hperm.mem_iff.2 (List.mem_append_left _ hs0all)
  · rw [hres]
    exact hs0all

theorem ensureCompleteCoverage_keeps_initial_witness :
    0 < strLen (bytes "ACGTACGTAC") ∧ 0 < strLen (bytes "GT") ∧
    (∀ s ∈ ([⟨6, 7, 0, 1⟩, ⟨1, 2, 0, 1⟩] : List Segment),
      0 ≤ s.QueryStart ∧ s.QueryStart ≤ s.QueryEnd ∧
        s.QueryEnd < strLen (bytes "ACGTACGTAC")) ∧
    ([⟨6, 7, 0, 1⟩, ⟨1, 2, 0, 1⟩] : List Segment).Pairwise QDisjoint ∧
    ∀ s ∈ ([⟨6, 7, 0, 1⟩, ⟨1, 2, 0, 1⟩] : List Segment),
      s ∈ EnsureCompleteCoverage exactOps (bytes "ACGTACGTAC") (bytes "GT")
        [⟨6, 7, 0, 1⟩, ⟨1, 2, 0, 1⟩] :=
  ⟨by decide, by decide, by decide, by simp [QDisjoint],
    ensureCompleteCoverage_keeps_initial exactOps (bytes "ACGTACGTAC") (bytes "GT")
      [⟨6, 7, 0, 1⟩, ⟨1, 2, 0, 1⟩] (by decide) (by decide) (by decide)
      (by simp [QDisjoint])⟩

end Aligner

/-! ## The segment invariant after the coverage pass -/

namespace Aligner

variable {F : Type}

theorem addRegionMatches_refEnd (qStart rLen : Int) :
    ∀ (ms : List (AnchorMatch F)) (acc : List Segment),
      (∀ m ∈ ms, m.RefEnd < rLen) → (∀ s ∈ acc, s.RefEnd < rLen) →
      ∀ s ∈ addRegionMatches qStart ms acc, s.RefEnd < rLen := by
  intro ms
  induction ms with
  | nil => intro acc _ hacc s hs; exact hacc s hs
  | cons m rest ih =>
    intro acc hms hacc s hs
    unfold addRegionMatches at hs
    simp only [] at hs
    have hrest : ∀ m ∈ rest, m.RefEnd < rLen := fun x hx => hms x (List.mem_cons_of_mem _ hx)
    have hm := hms m (List.mem_cons_self _ _)
    split_ifs at hs
    · exact ih acc hrest hacc s hs
    · refine ih _ hrest ?_ s hs
      intro t ht
      rcases List.mem_append.1 ht with h | h
      · exact hacc t h
      · rw [List.mem_singleton.1 h]
        exact hm

/-- A fallback tile: its reference start is `0` or a sampled position at which the
tile fits into the reference. -/
theorem fallbackTile_fits (fl : FloatOps F) (query ref : Str) (qStart len off : Int)
    (hq : 0 ≤ qStart) (hlen : qStart + len ≤ strLen query) (ho : 0 ≤ off) (hol : off < len) :
    ∃ b : Int, (b = 0 ∨ b + (min (off + SmallSegmentLength) len - off) ≤ strLen ref) ∧
      fallbackTile fl query ref qStart len off =
        [⟨qStart + off, qStart + min (off + SmallSegmentLength) len - 1, b,
          b + (min (off + SmallSegmentLength) len - off) - 1⟩] := by
  have hS : SmallSegmentLength = 275 := rfl
  have hchunk : strLen (sliceI query (qStart + off)
      (qStart + min (off + SmallSegmentLength) len - 1 + 1)) =
      min (off + SmallSegmentLength) len - off := by
    rw [strLen_sliceI query _ _ (by omega) (by omega) (by omega)]
    omega
  unfold fallbackTile
  simp only []
  rw [if_neg (by omega), hchunk]
  generalize (if max 1 (strLen ref / SamplePositionsCount) = 0 then 1
    else max 1 (strLen ref / SamplePositionsCount)) = step
  refine ⟨_, ?_, rfl⟩
  rcases bestSample_mem fl ref
      (sliceI query (qStart + off) (qStart + min (off + SmallSegmentLength) len - 1 + 1))
      (min (off + SmallSegmentLength) len - off)
      (stepRange (strLen ref - (min (off + SmallSegmentLength) len - off) + 1) step)
      (0, fl.lit (-1)) with h | h
  · exact Or.inl h
  · by_cases hstep : 0 < step
    · obtain ⟨i, _, hi⟩ := (mem_stepRange hstep).1 h
      right
      omega
    · have h0 : step.toNat = 0 := Int.toNat_eq_zero.2 (by omega)
      rw [stepRange_eq, h0, Nat.div_zero] at h
      simp at h

/-- A fallback tile lies inside the reference, unless it is longer than the
reference: then it starts at reference position `0`. -/
theorem fallbackTile_refEnd (fl : FloatOps F) (query ref : Str) (qStart len off : Int)
    (hq : 0 ≤ qStart) (hlen : qStart + len ≤ strLen query) (ho : 0 ≤ off) (hol : off < len) :
    ∀ s ∈ fallbackTile fl query ref qStart len off, RefEndOk (strLen ref) s := by
  have hS : SmallSegmentLength = 275 := rfl
  obtain ⟨b, hb, heq⟩ := fallbackTile_fits fl query ref qStart len off hq hlen ho hol
  intro s hs
  rw [heq] at hs
  rw [List.mem_singleton.1 hs]
  show b + (min (off + SmallSegmentLength) len - off) - 1 < strLen ref ∨
    (b = 0 ∧ b + (min (off + SmallSegmentLength) len - off) - 1 =
        (qStart + min (off + SmallSegmentLength) len - 1) - (qStart + off) ∧
      b + (min (off + SmallSegmentLength) len - off) - 1 < SmallSegmentLength)
  rcases hb with h | h
  · right
    refine ⟨h, ?_, ?_⟩ <;> omega
  · left
    omega

theorem fallbackSegment_refEnd (rLen qStart qEnd : Int) (hr : 0 < rLen) :
    (fallbackSegment rLen qStart qEnd).RefEnd < rLen := by
  have h1 : qStart % rLen < rLen := Int.emod_lt_of_pos _ hr
  unfold fallbackSegment
  simp only []
  split_ifs <;> simp only <;> omega

theorem finalFallback_refEnd (rLen : Int) (reg : Int × Int) (hr : 0 < rLen) :
    (finalFallback rLen reg).RefEnd < rLen := by
  have h1 : reg.1 % rLen < rLen := Int.emod_lt_of_pos _ hr
  unfold finalFallback
  simp only []
  split_ifs <;> simp only <;> omega

/-- The segments found for an uncovered region end inside the reference, unless
they are fallback tiles longer than the reference. -/
theorem regionSegments_refEnd (fl : FloatOps F) (query ref : Str) (R : Int × Int)
    (hq : 0 ≤ R.1) (hlen : R.2 < strLen query) (hr : 0 < strLen ref) :
    ∀ x ∈ regionSegments fl query ref R, RefEndOk (strLen ref) x := by
  have hmatch : ∀ (ms : List (AnchorMatch F)),
      (∀ m ∈ ms, AnchorGood (strLen (sliceI query R.1 (R.2 + 1))) (strLen ref) m) →
      ∀ x ∈ addRegionMatches R.1
        (sortSlice (fun a b => fl.lt b.Score a.Score) ms) [], RefEndOk (strLen ref) x := by
    intro ms hms x hx
    left
    refine addRegionMatches_refEnd R.1 (strLen ref) _ [] ?_ (by simp) x hx
    intro m hm
    rw [mem_sortSlice] at hm
    exact (hms m hm).2.2.2.2.2
  have htiles : ∀ x ∈ (stepRange ((R.2 - R.1) + 1) SmallSegmentLength).flatMap
      (fallbackTile fl query ref R.1 ((R.2 - R.1) + 1)), RefEndOk (strLen ref) x := by
    intro x hx
    obtain ⟨off, hoff, hx1⟩ := List.mem_flatMap.1 hx
    obtain ⟨i, hi1, hi2⟩ := (mem_stepRange (by decide : (0 : Int) < SmallSegmentLength)).1 hoff
    exact fallbackTile_refEnd fl query ref R.1 _ off hq (by omega)
      (mem_stepRange_nonneg hoff) hi2 x hx1
  have hfb : ∀ x ∈ [fallbackSegment (strLen ref) R.1 R.2], RefEndOk (strLen ref) x := by
    intro x hx
    rw [List.mem_singleton.1 hx]
    exact Or.inl (fallbackSegment_refEnd _ _ _ hr)
  unfold regionSegments
  simp only []
  split_ifs
  · simp
  · exact hmatch _ (fun m hm => FindMatchesInLargeRegion_good fl _ ref m hm)
  · exact htiles
  · exact hfb
  · exact hmatch _ (fun m hm => FindMatchesInRegion_good fl _ ref 0 0 (Or.inl rfl) m hm)
  · exact htiles
  · exact hfb

/-- Claim C33, as the code has it.  For every non-empty `Q` and `R` and every
initial list of segments that satisfy the segment invariant, every segment that
`EnsureCompleteCoverage(Q, R, initial)` returns satisfies
`0 ≤ q_start ≤ q_end < |Q|`, `0 ≤ r_start ≤ r_end` and `r_start < |R|`, and also
`r_end < |R|` unless it is a fallback tile longer than `R`: such a tile has
`r_start = 0` and `r_end = q_end - q_start < SmallSegmentLength = 275`.  So the
whole invariant holds when `|R| ≥ 275`. -/
theorem ensureCompleteCoverage_segments (fl : FloatOps F) (Q R : Str)
    (initial : List Segment) (_hQ : 0 < strLen Q) (hR : 0 < strLen R)
    (hinit : ∀ s ∈ initial, SegmentOk (strLen Q) (strLen R) s) :
    (∀ s ∈ EnsureCompleteCoverage fl Q R initial, CoverageOk (strLen Q) (strLen R) s) ∧
    (SmallSegmentLength ≤ strLen R →
      ∀ s ∈ EnsureCompleteCoverage fl Q R initial, SegmentOk (strLen Q) (strLen R) s) := by
  have key : ∀ s ∈ EnsureCompleteCoverage fl Q R initial,
      CoverageOk (strLen Q) (strLen R) s := by
    intro s hs
    unfold EnsureCompleteCoverage at hs
    lift_lets at hs
    extract_lets queryLen refLen current uncovered newly all resolved finalUncovered at hs
    have hcur : ∀ t ∈ current, CoverageOk queryLen refLen t := by
      intro t ht
      have h := hinit t ((mem_sortSlice _ _ _).1 ht)
      unfold SegmentOk at h
      exact ⟨h.1, h.2.1, h.2.2.1, h.2.2.2.1, h.2.2.2.2.1, by omega, Or.inl h.2.2.2.2.2⟩
    have hgap : ∀ g ∈ uncovered, 0 ≤ g.1 ∧ g.1 ≤ g.2 ∧ g.2 < queryLen := by
      intro g hg
      refine ⟨FindUncoveredRegions_start _ _ g hg, FindUncoveredRegions_le _ _ g hg,
        FindUncoveredRegions_lt _ _ ?_ g hg⟩
      intro t ht
      have := hcur t ht
      unfold CoverageOk at this
      omega
    have hnew : ∀ t ∈ newly, CoverageOk queryLen refLen t := by
      intro t ht
      obtain ⟨g, hg, ht1⟩ := List.mem_flatMap.1 ht
      obtain ⟨h1, h2, h3⟩ := hgap g hg
      have hs1 := ((regionSegments_ok fl Q R g h1 h2 h3 hR).1 t ht1).1
      have hs2 := regionSegments_starts fl Q R g h1 t ht1
      have hs3 := regionSegments_refEnd fl Q R g h1 h3 hR t ht1
      unfold Sound at hs1
      exact ⟨hs1.1, hs1.2.1, hs1.2.2.1, hs2.2, hs1.2.2.2.1, hs1.2.2.2.2, hs3⟩
    have hall : ∀ t ∈ all, CoverageOk queryLen refLen t := by
      intro t ht
      rcases List.mem_append.1 ((mem_sortSlice _ _ _).1 ht) with h1 | h1
      · exact hcur t h1
      · exact hnew t h1
    clear_value all
    have hres : ∀ t ∈ resolved, CoverageOk queryLen refLen t := by
      intro t ht
      unfold resolved at ht
      split at ht
      · simp at ht
      · rcases preferWalk_mem _ t _ _ _ ht with h1 | h1 | h1
        · simp at h1
        · exact hall t (h1 ▸ List.mem_cons_self _ _)
        · exact hall t (List.mem_cons_of_mem _ h1)
    split_ifs at hs
    · simp at hs
    · exact hcur s hs
    · rcases List.mem_append.1 (ResolveOverlaps_mem _ s hs) with h1 | h1
      · exact hres s h1
      · obtain ⟨reg, hreg, rfl⟩ := List.mem_map.1 h1
        have h3 := FindUncoveredRegions_start _ _ reg hreg
        have h4 := FindUncoveredRegions_le _ _ reg hreg
        have h5 : reg.2 < queryLen := by
          refine FindUncoveredRegions_lt _ _ ?_ reg hreg
          intro t ht
          have := hres t ht
          unfold CoverageOk at this
          omega
        have hs1 := finalFallback_sound queryLen refLen reg h3 h4 h5 hR
        have hs2 := finalFallback_starts refLen reg h3
        unfold Sound at hs1
        exact ⟨hs1.1, hs1.2.1, hs1.2.2.1, hs2.2, hs1.2.2.2.1, hs1.2.2.2.2,
          Or.inl (finalFallback_refEnd refLen reg hR)⟩
    · exact hres s hs
  refine ⟨key, ?_⟩
  intro hbig s hs
  obtain ⟨h1, h2, h3, h4, h5, h6, h7⟩ := key s hs
  refine ⟨h1, h2, h3, h4, h5, ?_⟩
  rcases h7 with h | ⟨_, _, h⟩
  · exact h
  · omega

theorem ensureCompleteCoverage_segments_witness :
    0 < strLen (bytes "ACGTACGTAC") ∧ 0 < strLen (bytes "GT") ∧
    (∀ s ∈ ([⟨6, 7, 0, 1⟩, ⟨1, 2, 0, 1⟩] : List Segment),
      SegmentOk (strLen (bytes "ACGTACGTAC")) (strLen (bytes "GT")) s) ∧
    ((∀ s ∈ EnsureCompleteCoverage exactOps (bytes "ACGTACGTAC") (bytes "GT")
          [⟨6, 7, 0, 1⟩, ⟨1, 2, 0, 1⟩],
        CoverageOk (strLen (bytes "ACGTACGTAC")) (strLen (bytes "GT")) s) ∧
      (SmallSegmentLength ≤ strLen (bytes "GT") →
        ∀ s ∈ EnsureCompleteCoverage exactOps (bytes "ACGTACGTAC") (bytes "GT")
          [⟨6, 7, 0, 1⟩, ⟨1, 2, 0, 1⟩],
        SegmentOk (strLen (bytes "ACGTACGTAC")) (strLen (bytes "GT")) s)) :=
  ⟨by decide, by decide, by unfold SegmentOk; decide,
    ensureCompleteCoverage_segments exactOps (bytes "ACGTACGTAC") (bytes "GT")
      [⟨6, 7, 0, 1⟩, ⟨1, 2, 0, 1⟩] (by decide) (by decide) (by unfold SegmentOk; decide)⟩

/-- Claim C33 as stated fails.  For `Q` of 476 `A`s, `R = "C"` and no initial
segment, the one uncovered region `(0, 475)` has no match and is longer than
`MaxSegmentSize = 475`, so it is tiled: the tiles are `(0, 274, 0, 274)` and
`(275, 475, 0, 200)`.  The sampling loop over the reference is not entered for a
tile longer than the reference, and `r_end = r_start + tile length - 1` is not
clamped: `r_end = 274` is not below `|R| = 1`. -/
theorem ensureCompleteCoverage_tile_exceeds_ref :
    EnsureCompleteCoverage exactOps (List.replicate 476 bA) [bC] [] =
      [⟨0, 274, 0, 274⟩, ⟨275, 475, 0, 200⟩] ∧
    ¬ ∀ s ∈ EnsureCompleteCoverage exactOps (List.replicate 476 bA) [bC] [],
      SegmentOk (strLen (List.replicate 476 bA)) (strLen [bC]) s := by
  have h : EnsureCompleteCoverage exactOps (List.replicate 476 bA) [bC] [] =
      [⟨0, 274, 0, 274⟩, ⟨275, 475, 0, 200⟩] := by decide!
  refine ⟨h, ?_⟩
  rw [h]
  intro hall
  have := (hall ⟨0, 274, 0, 274⟩ (by simp)).2.2.2.2.2
  revert this
  decide

end Aligner
